import Mathlib

/-!
# Maze solver (`mazelib`): a shallow embedding and its verification

The definitions below follow `mazelib/maze.go` and `mazelib/solver.go`
function by function, and the maze and the trial loop of `ztest/runmaze.go`
that `FindTreasure` is run against.  Go maps keyed by `Coordinate` are association lists
read through `GoMap.get?`; the unspecified iteration order of a Go `range`
over a map is an explicit argument (a reordering of the key list), and the
draws of `rand.Intn` inside `Shuffle` are an explicit argument as well.
Go `int` values are `Int` (coordinates, directions) or `Nat` (distances,
which the code never makes negative).  A runtime panic is a `Fault`.
-/

namespace Mazelib

/-! ## maze.go -/

/-- Coordinate describes a location in the maze. -/
structure Coordinate where
  X : Int
  Y : Int
deriving DecidableEq, Repr

instance : Inhabited Coordinate := ⟨⟨0, 0⟩⟩

/-- Survey of a room: `true` indicates a wall is present. -/
structure Survey where
  Top : Bool
  Right : Bool
  Bottom : Bool
  Left : Bool
deriving DecidableEq, Repr

instance : Inhabited Survey := ⟨⟨false, false, false, false⟩⟩

def N : Int := 1
def S : Int := 2
def E : Int := 3
def W : Int := 4

/-- The map `Delta`; a missing key reads as the zero `Coordinate`. -/
def Delta (dir : Int) : Coordinate :=
  if dir = N then ⟨0, -1⟩
  else if dir = S then ⟨0, 1⟩
  else if dir = E then ⟨1, 0⟩
  else if dir = W then ⟨-1, 0⟩
  else ⟨0, 0⟩

/-- The map `Opposite`; a missing key reads as `0`. -/
def Opposite (dir : Int) : Int :=
  if dir = N then S
  else if dir = S then N
  else if dir = E then W
  else if dir = W then E
  else 0

/-- Exchange the elements at positions `i` and `j` (`s[i], s[j] = s[j], s[i]`). -/
def swapAt {α : Type} (s : List α) (i j : Nat) : List α :=
  match s.get? i, s.get? j with
  | some a, some b => (s.set i b).set j a
  | _, _ => s

/-- The loop of `Shuffle` from index `i` on, for the remaining `n` indices;
`rand i` is the value drawn for `rand.Intn(i + 1)`, reduced into range. -/
def shuffleFrom (rand : Nat → Nat) : Nat → Nat → List Int → List Int
  | 0, _, s => s
  | n + 1, i, s => shuffleFrom rand n (i + 1) (swapAt s i (rand i % (i + 1)))

/-- Shuffle randomly shuffles a slice of int. -/
def Shuffle (rand : Nat → Nat) (s : List Int) : List Int :=
  shuffleFrom rand s.length 0 s

/-! ## Go maps keyed by `Coordinate` -/

/-- A Go map with `Coordinate` keys, as an association list. -/
abbrev GoMap (V : Type) := List (Coordinate × V)

namespace GoMap

/-- Map lookup `m[k]` with the presence flag. -/
def get? {V : Type} : GoMap V → Coordinate → Option V
  | [], _ => none
  | (k', v) :: t, k => if k' = k then some v else get? t k

/-- Map assignment `m[k] = v`. -/
def set {V : Type} : GoMap V → Coordinate → V → GoMap V
  | [], k, v => [(k, v)]
  | (k', v') :: t, k, v => if k' = k then (k, v) :: t else (k', v') :: set t k v

/-- The builtin `delete(m, k)`. -/
def delete {V : Type} : GoMap V → Coordinate → GoMap V
  | [], _ => []
  | (k', v) :: t, k => if k' = k then delete t k else (k', v) :: delete t k

/-- The keys of the map. -/
def keys {V : Type} (m : GoMap V) : List Coordinate :=
  m.map Prod.fst

end GoMap

/-! ## solver.go: utilities -/

deriving instance DecidableEq for Except

/-- The kinds of runtime panic the solver can raise. -/
inductive Fault where
  | nilDeref
  | indexOutOfRange
  | outOfFuel
  | invalidMap
deriving DecidableEq, Repr

/-- directionToMove returns the direction (N,S,E,W) to take to move from src
to dest; `0` when the two are not adjacent.  The coordinates are mathematical
integers here: this is the function of the source as long as the differences
`dx` and `dy` stay in the range of `int`; `directionToMoveInt` is the function
on `int`s that wrap around. -/
def directionToMove (src dest : Coordinate) : Int :=
  let dx := dest.X - src.X
  let dy := dest.Y - src.Y
  if dx = 1 ∧ dy = 0 then E
  else if dx = -1 ∧ dy = 0 then W
  else if dx = 0 ∧ dy = 1 then S
  else if dx = 0 ∧ dy = -1 then N
  else 0

/-- updatePosition returns the new coordinates given the current ones and the
direction to move.  The coordinates are mathematical integers here: this is
the function of the source as long as the step stays in the range of `int`;
`updatePositionInt` is the function on `int`s that wrap around. -/
def updatePosition (cx cy direction : Int) : Int × Int :=
  if direction = N then (cx, cy - 1)
  else if direction = S then (cx, cy + 1)
  else if direction = E then (cx + 1, cy)
  else if direction = W then (cx - 1, cy)
  else (cx, cy)

/-! ## solver.go: Dijkstra -/

/-- adjacencyMap maps a Coordinate to the slice of Coordinates accessible from it. -/
abbrev adjacencyMap := GoMap (List Coordinate)

def infinity : Nat := 1000000

structure node where
  processed : Bool
  dist : Nat
  parent : Coordinate
deriving DecidableEq, Repr

/-- One iteration of the `range nodes` loop of `nextNodeID`; the accumulator is
`(found, shortest, item)`. -/
def nextNodeStep (nodes : GoMap node) (acc : Bool × Nat × Coordinate) (k : Coordinate) :
    Bool × Nat × Coordinate :=
  match nodes.get? k with
  | none => acc
  | some nd => if nd.processed = false ∧ nd.dist < acc.2.1 then (true, nd.dist, k) else acc

/-- nextNodeID: the unprocessed node with the smallest dist, the keys of
`nodes` being visited in the order `order`; `none` is the error return. -/
def nextNodeID (order : List Coordinate) (nodes : GoMap node) : Option Coordinate :=
  let r := order.foldl (nextNodeStep nodes) (false, infinity, default)
  if r.1 then some r.2.2 else none

/-- The loop over `graph[cur]` in `shortestPath` (lines 129-137). -/
def relax (cur : Coordinate) : GoMap node → List Coordinate → Except Fault (GoMap node)
  | nodes, [] => .ok nodes
  | nodes, neighbour :: rest =>
    match nodes.get? neighbour with
    | none => .error .nilDeref
    | some nb =>
      if nb.processed then relax cur nodes rest
      else
        match nodes.get? cur with
        | none => .error .nilDeref
        | some c =>
          if c.dist + 1 < nb.dist then
            relax cur (nodes.set neighbour { nb with dist := c.dist + 1, parent := cur }) rest
          else relax cur nodes rest

/-- The main loop of `shortestPath` (lines 112-138).  `i` counts the calls of
`nextNodeID`, whose iteration order is `nodeOrder i`; the first argument bounds
the number of iterations. -/
def dijkstraLoop (nodeOrder : Nat → List Coordinate → List Coordinate) (graph : adjacencyMap) :
    Nat → Nat → GoMap Bool → GoMap node → Except Fault (GoMap node)
  | 0, _, _, _ => .error .outOfFuel
  | fuel + 1, i, destinations, nodes =>
    match nextNodeID (nodeOrder i nodes.keys) nodes with
    | none => .ok nodes
    | some cur =>
      let hit := (destinations.get? cur).getD false
      let destinations1 := if hit then destinations.delete cur else destinations
      if hit ∧ destinations1.length = 0 then .ok nodes
      else
        match nodes.get? cur with
        | none => .error .nilDeref
        | some c =>
          match relax cur (nodes.set cur { c with processed := true })
              ((graph.get? cur).getD []) with
          | .error e => .error e
          | .ok nodes2 => dijkstraLoop nodeOrder graph fuel (i + 1) destinations1 nodes2

/-- The loop "find which junction is nearest" (lines 141-149) over the keys of
`junctions` in the given order; the accumulator is `(numSteps, junction)`. -/
def nearestJunction (nodes : GoMap node) :
    List Coordinate → Nat × Coordinate → Except Fault (Nat × Coordinate)
  | [], acc => .ok acc
  | dest :: rest, acc =>
    match nodes.get? dest with
    | none => .error .nilDeref
    | some nd =>
      if nd.dist < acc.1 then nearestJunction nodes rest (nd.dist, dest)
      else nearestJunction nodes rest acc

/-- The loop `for target != source` (lines 154-158): `numSteps` is decremented,
`route[numSteps]` written and the parent pointer followed. -/
def buildRoute (source : Coordinate) (nodes : GoMap node) :
    Nat → Coordinate → List Coordinate → Except Fault (List Coordinate)
  | numSteps, target, route =>
    if target = source then .ok route
    else
      match numSteps with
      | 0 => .error .indexOutOfRange
      | n + 1 =>
        match nodes.get? target with
        | none => .error .nilDeref
        | some nd => buildRoute source nodes n nd.parent (route.set n target)

/-- The loop turning the route into directions (lines 160-166). -/
def routeDirections : Coordinate → List Coordinate → List Int
  | _, [] => []
  | prev, cur :: rest => directionToMove prev cur :: routeDirections cur rest

/-- The iteration orders of the map ranges met during one call of `shortestPath`. -/
structure RangeOrder where
  nodeOrder : Nat → List Coordinate → List Coordinate
  junctionOrder : List Coordinate → List Coordinate

/-- Every range visits each key of its map exactly once. -/
def RangeOrder.Fair (ρ : RangeOrder) : Prop :=
  (∀ i l, (ρ.nodeOrder i l).Perm l) ∧ ∀ l, (ρ.junctionOrder l).Perm l

/-- The range that iterates in the order of the association list. -/
def RangeOrder.id : RangeOrder := ⟨fun _ l => l, fun l => l⟩

/-- The node table after the initialisation of lines 105-109. -/
def initNodes (graph : adjacencyMap) : GoMap node :=
  graph.map (fun e => (e.1, { processed := false, dist := infinity, parent := default }))

/-- The node table when the main loop of `shortestPath` ends. -/
def dijkstra (ρ : RangeOrder) (cx cy : Int) (graph junctions : adjacencyMap) :
    Except Fault (GoMap node) :=
  let destinations : GoMap Bool := junctions.map (fun e => (e.1, true))
  let source : Coordinate := ⟨cx, cy⟩
  let nodes := initNodes graph
  match nodes.get? source with
  | none => .error .nilDeref
  | some s0 =>
    dijkstraLoop ρ.nodeOrder graph (nodes.length + 1) 0 destinations
      (nodes.set source { s0 with dist := 0 })

/-- shortestPath: the list of steps to the nearest junction. -/
def shortestPath (ρ : RangeOrder) (cx cy : Int) (graph junctions : adjacencyMap) :
    Except Fault (List Int) :=
  let source : Coordinate := ⟨cx, cy⟩
  match dijkstra ρ cx cy graph junctions with
  | .error e => .error e
  | .ok nodes =>
    match nearestJunction nodes (ρ.junctionOrder junctions.keys) (infinity, default) with
    | .error e => .error e
    | .ok (numSteps, junction) =>
      match buildRoute source nodes numSteps junction (List.replicate numSteps default) with
      | .error e => .error e
      | .ok route => .ok (routeDirections source route)

/-! ## solver.go: main solver -/

structure bounds where
  xmin : Int
  ymin : Int
  xmax : Int
  ymax : Int
deriving DecidableEq, Repr

/-- The inner loop of `cleanUpJunctions` (lines 184-190): the paths other than (cx, cy). -/
def otherPaths (cx cy : Int) (paths : List Coordinate) : List Coordinate :=
  paths.filter (fun path => decide (path.X ≠ cx ∨ path.Y ≠ cy))

/-- One iteration of the `range junctions` loop of `cleanUpJunctions`, at key `k`. -/
def cleanUpStep (cx cy : Int) (junctions : adjacencyMap) (k : Coordinate) : adjacencyMap :=
  match junctions.get? k with
  | none => junctions
  | some paths =>
    let newPaths := otherPaths cx cy paths
    if newPaths.length = 0 then junctions.delete k
    else if newPaths.length < paths.length then junctions.set k newPaths
    else junctions

/-- cleanUpJunctions removes the newly visited (cx, cy) from every junction; the
keys are visited in the order `order`. -/
def cleanUpJunctions (cx cy : Int) (order : List Coordinate) (junctions : adjacencyMap) :
    adjacencyMap :=
  order.foldl (cleanUpStep cx cy) junctions

/-- What `cleanUpJunctions` leaves at one key: the list without `(cx, cy)`, or
no entry when nothing remains. -/
def cleanEntry (cx cy : Int) : Option (List Coordinate) → Option (List Coordinate)
  | none => none
  | some paths => if otherPaths cx cy paths = [] then none else some (otherPaths cx cy paths)

/-- The region `(startx, endx, starty, endy)` scanned for one candidate
(lines 211-234 of `priortisePaths`). -/
def scanRegion (boundary : bounds) (cx cy : Int) (path : Coordinate) : Int × Int × Int × Int :=
  let dx := path.X - cx
  let dy := path.Y - cy
  if dy = -1 then (boundary.xmin, boundary.xmax, boundary.ymin, path.Y)
  else if dy = 1 then (boundary.xmin, boundary.xmax, path.Y, boundary.ymax)
  else if dx = -1 then (boundary.ymin, path.X, boundary.ymin, boundary.ymax)
  else if dx = 1 then (path.X, boundary.ymin, boundary.ymin, boundary.ymax)
  else (0, 0, 0, 0)

/-- The values taken by a loop `for v := a; v <= b; v++`. -/
def intRange (a b : Int) : List Int :=
  (List.range (b + 1 - a).toNat).map (fun i => a + (i : Int))

/-- The counting loops of lines 236-243. -/
def countUnvisited (visited : GoMap Bool) (r : Int × Int × Int × Int) : Nat :=
  ((intRange r.1 r.2.1).map (fun x =>
    ((intRange r.2.2.1 r.2.2.2).filter (fun y => (visited.get? ⟨x, y⟩).isNone)).length)).sum

/-- The loop of lines 252-257 over `unexplored[i..]`; the accumulator is
`(highestCount, highestIndex)`. -/
def findHighest : List Nat → Nat → Nat × Nat → Nat × Nat
  | [], _, acc => acc
  | u :: rest, i, acc =>
    if u > acc.1 then findHighest rest (i + 1) (u, i) else findHighest rest (i + 1) acc

/-- priortisePaths: the slice `paths` as it is when the function returns. -/
def priortisePaths (boundary : bounds) (cx cy : Int) (paths : List Coordinate)
    (visited : GoMap Bool) : List Coordinate :=
  if paths.length < 2 then paths
  else
    let unexplored := paths.map (fun path => countUnvisited visited (scanRegion boundary cx cy path))
    let highest := findHighest unexplored.tail 1 (unexplored.headD 0, 0)
    swapAt paths 0 highest.2

/-- An `error` value as far as the solver distinguishes them. -/
inductive GoError where
  | ErrVictory
  | other (msg : String)
deriving DecidableEq, Repr

/-- MazeReply represents the reply from the maze server; `Err = none` is `nil`. -/
structure MazeReply where
  Survey : Survey
  Err : Option GoError
deriving DecidableEq, Repr

/-- The variables of `FindTreasure` (and the package variable `boundary`). -/
structure SolverState where
  cx : Int
  cy : Int
  graph : adjacencyMap
  junctions : adjacencyMap
  visited : GoMap Bool
  boundary : bounds
  estWidth : Int
  estHeight : Int
deriving DecidableEq, Repr

/-- The nondeterministic choices of one iteration of the loop of `FindTreasure`:
the draws of `Shuffle` and the orders of the map ranges. -/
structure Choice where
  rand : Nat → Nat
  route : RangeOrder
  cleanOrder : List Coordinate → List Coordinate

def Choice.Fair (ch : Choice) : Prop :=
  ch.route.Fair ∧ ∀ l, (ch.cleanOrder l).Perm l

def Choice.id : Choice := ⟨fun _ => 0, RangeOrder.id, fun l => l⟩

/-- Lines 303-316: the directions without a wall. -/
def openDirs (survey : Survey) : List Int :=
  (if survey.Left then [] else [W]) ++ (if survey.Right then [] else [E]) ++
    (if survey.Top then [] else [N]) ++ (if survey.Bottom then [] else [S])

/-- Lines 325-335: widen the boundary to a new coordinate. -/
def extendBoundary (b : bounds) (newX newY : Int) : bounds :=
  let b1 : bounds :=
    if newX > b.xmax then { b with xmax := newX }
    else if newX < b.xmin then { b with xmin := newX }
    else b
  if newY > b1.ymax then { b1 with ymax := newY }
  else if newY < b1.ymin then { b1 with ymin := newY }
  else b1

/-- The loop of lines 320-336; the accumulator is `(paths, boundary)`. -/
def scanDirs (cx cy : Int) : List Int → List Coordinate × bounds → List Coordinate × bounds
  | [], acc => acc
  | dir :: rest, acc =>
    let newX := cx + (Delta dir).X
    let newY := cy + (Delta dir).Y
    scanDirs cx cy rest (acc.1 ++ [⟨newX, newY⟩], extendBoundary acc.2 newX newY)

/-- The loop of lines 342-349 adding the reverse directions to the graph. -/
def addReverse (c : Coordinate) : adjacencyMap → List Coordinate → adjacencyMap
  | graph, [] => graph
  | graph, path :: rest => addReverse c (graph.set path ((graph.get? path).getD [] ++ [c])) rest

/-- The value read by `visited[c]`. -/
def isVisited (visited : GoMap Bool) (c : Coordinate) : Bool :=
  (visited.get? c).getD false

/-- Lines 303-363: the state after the survey has been recorded, and `uvPaths`. -/
def recordSurvey (ch : Choice) (st : SolverState) (survey : Survey) :
    SolverState × List Coordinate :=
  let dirs := Shuffle ch.rand (openDirs survey)
  let scanned := scanDirs st.cx st.cy dirs ([], st.boundary)
  let paths := scanned.1
  let boundary := scanned.2
  let graph := addReverse ⟨st.cx, st.cy⟩ (st.graph.set ⟨st.cx, st.cy⟩ paths) paths
  let changed := decide (st.estWidth ≠ boundary.xmax - boundary.xmin + 1) ||
    decide (st.estHeight ≠ boundary.ymax - boundary.ymin + 1)
  let estWidth := if changed then boundary.xmax - boundary.xmin + 1 else st.estWidth
  let estHeight := if changed then boundary.ymax - boundary.ymin + 1 else st.estHeight
  let uvPaths := paths.filter (fun path => !isVisited st.visited path)
  ({ st with graph := graph, boundary := boundary, estWidth := estWidth,
             estHeight := estHeight }, uvPaths)

/-- Lines 405-406: move in direction `nextDir` and clean up the junctions. -/
def moveTo (ch : Choice) (st : SolverState) (nextDir : Int) : SolverState :=
  let p := updatePosition st.cx st.cy nextDir
  { st with cx := p.1, cy := p.2,
            junctions := cleanUpJunctions p.1 p.2 (ch.cleanOrder st.junctions.keys) st.junctions }

/-- Where the goroutine of `FindTreasure` stands between two channel operations. -/
inductive Ctl where
  | recvTop
  | sendBack (dir : Int) (rest : List Int)
  | recvBack (rest : List Int)
  | sendNext (dir : Int)
  | closed
  | crashed (f : Fault)
deriving DecidableEq, Repr

structure Config where
  ctl : Ctl
  st : SolverState
deriving DecidableEq, Repr

/-- Line 294 and the blocking read of line 295. -/
def loopHead (st : SolverState) : Config :=
  ⟨.recvTop, { st with visited := st.visited.set ⟨st.cx, st.cy⟩ true }⟩

/-- The state of `FindTreasure` when the goroutine first blocks. -/
def initConfig : Config :=
  loopHead { cx := 0, cy := 0, graph := [], junctions := [], visited := [],
             boundary := ⟨0, 0, 0, 0⟩, estWidth := 1, estHeight := 1 }

/-- The replay loop of lines 378-384, entered with the directions still to replay. -/
def replayFrom (ch : Choice) (st : SolverState) : List Int → Config
  | dir :: rest =>
    let p := updatePosition st.cx st.cy dir
    ⟨.sendBack dir rest, { st with cx := p.1, cy := p.2 }⟩
  | [] =>
    match (st.junctions.get? ⟨st.cx, st.cy⟩).getD [] with
    | [] => ⟨.crashed .invalidMap, st⟩
    | nextCoor :: _ =>
      let nextDir := directionToMove ⟨st.cx, st.cy⟩ nextCoor
      ⟨.sendNext nextDir, moveTo ch st nextDir⟩

/-- Lines 365-406 once the survey is recorded. -/
def chooseMove (ch : Choice) (st : SolverState) (uvPaths : List Coordinate) : Config :=
  if uvPaths.length = 0 then
    match shortestPath ch.route st.cx st.cy st.graph st.junctions with
    | .error f => ⟨.crashed f, st⟩
    | .ok [] => ⟨.closed, st⟩
    | .ok (dir :: rest) => replayFrom ch st (dir :: rest)
  else
    let uv := priortisePaths st.boundary st.cx st.cy uvPaths st.visited
    let junctions :=
      if uvPaths.length > 1 then st.junctions.set ⟨st.cx, st.cy⟩ (uv.drop 1) else st.junctions
    let nextCoor := uv.headD default
    let nextDir := directionToMove ⟨st.cx, st.cy⟩ nextCoor
    ⟨.sendNext nextDir, moveTo ch { st with junctions := junctions } nextDir⟩

/-- The goroutine receives `reply` on `replies`. -/
def recv (ch : Choice) (reply : MazeReply) (c : Config) : Config :=
  match c.ctl with
  | .recvTop =>
    if reply.Err = some .ErrVictory then ⟨.closed, c.st⟩
    else
      let r := recordSurvey ch c.st reply.Survey
      chooseMove ch r.1 r.2
  | .recvBack rest => replayFrom ch c.st rest
  | _ => c

/-- The goroutine sends on `steps`: the value sent and the configuration after. -/
def send (c : Config) : Option (Int × Config) :=
  match c.ctl with
  | .sendBack dir rest => some (dir, ⟨.recvBack rest, c.st⟩)
  | .sendNext dir => some (dir, loopHead c.st)
  | _ => none

/-! ## Runs of `FindTreasure` -/

/-- The current coordinate `(cx, cy)`. -/
def SolverState.pos (st : SolverState) : Coordinate := ⟨st.cx, st.cy⟩

/-- Two coordinates one grid step apart. -/
def Adjacent (p q : Coordinate) : Prop :=
  (q.X - p.X).natAbs + (q.Y - p.Y).natAbs = 1

instance (p q : Coordinate) : Decidable (Adjacent p q) :=
  inferInstanceAs (Decidable ((q.X - p.X).natAbs + (q.Y - p.Y).natAbs = 1))

/-- The coordinates whose survey has been processed, once `reply` is received in `c`. -/
def surveyedAfter (c : Config) (reply : MazeReply) (h : List Coordinate) : List Coordinate :=
  if c.ctl = .recvTop ∧ reply.Err ≠ some .ErrVictory then c.st.pos :: h else h

/-- `Run c h`: for some replies, some draws of `Shuffle` and some orders of the
map ranges, `FindTreasure` reaches the configuration `c`, and `h` lists the
coordinates whose survey it has processed so far, the latest first. -/
inductive Run : Config → List Coordinate → Prop
  | init : Run initConfig []
  | recv {c : Config} {h : List Coordinate} (ch : Choice) (reply : MazeReply) :
      Run c h → ch.Fair → Run (recv ch reply c) (surveyedAfter c reply h)
  | send {c c' : Config} {h : List Coordinate} {d : Int} :
      Run c h → send c = some (d, c') → Run c' h

/-- The junction table holds, under visited keys, non-empty lists of unvisited
coordinates adjacent to their key. -/
structure TableOk (j : adjacencyMap) (v : GoMap Bool) : Prop where
  nonempty : ∀ k paths, j.get? k = some paths → paths ≠ []
  fresh : ∀ k paths, j.get? k = some paths → ∀ p ∈ paths, isVisited v p = false
  adjacent : ∀ k paths, j.get? k = some paths → ∀ p ∈ paths, Adjacent k p
  keys : ∀ k paths, j.get? k = some paths → isVisited v k = true

/-- The invariant of the runs of `FindTreasure`. -/
structure RunInv (c : Config) (h : List Coordinate) : Prop where
  table : TableOk c.st.junctions c.st.visited
  hist : ∀ p ∈ h, isVisited c.st.visited p = true
  nodup : h.Nodup
  atTop : c.ctl = .recvTop → isVisited c.st.visited c.st.pos = true ∧ c.st.pos ∉ h
  atNext : ∀ d, c.ctl = .sendNext d → isVisited c.st.visited c.st.pos = false ∧
    ∀ k paths, c.st.junctions.get? k = some paths → c.st.pos ∉ paths

/-! ## Runs against the walls of a maze -/

/-- The walls of every room, addressed by the solver's coordinates (the start
room is `(0, 0)`). -/
abbrev Walls := Coordinate → Survey

/-- Whether the survey reports a wall in direction `dir`. -/
def wallAt (s : Survey) (dir : Int) : Bool :=
  if dir = N then s.Top
  else if dir = S then s.Bottom
  else if dir = E then s.Right
  else if dir = W then s.Left
  else true

/-- The neighbour of `c` in direction `dir`. -/
def neighbour (c : Coordinate) (dir : Int) : Coordinate :=
  ⟨c.X + (Delta dir).X, c.Y + (Delta dir).Y⟩

/-- A wall between two rooms is reported by both. -/
def Walls.Consistent (w : Walls) : Prop :=
  ∀ c dir, dir = N ∨ dir = S ∨ dir = E ∨ dir = W →
    wallAt (w (neighbour c dir)) (Opposite dir) = wallAt (w c) dir

/-- The list read by `graph[k]`. -/
def adjacent (graph : adjacencyMap) (k : Coordinate) : List Coordinate :=
  (graph.get? k).getD []

/-- `StepsOn w c c'`: `FindTreasure` gets from configuration `c` to `c'` when
every survey it reads at the top of its loop is the one of the room it stands
in, the walls being `w`.  The replies read during a replay are arbitrary. -/
inductive StepsOn (w : Walls) : Config → Config → Prop
  | refl (c : Config) : StepsOn w c c
  | recv {c c' : Config} (ch : Choice) (reply : MazeReply) :
      StepsOn w c c' → ch.Fair →
      (c'.ctl = .recvTop → reply.Err ≠ some .ErrVictory → reply.Survey = w c'.st.pos) →
      StepsOn w c (recv ch reply c')
  | send {c c' c'' : Config} {d : Int} :
      StepsOn w c c' → send c' = some (d, c'') → StepsOn w c c''

/-- Every edge of the graph is a passage of the maze. -/
def EdgesOpen (w : Walls) (graph : adjacencyMap) : Prop :=
  ∀ k n, n ∈ adjacent graph k →
    ∃ dir, (dir = N ∨ dir = S ∨ dir = E ∨ dir = W) ∧ n = neighbour k dir ∧ wallAt (w k) dir = false

/-! ## ztest/runmaze.go: the maze and the trial loop -/

/-- Room contains the minimum information about a room in the maze. -/
structure Room where
  Treasure : Bool
  Start : Bool
  Visited : Bool
  Walls : Survey
deriving DecidableEq, Repr

instance : Inhabited Room := ⟨⟨false, false, false, default⟩⟩

/-- Maze struct; `finish` is the field `end` of the source. -/
structure Maze where
  rooms : List (List Room)
  start : Coordinate
  finish : Coordinate
  icarus : Coordinate
  StepsTaken : Int
deriving DecidableEq, Repr

/-- Width returns width of the maze (the length of the first row). -/
def Maze.Width (m : Maze) : Int := ((m.rooms.headD []).length : Int)

/-- Height returns height of the maze. -/
def Maze.Height (m : Maze) : Int := (m.rooms.length : Int)

/-- GetRoom returns the room at `(x, y)`; `none` is the error "room outside of
maze boundaries". -/
def Maze.GetRoom (m : Maze) (x y : Int) : Option Room :=
  if x < 0 ∨ y < 0 ∨ x ≥ m.Width ∨ y ≥ m.Height then none
  else some ((m.rooms.getD y.toNat []).getD x.toNat default)

/-- Discover surveys the room at `(x, y)`. -/
def Maze.Discover (m : Maze) (x y : Int) : Survey × Option GoError :=
  match m.GetRoom x y with
  | none => (default, some (.other "room outside of maze boundaries"))
  | some r => (r.Walls, none)

/-- The survey and the error `LookAround` returns when it returns: the survey
of the room Icarus is in, `ErrVictory` if he is at the treasure.  The update of
the statistics at the treasure, which can panic, is part of
`commands.LookAround` and `ztest.LookAround`. -/
def Maze.LookAround (m : Maze) : Survey × Option GoError :=
  if m.finish.X = m.icarus.X ∧ m.finish.Y = m.icarus.Y then (default, some .ErrVictory)
  else m.Discover m.icarus.X m.icarus.Y

/-- The body shared by `MoveLeft`, `MoveRight`, `MoveUp` and `MoveDown`: `wall`
reads the side to cross and `(x, y)` is the room to enter. -/
def Maze.moveInto (m : Maze) (wall : Survey → Bool) (x y : Int) : Maze × Option GoError :=
  match m.LookAround with
  | (_, some e) => (m, some e)
  | (s, none) =>
    if wall s then (m, some (.other "Can't walk through walls"))
    else
      match m.GetRoom x y with
      | none => (m, some (.other "room outside of maze boundaries"))
      | some _ => ({ m with icarus := ⟨x, y⟩, StepsTaken := m.StepsTaken + 1 }, none)

/-- MoveLeft moves Icarus's position left one step. -/
def Maze.MoveLeft (m : Maze) : Maze × Option GoError :=
  m.moveInto (fun s => s.Left) (m.icarus.X - 1) m.icarus.Y

/-- MoveRight moves Icarus's position right one step. -/
def Maze.MoveRight (m : Maze) : Maze × Option GoError :=
  m.moveInto (fun s => s.Right) (m.icarus.X + 1) m.icarus.Y

/-- MoveUp moves Icarus's position up one step. -/
def Maze.MoveUp (m : Maze) : Maze × Option GoError :=
  m.moveInto (fun s => s.Top) m.icarus.X (m.icarus.Y - 1)

/-- MoveDown moves Icarus's position down one step. -/
def Maze.MoveDown (m : Maze) : Maze × Option GoError :=
  m.moveInto (fun s => s.Bottom) m.icarus.X (m.icarus.Y + 1)

/-- The `switch step` of the trial loop: the move of the command, its error
dropped; no move for a value that is no direction. -/
def Maze.play (m : Maze) (step : Int) : Maze :=
  if step = N then m.MoveUp.1
  else if step = S then m.MoveDown.1
  else if step = E then m.MoveRight.1
  else if step = W then m.MoveLeft.1
  else m

/-- The reply the trial loop sends after a command: `MazeReply{s, e}` with
`s, e := m.LookAround()`. -/
def Maze.reply (m : Maze) : MazeReply := ⟨m.LookAround.1, m.LookAround.2⟩

/-- The state of one trial of `trialMaze`: the maze, the solver, and the
number of commands received (`currentCount`). -/
structure Trial where
  maze : Maze
  solver : Config
  currentCount : Nat
deriving DecidableEq, Repr

/-- Lines 452-460 of `trialMaze`: the survey of the start room is sent with a nil error. -/
def trialStart (ch : Choice) (m : Maze) : Trial :=
  ⟨m, recv ch ⟨m.LookAround.1, none⟩ initConfig, 0⟩

/-- One iteration of `for step := range steps` (lines 461-484); `none` when
`steps` yields no command any more. -/
def trialStep (ch : Choice) (t : Trial) : Option Trial :=
  match send t.solver with
  | none => none
  | some (step, c) =>
    let m := t.maze.play step
    some ⟨m, recv ch m.reply c, t.currentCount + 1⟩

/-- The trial after at most `n` iterations of the loop; `choices i` are the
choices of the solver when it handles its `i`-th reply. -/
def trialRun (choices : Nat → Choice) : Nat → Trial → Trial
  | 0, t => t
  | n + 1, t =>
    match trialStep (choices (t.currentCount + 1)) t with
    | none => t
    | some t' => trialRun choices n t'

/-- The room at `c` counted from the start room, if inside the maze. -/
def Maze.roomAt (m : Maze) (c : Coordinate) : Option Room :=
  m.GetRoom (m.start.X + c.X) (m.start.Y + c.Y)

/-- The walls of the maze in the solver's coordinates; a position outside the
maze reads as walled on every side. -/
def Maze.walls (m : Maze) : Walls :=
  fun c => match m.roomAt c with
    | some r => r.Walls
    | none => ⟨true, true, true, true⟩

/-- The maze is a rectangle, with the start and the treasure in different rooms
of it, and Icarus at the start. -/
structure Maze.WellFormed (m : Maze) : Prop where
  rect : ∀ row ∈ m.rooms, (row.length : Int) = m.Width
  start_in : (m.GetRoom m.start.X m.start.Y).isSome
  finish_in : (m.GetRoom m.finish.X m.finish.Y).isSome
  apart : m.finish ≠ m.start
  awake : m.icarus = m.start

/-- A wall between two rooms is reported by both, and the perimeter is closed. -/
def Maze.ConsistentWalls (m : Maze) : Prop :=
  ∀ c dir, dir = N ∨ dir = S ∨ dir = E ∨ dir = W → (m.roomAt c).isSome →
    wallAt (m.walls c) dir = wallAt (m.walls (neighbour c dir)) (Opposite dir)

/-- `Passable w c`: the coordinate `c` can be reached from `(0, 0)` through
sides without a wall. -/
inductive Passable (w : Walls) : Coordinate → Prop
  | start : Passable w ⟨0, 0⟩
  | step {c : Coordinate} (dir : Int) : Passable w c →
      (dir = N ∨ dir = S ∨ dir = E ∨ dir = W) → wallAt (w c) dir = false →
      Passable w (neighbour c dir)

/-! ## Dijkstra: specification vocabulary -/

/-- The accumulator of `nextNodeID` describes an unprocessed node, if it found one. -/
def AccOk (nodes : GoMap node) (acc : Bool × Nat × Coordinate) : Prop :=
  acc.2.1 ≤ infinity ∧
    (acc.1 = true → ∃ nd, nodes.get? acc.2.2 = some nd ∧ nd.processed = false ∧
      nd.dist = acc.2.1 ∧ nd.dist < infinity) ∧
    (acc.1 = false → acc.2.1 = infinity)

/-- How the loop over the neighbours `nbs` of `cur` (whose dist is `d`) changes
the node table: it only lowers the dist of unprocessed neighbours to `d + 1`,
recording `cur` as their parent. -/
structure Relaxed (nbs : List Coordinate) (cur : Coordinate) (d : Nat)
    (nodes nodes' : GoMap node) : Prop where
  keys : nodes'.keys = nodes.keys
  step : ∀ v nv, nodes.get? v = some nv → ∃ nv', nodes'.get? v = some nv' ∧
    (nv' = nv ∨ (nv.processed = false ∧ v ∈ nbs ∧ d + 1 < nv.dist ∧
      nv' = { nv with dist := d + 1, parent := cur }))
  done : ∀ v ∈ nbs, ∀ nv', nodes'.get? v = some nv' → nv'.processed = false → nv'.dist ≤ d + 1

/-- A walk of `n` steps along the edges of the graph. -/
inductive Walk (g : adjacencyMap) : Coordinate → Coordinate → Nat → Prop
  | nil (a : Coordinate) : Walk g a a 0
  | snoc {a b c : Coordinate} {n : Nat} : Walk g a b n → c ∈ adjacent g b → Walk g a c (n + 1)

/-- Every neighbour listed in the graph is a key of the graph. -/
def GraphClosed (g : adjacencyMap) : Prop :=
  ∀ k n, n ∈ adjacent g k → n ∈ g.keys

/-- The number of keys whose node is not processed yet. -/
def unprocessedCount (keys : List Coordinate) (nodes : GoMap node) : Nat :=
  keys.countP (fun k => match nodes.get? k with
    | some nd => !nd.processed
    | none => false)

/-- The invariant of the main loop of `shortestPath`. -/
structure DijkstraInv (g : adjacencyMap) (s : Coordinate) (nodes : GoMap node) : Prop where
  keys : nodes.keys = g.keys
  source : ∃ ns, nodes.get? s = some ns ∧ ns.dist = 0
  le_inf : ∀ v nv, nodes.get? v = some nv → nv.dist ≤ infinity
  parent : ∀ v nv, nodes.get? v = some nv → nv.dist < infinity → v ≠ s →
    ∃ pn, nodes.get? nv.parent = some pn ∧ pn.processed = true ∧ pn.dist + 1 = nv.dist ∧
      v ∈ adjacent g nv.parent
  unreached : ∀ v nv, nodes.get? v = some nv → nv.dist = infinity →
    nv.parent = default ∧ nv.processed = false
  closed : ∀ u nu, nodes.get? u = some nu → nu.processed = true →
    ∀ w ∈ adjacent g u, ∃ nw, nodes.get? w = some nw ∧ nw.dist ≤ nu.dist + 1
  mono : ∀ u nu v nv, nodes.get? u = some nu → nodes.get? v = some nv →
    nu.processed = true → nv.processed = false → nu.dist ≤ nv.dist
  bound : ∀ u nu, nodes.get? u = some nu → nu.processed = true →
    nu.dist + 1 + unprocessedCount g.keys nodes ≤ g.keys.length

/-- What one iteration of the main loop does to each node: `cur` becomes
processed; a node may have its dist lowered to that of `cur` plus one. -/
def IterStep (g : adjacencyMap) (cur : Coordinate) (c : node) (nodes nodes2 : GoMap node) :
    Prop :=
  nodes2.keys = nodes.keys ∧
  (∀ v nv, nodes.get? v = some nv → ∃ nv2, nodes2.get? v = some nv2 ∧
    ((v = cur ∧ nv2 = { c with processed := true }) ∨
     (v ≠ cur ∧ (nv2 = nv ∨ (nv.processed = false ∧ v ∈ adjacent g cur ∧ c.dist + 1 < nv.dist ∧
        nv2 = { nv with dist := c.dist + 1, parent := cur }))))) ∧
  (∀ v ∈ adjacent g cur, ∀ nv2, nodes2.get? v = some nv2 → nv2.processed = false →
    nv2.dist ≤ c.dist + 1)

/-- The destinations still to be dequeued: a junction key is in `destinations`
or its node is processed. -/
structure DestInv (j : adjacencyMap) (destinations : GoMap Bool) (nodes : GoMap node) : Prop where
  flag : ∀ k b, destinations.get? k = some b → b = true
  dequeued : ∀ k, k ∈ j.keys → destinations.get? k = none →
    ∃ nk, nodes.get? k = some nk ∧ nk.processed = true

/-- How the main loop of `shortestPath` ends: `nextNodeID` finds no node, or the
last junction key has just been dequeued as the unprocessed node `cur` of least dist. -/
def LoopEnd (j : adjacencyMap) (nodes : GoMap node) : Prop :=
  (∀ v nv, nodes.get? v = some nv → nv.processed = false → infinity ≤ nv.dist) ∨
  (∃ cur c, nodes.get? cur = some c ∧ c.processed = false ∧ c.dist < infinity ∧
    (∀ v nv, nodes.get? v = some nv → nv.processed = false → c.dist ≤ nv.dist) ∧
    ∀ k, k ∈ j.keys → k = cur ∨ ∃ nk, nodes.get? k = some nk ∧ nk.processed = true)

/-- Each coordinate of the path is a graph neighbour of the one before it, the
first being a neighbour of `prev`. -/
def IsRoute (g : adjacencyMap) : Coordinate → List Coordinate → Prop
  | _, [] => True
  | prev, cur :: rest => cur ∈ adjacent g prev ∧ IsRoute g cur rest

/-- The last coordinate of the path, `prev` for the empty path. -/
def endOf : Coordinate → List Coordinate → Coordinate
  | prev, [] => prev
  | _, cur :: rest => endOf cur rest

/-- The nodes of the path have the dists `d`, `d + 1`, ... -/
def DistsFrom (nodes : GoMap node) : Nat → List Coordinate → Prop
  | _, [] => True
  | d, cur :: rest => (∃ nd, nodes.get? cur = some nd ∧ nd.dist = d) ∧ DistsFrom nodes (d + 1) rest

/-- The coordinates reached from `p` by applying the directions one after
another with `updatePosition`. -/
def positions : Coordinate → List Int → List Coordinate
  | _, [] => []
  | p, d :: ds =>
    let q : Coordinate := ⟨(updatePosition p.X p.Y d).1, (updatePosition p.X p.Y d).2⟩
    q :: positions q ds

/-- The edges of the graph join coordinates one grid step apart. -/
def GridEdges (g : adjacencyMap) : Prop :=
  ∀ k n, n ∈ adjacent g k → Adjacent k n

/-- What the graph records of the walls `w` once the coordinates `h` are surveyed:
its edges are the open sides of the surveyed rooms, in both directions. -/
structure Charted (w : Walls) (g : adjacencyMap) (h : List Coordinate) : Prop where
  edgesOpen : EdgesOpen w g
  forward : ∀ v ∈ h, ∀ dir, (dir = N ∨ dir = S ∨ dir = E ∨ dir = W) →
    wallAt (w v) dir = false → neighbour v dir ∈ adjacent g v
  symm : ∀ k n, n ∈ adjacent g k → k ∈ adjacent g n
  closed : GraphClosed g
  surveyedEdge : ∀ k n, n ∈ adjacent g k → k ∈ h ∨ n ∈ h
  keysNodup : g.keys.Nodup
  keysPassable : ∀ k ∈ g.keys, Passable w k
  connected : ∀ k ∈ g.keys, ∃ L, Walk g ⟨0, 0⟩ k L
  surveyedKeys : ∀ v ∈ h, v ∈ g.keys

/-- What the solver has learnt of the walls `w` when it stands at the top of its
loop at `st.pos`, the coordinates `h` being those whose survey it has processed. -/
structure Explored (w : Walls) (st : SolverState) (h : List Coordinate) : Prop where
  visited : ∀ p, isVisited st.visited p = true ↔ p = st.pos ∨ p ∈ h
  fresh : st.pos ∉ h
  nodup : h.Nodup
  origin : isVisited st.visited ⟨0, 0⟩ = true
  table : TableOk st.junctions st.visited
  keysIn : ∀ k l, st.junctions.get? k = some l → k ∈ h
  listed : ∀ k l, st.junctions.get? k = some l → ∀ u ∈ l, u ∈ adjacent st.graph k
  complete : ∀ v ∈ h, ∀ u ∈ adjacent st.graph v,
    isVisited st.visited u = true ∨ ∃ l, st.junctions.get? v = some l ∧ u ∈ l
  chart : Charted w st.graph h
  posKey : st.pos ∈ st.graph.keys ∨ (h = [] ∧ st.pos = ⟨0, 0⟩)

/-- The treasure in the solver's coordinates. -/
def Maze.treasure (m : Maze) : Coordinate :=
  ⟨m.finish.X - m.start.X, m.finish.Y - m.start.Y⟩

/-- The maze `mz` is the maze `m` with Icarus in the room at the solver's coordinate `c`. -/
def Maze.At (m mz : Maze) (c : Coordinate) : Prop :=
  mz.rooms = m.rooms ∧ mz.start = m.start ∧ mz.finish = m.finish ∧
    mz.icarus = ⟨m.start.X + c.X, m.start.Y + c.Y⟩

/-- The trial `t` on the maze `m` has just handed the solver, at the top of its loop
in the state `st`, the reply of the room Icarus stands in. -/
structure AtTop (m : Maze) (t : Trial) (st : SolverState) (h : List Coordinate) : Prop where
  explored : Explored m.walls st h
  maze : m.At t.maze st.pos
  solver : ∃ ch : Choice, ch.Fair ∧ t.solver = recv ch t.maze.reply ⟨.recvTop, st⟩
  unseen : m.treasure ∉ h

/-! ## Example inputs -/

/-- A room open to the east and to the south only. -/
def cornerSurvey : Survey := ⟨true, false, false, true⟩

/-- The configuration after the survey `cornerSurvey` of the start room. -/
def cornerConfig : Config := recv Choice.id ⟨cornerSurvey, none⟩ initConfig

/-- A room open to the east only. -/
def eastSurvey : Survey := ⟨true, false, true, true⟩

/-- The configuration `c` after its pending send, if it has one. -/
def afterSend (c : Config) : Config :=
  match send c with
  | some (_, c') => c'
  | none => c

/-- The solver has moved east from a start room open to the east only. -/
def oneWayConfig : Config := afterSend (recv Choice.id ⟨eastSurvey, none⟩ initConfig)

/-- The configuration after one more survey reporting the east side open only. -/
def oneWayConfig2 : Config := recv Choice.id ⟨eastSurvey, none⟩ oneWayConfig

/-- A maze without any wall. -/
def openWalls : Walls := fun _ => ⟨false, false, false, false⟩

/-- The solver after the first survey of `openWalls` and its move. -/
def openConfig : Config := afterSend (recv Choice.id ⟨openWalls ⟨0, 0⟩, none⟩ initConfig)

/-- The solver after the second survey of `openWalls` and its move. -/
def openConfig2 : Config := afterSend (recv Choice.id ⟨openWalls openConfig.st.pos, none⟩ openConfig)

/-- A room with a wall on every side. -/
def closedSurvey : Survey := ⟨true, true, true, true⟩

/-- The graph of a single room without passages. -/
def loneGraph : adjacencyMap := [(⟨0, 0⟩, [])]

/-- A small graph: the four rooms of a square, passages `(0,0)-(1,0)`,
`(0,0)-(0,1)` and `(1,0)-(1,1)`. -/
def squareGraph : adjacencyMap :=
  [(⟨0, 0⟩, [⟨1, 0⟩, ⟨0, 1⟩]), (⟨1, 0⟩, [⟨0, 0⟩, ⟨1, 1⟩]), (⟨0, 1⟩, [⟨0, 0⟩]),
   (⟨1, 1⟩, [⟨1, 0⟩])]

/-- The neighbours of room `i` in a corridor of rooms `(0,0)`, ..., `(n,0)`. -/
def lineNeighbours (n i : Nat) : List Coordinate :=
  (if i = 0 then [] else [⟨(i : Int) - 1, 0⟩]) ++ (if i = n then [] else [⟨(i : Int) + 1, 0⟩])

/-- The graph of a corridor of rooms `(0,0)`, ..., `(n,0)`. -/
def lineGraph (n : Nat) : adjacencyMap :=
  (List.range (n + 1)).map (fun (i : Nat) => (⟨(i : Int), 0⟩, lineNeighbours n i))

/-- The junction table whose single key is the far end of the corridor. -/
def lineJunctions (n : Nat) : adjacencyMap := [(⟨(n : Int), 0⟩, [⟨(n : Int), 1⟩])]

/-- A junction table over `squareGraph` with the single key `(1, 1)`. -/
def squareJunctions : adjacencyMap := [(⟨1, 1⟩, [⟨2, 1⟩])]

/-- A junction table with a key, `(5, 0)`, that is no room of `squareGraph`. -/
def strayJunctions : adjacencyMap := [(⟨1, 1⟩, [⟨2, 1⟩]), (⟨5, 0⟩, [⟨5, 1⟩])]

/-- A graph listing the neighbour `(0, 1)` without an entry for it. -/
def openGraph : adjacencyMap := [(⟨0, 0⟩, [⟨1, 0⟩, ⟨0, 1⟩]), (⟨1, 0⟩, [⟨0, 0⟩])]

/-- A junction table over `openGraph` with the single key `(1, 0)`. -/
def openJunctions : adjacencyMap := [(⟨1, 0⟩, [⟨2, 0⟩])]

/-- A maze of two rooms side by side, the start on the left and the treasure on the right. -/
def twoRooms : Maze :=
  ⟨[[⟨false, true, false, ⟨true, false, true, true⟩⟩,
     ⟨true, false, false, ⟨true, true, true, false⟩⟩]], ⟨0, 0⟩, ⟨1, 0⟩, ⟨0, 0⟩, 0⟩

/-- The room in column `i` of a corridor of `n` rooms: walls above and below, and
at the two ends of the corridor. -/
def corridorRoom (n i : Nat) : Room :=
  ⟨decide (i = 0), decide (i = 1), false, ⟨true, decide (i + 1 = n), true, decide (i = 0)⟩⟩

/-- A corridor of `n` rooms in one row, the treasure in the leftmost room and the
start in the room next to it. -/
def corridor (n : Nat) : Maze :=
  ⟨[(List.range n).map (corridorRoom n)], ⟨1, 0⟩, ⟨0, 0⟩, ⟨1, 0⟩, 0⟩

/-- The trial in the corridor of `n` rooms after `i` moves to the east: the solver
is at the top of its loop at `(i, 0)`, and the one junction left is the start room. -/
structure CorridorInv (n i : Nat) (t : Trial) (st : SolverState) (h : List Coordinate) :
    Prop where
  top : AtTop (corridor n) t st h
  pos : st.pos = ⟨(i : Int), 0⟩
  junction : ∀ v, st.junctions.get? v = if v = ⟨0, 0⟩ then some [⟨-1, 0⟩] else none
  behind : ∀ p ∈ h, p.Y = 0 ∧ 0 ≤ p.X ∧ p.X < i
  last : (⟨(i : Int) - 1, 0⟩ : Coordinate) ∈ h

/-- A survey with the one side `d` open. -/
def oneOpen (d : Int) : Survey :=
  ⟨decide (d ≠ N), decide (d ≠ E), decide (d ≠ S), decide (d ≠ W)⟩

/-- The `i`-th room of a winding path: from `(0, 0)` west along row 0 for `A`
rooms, south for two, east along row 2 back to `(0, 2)`, then north to `(0, 1)`
and east to `(1, 1)`. -/
def snakeRoom (A i : Nat) : Coordinate :=
  if i ≤ A then ⟨-(i : Int), 0⟩
  else if i ≤ A + 2 then ⟨-(A : Int), (i : Int) - A⟩
  else if i ≤ 2 * A + 2 then ⟨(i : Int) - (2 * A + 2), 2⟩
  else if i = 2 * A + 3 then ⟨0, 1⟩
  else ⟨1, 1⟩

/-- The side by which the path leaves its `i`-th room; for the last room, the
side by which it came in. -/
def snakeDir (A i : Nat) : Int :=
  if i < A then W
  else if i < A + 2 then S
  else if i < 2 * A + 2 then E
  else if i = 2 * A + 2 then N
  else if i = 2 * A + 3 then E
  else W

/-- The surveys of the rooms of the path.  The walls are one-way: a room reports
open the side by which the path leaves it and not the side by which it came in;
the rooms `(0, 2)` and `(0, 1)` report their north and east sides open. -/
def snakeSurvey (A i : Nat) : Survey :=
  if i = 2 * A + 2 ∨ i = 2 * A + 3 then ⟨false, false, true, true⟩
  else oneOpen (snakeDir A i)

/-- The solver at the top of its loop in the `i`-th room of the path, fed the
surveys `snakeSurvey`, `Shuffle` drawing `0` every time. -/
def snakeConfig (A : Nat) : Nat → Config
  | 0 => initConfig
  | i + 1 => afterSend (recv Choice.id ⟨snakeSurvey A i, none⟩ (snakeConfig A i))

/-- A rank of the coordinates that no edge of the graph raises by more than one:
the index along the path, but `-1` for `(0, 1)` and `-2` for `(1, 1)`. -/
def snakeRank (A : Nat) (p : Coordinate) : Int :=
  if p = ⟨1, 1⟩ then -2
  else if p = ⟨0, 1⟩ then -1
  else if p = ⟨1, 2⟩ then 2 * A + 2
  else if p.Y = 0 then -p.X
  else if p.Y = 2 then p.X + (2 * A + 2)
  else A + p.Y

/-- The invariant of the solver along the path. -/
structure SnakeInv (A i : Nat) (c : Config) : Prop where
  ctl : c.ctl = .recvTop
  pos : c.st.pos = snakeRoom A i
  visited : ∀ p, isVisited c.st.visited p = true ↔ ∃ i', i' ≤ i ∧ p = snakeRoom A i'
  junction : ∀ v, c.st.junctions.get? v =
    if 2 * A + 2 < i ∧ v = ⟨0, 2⟩ then some [⟨1, 2⟩] else none
  edges : ∀ x, x ≠ snakeRoom A i → ∀ y ∈ adjacent c.st.graph x,
    snakeRank A y ≤ snakeRank A x + 1
  closed : GraphClosed c.st.graph
  keys : ∀ i', i' < i → snakeRoom A i' ∈ c.st.graph.keys
  home : 2 * A + 3 < i → (⟨0, 0⟩ : Coordinate) ∈ adjacent c.st.graph ⟨0, 1⟩
  bound : c.st.boundary.ymin ≤ 0

/-- A walk in the graph from `a` along edges that leave surveyed coordinates. -/
inductive Trail (g : adjacencyMap) (h : List Coordinate) : Coordinate → Coordinate → Prop
  | nil (a : Coordinate) : Trail g h a a
  | snoc {a b c : Coordinate} : Trail g h a b → b ∈ h → c ∈ adjacent g b → Trail g h a c

/-- What holds of the state of `FindTreasure` whatever the replies, the
coordinates `h` being surveyed: `here` is the coordinate the solver is moving to
or stands on before its survey, if any, and `marked` tells whether it is in the
visited set already. -/
structure Known (st : SolverState) (h : List Coordinate) (here : Option Coordinate)
    (marked : Bool) : Prop where
  visIff : ∀ p, isVisited st.visited p = true ↔ p ∈ h ∨ (marked = true ∧ here = some p)
  hereNew : ∀ p, here = some p → p ∉ h
  table : TableOk st.junctions st.visited
  keysIn : ∀ k l, st.junctions.get? k = some l → k ∈ h
  listed : ∀ k l, st.junctions.get? k = some l → ∀ u ∈ l, u ∈ adjacent st.graph k
  complete : ∀ v ∈ h, ∀ u ∈ adjacent st.graph v,
    u ∈ h ∨ here = some u ∨ ∃ l, st.junctions.get? v = some l ∧ u ∈ l
  closed : GraphClosed st.graph
  grid : GridEdges st.graph
  surveyedKeys : ∀ v ∈ h, v ∈ st.graph.keys
  revOnly : ∀ v, v ∉ h → ∀ u ∈ adjacent st.graph v, u ∈ h
  trail : ∀ v, (v ∈ h ∨ here = some v) → Trail st.graph h ⟨0, 0⟩ v
  origin : (⟨0, 0⟩ : Coordinate) ∈ h ∨ here = some ⟨0, 0⟩

/-- During a replay, in a graph of at most `infinity + 1` coordinates and with a
junction left, the solver stands on a surveyed coordinate and the directions
still to replay lead through surveyed coordinates. -/
def ReplayOk (st : SolverState) (h : List Coordinate) (rest : List Int) : Prop :=
  st.graph.keys.length ≤ infinity + 1 → (∃ k l, st.junctions.get? k = some l) →
    st.pos ∈ h ∧ ∀ p ∈ positions st.pos rest, p ∈ h

/-- The invariant of the runs of `FindTreasure` for arbitrary replies. -/
def KnownAt (c : Config) (h : List Coordinate) : Prop :=
  match c.ctl with
  | .recvTop => Known c.st h (some c.st.pos) true
  | .sendNext _ => Known c.st h (some c.st.pos) false
  | .sendBack _ rest => Known c.st h none false ∧ ReplayOk c.st h rest
  | .recvBack rest => Known c.st h none false ∧ ReplayOk c.st h rest
  | .closed => True
  | .crashed _ => True

/-- The solver has gone south from the start room into a dead end and replayed
the way back: it is about to read the reply to the replayed move. -/
def backConfig : Config :=
  afterSend (recv Choice.id ⟨oneOpen N, none⟩ (afterSend cornerConfig))

/-- The number of cells `(x, y)` with `x0 ≤ x ≤ x1` and `y0 ≤ y ≤ y1` that
satisfy `P`: the count of a region in the words of the specification. -/
def cellsWhere (P : Coordinate → Bool) (x0 x1 y0 y1 : Int) : Nat :=
  ((Finset.Icc x0 x1 ×ˢ Finset.Icc y0 y1).filter (fun c => P ⟨c.1, c.2⟩ = true)).card

/-- The choice whose draws make `Shuffle` leave its slice as it is. -/
def stillChoice : Choice := ⟨fun i => i, RangeOrder.id, fun l => l⟩

/-- A room open to the west, the north and the south. -/
def forkSurvey : Survey := ⟨false, true, false, false⟩

/-- A room open to the east and the south. -/
def bendSurvey : Survey := ⟨true, false, false, true⟩

/-- The solver has surveyed a start room open to the west, the north and the
south, has gone west to `(-1, 0)` and south to `(-1, 1)`, a dead end, and has
replayed the way back to the start room: it is about to read the reply to the
last replayed move. -/
def forkBack : Config :=
  afterSend (recv Choice.id ⟨default, none⟩
    (afterSend (recv Choice.id ⟨oneOpen N, none⟩
      (afterSend (recv Choice.id ⟨bendSurvey, none⟩
        (afterSend (recv Choice.id ⟨forkSurvey, none⟩ initConfig)))))))

/-! ## commands/daedalus.go and ztest/runmaze.go: the choice of the maze type -/

/-- The statistics of one batch of 100 mazes. -/
structure mStat where
  steps : Int
  times : Int
  kruskal : Bool
deriving DecidableEq, Repr

/-- The package variables `mCount`, `nowKruskal` and `mazeStats`. -/
structure MazeStats where
  mCount : Nat
  nowKruskal : Bool
  mazeStats : List mStat
deriving DecidableEq, Repr

/-- The loop `for _, ms := range mazeStats`: `(ksteps, ktimes, psteps, ptimes)`. -/
def statTotals (mazeStats : List mStat) : Int × Int × Int × Int :=
  mazeStats.foldl (fun acc ms =>
    if ms.kruskal then (acc.1 + ms.steps, acc.2.1 + ms.times, acc.2.2.1, acc.2.2.2)
    else (acc.1, acc.2.1, acc.2.2.1 + ms.steps, acc.2.2.2 + ms.times)) (0, 0, 0, 0)

/-- The `default` case of the switch of `getMaze` and of `makeMaze`: the value
given to `nowKruskal` from the statistics. -/
def typeFromStats (mazeStats : List mStat) : Bool :=
  let t := statTotals mazeStats
  if t.2.1 = 0 then true
  else if t.2.2.2 = 0 then true
  else decide (Int.tdiv t.1 t.2.1 > Int.tdiv t.2.2.1 t.2.2.2)

/-- The function `getMaze` of `commands/daedalus.go`: the package variables
after the call, and whether the maze it returns is a Kruskal maze
(`createMazeKruskal`) or a pocket maze (`createMazePocket`). -/
def getMaze (s : MazeStats) : MazeStats × Bool :=
  if s.mCount % 100 = 0 then
    let now :=
      match s.mCount / 100 with
      | 0 => true
      | 1 => false
      | _ => typeFromStats s.mazeStats
    (⟨s.mCount + 1, now, s.mazeStats ++ [⟨0, 0, now⟩]⟩, now)
  else (⟨s.mCount + 1, s.nowKruskal, s.mazeStats⟩, s.nowKruskal)

/-- The function `makeMaze` of `ztest/runmaze.go`: as `getMaze`, but the
`default` case prints the averages `ksteps/ktimes` and `psteps/ptimes`; `none`
is the panic of an integer division by zero. -/
def makeMaze (s : MazeStats) : Option (MazeStats × Bool) :=
  if s.mCount % 100 = 0 then
    match s.mCount / 100 with
    | 0 => some (⟨s.mCount + 1, true, s.mazeStats ++ [⟨0, 0, true⟩]⟩, true)
    | 1 => some (⟨s.mCount + 1, false, s.mazeStats ++ [⟨0, 0, false⟩]⟩, false)
    | _ =>
      let now := typeFromStats s.mazeStats
      if (statTotals s.mazeStats).2.1 = 0 ∨ (statTotals s.mazeStats).2.2.2 = 0 then none
      else some (⟨s.mCount + 1, now, s.mazeStats ++ [⟨0, 0, now⟩]⟩, now)
  else some (⟨s.mCount + 1, s.nowKruskal, s.mazeStats⟩, s.nowKruskal)

/-! ## Feeding replies to `FindTreasure` -/

/-- The goroutine reads `reply` and runs to its next read: the configuration it
stops in and the command it has sent, if any. -/
def feed (ch : Choice) (reply : MazeReply) (c : Config) : Config × List Int :=
  match send (recv ch reply c) with
  | some (d, c') => (c', [d])
  | none => (recv ch reply c, [])

/-- The goroutine fed the replies one after the other, `choices i` being its
choices when it handles the `i`-th reply: the configuration reached and the
commands sent. -/
def feedAll (choices : Nat → Choice) : Nat → Config → List MazeReply → Config × List Int
  | _, c, [] => (c, [])
  | i, c, r :: rs =>
    ((feedAll choices (i + 1) (feed (choices i) r c).1 rs).1,
      (feed (choices i) r c).2 ++ (feedAll choices (i + 1) (feed (choices i) r c).1 rs).2)

/-- Two sequences of replies agree on every reply the goroutine reads at the
top of its loop; those it reads elsewhere, during a replay, are free. -/
def agreeAtTop (choices : Nat → Choice) : Nat → Config → List MazeReply → List MazeReply → Bool
  | _, _, [], [] => true
  | i, c, r :: rs, r' :: rs' =>
    (decide (c.ctl = .recvTop → r = r')) &&
      agreeAtTop choices (i + 1) (feed (choices i) r c).1 rs rs'
  | _, _, _, _ => false

/-! ## The boundary as a bounding box -/

/-- The coordinate lies in the box. -/
def InBox (b : bounds) (p : Coordinate) : Prop :=
  b.xmin ≤ p.X ∧ p.X ≤ b.xmax ∧ b.ymin ≤ p.Y ∧ p.Y ≤ b.ymax

/-- The box `b` is the bounding box of the coordinates that satisfy `S`: it
holds them all, and each of its four bounds is the coordinate of one of them. -/
structure BoxOf (S : Coordinate → Prop) (b : bounds) : Prop where
  inside : ∀ p, S p → InBox b p
  xminAt : ∃ p, S p ∧ p.X = b.xmin
  xmaxAt : ∃ p, S p ∧ p.X = b.xmax
  yminAt : ∃ p, S p ∧ p.Y = b.ymin
  ymaxAt : ∃ p, S p ∧ p.Y = b.ymax

/-- The commands the loop `for step := range steps` of a trial receives in its
first `n` iterations. -/
def trialSteps (choices : Nat → Choice) : Nat → Trial → List Int
  | 0, _ => []
  | n + 1, t =>
    match send t.solver, trialStep (choices (t.currentCount + 1)) t with
    | some (step, _), some t' => step :: trialSteps choices n t'
    | _, _ => []

/-! ## Corridors and the two-by-two maze -/

/-- The coordinate reached from the start room by the first `i` directions of `ds`. -/
def roomAfter (ds : List Int) (i : Nat) : Coordinate :=
  (ds.take i).foldl neighbour ⟨0, 0⟩

/-- The maze is a single corridor from the start to the treasure along the
directions `ds`: its rooms are pairwise different, the start room has the one
open side `ds[0]`, and every room between the start and the treasure has two,
the one it is entered through and the one to the next room. -/
structure Maze.IsCorridor (m : Maze) (ds : List Int) : Prop where
  dirs : ∀ d ∈ ds, d = N ∨ d = S ∨ d = E ∨ d = W
  nonempty : ds ≠ []
  distinct : ∀ i j, i ≤ ds.length → j ≤ ds.length → roomAfter ds i = roomAfter ds j → i = j
  treasure : m.treasure = roomAfter ds ds.length
  startOpen : ∀ dir, (dir = N ∨ dir = S ∨ dir = E ∨ dir = W) →
    (wallAt (m.walls ⟨0, 0⟩) dir = false ↔ ds[0]? = some dir)
  between : ∀ i, 0 < i → i < ds.length → ∀ dir, (dir = N ∨ dir = S ∨ dir = E ∨ dir = W) →
    (wallAt (m.walls (roomAfter ds i)) dir = false ↔
      (ds[i]? = some dir ∨ (ds[i - 1]?).map Opposite = some dir))

/-- The maze of two rows of two rooms without inner walls, the perimeter closed,
the start at `(0, 0)` and the treasure at `(1, 1)`. -/
def square2 : Maze :=
  ⟨[[⟨false, true, false, ⟨true, false, false, true⟩⟩,
     ⟨false, false, false, ⟨true, true, false, false⟩⟩],
    [⟨false, false, false, ⟨false, false, true, true⟩⟩,
     ⟨true, false, false, ⟨false, true, true, false⟩⟩]], ⟨0, 0⟩, ⟨1, 1⟩, ⟨0, 0⟩, 0⟩

/-! ## commands/daedalus.go: the Kruskal maze -/

/-- AddWall sets the wall of the room on the side `dir`. -/
def Room.AddWall (r : Room) (dir : Int) : Room :=
  if dir = N then { r with Walls := { r.Walls with Top := true } }
  else if dir = S then { r with Walls := { r.Walls with Bottom := true } }
  else if dir = E then { r with Walls := { r.Walls with Right := true } }
  else if dir = W then { r with Walls := { r.Walls with Left := true } }
  else r

/-- RmWall removes the wall of the room on the side `dir`. -/
def Room.RmWall (r : Room) (dir : Int) : Room :=
  if dir = N then { r with Walls := { r.Walls with Top := false } }
  else if dir = S then { r with Walls := { r.Walls with Bottom := false } }
  else if dir = E then { r with Walls := { r.Walls with Right := false } }
  else if dir = W then { r with Walls := { r.Walls with Left := false } }
  else r

/-- An update through `rooms[y][x]`: the room there is replaced by `f` of it;
`none` is the panic of an index out of range. -/
def updateRoom (rooms : List (List Room)) (x y : Int) (f : Room → Room) :
    Option (List (List Room)) :=
  if x < 0 ∨ y < 0 then none
  else
    match rooms[y.toNat]? with
    | none => none
    | some row =>
      match row[x.toNat]? with
      | none => none
      | some r => some (rooms.set y.toNat (row.set x.toNat (f r)))

/-- emptyMaze creates a maze without any walls but those of the perimeter;
`xSize` and `ySize` are the configured width and height, taken non-negative. -/
def emptyMaze (xSize ySize : Nat) : Option Maze :=
  let rooms0 : List (List Room) :=
    List.replicate ySize (List.replicate xSize ⟨false, false, false, ⟨false, false, false, false⟩⟩)
  match (List.range xSize).foldlM (fun rooms (x : Nat) =>
      (updateRoom rooms x 0 (fun r => r.AddWall N)).bind
        (fun rooms1 => updateRoom rooms1 x ((ySize : Int) - 1) (fun r => r.AddWall S)))
      rooms0 with
  | none => none
  | some rooms1 =>
    match (List.range ySize).foldlM (fun rooms (y : Nat) =>
        (updateRoom rooms 0 y (fun r => r.AddWall W)).bind
          (fun rooms2 => updateRoom rooms2 ((xSize : Int) - 1) y (fun r => r.AddWall E)))
        rooms1 with
    | none => none
    | some rooms2 => some ⟨rooms2, ⟨0, 0⟩, ⟨0, 0⟩, ⟨0, 0⟩, 0⟩

/-- fullMaze creates a maze with all walls. -/
def fullMaze (xSize ySize : Nat) : Option Maze :=
  match emptyMaze xSize ySize with
  | none => none
  | some z =>
    match (List.range ySize).foldlM (fun rooms (y : Nat) =>
        (List.range xSize).foldlM (fun rooms1 (x : Nat) =>
          updateRoom rooms1 x y (fun r => { r with Walls := ⟨true, true, true, true⟩ })) rooms)
        z.rooms with
    | none => none
    | some rooms => some { z with rooms := rooms }

/-- A Go map with `int` keys, as an association list. -/
abbrev IdMap (V : Type) := List (Int × V)

namespace IdMap

/-- Map lookup `m[k]` with the presence flag. -/
def get? {V : Type} : IdMap V → Int → Option V
  | [], _ => none
  | (k', v) :: t, k => if k' = k then some v else get? t k

/-- Map assignment `m[k] = v`. -/
def set {V : Type} : IdMap V → Int → V → IdMap V
  | [], k, v => [(k, v)]
  | (k', v') :: t, k, v => if k' = k then (k, v) :: t else (k', v') :: set t k v

/-- The builtin `delete(m, k)`. -/
def delete {V : Type} : IdMap V → Int → IdMap V
  | [], _ => []
  | (k', v) :: t, k => if k' = k then delete t k else (k', v) :: delete t k

/-- The keys of the map. -/
def keys {V : Type} (m : IdMap V) : List Int :=
  m.map Prod.fst

end IdMap

/-- The local type `edge` of `createMazeKruskal`: the wall of the room
`(x, y)` on its side `dir`. -/
structure edge where
  x : Int
  y : Int
  dir : Int
deriving DecidableEq, Repr

/-- The room of the edge (`thisCoor`). -/
def edge.thisCoor (e : edge) : Coordinate := ⟨e.x, e.y⟩

/-- The room on the other side of the edge (`nextCoor`). -/
def edge.nextCoor (e : edge) : Coordinate :=
  ⟨e.x + (Delta e.dir).X, e.y + (Delta e.dir).Y⟩

/-- The loop "create edges" (lines 394-404). -/
def kruskalEdges (xSize ySize : Nat) : List edge :=
  (List.range xSize).flatMap (fun (x : Nat) =>
    (List.range ySize).flatMap (fun (y : Nat) =>
      (if y > 0 then [(⟨x, y, N⟩ : edge)] else []) ++ (if x > 0 then [⟨x, y, W⟩] else [])))

/-- The loop "shuffle the edges" (lines 407-410) from index `i` on, for the
remaining `n` indices; `rand i` is the value drawn for `rand.Intn(i + 1)`,
reduced into range. -/
def shuffleEdgesFrom (rand : Nat → Nat) : Nat → Nat → List edge → List edge
  | 0, _, s => s
  | n + 1, i, s => shuffleEdgesFrom rand n (i + 1) (swapAt s i (rand i % (i + 1)))

/-- The nondeterministic choices of `createMazeKruskal`: the draws of the
shuffle, and, at the edge of index `i`, the order of the range over `sets` and
the order of the range over `nextSet`. -/
structure KruskalChoice where
  rand : Nat → Nat
  setsOrder : Nat → List Int → List Int
  mergeOrder : Nat → List Coordinate → List Coordinate

/-- Every range visits each key of its map exactly once. -/
def KruskalChoice.Fair (κ : KruskalChoice) : Prop :=
  (∀ i l, (κ.setsOrder i l).Perm l) ∧ ∀ i l, (κ.mergeOrder i l).Perm l

/-- No swap in the shuffle, and the ranges in the order of the association lists. -/
def KruskalChoice.id : KruskalChoice := ⟨fun i => i, fun _ l => l, fun _ l => l⟩

/-- The loop `for id, m := range sets` (lines 419-430) over the ids `order`;
the accumulator is `(thisSetID, nextSetID)`. -/
def findSets (sets : IdMap (GoMap Int)) (thisCoor nextCoor : Coordinate) :
    List Int → Int × Int → Int × Int
  | [], acc => acc
  | id :: rest, acc =>
    let m : GoMap Int := (sets.get? id).getD []
    let thisSetID := if (GoMap.get? m thisCoor).isSome then id else acc.1
    let nextSetID := if (GoMap.get? m nextCoor).isSome then id else acc.2
    if thisSetID ≥ 0 ∧ nextSetID ≥ 0 then (thisSetID, nextSetID)
    else findSets sets thisCoor nextCoor rest (thisSetID, nextSetID)

/-- The loop `for k, v := range nextSet { thisSet[k] = v }` over the keys `order`. -/
def absorbSet (nextSet : GoMap Int) (order : List Coordinate) (thisSet : GoMap Int) : GoMap Int :=
  order.foldl (fun acc k => GoMap.set acc k ((GoMap.get? nextSet k).getD 0)) thisSet

/-- Lines 432-456: the map `sets` after the edge of index `i`, whose rooms
were found in the sets `thisSetID` and `nextSetID`, has been joined; `none` is
the panic of an assignment to an entry of a nil map. -/
def joinSets (mergeOrder : List Coordinate → List Coordinate) (i : Nat)
    (thisCoor nextCoor : Coordinate) (thisSetID nextSetID : Int)
    (sets : IdMap (GoMap Int)) : Option (IdMap (GoMap Int)) :=
  if thisSetID = nextSetID ∧ thisSetID = -1 then
    some (sets.set i (GoMap.set (GoMap.set [] thisCoor 0) nextCoor 0))
  else if thisSetID = -1 then
    match sets.get? nextSetID with
    | none => none
    | some nextSet => some (sets.set nextSetID (GoMap.set nextSet thisCoor 0))
  else if nextSetID = -1 then
    match sets.get? thisSetID with
    | none => none
    | some thisSet => some (sets.set thisSetID (GoMap.set thisSet nextCoor 0))
  else
    match sets.get? thisSetID, sets.get? nextSetID with
    | some thisSet, some nextSet =>
      some ((sets.set thisSetID (absorbSet nextSet (mergeOrder nextSet.keys) thisSet)).delete
        nextSetID)
    | some _, none => some (sets.delete nextSetID)
    | none, some nextSet => if nextSet.length = 0 then some (sets.delete nextSetID) else none
    | none, none => some (sets.delete nextSetID)

/-- The variables `sets` and `m.rooms` of `createMazeKruskal`. -/
structure KruskalState where
  sets : IdMap (GoMap Int)
  rooms : List (List Room)
deriving DecidableEq, Repr

/-- The body of the loop `for i, edge := range edges` (lines 414-461). -/
def kruskalStep (κ : KruskalChoice) (i : Nat) (e : edge) (s : KruskalState) :
    Option KruskalState :=
  let ids := findSets s.sets e.thisCoor e.nextCoor (κ.setsOrder i s.sets.keys) (-1, -1)
  if ids.1 = ids.2 ∧ ids.1 ≠ -1 then some s
  else
    match joinSets (κ.mergeOrder i) i e.thisCoor e.nextCoor ids.1 ids.2 s.sets with
    | none => none
    | some sets1 =>
      match updateRoom s.rooms e.thisCoor.X e.thisCoor.Y (fun r => r.RmWall e.dir) with
      | none => none
      | some rooms1 =>
        match updateRoom rooms1 e.nextCoor.X e.nextCoor.Y
            (fun r => r.RmWall (Opposite e.dir)) with
        | none => none
        | some rooms2 => some ⟨sets1, rooms2⟩

/-- The loop `for i, edge := range edges` from index `i` on. -/
def kruskalLoop (κ : KruskalChoice) : Nat → List edge → KruskalState → Option KruskalState
  | _, [], s => some s
  | i, e :: rest, s =>
    match kruskalStep κ i e s with
    | none => none
    | some s1 => kruskalLoop κ (i + 1) rest s1

/-- createMazeKruskal creates a maze based on Kruskal's algorithm, for the
configured width and height; `none` is a panic. -/
def createMazeKruskal (κ : KruskalChoice) (width height : Nat) : Option Maze :=
  match fullMaze width height with
  | none => none
  | some m =>
    match m.rooms.head? with
    | none => none
    | some row0 =>
      let xSize := row0.length
      let ySize := m.rooms.length
      let edges := kruskalEdges xSize ySize
      let shuffled := shuffleEdgesFrom κ.rand edges.length 0 edges
      match kruskalLoop κ 0 shuffled ⟨[], m.rooms⟩ with
      | none => none
      | some s => some { m with rooms := s.rooms }

/-! ## Perfect mazes -/

/-- `m.Reach a b`: the room at `b` can be reached from the room at `a` through
sides without a wall, without leaving the maze. -/
inductive Maze.Reach (m : Maze) : Coordinate → Coordinate → Prop
  | refl (a : Coordinate) : Maze.Reach m a a
  | step {a b : Coordinate} (dir : Int) : Maze.Reach m a b →
      (dir = N ∨ dir = S ∨ dir = E ∨ dir = W) → wallAt (m.walls b) dir = false →
      (m.roomAt (neighbour b dir)).isSome → Maze.Reach m a (neighbour b dir)

/-- The number of rooms of the maze (with the start at `(0, 0)`) without a wall
on the side `dir`. -/
def Maze.openSides (m : Maze) (dir : Int) : Nat :=
  cellsWhere (fun c => !wallAt (m.walls c) dir) 0 (m.Width - 1) 0 (m.Height - 1)

/-! ## The Kruskal maze: specification vocabulary -/

/-- The room read by `rooms[y][x]`. -/
def cellAt (rooms : List (List Room)) (x y : Int) : Room :=
  (rooms.getD y.toNat []).getD x.toNat default

/-- The rooms form `h` rows of `w` rooms. -/
def Dims (rooms : List (List Room)) (w h : Nat) : Prop :=
  rooms.length = h ∧ ∀ row ∈ rooms, row.length = w

/-- The coordinate is a key of the set stored under `id`. -/
def InSet (sets : IdMap (GoMap Int)) (id : Int) (c : Coordinate) : Prop :=
  ∃ m, sets.get? id = some m ∧ c ∈ m.keys

/-- The two rooms are joined by a chain of the edges `O`, each taken in either
direction. -/
def Linked (O : List edge) : Coordinate → Coordinate → Prop :=
  Relation.EqvGen (fun a b => ∃ e ∈ O, a = e.thisCoor ∧ b = e.nextCoor)

/-- The walls of `h` rows of `w` rooms when the walls removed are those of the
edges `O`, each on its two sides. -/
def WallsOf (O : List edge) (rooms : List (List Room)) (w h : Nat) : Prop :=
  Dims rooms w h ∧ ∀ x y : Int, 0 ≤ x → x < w → 0 ≤ y → y < h →
    (cellAt rooms x y).Walls =
      ⟨decide (⟨x, y, N⟩ ∉ O), decide (⟨x + 1, y, W⟩ ∉ O), decide (⟨x, y + 1, N⟩ ∉ O),
        decide (⟨x, y, W⟩ ∉ O)⟩

/-- The number of coordinates held by the sets. -/
def totalSize (sets : IdMap (GoMap Int)) : Nat :=
  (sets.map (fun p => p.2.length)).sum

/-- The invariant of the loop over the edges in `createMazeKruskal`, when the
edges `done` have been handled, `i` of them, and the walls of the edges `O`
removed. -/
structure SetsInv (done : List edge) (i : Nat) (sets : IdMap (GoMap Int)) (O : List edge) :
    Prop where
  ids : ∀ id ∈ sets.keys, 0 ≤ id ∧ id < i
  nodupIds : sets.keys.Nodup
  inner : ∀ id m, sets.get? id = some m → m.keys.Nodup
  nonempty : ∀ id m, sets.get? id = some m → m ≠ []
  disjoint : ∀ id1 id2 c, InSet sets id1 c → InSet sets id2 c → id1 = id2
  members : ∀ id c, InSet sets id c → ∃ e ∈ O, c = e.thisCoor ∨ c = e.nextCoor
  count : O.length + sets.length = totalSize sets
  joined : ∀ e ∈ done, ∃ id, InSet sets id e.thisCoor ∧ InSet sets id e.nextCoor
  linked : ∀ id a b, InSet sets id a → InSet sets id b → Linked O a b
  sub : ∀ e ∈ O, e ∈ done
  nodupO : O.Nodup

/-- The edge whose removal opens the side `dir` of the room at `c`. -/
def wallEdge (c : Coordinate) (dir : Int) : edge :=
  if dir = N then ⟨c.X, c.Y, N⟩
  else if dir = S then ⟨c.X, c.Y + 1, N⟩
  else if dir = E then ⟨c.X + 1, c.Y, W⟩
  else ⟨c.X, c.Y, W⟩

/-- A corridor with a bend: from the start at `(0, 0)` east to `(1, 0)` and south
to the treasure at `(1, 1)`; the room at `(0, 1)` is walled on every side. -/
def bendMaze : Maze :=
  ⟨[[⟨false, true, false, ⟨true, false, true, true⟩⟩,
     ⟨false, false, false, ⟨true, true, false, false⟩⟩],
    [⟨false, false, false, ⟨true, true, true, true⟩⟩,
     ⟨true, false, false, ⟨false, true, true, true⟩⟩]], ⟨0, 0⟩, ⟨1, 1⟩, ⟨0, 0⟩, 0⟩

/-! ## commands/daedalus.go and ztest/runmaze.go: the moves with the statistics -/

/-- The statistics update of `LookAround` at the treasure (lines 230-232 of
`commands/daedalus.go`): `ms := mazeStats[(mCount-1)/100]`, `ms.steps +=
m.StepsTaken`, `ms.times++`, the entry being shared through its pointer; `none`
is the panic of an index out of range. -/
def recordVictory (g : MazeStats) (stepsTaken : Int) : Option MazeStats :=
  let i := Int.tdiv ((g.mCount : Int) - 1) 100
  if i < 0 then none
  else
    match g.mazeStats[i.toNat]? with
    | none => none
    | some ms =>
      some { g with mazeStats :=
        g.mazeStats.set i.toNat { ms with steps := ms.steps + stepsTaken, times := ms.times + 1 } }

/-- LookAround of `commands/daedalus.go` (lines 227-239), with the package
variables it updates: the variables after the call, the survey and the error;
`none` is a panic. -/
def commands.LookAround (m : Maze) (g : MazeStats) : Option (MazeStats × Survey × Option GoError) :=
  if m.finish.X = m.icarus.X ∧ m.finish.Y = m.icarus.Y then
    match recordVictory g m.StepsTaken with
    | none => none
    | some g1 => some (g1, default, some .ErrVictory)
  else some (g, m.Discover m.icarus.X m.icarus.Y)

/-- LookAround of `ztest/runmaze.go` (lines 77-89): the statistics are updated
only `if mCount > 0`. -/
def ztest.LookAround (m : Maze) (g : MazeStats) : Option (MazeStats × Survey × Option GoError) :=
  if m.finish.X = m.icarus.X ∧ m.finish.Y = m.icarus.Y then
    if g.mCount > 0 then
      match recordVictory g m.StepsTaken with
      | none => none
      | some g1 => some (g1, default, some .ErrVictory)
    else some (g, default, some .ErrVictory)
  else some (g, m.Discover m.icarus.X m.icarus.Y)

/-- The body shared by the four moves of a package, whose `LookAround` is
`look`: the package variables and the maze after the call, and the error
returned; `none` is a panic. -/
def moveIntoWith (look : Maze → MazeStats → Option (MazeStats × Survey × Option GoError))
    (m : Maze) (g : MazeStats) (wall : Survey → Bool) (x y : Int) :
    Option (MazeStats × Maze × Option GoError) :=
  match look m g with
  | none => none
  | some (g1, _, some e) => some (g1, m, some e)
  | some (g1, s, none) =>
    if wall s then some (g1, m, some (.other "Can't walk through walls"))
    else
      match m.GetRoom x y with
      | none => some (g1, m, some (.other "room outside of maze boundaries"))
      | some _ => some (g1, { m with icarus := ⟨x, y⟩, StepsTaken := m.StepsTaken + 1 }, none)

/-- MoveLeft of `commands/daedalus.go`. -/
def commands.MoveLeft (m : Maze) (g : MazeStats) : Option (MazeStats × Maze × Option GoError) :=
  moveIntoWith commands.LookAround m g (fun s => s.Left) (m.icarus.X - 1) m.icarus.Y

/-- MoveRight of `commands/daedalus.go`. -/
def commands.MoveRight (m : Maze) (g : MazeStats) : Option (MazeStats × Maze × Option GoError) :=
  moveIntoWith commands.LookAround m g (fun s => s.Right) (m.icarus.X + 1) m.icarus.Y

/-- MoveUp of `commands/daedalus.go`. -/
def commands.MoveUp (m : Maze) (g : MazeStats) : Option (MazeStats × Maze × Option GoError) :=
  moveIntoWith commands.LookAround m g (fun s => s.Top) m.icarus.X (m.icarus.Y - 1)

/-- MoveDown of `commands/daedalus.go`. -/
def commands.MoveDown (m : Maze) (g : MazeStats) : Option (MazeStats × Maze × Option GoError) :=
  moveIntoWith commands.LookAround m g (fun s => s.Bottom) m.icarus.X (m.icarus.Y + 1)

/-- MoveLeft of `ztest/runmaze.go`. -/
def ztest.MoveLeft (m : Maze) (g : MazeStats) : Option (MazeStats × Maze × Option GoError) :=
  moveIntoWith ztest.LookAround m g (fun s => s.Left) (m.icarus.X - 1) m.icarus.Y

/-- MoveRight of `ztest/runmaze.go`. -/
def ztest.MoveRight (m : Maze) (g : MazeStats) : Option (MazeStats × Maze × Option GoError) :=
  moveIntoWith ztest.LookAround m g (fun s => s.Right) (m.icarus.X + 1) m.icarus.Y

/-- MoveUp of `ztest/runmaze.go`. -/
def ztest.MoveUp (m : Maze) (g : MazeStats) : Option (MazeStats × Maze × Option GoError) :=
  moveIntoWith ztest.LookAround m g (fun s => s.Top) m.icarus.X (m.icarus.Y - 1)

/-- MoveDown of `ztest/runmaze.go`. -/
def ztest.MoveDown (m : Maze) (g : MazeStats) : Option (MazeStats × Maze × Option GoError) :=
  moveIntoWith ztest.LookAround m g (fun s => s.Bottom) m.icarus.X (m.icarus.Y + 1)

/-- A sequence of calls of moves, each on the maze and the package variables
the one before has left, the errors dropped; `none` when one of them panics. -/
def runMoves :
    List (Maze → MazeStats → Option (MazeStats × Maze × Option GoError)) → Maze → MazeStats →
      Option (MazeStats × Maze)
  | [], m, g => some (g, m)
  | f :: rest, m, g =>
    match f m g with
    | none => none
    | some (g1, m1, _) => runMoves rest m1 g1

/-- The entry `mazeStats[(mCount-1)/100]` exists: the statistics of the batch
of the current maze, appended by `getMaze` and by `makeMaze`. -/
def MazeStats.Ready (g : MazeStats) : Prop :=
  Int.tdiv ((g.mCount : Int) - 1) 100 < (g.mazeStats.length : Int)

instance (g : MazeStats) : Decidable g.Ready :=
  inferInstanceAs (Decidable (Int.tdiv ((g.mCount : Int) - 1) 100 < (g.mazeStats.length : Int)))

/-- The package variables as `getMaze` and `makeMaze` keep them: one entry of
statistics for every batch of 100 mazes begun. -/
def MazeStats.Batches (g : MazeStats) : Prop :=
  g.mazeStats.length = (g.mCount + 99) / 100

/-- The four moves of `commands/daedalus.go`. -/
def commands.moves : List (Maze → MazeStats → Option (MazeStats × Maze × Option GoError)) :=
  [commands.MoveLeft, commands.MoveRight, commands.MoveUp, commands.MoveDown]

/-- The four moves of `ztest/runmaze.go`. -/
def ztest.moves : List (Maze → MazeStats → Option (MazeStats × Maze × Option GoError)) :=
  [ztest.MoveLeft, ztest.MoveRight, ztest.MoveUp, ztest.MoveDown]

/-- The maze `twoRooms` with Icarus at the treasure, after one step. -/
def twoRoomsEnd : Maze := { twoRooms with icarus := ⟨1, 0⟩, StepsTaken := 1 }

/-! ## solver.go: coordinates as machine integers -/

/-- The value a Go `int` of `bits` bits takes for the mathematical result `z`
of an addition or a subtraction: the representative of `z` modulo `2 ^ bits`
between `-2 ^ (bits - 1)` and `2 ^ (bits - 1) - 1`. -/
def wrapInt (bits : Nat) (z : Int) : Int :=
  (z + 2 ^ (bits - 1)) % 2 ^ bits - 2 ^ (bits - 1)

/-- The integer `z` is a value of a Go `int` of `bits` bits. -/
def IsInt (bits : Nat) (z : Int) : Prop :=
  -(2 ^ (bits - 1)) ≤ z ∧ z < 2 ^ (bits - 1)

/-- directionToMove on `int`s of `bits` bits: the differences `dx` and `dy`
wrap around. -/
def directionToMoveInt (bits : Nat) (src dest : Coordinate) : Int :=
  let dx := wrapInt bits (dest.X - src.X)
  let dy := wrapInt bits (dest.Y - src.Y)
  if dx = 1 ∧ dy = 0 then E
  else if dx = -1 ∧ dy = 0 then W
  else if dx = 0 ∧ dy = 1 then S
  else if dx = 0 ∧ dy = -1 then N
  else 0

/-- updatePosition on `int`s of `bits` bits: `newy--`, `newy++`, `newx++` and
`newx--` wrap around. -/
def updatePositionInt (bits : Nat) (cx cy direction : Int) : Int × Int :=
  if direction = N then (cx, wrapInt bits (cy - 1))
  else if direction = S then (cx, wrapInt bits (cy + 1))
  else if direction = E then (wrapInt bits (cx + 1), cy)
  else if direction = W then (wrapInt bits (cx - 1), cy)
  else (cx, cy)

/-- The coordinate `c + Delta[d]` on `int`s of `bits` bits. -/
def neighbourInt (bits : Nat) (c : Coordinate) (d : Int) : Coordinate :=
  ⟨wrapInt bits (c.X + (Delta d).X), wrapInt bits (c.Y + (Delta d).Y)⟩

/-- The unexplored-region count of a candidate `p` next to `(cx, cy)` in the
words of the specification: the number of cells that are no key of the visited
map in the band over the full width from the top boundary down to the row of a
north candidate, from the row of a south candidate down to the bottom boundary,
and, in the same way, over the full height from the column of an east
candidate to the right boundary and from the left boundary to the column of a
west candidate. -/
def regionCount (b : bounds) (cx cy : Int) (p : Coordinate) (visited : GoMap Bool) : Nat :=
  if p.Y = cy - 1 then cellsWhere (fun c => (visited.get? c).isNone) b.xmin b.xmax b.ymin p.Y
  else if p.Y = cy + 1 then cellsWhere (fun c => (visited.get? c).isNone) b.xmin b.xmax p.Y b.ymax
  else if p.X = cx + 1 then cellsWhere (fun c => (visited.get? c).isNone) p.X b.xmax b.ymin b.ymax
  else if p.X = cx - 1 then cellsWhere (fun c => (visited.get? c).isNone) b.xmin p.X b.ymin b.ymax
  else 0

/-! # Theorems -/

/-! ## Go maps -/

namespace GoMap

variable {V : Type}

@[simp] theorem get?_nil (k : Coordinate) : get? ([] : GoMap V) k = none := rfl

theorem get?_cons (k' : Coordinate) (v : V) (t : GoMap V) (k : Coordinate) :
    get? ((k', v) :: t) k = if k' = k then some v else get? t k := rfl

theorem get?_set_self (m : GoMap V) (k : Coordinate) (v : V) : get? (set m k v) k = some v := by
  induction m with
  | nil => simp [set, get?]
  | cons e t ih =>
    obtain ⟨k', v'⟩ := e
    by_cases h : k' = k
    · simp [set, get?, h]
    · simp [set, get?, h, ih]

theorem get?_set_ne (m : GoMap V) {k k1 : Coordinate} (v : V) (h : k ≠ k1) :
    get? (set m k v) k1 = get? m k1 := by
  induction m with
  | nil => simp [set, get?, h]
  | cons e t ih =>
    obtain ⟨k', v'⟩ := e
    by_cases h' : k' = k
    · subst h'; simp [set, get?, h]
    · by_cases h2 : k' = k1
      · subst h2; simp [set, get?, h']
      · simp [set, get?, h', h2, ih]

theorem get?_set (m : GoMap V) (k k1 : Coordinate) (v : V) :
    get? (set m k v) k1 = if k = k1 then some v else get? m k1 := by
  by_cases h : k = k1
  · subst h; simp [get?_set_self]
  · simp [h, get?_set_ne]

theorem get?_delete_self (m : GoMap V) (k : Coordinate) : get? (delete m k) k = none := by
  induction m with
  | nil => rfl
  | cons e t ih =>
    obtain ⟨k', v'⟩ := e
    by_cases h : k' = k
    · simp [delete, h, ih]
    · simp [delete, h, get?, ih]

theorem get?_delete_ne (m : GoMap V) {k k1 : Coordinate} (h : k ≠ k1) :
    get? (delete m k) k1 = get? m k1 := by
  induction m with
  | nil => rfl
  | cons e t ih =>
    obtain ⟨k', v'⟩ := e
    by_cases h' : k' = k
    · subst h'; simp [delete, get?, h, ih]
    · by_cases h2 : k' = k1
      · subst h2; simp [delete, get?, h']
      · simp [delete, get?, h', h2, ih]

theorem get?_delete (m : GoMap V) (k k1 : Coordinate) :
    get? (delete m k) k1 = if k = k1 then none else get? m k1 := by
  by_cases h : k = k1
  · subst h; simp [get?_delete_self]
  · simp [h, get?_delete_ne]

theorem mem_keys_iff (m : GoMap V) (k : Coordinate) : k ∈ keys m ↔ (get? m k).isSome := by
  induction m with
  | nil => simp [keys]
  | cons e t ih =>
    obtain ⟨k', v'⟩ := e
    by_cases h : k' = k
    · simp [keys, get?, h]
    · have h' : ¬ k = k' := fun h0 => h h0.symm
      simp only [keys, List.map_cons, List.mem_cons, get?, h, if_false, h', false_or]
      simpa [keys] using ih

theorem get?_eq_none_iff (m : GoMap V) (k : Coordinate) : get? m k = none ↔ k ∉ keys m := by
  rw [mem_keys_iff]; cases get? m k <;> simp

theorem keys_set_of_mem (m : GoMap V) (k : Coordinate) (v : V) (h : k ∈ keys m) :
    keys (set m k v) = keys m := by
  induction m with
  | nil => simp [keys] at h
  | cons e t ih =>
    obtain ⟨k', v'⟩ := e
    by_cases h' : k' = k
    · simp [set, keys, h']
    · have : k ∈ keys t := by
        simp only [keys, List.map_cons, List.mem_cons] at h
        rcases h with h | h
        · exact absurd h.symm h'
        · exact h
      simp only [set, h', if_false, keys, List.map_cons]
      congr 1
      exact ih this

theorem length_set_of_mem (m : GoMap V) (k : Coordinate) (v : V) (h : k ∈ keys m) :
    (set m k v).length = m.length := by
  have := congrArg List.length (keys_set_of_mem m k v h)
  simpa [keys] using this

end GoMap

/-! ## cleanUpJunctions -/

theorem otherPaths_idem (cx cy : Int) (paths : List Coordinate) :
    otherPaths cx cy (otherPaths cx cy paths) = otherPaths cx cy paths := by
  simp [otherPaths, List.filter_filter]

theorem mem_otherPaths {cx cy : Int} {paths : List Coordinate} {p : Coordinate} :
    p ∈ otherPaths cx cy paths ↔ p ∈ paths ∧ p ≠ ⟨cx, cy⟩ := by
  obtain ⟨x, y⟩ := p
  simp only [otherPaths, List.mem_filter, decide_eq_true_eq, ne_eq, Coordinate.mk.injEq]
  constructor
  · rintro ⟨h1, h2⟩
    exact ⟨h1, fun h => by rcases h2 with h2 | h2 <;> simp_all⟩
  · rintro ⟨h1, h2⟩
    refine ⟨h1, ?_⟩
    by_cases hx : x = cx
    · right; intro hy; exact h2 ⟨hx, hy⟩
    · left; exact hx

theorem otherPaths_eq_self {cx cy : Int} {paths : List Coordinate}
    (h : ¬ (otherPaths cx cy paths).length < paths.length) : otherPaths cx cy paths = paths := by
  apply List.Sublist.eq_of_length
  · exact List.filter_sublist paths
  · have := List.length_filter_le (fun path => decide (path.X ≠ cx ∨ path.Y ≠ cy)) paths
    unfold otherPaths at h ⊢
    omega

theorem cleanEntry_idem (cx cy : Int) (o : Option (List Coordinate)) :
    cleanEntry cx cy (cleanEntry cx cy o) = cleanEntry cx cy o := by
  cases o with
  | none => rfl
  | some paths =>
    by_cases h : otherPaths cx cy paths = []
    · simp [cleanEntry, h]
    · simp [cleanEntry, h, otherPaths_idem]

theorem cleanUpStep_get? (cx cy : Int) (j : adjacencyMap) (k k1 : Coordinate) :
    (cleanUpStep cx cy j k).get? k1 =
      if k = k1 then cleanEntry cx cy (j.get? k) else j.get? k1 := by
  unfold cleanUpStep
  cases hk : j.get? k with
  | none =>
    by_cases h : k = k1
    · subst h; simp [hk, cleanEntry]
    · simp [h]
  | some paths =>
    simp only []
    by_cases hlen : (otherPaths cx cy paths).length = 0
    · rw [if_pos hlen, GoMap.get?_delete]
      have : otherPaths cx cy paths = [] := List.length_eq_zero.mp hlen
      simp [cleanEntry, this]
    · rw [if_neg hlen]
      have hne : otherPaths cx cy paths ≠ [] := fun h0 => hlen (by rw [h0]; rfl)
      by_cases hlt : (otherPaths cx cy paths).length < paths.length
      · rw [if_pos hlt, GoMap.get?_set]
        simp [cleanEntry, hne]
      · rw [if_neg hlt]
        have heq := otherPaths_eq_self hlt
        by_cases h : k = k1
        · subst h
          simp only [cleanEntry, if_true, hk]
          rw [if_neg hne, heq]
        · simp [h]

theorem cleanUpJunctions_get? (cx cy : Int) (order : List Coordinate) (j : adjacencyMap)
    (k : Coordinate) :
    (cleanUpJunctions cx cy order j).get? k =
      if k ∈ order then cleanEntry cx cy (j.get? k) else j.get? k := by
  unfold cleanUpJunctions
  induction order generalizing j with
  | nil => simp
  | cons a rest ih =>
    rw [List.foldl_cons, ih, cleanUpStep_get?]
    by_cases h1 : a = k
    · subst h1
      simp [cleanEntry_idem]
    · have h1' : ¬ k = a := fun h => h1 h.symm
      simp [h1, h1']

theorem cleanEntry_ne_nil {cx cy : Int} {o : Option (List Coordinate)} {paths : List Coordinate}
    (h : cleanEntry cx cy o = some paths) : paths ≠ [] := by
  cases o with
  | none => simp [cleanEntry] at h
  | some l =>
    by_cases h0 : otherPaths cx cy l = []
    · simp [cleanEntry, h0] at h
    · simp only [cleanEntry, h0, if_false, Option.some.injEq] at h
      rw [← h]; exact h0

theorem cleanEntry_mem {cx cy : Int} {o : Option (List Coordinate)} {paths : List Coordinate}
    (h : cleanEntry cx cy o = some paths) {p : Coordinate} (hp : p ∈ paths) :
    p ≠ ⟨cx, cy⟩ ∧ ∃ l, o = some l ∧ p ∈ l := by
  cases o with
  | none => simp [cleanEntry] at h
  | some l =>
    by_cases h0 : otherPaths cx cy l = []
    · simp [cleanEntry, h0] at h
    · simp only [cleanEntry, h0, if_false, Option.some.injEq] at h
      rw [← h, mem_otherPaths] at hp
      exact ⟨hp.2, l, rfl, hp.1⟩

/-- With every key visited by the range, `cleanUpJunctions` is `cleanEntry` at each key. -/
theorem cleanUpJunctions_get?_fair (cx cy : Int) (order : List Coordinate) (j : adjacencyMap)
    (hfair : order.Perm j.keys) (k : Coordinate) :
    (cleanUpJunctions cx cy order j).get? k = cleanEntry cx cy (j.get? k) := by
  rw [cleanUpJunctions_get?]
  by_cases hk : k ∈ order
  · simp [hk]
  · have : k ∉ j.keys := fun h => hk (hfair.mem_iff.mpr h)
    have hn := (GoMap.get?_eq_none_iff j k).mpr this
    simp [hk, hn, cleanEntry]

/-! ## Shuffle -/

theorem swapAt_perm {α : Type} [DecidableEq α] (s : List α) (i j : Nat) :
    (swapAt s i j).Perm s := by
  unfold swapAt
  cases hi : s.get? i with
  | none => simp
  | some a =>
    cases hj : s.get? j with
    | none => simp
    | some b =>
      simp only []
      rw [List.get?_eq_getElem?] at hi hj
      obtain ⟨hil, hia⟩ := List.getElem?_eq_some_iff.mp hi
      obtain ⟨hjl, hjb⟩ := List.getElem?_eq_some_iff.mp hj
      rw [List.perm_iff_count]
      intro x
      have hjl' : j < (s.set i b).length := by simpa using hjl
      rw [List.count_set _ _ _ _ hjl', List.count_set _ _ _ _ hil]
      have h1 : (s.set i b)[j] = b := by
        by_cases hij : i = j
        · subst hij; simp
        · rw [List.getElem_set_ne hij]; exact hjb
      rw [h1, hia]
      have h2 : (if a == x then 1 else 0) ≤ s.count x := by
        by_cases hax : a = x
        · subst hax
          simp only [beq_self_eq_true, if_true]
          have : a ∈ s := by rw [← hia]; exact List.getElem_mem _
          exact List.count_pos_iff.mpr this
        · simp [hax]
      omega

theorem shuffleFrom_perm (rand : Nat → Nat) (n i : Nat) (s : List Int) :
    (shuffleFrom rand n i s).Perm s := by
  induction n generalizing i s with
  | zero => simp [shuffleFrom]
  | succ n ih =>
    simp only [shuffleFrom]
    exact (ih _ _).trans (swapAt_perm _ _ _)

theorem Shuffle_perm (rand : Nat → Nat) (s : List Int) : (Shuffle rand s).Perm s :=
  shuffleFrom_perm rand _ _ s

/-! ## Directions and positions -/

theorem mem_openDirs {survey : Survey} {d : Int} (h : d ∈ openDirs survey) :
    d = N ∨ d = S ∨ d = E ∨ d = W := by
  simp only [openDirs, List.mem_append] at h
  rcases h with ((h | h) | h) | h <;> split at h <;> simp at h <;> simp [h]

theorem adjacent_delta (c : Coordinate) {d : Int} (h : d = N ∨ d = S ∨ d = E ∨ d = W) :
    Adjacent c ⟨c.X + (Delta d).X, c.Y + (Delta d).Y⟩ := by
  rcases h with h | h | h | h <;> subst h <;> simp [Adjacent, Delta, N, S, E, W]

theorem adjacent_cases {p q : Coordinate} (h : Adjacent p q) :
    (q.X = p.X + 1 ∧ q.Y = p.Y) ∨ (q.X = p.X - 1 ∧ q.Y = p.Y) ∨
      (q.X = p.X ∧ q.Y = p.Y + 1) ∨ (q.X = p.X ∧ q.Y = p.Y - 1) := by
  unfold Adjacent at h
  omega

theorem updatePosition_directionToMove {p q : Coordinate} (h : Adjacent p q) :
    updatePosition p.X p.Y (directionToMove p q) = (q.X, q.Y) := by
  rcases adjacent_cases h with ⟨h1, h2⟩ | ⟨h1, h2⟩ | ⟨h1, h2⟩ | ⟨h1, h2⟩ <;>
    simp [directionToMove, updatePosition, h1, h2, N, S, E, W]

theorem scanDirs_fst (cx cy : Int) (dirs : List Int) (acc : List Coordinate × bounds) :
    (scanDirs cx cy dirs acc).1 =
      acc.1 ++ dirs.map (fun dir => (⟨cx + (Delta dir).X, cy + (Delta dir).Y⟩ : Coordinate)) := by
  induction dirs generalizing acc with
  | nil => simp [scanDirs]
  | cons d rest ih => simp [scanDirs, ih]

/-- The candidate coordinates of a survey step are adjacent to the current one. -/
theorem recordSurvey_paths (ch : Choice) (st : SolverState) (survey : Survey) {p : Coordinate}
    (hp : p ∈ (recordSurvey ch st survey).2) :
    isVisited st.visited p = false ∧ Adjacent st.pos p := by
  simp only [recordSurvey, List.mem_filter, scanDirs_fst, List.nil_append, List.mem_map] at hp
  obtain ⟨⟨d, hd, rfl⟩, hv⟩ := hp
  refine ⟨by simpa using hv, ?_⟩
  have hd' := (Shuffle_perm ch.rand (openDirs survey)).mem_iff.mp hd
  exact adjacent_delta st.pos (mem_openDirs hd')

theorem recordSurvey_frame (ch : Choice) (st : SolverState) (survey : Survey) :
    (recordSurvey ch st survey).1.cx = st.cx ∧ (recordSurvey ch st survey).1.cy = st.cy ∧
      (recordSurvey ch st survey).1.junctions = st.junctions ∧
      (recordSurvey ch st survey).1.visited = st.visited := by
  simp [recordSurvey]

theorem priortisePaths_perm (b : bounds) (cx cy : Int) (paths : List Coordinate)
    (visited : GoMap Bool) : (priortisePaths b cx cy paths visited).Perm paths := by
  unfold priortisePaths
  split
  · exact List.Perm.refl _
  · exact swapAt_perm _ _ _

theorem isVisited_set (v : GoMap Bool) (k p : Coordinate) :
    isVisited (v.set k true) p = (decide (k = p) || isVisited v p) := by
  simp only [isVisited, GoMap.get?_set]
  by_cases h : k = p <;> simp [h]

/-! ## The invariant of the runs -/

theorem moveTo_pos (ch : Choice) (st : SolverState) {q : Coordinate} (h : Adjacent st.pos q) :
    (moveTo ch st (directionToMove st.pos q)).pos = q := by
  have := updatePosition_directionToMove h
  simp only [SolverState.pos] at this ⊢
  simp [moveTo, this]

theorem moveTo_visited (ch : Choice) (st : SolverState) (d : Int) :
    (moveTo ch st d).visited = st.visited := rfl

theorem moveTo_table (ch : Choice) (hfair : ch.Fair) (st : SolverState) {q : Coordinate}
    (hadj : Adjacent st.pos q) (ht : TableOk st.junctions st.visited) :
    TableOk (moveTo ch st (directionToMove st.pos q)).junctions st.visited ∧
      ∀ k paths, (moveTo ch st (directionToMove st.pos q)).junctions.get? k = some paths →
        q ∉ paths := by
  have hup := updatePosition_directionToMove hadj
  simp only [SolverState.pos] at hup
  have hj : ∀ k, (moveTo ch st (directionToMove st.pos q)).junctions.get? k =
      cleanEntry q.X q.Y (st.junctions.get? k) := by
    intro k
    simp only [moveTo, SolverState.pos, hup]
    exact cleanUpJunctions_get?_fair _ _ _ _ (hfair.2 _) k
  refine ⟨⟨?_, ?_, ?_, ?_⟩, ?_⟩
  · intro k paths hk
    rw [hj] at hk
    exact cleanEntry_ne_nil hk
  · intro k paths hk p hp
    rw [hj] at hk
    obtain ⟨_, l, hl, hpl⟩ := cleanEntry_mem hk hp
    exact ht.fresh k l hl p hpl
  · intro k paths hk p hp
    rw [hj] at hk
    obtain ⟨_, l, hl, hpl⟩ := cleanEntry_mem hk hp
    exact ht.adjacent k l hl p hpl
  · intro k paths hk
    rw [hj] at hk
    cases hl : st.junctions.get? k with
    | none => rw [hl] at hk; simp [cleanEntry] at hk
    | some l => exact ht.keys k l hl
  · intro k paths hk hq
    rw [hj] at hk
    exact (cleanEntry_mem hk hq).1 rfl

theorem tableOk_set {j : adjacencyMap} {v : GoMap Bool} (ht : TableOk j v) {c : Coordinate}
    {l : List Coordinate} (hne : l ≠ []) (hfresh : ∀ p ∈ l, isVisited v p = false)
    (hadj : ∀ p ∈ l, Adjacent c p) (hc : isVisited v c = true) : TableOk (j.set c l) v := by
  refine ⟨?_, ?_, ?_, ?_⟩
  · intro k paths hk
    rw [GoMap.get?_set] at hk
    split at hk
    · simp only [Option.some.injEq] at hk; rw [← hk]; exact hne
    · exact ht.nonempty k paths hk
  · intro k paths hk
    rw [GoMap.get?_set] at hk
    split at hk
    · simp only [Option.some.injEq] at hk; rw [← hk]; exact hfresh
    · exact ht.fresh k paths hk
  · intro k paths hk
    rw [GoMap.get?_set] at hk
    split at hk
    · rename_i hck
      simp only [Option.some.injEq] at hk; rw [← hk, ← hck]; exact hadj
    · exact ht.adjacent k paths hk
  · intro k paths hk
    rw [GoMap.get?_set] at hk
    split at hk
    · rename_i hck
      rw [← hck]; exact hc
    · exact ht.keys k paths hk

/-- The configuration after the replay loop, or one more step of it. -/
theorem replayFrom_inv (ch : Choice) (hfair : ch.Fair) (st : SolverState) (rest : List Int)
    (h : List Coordinate) (ht : TableOk st.junctions st.visited)
    (hh : ∀ p ∈ h, isVisited st.visited p = true) (hn : h.Nodup) :
    RunInv (replayFrom ch st rest) h := by
  cases rest with
  | cons dir rest =>
    simp only [replayFrom]
    exact ⟨ht, hh, hn, by simp, by simp⟩
  | nil =>
    simp only [replayFrom]
    cases hl : (st.junctions.get? ⟨st.cx, st.cy⟩).getD [] with
    | nil => exact ⟨ht, hh, hn, by simp, by simp⟩
    | cons nextCoor tl =>
      simp only []
      have hsome : st.junctions.get? st.pos = some (nextCoor :: tl) := by
        cases hg : st.junctions.get? ⟨st.cx, st.cy⟩ with
        | none => rw [hg] at hl; simp at hl
        | some l => rw [hg] at hl; simp at hl; simp [SolverState.pos, hg, hl]
      have hadj : Adjacent st.pos nextCoor := ht.adjacent _ _ hsome _ (List.mem_cons_self _ _)
      have hfr : isVisited st.visited nextCoor = false :=
        ht.fresh _ _ hsome _ (List.mem_cons_self _ _)
      obtain ⟨ht', hnot⟩ := moveTo_table ch hfair st hadj ht
      have hpos := moveTo_pos ch st hadj
      change RunInv ⟨.sendNext (directionToMove st.pos nextCoor),
        moveTo ch st (directionToMove st.pos nextCoor)⟩ h
      refine ⟨ht', hh, hn, by simp, ?_⟩
      intro d _
      simp only [hpos, moveTo_visited]
      exact ⟨hfr, hnot⟩

theorem chooseMove_inv (ch : Choice) (hfair : ch.Fair) (st : SolverState)
    (uvPaths : List Coordinate) (h : List Coordinate) (ht : TableOk st.junctions st.visited)
    (hh : ∀ p ∈ h, isVisited st.visited p = true) (hn : h.Nodup)
    (hpos : isVisited st.visited st.pos = true)
    (huv : ∀ p ∈ uvPaths, isVisited st.visited p = false ∧ Adjacent st.pos p) :
    RunInv (chooseMove ch st uvPaths) h := by
  unfold chooseMove
  by_cases h0 : uvPaths.length = 0
  · rw [if_pos h0]
    cases hsp : shortestPath ch.route st.cx st.cy st.graph st.junctions with
    | error f => exact ⟨ht, hh, hn, by simp, by simp⟩
    | ok dirs =>
      cases dirs with
      | nil => exact ⟨ht, hh, hn, by simp, by simp⟩
      | cons dir rest => exact replayFrom_inv ch hfair st (dir :: rest) h ht hh hn
  · rw [if_neg h0]
    simp only []
    have hperm := priortisePaths_perm st.boundary st.cx st.cy uvPaths st.visited
    set uv := priortisePaths st.boundary st.cx st.cy uvPaths st.visited with huvdef
    have hlen : uv.length = uvPaths.length := hperm.length_eq
    have huv' : ∀ p ∈ uv, isVisited st.visited p = false ∧ Adjacent st.pos p :=
      fun p hp => huv p (hperm.mem_iff.mp hp)
    obtain ⟨x, tl, hxtl⟩ : ∃ x tl, uv = x :: tl := by
      cases huvl : uv with
      | nil => rw [huvl] at hlen; simp at hlen; exact absurd hlen.symm h0
      | cons x tl => exact ⟨x, tl, rfl⟩
    rw [hxtl]
    simp only [List.headD_cons, List.drop_succ_cons, List.drop_zero]
    have hx := huv' x (by rw [hxtl]; exact List.mem_cons_self _ _)
    set st1 : SolverState := { st with junctions :=
      if uvPaths.length > 1 then st.junctions.set ⟨st.cx, st.cy⟩ tl else st.junctions } with hst1
    have ht1 : TableOk st1.junctions st1.visited := by
      simp only [hst1]
      split
      · rename_i hgt
        apply tableOk_set ht
        · intro htl
          rw [hxtl, htl] at hlen
          simp at hlen
          omega
        · intro p hp; exact (huv' p (by rw [hxtl]; exact List.mem_cons_of_mem _ hp)).1
        · intro p hp; exact (huv' p (by rw [hxtl]; exact List.mem_cons_of_mem _ hp)).2
        · exact hpos
      · exact ht
    have hadj : Adjacent st1.pos x := hx.2
    obtain ⟨ht', hnot⟩ := moveTo_table ch hfair st1 hadj ht1
    have hp' := moveTo_pos ch st1 hadj
    change RunInv ⟨.sendNext (directionToMove st1.pos x),
      moveTo ch st1 (directionToMove st1.pos x)⟩ h
    refine ⟨ht', hh, hn, by simp, ?_⟩
    intro d _
    simp only [hp', moveTo_visited]
    exact ⟨hx.1, hnot⟩

theorem run_inv {c : Config} {h : List Coordinate} (hrun : Run c h) : RunInv c h := by
  induction hrun with
  | init =>
    refine ⟨⟨?_, ?_, ?_, ?_⟩, ?_, ?_, ?_, ?_⟩ <;>
      simp [initConfig, loopHead, GoMap.get?, isVisited, SolverState.pos, GoMap.set]
  | @recv c h ch reply _ hfair ih =>
    unfold Mazelib.recv surveyedAfter
    cases hctl : c.ctl with
    | recvTop =>
      simp only [true_and]
      by_cases hv : reply.Err = some .ErrVictory
      · simp only [hv, if_true, ne_eq, not_true_eq_false, if_false]
        exact ⟨ih.table, ih.hist, ih.nodup, by simp, by simp⟩
      · simp only [hv, if_false, ne_eq, not_false_eq_true, if_true]
        obtain ⟨f1, f2, f3, f4⟩ := recordSurvey_frame ch c.st reply.Survey
        have htop := ih.atTop hctl
        apply chooseMove_inv ch hfair
        · rw [f3, f4]; exact ih.table
        · intro p hp
          rw [f4]
          rcases List.mem_cons.mp hp with hp | hp
          · rw [hp]; exact htop.1
          · exact ih.hist p hp
        · exact List.nodup_cons.mpr ⟨htop.2, ih.nodup⟩
        · rw [f4]; simp only [SolverState.pos, f1, f2]; exact htop.1
        · intro p hp
          have := recordSurvey_paths ch c.st reply.Survey hp
          rw [f4]; simp only [SolverState.pos, f1, f2]; exact this
    | recvBack rest =>
      simp only [false_and, if_false]
      exact replayFrom_inv ch hfair c.st rest h ih.table ih.hist ih.nodup
    | sendBack d rest =>
      simp only [false_and, if_false]
      exact ⟨ih.table, ih.hist, ih.nodup, by simp [hctl], by simp [hctl]⟩
    | sendNext d =>
      simp only [false_and, if_false]
      exact ⟨ih.table, ih.hist, ih.nodup, by simp [hctl], fun d' _ => ih.atNext d hctl⟩
    | closed =>
      simp only [false_and, if_false]
      exact ⟨ih.table, ih.hist, ih.nodup, by simp [hctl], by simp [hctl]⟩
    | crashed f =>
      simp only [false_and, if_false]
      exact ⟨ih.table, ih.hist, ih.nodup, by simp [hctl], by simp [hctl]⟩
  | @send c c' h d _ hs ih =>
    unfold Mazelib.send at hs
    cases hctl : c.ctl with
    | sendBack dir rest =>
      simp only [hctl, Option.some.injEq, Prod.mk.injEq] at hs
      obtain ⟨_, rfl⟩ := hs
      exact ⟨ih.table, ih.hist, ih.nodup, by simp, by simp⟩
    | sendNext dir =>
      simp only [hctl, Option.some.injEq, Prod.mk.injEq] at hs
      obtain ⟨_, rfl⟩ := hs
      obtain ⟨hfr, hnot⟩ := ih.atNext dir hctl
      have hvis : ∀ p, isVisited (c.st.visited.set ⟨c.st.cx, c.st.cy⟩ true) p =
          (decide (c.st.pos = p) || isVisited c.st.visited p) := fun p => isVisited_set _ _ _
      refine ⟨⟨ih.table.nonempty, ?_, ih.table.adjacent, ?_⟩, ?_, ih.nodup, ?_, by simp [loopHead]⟩
      · intro k paths hk p hp
        simp only [loopHead] at hk ⊢
        rw [hvis]
        have h1 := ih.table.fresh k paths hk p hp
        have h2 : c.st.pos ≠ p := fun heq => hnot k paths hk (heq ▸ hp)
        simp [h1, h2]
      · intro k paths hk
        simp only [loopHead] at hk ⊢
        rw [hvis]; simp [ih.table.keys k paths hk]
      · intro p hp
        simp only [loopHead]
        rw [hvis]; simp [ih.hist p hp]
      · intro _
        simp only [loopHead]
        refine ⟨by rw [hvis]; simp [SolverState.pos], ?_⟩
        intro hmem
        have := ih.hist _ hmem
        simp only [SolverState.pos] at this hfr
        rw [hfr] at this
        exact absurd this (by simp)
    | recvTop => simp [hctl] at hs
    | recvBack rest => simp [hctl] at hs
    | closed => simp [hctl] at hs
    | crashed f => simp [hctl] at hs

theorem rangeOrder_id_fair : RangeOrder.id.Fair :=
  ⟨fun _ l => List.Perm.refl l, fun l => List.Perm.refl l⟩

theorem choice_id_fair : Choice.id.Fair :=
  ⟨rangeOrder_id_fair, fun l => List.Perm.refl l⟩

theorem cornerConfig_run : Run cornerConfig [⟨0, 0⟩] :=
  Run.recv Choice.id ⟨cornerSurvey, none⟩ Run.init choice_id_fair

theorem cornerConfig_eq : cornerConfig =
    ⟨.sendNext S, ⟨0, 1, [(⟨0, 0⟩, [⟨0, 1⟩, ⟨1, 0⟩]), (⟨0, 1⟩, [⟨0, 0⟩]), (⟨1, 0⟩, [⟨0, 0⟩])],
      [(⟨0, 0⟩, [⟨1, 0⟩])], [(⟨0, 0⟩, true)], ⟨0, 0, 1, 1⟩, 2, 2⟩⟩ := by
  decide

theorem replayFrom_sendNext_pos (ch : Choice) (st : SolverState) (rest : List Int) (d : Int)
    (hd : (replayFrom ch st rest).ctl = .sendNext d) :
    ((replayFrom ch st rest).st.cx, (replayFrom ch st rest).st.cy) =
      updatePosition st.cx st.cy d := by
  cases rest with
  | cons d' r => simp [replayFrom] at hd
  | nil =>
    simp only [replayFrom] at hd ⊢
    split at hd
    · simp at hd
    · rename_i hl
      simp only [Ctl.sendNext.injEq] at hd
      simp only [moveTo, hd]

theorem chooseMove_sendNext_pos (ch : Choice) (st : SolverState) (uv : List Coordinate) (d : Int)
    (hd : (chooseMove ch st uv).ctl = .sendNext d) :
    ((chooseMove ch st uv).st.cx, (chooseMove ch st uv).st.cy) = updatePosition st.cx st.cy d := by
  unfold chooseMove at hd ⊢
  by_cases h0 : uv.length = 0
  · rw [if_pos h0] at hd ⊢
    cases hsp : shortestPath ch.route st.cx st.cy st.graph st.junctions with
    | error f => rw [hsp] at hd; simp at hd
    | ok dirs =>
      cases dirs with
      | nil => rw [hsp] at hd; simp at hd
      | cons dir rest => rw [hsp] at hd; simp [replayFrom] at hd
  · rw [if_neg h0] at hd ⊢
    simp only [Ctl.sendNext.injEq] at hd
    simp only [moveTo, hd]

theorem recv_sendNext_pos (ch : Choice) (reply : MazeReply) (c : Config) (d : Int)
    (hne : c.ctl ≠ .sendNext d) (hd : (recv ch reply c).ctl = .sendNext d) :
    ((recv ch reply c).st.cx, (recv ch reply c).st.cy) = updatePosition c.st.cx c.st.cy d := by
  unfold Mazelib.recv at hd ⊢
  cases hctl : c.ctl with
  | recvTop =>
    rw [hctl] at hd
    simp only [] at hd ⊢
    obtain ⟨f1, f2, _, _⟩ := recordSurvey_frame ch c.st reply.Survey
    by_cases hv : reply.Err = some .ErrVictory
    · rw [if_pos hv] at hd; simp at hd
    · rw [if_neg hv] at hd ⊢
      rw [chooseMove_sendNext_pos ch _ _ d hd, f1, f2]
  | recvBack rest =>
    rw [hctl] at hd
    exact replayFrom_sendNext_pos ch c.st rest d hd
  | sendBack d' rest => rw [hctl] at hd; simp only [] at hd; exact absurd hd hne
  | sendNext d' => rw [hctl] at hd; simp only [] at hd; exact absurd hd hne
  | closed => rw [hctl] at hd; simp only [] at hd; exact absurd hd hne
  | crashed f => rw [hctl] at hd; simp only [] at hd; exact absurd hd hne

/-! ## The graph along a run -/

theorem mem_adjacent_set (g : adjacencyMap) (c k n : Coordinate) (l : List Coordinate) :
    n ∈ adjacent (g.set c l) k ↔ if c = k then n ∈ l else n ∈ adjacent g k := by
  unfold adjacent
  rw [GoMap.get?_set]
  by_cases h : c = k <;> simp [h]

theorem mem_adjacent_addReverse (c : Coordinate) (g : adjacencyMap) (paths : List Coordinate)
    (k n : Coordinate) :
    n ∈ adjacent (addReverse c g paths) k ↔ n ∈ adjacent g k ∨ (n = c ∧ k ∈ paths) := by
  induction paths generalizing g with
  | nil => simp [addReverse]
  | cons p rest ih =>
    rw [addReverse, ih, mem_adjacent_set]
    by_cases h : p = k
    · subst h
      simp only [if_true, List.mem_append, List.mem_singleton, List.mem_cons, true_or, and_true]
      unfold adjacent
      tauto
    · have h' : ¬ k = p := fun h0 => h h0.symm
      simp only [h, if_false, List.mem_cons, h', false_or]

theorem mem_openDirs_iff (survey : Survey) (d : Int) :
    d ∈ openDirs survey ↔ (d = N ∨ d = S ∨ d = E ∨ d = W) ∧ wallAt survey d = false := by
  obtain ⟨t, r, b, l⟩ := survey
  constructor
  · intro h
    refine ⟨mem_openDirs h, ?_⟩
    simp only [openDirs, List.mem_append] at h
    rcases h with ((h | h) | h) | h <;> split at h <;> simp at h <;>
      simp_all [wallAt, N, S, E, W]
  · rintro ⟨h | h | h | h, hw⟩ <;> subst h <;>
      simp_all [wallAt, openDirs, N, S, E, W]

/-- The candidate coordinates of a survey are the neighbours behind its open sides. -/
theorem mem_scanned_paths (ch : Choice) (st : SolverState) (survey : Survey) (n : Coordinate) :
    n ∈ (scanDirs st.cx st.cy (Shuffle ch.rand (openDirs survey)) ([], st.boundary)).1 ↔
      ∃ dir, (dir = N ∨ dir = S ∨ dir = E ∨ dir = W) ∧ n = neighbour st.pos dir ∧
        wallAt survey dir = false := by
  rw [scanDirs_fst]
  simp only [List.nil_append, List.mem_map]
  constructor
  · rintro ⟨d, hd, rfl⟩
    have hd' := (Shuffle_perm ch.rand (openDirs survey)).mem_iff.mp hd
    rw [mem_openDirs_iff] at hd'
    exact ⟨d, hd'.1, rfl, hd'.2⟩
  · rintro ⟨d, hd, rfl, hw⟩
    refine ⟨d, ?_, rfl⟩
    exact (Shuffle_perm ch.rand (openDirs survey)).mem_iff.mpr ((mem_openDirs_iff _ _).mpr ⟨hd, hw⟩)

theorem recordSurvey_graph (ch : Choice) (st : SolverState) (survey : Survey) (k n : Coordinate) :
    n ∈ adjacent (recordSurvey ch st survey).1.graph k ↔
      (if st.pos = k then
          ∃ dir, (dir = N ∨ dir = S ∨ dir = E ∨ dir = W) ∧ n = neighbour k dir ∧
            wallAt survey dir = false
        else n ∈ adjacent st.graph k) ∨
      (n = st.pos ∧ ∃ dir, (dir = N ∨ dir = S ∨ dir = E ∨ dir = W) ∧ k = neighbour st.pos dir ∧
        wallAt survey dir = false) := by
  simp only [recordSurvey]
  rw [mem_adjacent_addReverse, mem_adjacent_set, mem_scanned_paths, mem_scanned_paths]
  by_cases h : st.pos = k
  · have h' : ({ X := st.cx, Y := st.cy } : Coordinate) = k := h
    simp only [h, h', if_true]
  · have h' : ¬ ({ X := st.cx, Y := st.cy } : Coordinate) = k := h
    simp only [h, h', if_false]
    rfl

theorem opposite_dir {d : Int} (h : d = N ∨ d = S ∨ d = E ∨ d = W) :
    Opposite d = N ∨ Opposite d = S ∨ Opposite d = E ∨ Opposite d = W := by
  rcases h with h | h | h | h <;> subst h <;> simp [Opposite, N, S, E, W]

theorem neighbour_opposite (c : Coordinate) {d : Int} (h : d = N ∨ d = S ∨ d = E ∨ d = W) :
    neighbour (neighbour c d) (Opposite d) = c := by
  rcases h with h | h | h | h <;> subst h <;>
    simp [neighbour, Opposite, Delta, N, S, E, W]

theorem chooseMove_graph (ch : Choice) (st : SolverState) (uv : List Coordinate) :
    (chooseMove ch st uv).st.graph = st.graph := by
  unfold chooseMove
  split
  · split
    · rfl
    · rfl
    · rfl
  · rfl

theorem replayFrom_graph (ch : Choice) (st : SolverState) (rest : List Int) :
    (replayFrom ch st rest).st.graph = st.graph := by
  cases rest with
  | cons d r => rfl
  | nil =>
    simp only [replayFrom]
    split <;> rfl

theorem send_graph {c c' : Config} {d : Int} (h : send c = some (d, c')) :
    c'.st.graph = c.st.graph := by
  unfold Mazelib.send at h
  split at h
  · simp only [Option.some.injEq, Prod.mk.injEq] at h; rw [← h.2]
  · simp only [Option.some.injEq, Prod.mk.injEq] at h; rw [← h.2]; rfl
  · simp at h

/-- The graph after a receive: unchanged, or the one `recordSurvey` leaves. -/
theorem recv_graph (ch : Choice) (reply : MazeReply) (c : Config) :
    (recv ch reply c).st.graph =
      if c.ctl = .recvTop ∧ reply.Err ≠ some .ErrVictory then
        (recordSurvey ch c.st reply.Survey).1.graph
      else c.st.graph := by
  unfold Mazelib.recv
  cases hctl : c.ctl with
  | recvTop =>
    by_cases hv : reply.Err = some .ErrVictory
    · simp [hv]
    · simp only [hv, if_false, true_and, ne_eq, not_false_eq_true, if_true]
      exact chooseMove_graph _ _ _
  | recvBack rest => simp [replayFrom_graph]
  | sendBack d rest => simp
  | sendNext d => simp
  | closed => simp
  | crashed f => simp

theorem edgesOpen_recordSurvey (w : Walls) (hw : w.Consistent) (ch : Choice) (st : SolverState)
    (h : EdgesOpen w st.graph) : EdgesOpen w (recordSurvey ch st (w st.pos)).1.graph := by
  intro k n hn
  rw [recordSurvey_graph] at hn
  rcases hn with hn | ⟨rfl, dir, hd, rfl, hwall⟩
  · by_cases hk : st.pos = k
    · rw [if_pos hk] at hn
      rw [← hk]; rw [← hk] at hn; exact hn
    · rw [if_neg hk] at hn
      exact h k n hn
  · refine ⟨Opposite dir, opposite_dir hd, (neighbour_opposite _ hd).symm, ?_⟩
    rw [hw _ _ hd]; exact hwall

theorem stepsOn_edgesOpen (w : Walls) (hw : w.Consistent) {c c' : Config}
    (hs : StepsOn w c c') (h : EdgesOpen w c.st.graph) : EdgesOpen w c'.st.graph := by
  induction hs with
  | refl => exact h
  | @recv c1 ch reply _ hfair hfed ih =>
    rw [recv_graph]
    split
    · rename_i hc
      rw [hfed hc.1 hc.2]
      exact edgesOpen_recordSurvey w hw ch _ ih
    · exact ih
  | send _ hsend ih =>
    rw [send_graph hsend]; exact ih

theorem edgesOpen_init (w : Walls) : EdgesOpen w initConfig.st.graph := by
  intro k n hn
  simp [initConfig, loopHead, adjacent, GoMap.get?] at hn

/-- On consistent walls a receive keeps every edge of the graph. -/
theorem recv_keeps_edges (w : Walls) (ch : Choice) (reply : MazeReply) (c : Config)
    (hopen : EdgesOpen w c.st.graph)
    (hfed : c.ctl = .recvTop → reply.Err ≠ some .ErrVictory → reply.Survey = w c.st.pos)
    (k n : Coordinate) (hn : n ∈ adjacent c.st.graph k) :
    n ∈ adjacent (recv ch reply c).st.graph k := by
  rw [recv_graph]
  split
  · rename_i hc
    rw [recordSurvey_graph]
    left
    by_cases hk : c.st.pos = k
    · rw [if_pos hk]
      obtain ⟨dir, hd, hnb, hwall⟩ := hopen k n hn
      refine ⟨dir, hd, hnb, ?_⟩
      rw [hfed hc.1 hc.2, hk]; exact hwall
    · rw [if_neg hk]; exact hn
  · exact hn

/-! ## Example runs, and `shortestPath` on a single room -/

theorem stepsOn_trans {w : Walls} {a b c : Config} (h1 : StepsOn w a b) (h2 : StepsOn w b c) :
    StepsOn w a c := by
  induction h2 with
  | refl => exact h1
  | recv ch reply _ hfair hfed ih => exact StepsOn.recv ch reply ih hfair hfed
  | send _ hs ih => exact StepsOn.send ih hs

theorem afterSend_stepsOn (w : Walls) (c : Config) : StepsOn w c (afterSend c) := by
  unfold afterSend
  cases h : send c with
  | none => exact StepsOn.refl c
  | some p =>
    obtain ⟨d, c1⟩ := p
    exact StepsOn.send (StepsOn.refl c) h

theorem routeDirections_replicate (c : Coordinate) (n : Nat) :
    routeDirections c (List.replicate n c) = List.replicate n 0 := by
  induction n with
  | zero => rfl
  | succ n ih =>
    simp only [List.replicate_succ, routeDirections, ih]
    simp [directionToMove]

theorem buildRoute_source (source : Coordinate) (nodes : GoMap node) (n : Nat)
    (route : List Coordinate) : buildRoute source nodes n source route = .ok route := by
  unfold buildRoute
  simp

theorem dijkstra_loneGraph :
    dijkstra RangeOrder.id 0 0 loneGraph [] = .ok [(⟨0, 0⟩, ⟨true, 0, ⟨0, 0⟩⟩)] := by
  decide

theorem shortestPath_loneGraph :
    shortestPath RangeOrder.id 0 0 loneGraph [] = .ok (List.replicate infinity 0) := by
  unfold shortestPath
  rw [dijkstra_loneGraph]
  simp only [RangeOrder.id, GoMap.keys, List.map_nil, nearestJunction]
  rw [show (default : Coordinate) = ⟨0, 0⟩ from rfl, buildRoute_source]
  simp only [routeDirections_replicate]

theorem replicate_infinity (x : Int) :
    List.replicate infinity x = x :: List.replicate 999999 x := by
  rw [show infinity = 999999 + 1 from rfl, List.replicate_succ]

theorem recv_survey (ch : Choice) (reply : MazeReply) (c : Config) (htop : c.ctl = .recvTop)
    (hv : reply.Err ≠ some .ErrVictory) :
    recv ch reply c =
      chooseMove ch (recordSurvey ch c.st reply.Survey).1 (recordSurvey ch c.st reply.Survey).2 := by
  unfold Mazelib.recv
  rw [htop]
  simp only [hv, if_false]

theorem chooseMove_deadEnd (ch : Choice) (st : SolverState) (d : Int) (rest : List Int)
    (h : shortestPath ch.route st.cx st.cy st.graph st.junctions = .ok (d :: rest)) :
    chooseMove ch st [] = replayFrom ch st (d :: rest) := by
  unfold chooseMove
  simp only [List.length_nil, if_true]
  rw [h]

theorem replayFrom_cons_ctl (ch : Choice) (st : SolverState) (d : Int) (rest : List Int) :
    (replayFrom ch st (d :: rest)).ctl = .sendBack d rest := rfl

theorem openWalls_consistent : openWalls.Consistent := by
  intro c dir h
  rcases h with h | h | h | h <;> subst h <;> rfl

theorem openConfig_stepsOn : StepsOn openWalls initConfig openConfig :=
  stepsOn_trans
    (StepsOn.recv Choice.id ⟨openWalls ⟨0, 0⟩, none⟩ (StepsOn.refl _) choice_id_fair
      (fun _ _ => rfl))
    (afterSend_stepsOn _ _)

theorem openConfig2_stepsOn : StepsOn openWalls openConfig openConfig2 :=
  stepsOn_trans
    (StepsOn.recv Choice.id ⟨openWalls openConfig.st.pos, none⟩ (StepsOn.refl _) choice_id_fair
      (fun _ _ => rfl))
    (afterSend_stepsOn _ _)

/-! ## Dijkstra: nextNodeID and the relaxation loop -/

theorem nextNodeStep_spec (nodes : GoMap node) (acc : Bool × Nat × Coordinate) (k : Coordinate)
    (hacc : AccOk nodes acc) :
    AccOk nodes (nextNodeStep nodes acc k) ∧ (nextNodeStep nodes acc k).2.1 ≤ acc.2.1 ∧
      ∀ nd, nodes.get? k = some nd → nd.processed = false →
        (nextNodeStep nodes acc k).2.1 ≤ nd.dist := by
  unfold nextNodeStep
  cases hk : nodes.get? k with
  | none => exact ⟨hacc, le_refl _, fun nd h => by simp at h⟩
  | some nd =>
    simp only []
    by_cases hc : nd.processed = false ∧ nd.dist < acc.2.1
    · rw [if_pos hc]
      refine ⟨⟨?_, ?_, ?_⟩, ?_, ?_⟩
      · exact le_trans (le_of_lt hc.2) hacc.1
      · intro _
        exact ⟨nd, hk, hc.1, rfl, lt_of_lt_of_le hc.2 hacc.1⟩
      · intro h; simp at h
      · exact le_of_lt hc.2
      · intro nd' h' _
        simp only [Option.some.injEq] at h'
        rw [← h']
    · rw [if_neg hc]
      refine ⟨hacc, le_refl _, ?_⟩
      intro nd' h' hp
      simp only [Option.some.injEq] at h'
      rw [← h'] at hp ⊢
      by_contra hlt
      exact hc ⟨hp, not_le.mp hlt⟩

theorem nextNode_fold_spec (nodes : GoMap node) (order : List Coordinate)
    (acc : Bool × Nat × Coordinate) (hacc : AccOk nodes acc) :
    AccOk nodes (order.foldl (nextNodeStep nodes) acc) ∧
      (order.foldl (nextNodeStep nodes) acc).2.1 ≤ acc.2.1 ∧
      ∀ k ∈ order, ∀ nd, nodes.get? k = some nd → nd.processed = false →
        (order.foldl (nextNodeStep nodes) acc).2.1 ≤ nd.dist := by
  induction order generalizing acc with
  | nil => exact ⟨hacc, le_refl _, fun k hk => by simp at hk⟩
  | cons a rest ih =>
    obtain ⟨h1, h2, h3⟩ := nextNodeStep_spec nodes acc a hacc
    obtain ⟨i1, i2, i3⟩ := ih (nextNodeStep nodes acc a) h1
    rw [List.foldl_cons]
    refine ⟨i1, le_trans i2 h2, ?_⟩
    intro k hk nd hnd hp
    rcases List.mem_cons.mp hk with rfl | hk
    · exact le_trans i2 (h3 nd hnd hp)
    · exact i3 k hk nd hnd hp

theorem accOk_init (nodes : GoMap node) : AccOk nodes (false, infinity, default) :=
  ⟨le_refl _, fun h => by simp at h, fun _ => rfl⟩

/-- An unprocessed node of least dist, below `infinity`, is what `nextNodeID` returns. -/
theorem nextNodeID_some {order : List Coordinate} {nodes : GoMap node} {cur : Coordinate}
    (h : nextNodeID order nodes = some cur) :
    ∃ c, nodes.get? cur = some c ∧ c.processed = false ∧ c.dist < infinity ∧
      ∀ k ∈ order, ∀ nd, nodes.get? k = some nd → nd.processed = false → c.dist ≤ nd.dist := by
  unfold nextNodeID at h
  obtain ⟨⟨_, h2, _⟩, _, h5⟩ := nextNode_fold_spec nodes order _ (accOk_init nodes)
  simp only [] at h
  split at h
  · rename_i hf
    simp only [Option.some.injEq] at h
    obtain ⟨nd, hnd, hp, hd, hlt⟩ := h2 hf
    rw [h] at hnd
    exact ⟨nd, hnd, hp, hlt, fun k hk nd' hnd' hp' => hd ▸ h5 k hk nd' hnd' hp'⟩
  · simp at h

/-- The error return of `nextNodeID`: no unprocessed node has a dist below `infinity`. -/
theorem nextNodeID_none {order : List Coordinate} {nodes : GoMap node}
    (h : nextNodeID order nodes = none) :
    ∀ k ∈ order, ∀ nd, nodes.get? k = some nd → nd.processed = false → infinity ≤ nd.dist := by
  unfold nextNodeID at h
  obtain ⟨⟨_, _, h3⟩, _, h5⟩ := nextNode_fold_spec nodes order _ (accOk_init nodes)
  simp only [] at h
  split at h
  · simp at h
  · rename_i hf
    intro k hk nd hnd hp
    have := h5 k hk nd hnd hp
    rw [h3 (by simpa using hf)] at this
    exact this

theorem get?_isSome_of_mem_keys {V : Type} {m : GoMap V} {k : Coordinate}
    (h : k ∈ m.keys) : ∃ v, m.get? k = some v := by
  have := (GoMap.mem_keys_iff m k).mp h
  exact Option.isSome_iff_exists.mp this

theorem mem_keys_of_get? {V : Type} {m : GoMap V} {k : Coordinate} {v : V}
    (h : m.get? k = some v) : k ∈ m.keys :=
  (GoMap.mem_keys_iff m k).mpr (by simp [h])

theorem relax_spec (cur : Coordinate) (c : node) (hc : c.processed = true)
    (nbs : List Coordinate) (nodes : GoMap node) (hcur : nodes.get? cur = some c)
    (hnbs : ∀ v ∈ nbs, v ∈ nodes.keys) :
    ∃ nodes', relax cur nodes nbs = .ok nodes' ∧ Relaxed nbs cur c.dist nodes nodes' := by
  induction nbs generalizing nodes with
  | nil =>
    exact ⟨nodes, rfl, rfl, fun v nv h => ⟨nv, h, Or.inl rfl⟩, fun v hv => by simp at hv⟩
  | cons nb rest ih =>
    obtain ⟨n, hn⟩ := get?_isSome_of_mem_keys (hnbs nb (List.mem_cons_self _ _))
    have hrest : ∀ v ∈ rest, v ∈ nodes.keys := fun v hv => hnbs v (List.mem_cons_of_mem _ hv)
    unfold relax
    rw [hn]
    simp only []
    by_cases hp : n.processed = true
    · rw [if_pos hp]
      obtain ⟨nodes', hr, hk, hs, hd⟩ := ih nodes hcur hrest
      refine ⟨nodes', hr, hk, ?_, ?_⟩
      · intro v nv hv
        obtain ⟨nv', h1, h2⟩ := hs v nv hv
        refine ⟨nv', h1, ?_⟩
        rcases h2 with h2 | ⟨a, b, c', d⟩
        · exact Or.inl h2
        · exact Or.inr ⟨a, List.mem_cons_of_mem _ b, c', d⟩
      · intro v hv nv' hv' hp'
        rcases List.mem_cons.mp hv with rfl | hv
        · obtain ⟨nv2, h1, h2⟩ := hs v n hn
          rw [hv'] at h1
          simp only [Option.some.injEq] at h1
          rcases h2 with h2 | ⟨a, _, _, _⟩
          · rw [h1, h2, hp] at hp'; simp at hp'
          · rw [hp] at a; simp at a
        · exact hd v hv nv' hv' hp'
    · rw [if_neg hp, hcur]
      simp only []
      have hp' : n.processed = false := by simpa using hp
      have hne : nb ≠ cur := by
        intro h
        rw [h, hcur] at hn
        simp only [Option.some.injEq] at hn
        rw [hn, hp'] at hc
        simp at hc
      by_cases hlt : c.dist + 1 < n.dist
      · rw [if_pos hlt]
        set nodes1 := nodes.set nb { n with dist := c.dist + 1, parent := cur } with hn1
        have hk1 : nodes1.keys = nodes.keys :=
          GoMap.keys_set_of_mem _ _ _ (mem_keys_of_get? hn)
        have hcur1 : nodes1.get? cur = some c := by
          rw [hn1, GoMap.get?_set_ne _ _ hne]; exact hcur
        obtain ⟨nodes', hr, hk, hs, hd⟩ := ih nodes1 hcur1 (fun v hv => hk1 ▸ hrest v hv)
        refine ⟨nodes', hr, hk.trans hk1, ?_, ?_⟩
        · intro v nv hv
          by_cases hvn : nb = v
          · subst hvn
            rw [hn] at hv
            simp only [Option.some.injEq] at hv
            subst hv
            have h1 : nodes1.get? nb = some { n with dist := c.dist + 1, parent := cur } := by
              rw [hn1, GoMap.get?_set_self]
            obtain ⟨nv', h2, h3⟩ := hs nb _ h1
            refine ⟨nv', h2, Or.inr ⟨hp', List.mem_cons_self _ _, hlt, ?_⟩⟩
            rcases h3 with h3 | ⟨_, _, h4, _⟩
            · exact h3
            · simp at h4
          · have h1 : nodes1.get? v = some nv := by
              rw [hn1, GoMap.get?_set_ne _ _ hvn]; exact hv
            obtain ⟨nv', h2, h3⟩ := hs v nv h1
            refine ⟨nv', h2, ?_⟩
            rcases h3 with h3 | ⟨a, b, c', d⟩
            · exact Or.inl h3
            · exact Or.inr ⟨a, List.mem_cons_of_mem _ b, c', d⟩
        · intro v hv nv' hv' hpv
          rcases List.mem_cons.mp hv with rfl | hv
          · have h1 : nodes1.get? v = some { n with dist := c.dist + 1, parent := cur } := by
              rw [hn1, GoMap.get?_set_self]
            obtain ⟨nv2, h2, h3⟩ := hs v _ h1
            rw [hv'] at h2
            simp only [Option.some.injEq] at h2
            rcases h3 with h3 | ⟨_, _, _, h4⟩
            · rw [h2, h3]
            · rw [h2, h4]
          · exact hd v hv nv' hv' hpv
      · rw [if_neg hlt]
        obtain ⟨nodes', hr, hk, hs, hd⟩ := ih nodes hcur hrest
        refine ⟨nodes', hr, hk, ?_, ?_⟩
        · intro v nv hv
          obtain ⟨nv', h1, h2⟩ := hs v nv hv
          refine ⟨nv', h1, ?_⟩
          rcases h2 with h2 | ⟨a, b, c', d⟩
          · exact Or.inl h2
          · exact Or.inr ⟨a, List.mem_cons_of_mem _ b, c', d⟩
        · intro v hv nv' hv' hpv
          rcases List.mem_cons.mp hv with rfl | hv
          · obtain ⟨nv2, h1, h2⟩ := hs v n hn
            rw [hv'] at h1
            simp only [Option.some.injEq] at h1
            rcases h2 with h2 | ⟨_, _, _, h4⟩
            · rw [h1, h2]; omega
            · rw [h1, h4]
          · exact hd v hv nv' hv' hpv

/-! ## Dijkstra: one iteration of the main loop -/

theorem iter_relax (g : adjacencyMap) (hg : GraphClosed g) (nodes : GoMap node)
    (hkeys : nodes.keys = g.keys) (cur : Coordinate) (c : node) (hcur : nodes.get? cur = some c) :
    ∃ nodes2, relax cur (nodes.set cur { c with processed := true }) (adjacent g cur) = .ok nodes2 ∧
      IterStep g cur c nodes nodes2 := by
  set nodes1 := nodes.set cur { c with processed := true } with hn1
  have hk1 : nodes1.keys = nodes.keys := GoMap.keys_set_of_mem _ _ _ (mem_keys_of_get? hcur)
  have hcur1 : nodes1.get? cur = some { c with processed := true } := by
    rw [hn1, GoMap.get?_set_self]
  obtain ⟨nodes2, hr, hk, hs, hd⟩ := relax_spec cur { c with processed := true } rfl
    (adjacent g cur) nodes1 hcur1 (fun v hv => by rw [hk1, hkeys]; exact hg cur v hv)
  refine ⟨nodes2, hr, hk.trans hk1, ?_, hd⟩
  intro v nv hv
  by_cases hvc : v = cur
  · subst hvc
    obtain ⟨nv2, h1, h2⟩ := hs v _ hcur1
    refine ⟨nv2, h1, Or.inl ⟨rfl, ?_⟩⟩
    rcases h2 with h2 | ⟨h3, _⟩
    · exact h2
    · simp at h3
  · have h1 : nodes1.get? v = some nv := by
      rw [hn1, GoMap.get?_set_ne _ _ (Ne.symm hvc)]; exact hv
    obtain ⟨nv2, h2, h3⟩ := hs v nv h1
    exact ⟨nv2, h2, Or.inr ⟨hvc, h3⟩⟩

theorem get?_of_keys_eq {V : Type} {m m' : GoMap V} (h : m'.keys = m.keys) {k : Coordinate}
    {v' : V} (hk : m'.get? k = some v') : ∃ v, m.get? k = some v :=
  get?_isSome_of_mem_keys (h ▸ mem_keys_of_get? hk)

theorem unprocessedCount_le (keys : List Coordinate) (nodes : GoMap node) :
    unprocessedCount keys nodes ≤ keys.length :=
  List.countP_le_length _

theorem countP_lt_of_imp {α : Type} (p q : α → Bool) (l : List α)
    (himp : ∀ x ∈ l, p x = true → q x = true) (a : α) (ha : a ∈ l) (hq : q a = true)
    (hp : p a = false) : l.countP p < l.countP q := by
  induction l with
  | nil => simp at ha
  | cons x t ih =>
    have hmono : t.countP p ≤ t.countP q :=
      List.countP_mono_left (fun y hy hpy => himp y (List.mem_cons_of_mem _ hy) hpy)
    rcases List.mem_cons.mp ha with rfl | hat
    · rw [List.countP_cons_of_neg _ _ (by simp [hp]), List.countP_cons_of_pos _ _ hq]
      omega
    · have ih' := ih (fun y hy => himp y (List.mem_cons_of_mem _ hy)) hat
      by_cases hpx : p x = true
      · rw [List.countP_cons_of_pos _ _ hpx,
          List.countP_cons_of_pos _ _ (himp x (List.mem_cons_self _ _) hpx)]
        omega
      · rw [List.countP_cons_of_neg _ _ hpx]
        by_cases hqx : q x = true
        · rw [List.countP_cons_of_pos _ _ hqx]; omega
        · rw [List.countP_cons_of_neg _ _ hqx]; exact ih'

theorem iter_count (g : adjacencyMap) (keys : List Coordinate) (nodes nodes2 : GoMap node)
    (cur : Coordinate) (c : node) (hcur : nodes.get? cur = some c) (hcp : c.processed = false)
    (hmem : cur ∈ keys) (hstep : IterStep g cur c nodes nodes2) :
    unprocessedCount keys nodes2 < unprocessedCount keys nodes := by
  obtain ⟨hk, hs, _⟩ := hstep
  unfold unprocessedCount
  apply countP_lt_of_imp _ _ keys _ cur hmem
  · simp [hcur, hcp]
  · obtain ⟨nv2, h1, h2⟩ := hs cur c hcur
    rcases h2 with ⟨_, h2⟩ | ⟨h2, _⟩
    · simp [h1, h2]
    · exact absurd rfl h2
  · intro v _ hv
    cases hv2 : nodes2.get? v with
    | none => rw [hv2] at hv; simp at hv
    | some nv2 =>
      rw [hv2] at hv
      simp only [Bool.not_eq_eq_eq_not, Bool.not_true] at hv
      obtain ⟨nv, hnv⟩ := get?_of_keys_eq hk hv2
      obtain ⟨nv2', h1, h2⟩ := hs v nv hnv
      rw [hv2] at h1
      simp only [Option.some.injEq] at h1
      subst h1
      rw [hnv]
      simp only [Bool.not_eq_eq_eq_not, Bool.not_true]
      rcases h2 with ⟨_, h2⟩ | ⟨_, h2 | ⟨h3, _⟩⟩
      · rw [h2] at hv; simp at hv
      · rw [← h2]; exact hv
      · exact h3

theorem iter_inv (g : adjacencyMap) (hg : GraphClosed g) (s : Coordinate) (nodes nodes2 : GoMap node)
    (inv : DijkstraInv g s nodes) (cur : Coordinate) (c : node)
    (hcur : nodes.get? cur = some c) (hcp : c.processed = false) (hcd : c.dist < infinity)
    (hmin : ∀ v nv, nodes.get? v = some nv → nv.processed = false → c.dist ≤ nv.dist)
    (hstep : IterStep g cur c nodes nodes2) : DijkstraInv g s nodes2 := by
  obtain ⟨hk, hs, hd⟩ := hstep
  -- every node of the new table comes from a node of the old one
  have back : ∀ v nv2, nodes2.get? v = some nv2 → ∃ nv, nodes.get? v = some nv ∧
      ((v = cur ∧ nv2 = { c with processed := true }) ∨
       (v ≠ cur ∧ (nv2 = nv ∨ (nv.processed = false ∧ v ∈ adjacent g cur ∧ c.dist + 1 < nv.dist ∧
          nv2 = { nv with dist := c.dist + 1, parent := cur })))) := by
    intro v nv2 hv2
    obtain ⟨nv, hv⟩ := get?_of_keys_eq hk hv2
    obtain ⟨nv2', h1, h2⟩ := hs v nv hv
    rw [hv2] at h1
    simp only [Option.some.injEq] at h1
    subst h1
    exact ⟨nv, hv, h2⟩
  have hcur2 : nodes2.get? cur = some { c with processed := true } := by
    obtain ⟨nv2, h1, h2⟩ := hs cur c hcur
    rcases h2 with ⟨_, h2⟩ | ⟨h2, _⟩
    · rw [h1, h2]
    · exact absurd rfl h2
  -- an old processed node is unchanged
  have keep : ∀ u nu, nodes.get? u = some nu → nu.processed = true → nodes2.get? u = some nu := by
    intro u nu hu hp
    obtain ⟨nu2, h1, h2⟩ := hs u nu hu
    rcases h2 with ⟨h2, _⟩ | ⟨_, h2 | ⟨h3, _⟩⟩
    · subst h2
      rw [hcur] at hu
      simp only [Option.some.injEq] at hu
      rw [← hu, hcp] at hp
      simp at hp
    · rw [h1, h2]
    · rw [h3] at hp; simp at hp
  have hcount : unprocessedCount g.keys nodes2 < unprocessedCount g.keys nodes :=
    iter_count g g.keys nodes nodes2 cur c hcur hcp (inv.keys ▸ mem_keys_of_get? hcur)
      ⟨hk, hs, hd⟩
  refine ⟨hk.trans inv.keys, ?_, ?_, ?_, ?_, ?_, ?_, ?_⟩
  · -- source
    obtain ⟨ns, hns, hns0⟩ := inv.source
    obtain ⟨ns2, h1, h2⟩ := hs s ns hns
    refine ⟨ns2, h1, ?_⟩
    rcases h2 with ⟨h2, h3⟩ | ⟨_, h3 | ⟨_, _, h4, _⟩⟩
    · subst h2
      rw [hcur] at hns
      simp only [Option.some.injEq] at hns
      rw [h3, hns]; exact hns0
    · rw [h3]; exact hns0
    · omega
  · -- le_inf
    intro v nv2 hv2
    obtain ⟨nv, hv, h2⟩ := back v nv2 hv2
    have := inv.le_inf v nv hv
    rcases h2 with ⟨_, h3⟩ | ⟨_, h3 | ⟨_, _, h4, h5⟩⟩
    · rw [h3]; exact le_of_lt hcd
    · rw [h3]; exact this
    · rw [h5]; simp only; omega
  · -- parent
    intro v nv2 hv2 hlt hvs
    obtain ⟨nv, hv, h2⟩ := back v nv2 hv2
    rcases h2 with ⟨h2, h3⟩ | ⟨_, h3 | ⟨_, h6, h4, h5⟩⟩
    · subst h2
      rw [hcur] at hv
      simp only [Option.some.injEq] at hv
      subst hv
      obtain ⟨pn, hp1, hp2, hp3, hp4⟩ := inv.parent v c hcur hcd hvs
      rw [h3]
      exact ⟨pn, keep _ pn hp1 hp2, hp2, hp3, hp4⟩
    · subst h3
      obtain ⟨pn, hp1, hp2, hp3, hp4⟩ := inv.parent v nv2 hv hlt hvs
      exact ⟨pn, keep _ pn hp1 hp2, hp2, hp3, hp4⟩
    · rw [h5]
      exact ⟨_, hcur2, rfl, rfl, h6⟩
  · -- unreached
    intro v nv2 hv2 hinf
    obtain ⟨nv, hv, h2⟩ := back v nv2 hv2
    rcases h2 with ⟨_, h3⟩ | ⟨_, h3 | ⟨_, _, h4, h5⟩⟩
    · rw [h3] at hinf; simp only at hinf; omega
    · subst h3; exact inv.unreached v nv2 hv hinf
    · rw [h5] at hinf; simp only at hinf
      have := inv.le_inf v nv hv
      omega
  · -- closed
    intro u nu2 hu2 hp w hw
    obtain ⟨nu, hu, h2⟩ := back u nu2 hu2
    obtain ⟨nw0, hnw0⟩ := get?_isSome_of_mem_keys (inv.keys ▸ hg u w hw)
    obtain ⟨nw2, hw2, hw3⟩ := hs w nw0 hnw0
    refine ⟨nw2, hw2, ?_⟩
    rcases h2 with ⟨h2, h3⟩ | ⟨hne, h3 | ⟨h3, _, _, h5⟩⟩
    · -- u is cur
      subst h2
      rw [h3]
      simp only
      by_cases hpw : nw2.processed = false
      · exact hd w hw nw2 hw2 hpw
      · have hpw' : nw2.processed = true := by simpa using hpw
        rcases hw3 with ⟨_, h4⟩ | ⟨hwc, h4 | ⟨_, _, _, h7⟩⟩
        · rw [h4]; simp
        · subst h4
          have := inv.mono w nw2 u c hnw0 hcur hpw' hcp
          omega
        · rw [h7] at hpw'
          simp only at hpw'
          rw [hpw'] at *
          simp_all
    · -- u is an old processed node
      subst h3
      obtain ⟨nw, h6, h7⟩ := inv.closed u nu2 hu hp w hw
      rw [hnw0] at h6
      simp only [Option.some.injEq] at h6
      subst h6
      rcases hw3 with ⟨hwc, h4⟩ | ⟨_, h4 | ⟨_, _, h8, h9⟩⟩
      · rw [h4]; simp only
        subst hwc
        rw [hcur] at hnw0
        simp only [Option.some.injEq] at hnw0
        rw [hnw0]; exact h7
      · rw [h4]; exact h7
      · rw [h9]; simp only
        have := inv.mono u nu2 cur c hu hcur hp hcp
        omega
    · rw [h5] at hp
      simp only at hp
      rw [h3] at hp; simp at hp
  · -- mono
    intro u nu2 v nv2 hu2 hv2 hpu hpv
    obtain ⟨nu, hu, h2⟩ := back u nu2 hu2
    obtain ⟨nv, hv, h3⟩ := back v nv2 hv2
    have hvold : nv.processed = false ∧ c.dist ≤ nv2.dist ∧ (nv2.dist = nv.dist ∨ nv2.dist = c.dist + 1) := by
      rcases h3 with ⟨_, h4⟩ | ⟨_, h4 | ⟨h5, _, _, h6⟩⟩
      · rw [h4] at hpv; simp at hpv
      · subst h4; exact ⟨hpv, hmin v nv2 hv hpv, Or.inl rfl⟩
      · refine ⟨h5, ?_, Or.inr ?_⟩
        · rw [h6]; simp
        · rw [h6]
    rcases h2 with ⟨_, h4⟩ | ⟨_, h4 | ⟨h5, _, _, h6⟩⟩
    · rw [h4]; exact hvold.2.1
    · subst h4
      have h7 := inv.mono u nu2 cur c hu hcur hpu hcp
      exact le_trans h7 hvold.2.1
    · rw [h6] at hpu
      simp only at hpu
      rw [h5] at hpu; simp at hpu
  · -- bound
    intro u nu2 hu2 hpu
    obtain ⟨nu, hu, h2⟩ := back u nu2 hu2
    have hlen := unprocessedCount_le g.keys nodes
    rcases h2 with ⟨h3, h4⟩ | ⟨_, h4 | ⟨h5, _, _, h6⟩⟩
    · rw [h4]
      simp only
      by_cases hus : u = s
      · obtain ⟨ns, hns, hns0⟩ := inv.source
        rw [← hus, h3, hcur] at hns
        simp only [Option.some.injEq] at hns
        rw [hns, hns0]
        omega
      · rw [h3] at hus
        obtain ⟨pn, hp1, hp2, hp3, _⟩ := inv.parent cur c hcur hcd hus
        have := inv.bound _ pn hp1 hp2
        omega
    · subst h4
      have := inv.bound u nu2 hu hpu
      omega
    · rw [h6] at hpu
      simp only at hpu
      rw [h5] at hpu; simp at hpu

/-! ## Dijkstra: the main loop -/

theorem iter_keep (g : adjacencyMap) (nodes nodes2 : GoMap node) (cur : Coordinate) (c : node)
    (hcur : nodes.get? cur = some c) (hcp : c.processed = false)
    (hstep : IterStep g cur c nodes nodes2) (u : Coordinate) (nu : node)
    (hu : nodes.get? u = some nu) (hp : nu.processed = true) : nodes2.get? u = some nu := by
  obtain ⟨nu2, h1, h2⟩ := hstep.2.1 u nu hu
  rcases h2 with ⟨h2, _⟩ | ⟨_, h2 | ⟨h3, _⟩⟩
  · subst h2
    rw [hcur] at hu
    simp only [Option.some.injEq] at hu
    rw [← hu, hcp] at hp
    simp at hp
  · rw [h1, h2]
  · rw [h3] at hp; simp at hp

theorem iter_cur (g : adjacencyMap) (nodes nodes2 : GoMap node) (cur : Coordinate) (c : node)
    (hcur : nodes.get? cur = some c) (hstep : IterStep g cur c nodes nodes2) :
    nodes2.get? cur = some { c with processed := true } := by
  obtain ⟨nv2, h1, h2⟩ := hstep.2.1 cur c hcur
  rcases h2 with ⟨_, h2⟩ | ⟨h2, _⟩
  · rw [h1, h2]
  · exact absurd rfl h2

theorem dijkstraLoop_spec (nodeOrder : Nat → List Coordinate → List Coordinate)
    (hfair : ∀ i l, (nodeOrder i l).Perm l) (g j : adjacencyMap) (hg : GraphClosed g)
    (s : Coordinate) (fuel : Nat) :
    ∀ (i : Nat) (dests : GoMap Bool) (nodes : GoMap node), DijkstraInv g s nodes →
      DestInv j dests nodes → unprocessedCount g.keys nodes < fuel →
      ∃ nodes', dijkstraLoop nodeOrder g fuel i dests nodes = .ok nodes' ∧
        DijkstraInv g s nodes' ∧ LoopEnd j nodes' := by
  induction fuel with
  | zero => intro i dests nodes _ _ h; omega
  | succ fuel ih =>
    intro i dests nodes inv dinv hfuel
    unfold dijkstraLoop
    have hmemOrder : ∀ v nv, nodes.get? v = some nv → v ∈ nodeOrder i nodes.keys :=
      fun v nv hv => (hfair i _).mem_iff.mpr (mem_keys_of_get? hv)
    cases hnext : nextNodeID (nodeOrder i nodes.keys) nodes with
    | none =>
      refine ⟨nodes, rfl, inv, Or.inl ?_⟩
      intro v nv hv hp
      exact nextNodeID_none hnext v (hmemOrder v nv hv) nv hv hp
    | some cur =>
      obtain ⟨c, hcur, hcp, hcd, hmin0⟩ := nextNodeID_some hnext
      have hmin : ∀ v nv, nodes.get? v = some nv → nv.processed = false → c.dist ≤ nv.dist :=
        fun v nv hv hp => hmin0 v (hmemOrder v nv hv) nv hv hp
      simp only []
      by_cases hbreak : (dests.get? cur).getD false = true ∧
          (if (dests.get? cur).getD false = true then dests.delete cur else dests).length = 0
      · rw [if_pos hbreak]
        refine ⟨nodes, rfl, inv, Or.inr ⟨cur, c, hcur, hcp, hcd, hmin, ?_⟩⟩
        intro k hk
        by_cases hkc : k = cur
        · exact Or.inl hkc
        · right
          apply dinv.dequeued k hk
          have hnil : dests.delete cur = [] := by
            have := hbreak.2
            rw [if_pos hbreak.1] at this
            exact List.length_eq_zero.mp this
          have := GoMap.get?_delete_ne dests (Ne.symm hkc)
          rw [hnil] at this
          exact this.symm
      · rw [if_neg hbreak, hcur]
        simp only []
        obtain ⟨nodes2, hr, hstep⟩ := iter_relax g hg nodes inv.keys cur c hcur
        have hadj : (g.get? cur).getD [] = adjacent g cur := rfl
        rw [hadj, hr]
        simp only []
        apply ih
        · exact iter_inv g hg s nodes nodes2 inv cur c hcur hcp hcd hmin hstep
        · refine ⟨?_, ?_⟩
          · intro k b hb
            split at hb
            · by_cases hkc : cur = k
              · subst hkc; rw [GoMap.get?_delete_self] at hb; simp at hb
              · rw [GoMap.get?_delete_ne _ hkc] at hb; exact dinv.flag k b hb
            · exact dinv.flag k b hb
          · intro k hk hnone
            by_cases hkc : cur = k
            · subst hkc
              exact ⟨_, iter_cur g nodes nodes2 cur c hcur hstep, rfl⟩
            · have hold : dests.get? k = none := by
                split at hnone
                · rw [GoMap.get?_delete_ne _ hkc] at hnone; exact hnone
                · exact hnone
              obtain ⟨nk, h1, h2⟩ := dinv.dequeued k hk hold
              exact ⟨nk, iter_keep g nodes nodes2 cur c hcur hcp hstep k nk h1 h2, h2⟩
        · have hmem : cur ∈ g.keys := inv.keys ▸ mem_keys_of_get? hcur
          have := iter_count g g.keys nodes nodes2 cur c hcur hcp hmem hstep
          omega

/-! ## Dijkstra: initialisation and result -/

theorem get?_map_val {V U : Type} (m : GoMap V) (f : Coordinate → V → U) (k : Coordinate) :
    GoMap.get? (m.map (fun e => (e.1, f e.1 e.2))) k = (m.get? k).map (f k) := by
  induction m with
  | nil => rfl
  | cons e t ih =>
    obtain ⟨k', v⟩ := e
    by_cases h : k' = k
    · subst h; simp [GoMap.get?]
    · simp only [List.map_cons, GoMap.get?, h, if_false]
      exact ih

theorem keys_map_val {V U : Type} (m : GoMap V) (f : Coordinate → V → U) :
    GoMap.keys (m.map (fun e => (e.1, f e.1 e.2))) = m.keys := by
  simp [GoMap.keys, List.map_map, Function.comp_def]

theorem initNodes_get? (g : adjacencyMap) (k : Coordinate) :
    (initNodes g).get? k =
      (g.get? k).map (fun _ => { processed := false, dist := infinity, parent := default }) :=
  get?_map_val g (fun _ _ => (⟨false, infinity, default⟩ : node)) k

theorem initNodes_keys (g : adjacencyMap) : (initNodes g).keys = g.keys :=
  keys_map_val g (fun _ _ => (⟨false, infinity, default⟩ : node))

/-- The node table before the first iteration satisfies the invariant. -/
theorem dijkstra_init (g : adjacencyMap) (s : Coordinate) (s0 : node)
    (hs : (initNodes g).get? s = some s0) :
    DijkstraInv g s ((initNodes g).set s { s0 with dist := 0 }) := by
  have hs0 : s0 = { processed := false, dist := infinity, parent := default } := by
    rw [initNodes_get?] at hs
    cases hg : g.get? s with
    | none => rw [hg] at hs; simp at hs
    | some l => rw [hg] at hs; simp at hs; exact hs.symm
  have hget : ∀ v nv, ((initNodes g).set s { s0 with dist := 0 }).get? v = some nv →
      (v = s ∧ nv = { processed := false, dist := 0, parent := default }) ∨
      (v ≠ s ∧ nv = { processed := false, dist := infinity, parent := default }) := by
    intro v nv hv
    rw [GoMap.get?_set] at hv
    by_cases h : s = v
    · rw [if_pos h] at hv
      simp only [Option.some.injEq] at hv
      left; exact ⟨h.symm, by rw [← hv, hs0]⟩
    · rw [if_neg h, initNodes_get?] at hv
      right
      refine ⟨Ne.symm h, ?_⟩
      cases hg : g.get? v with
      | none => rw [hg] at hv; simp at hv
      | some l => rw [hg] at hv; simp at hv; exact hv.symm
  refine ⟨?_, ?_, ?_, ?_, ?_, ?_, ?_, ?_⟩
  · rw [GoMap.keys_set_of_mem _ _ _ (mem_keys_of_get? hs), initNodes_keys]
  · exact ⟨_, GoMap.get?_set_self _ _ _, rfl⟩
  · intro v nv hv
    rcases hget v nv hv with ⟨_, h⟩ | ⟨_, h⟩
    · rw [h]; simp [infinity]
    · rw [h]
  · intro v nv hv hlt hne
    rcases hget v nv hv with ⟨h, _⟩ | ⟨_, h⟩
    · exact absurd h hne
    · rw [h] at hlt; simp at hlt
  · intro v nv hv hinf
    rcases hget v nv hv with ⟨_, h⟩ | ⟨_, h⟩
    · rw [h] at hinf; simp [infinity] at hinf
    · rw [h]; exact ⟨rfl, rfl⟩
  · intro u nu hu hp
    rcases hget u nu hu with ⟨_, h⟩ | ⟨_, h⟩ <;> rw [h] at hp <;> simp at hp
  · intro u nu v nv hu _ hp _
    rcases hget u nu hu with ⟨_, h⟩ | ⟨_, h⟩ <;> rw [h] at hp <;> simp at hp
  · intro u nu hu hp
    rcases hget u nu hu with ⟨_, h⟩ | ⟨_, h⟩ <;> rw [h] at hp <;> simp at hp

theorem destInv_init (j : adjacencyMap) (nodes : GoMap node) :
    DestInv j (j.map (fun e => (e.1, true))) nodes := by
  have hget := get?_map_val j (fun _ _ => true)
  refine ⟨?_, ?_⟩
  · intro k b hb
    rw [hget] at hb
    cases hj : j.get? k with
    | none => rw [hj] at hb; simp at hb
    | some l => rw [hj] at hb; simp at hb; exact hb
  · intro k hk hnone
    rw [hget] at hnone
    obtain ⟨l, hl⟩ := get?_isSome_of_mem_keys hk
    rw [hl] at hnone
    simp at hnone

/-- With the source in a graph closed under neighbours, the main loop of
`shortestPath` ends without a fault, and with a node table satisfying the invariant. -/
theorem dijkstra_spec (ρ : RangeOrder) (hfair : ρ.Fair) (cx cy : Int) (g j : adjacencyMap)
    (hg : GraphClosed g) (hs : (⟨cx, cy⟩ : Coordinate) ∈ g.keys) :
    ∃ nodes, dijkstra ρ cx cy g j = .ok nodes ∧ DijkstraInv g ⟨cx, cy⟩ nodes ∧
      LoopEnd j nodes := by
  unfold dijkstra
  simp only []
  obtain ⟨s0, hs0⟩ := get?_isSome_of_mem_keys ((initNodes_keys g).symm ▸ hs)
  rw [hs0]
  simp only []
  have inv := dijkstra_init g ⟨cx, cy⟩ s0 hs0
  apply dijkstraLoop_spec ρ.nodeOrder hfair.1 g j hg ⟨cx, cy⟩ _ 0 _ _ inv (destInv_init j _)
  have h1 := unprocessedCount_le g.keys ((initNodes g).set ⟨cx, cy⟩ { s0 with dist := 0 })
  have h2 : (initNodes g).length = g.keys.length := by simp [initNodes, GoMap.keys]
  omega

/-- Each dist below `infinity` is the length of a walk from the source. -/
theorem dist_walk (g : adjacencyMap) (s : Coordinate) (nodes : GoMap node)
    (inv : DijkstraInv g s nodes) (n : Nat) :
    ∀ v nv, nodes.get? v = some nv → nv.dist = n → n < infinity → Walk g s v n := by
  induction n with
  | zero =>
    intro v nv hv hd _
    by_cases hvs : v = s
    · rw [hvs]; exact Walk.nil s
    · obtain ⟨pn, _, _, h3, _⟩ := inv.parent v nv hv (by rw [hd]; simp [infinity]) hvs
      omega
  | succ n ih =>
    intro v nv hv hd hlt
    have hvs : v ≠ s := by
      intro h
      obtain ⟨ns, h1, h2⟩ := inv.source
      rw [h, h1] at hv
      simp only [Option.some.injEq] at hv
      rw [← hv] at hd
      omega
    obtain ⟨pn, h1, _, h3, h4⟩ := inv.parent v nv hv (by rw [hd]; exact hlt) hvs
    exact Walk.snoc (ih nv.parent pn h1 (by omega) (by omega)) h4

/-- Along a walk from the source there is a node of dist at most the length of
the walk: the end of the walk if it is processed, an unprocessed node otherwise. -/
theorem walk_bound (g : adjacencyMap) (s : Coordinate) (nodes : GoMap node)
    (inv : DijkstraInv g s nodes) {v : Coordinate} {L : Nat} (hw : Walk g s v L) :
    (∃ nv, nodes.get? v = some nv ∧ nv.processed = true ∧ nv.dist ≤ L) ∨
      (∃ y ny, nodes.get? y = some ny ∧ ny.processed = false ∧ ny.dist ≤ L) := by
  induction hw with
  | nil =>
    obtain ⟨ns, h1, h2⟩ := inv.source
    by_cases hp : ns.processed = true
    · exact Or.inl ⟨ns, h1, hp, by omega⟩
    · exact Or.inr ⟨s, ns, h1, by simpa using hp, by omega⟩
  | @snoc b c n _ hedge ih =>
    rcases ih with ⟨nb, h1, h2, h3⟩ | ⟨y, ny, h1, h2, h3⟩
    · obtain ⟨nc, h4, h5⟩ := inv.closed b nb h1 h2 c hedge
      by_cases hp : nc.processed = true
      · exact Or.inl ⟨nc, h4, hp, by omega⟩
      · exact Or.inr ⟨c, nc, h4, by simpa using hp, by omega⟩
    · exact Or.inr ⟨y, ny, h1, h2, by omega⟩

/-- When the main loop has ended, the dist of a junction key is at most the
length of any walk of fewer than `infinity` steps from the source to it. -/
theorem key_dist_le (g j : adjacencyMap) (s : Coordinate) (nodes : GoMap node)
    (inv : DijkstraInv g s nodes) (hend : LoopEnd j nodes) {k : Coordinate} (hk : k ∈ j.keys)
    {L : Nat} (hw : Walk g s k L) (hL : L < infinity) :
    ∃ nk, nodes.get? k = some nk ∧ nk.dist ≤ L := by
  rcases walk_bound g s nodes inv hw with ⟨nk, h1, _, h3⟩ | ⟨y, ny, h1, h2, h3⟩
  · exact ⟨nk, h1, h3⟩
  · rcases hend with hnone | ⟨cur, c, hc1, hc2, hc3, hmin, hkeys⟩
    · have := hnone y ny h1 h2
      omega
    · rcases hkeys k hk with rfl | ⟨nk, h4, h5⟩
      · exact ⟨c, hc1, le_trans (hmin y ny h1 h2) h3⟩
      · exact ⟨nk, h4, le_trans (inv.mono k nk y ny h4 h1 h5 h2) h3⟩

/-! ## The nearest junction and the route to it -/

theorem nearestJunction_spec (nodes : GoMap node) (order : List Coordinate)
    (horder : ∀ k ∈ order, k ∈ nodes.keys) (acc : Nat × Coordinate) :
    ∃ r, nearestJunction nodes order acc = .ok r ∧ r.1 ≤ acc.1 ∧
      (∀ k ∈ order, ∀ nk, nodes.get? k = some nk → r.1 ≤ nk.dist) ∧
      (r = acc ∨ (r.2 ∈ order ∧ r.1 < acc.1 ∧ ∃ nr, nodes.get? r.2 = some nr ∧ nr.dist = r.1)) := by
  induction order generalizing acc with
  | nil => exact ⟨acc, rfl, le_refl _, fun k hk => by simp at hk, Or.inl rfl⟩
  | cons dest rest ih =>
    obtain ⟨nd, hnd⟩ := get?_isSome_of_mem_keys (horder dest (List.mem_cons_self _ _))
    have hrest : ∀ k ∈ rest, k ∈ nodes.keys := fun k hk => horder k (List.mem_cons_of_mem _ hk)
    unfold nearestJunction
    rw [hnd]
    simp only []
    by_cases hlt : nd.dist < acc.1
    · rw [if_pos hlt]
      obtain ⟨r, h1, h2, h3, h4⟩ := ih hrest (nd.dist, dest)
      refine ⟨r, h1, le_trans h2 (le_of_lt hlt), ?_, ?_⟩
      · intro k hk nk hnk
        rcases List.mem_cons.mp hk with rfl | hk
        · rw [hnd] at hnk
          simp only [Option.some.injEq] at hnk
          rw [← hnk]; exact h2
        · exact h3 k hk nk hnk
      · right
        rcases h4 with h4 | ⟨h5, h6, h7⟩
        · rw [h4]
          exact ⟨List.mem_cons_self _ _, hlt, nd, hnd, rfl⟩
        · exact ⟨List.mem_cons_of_mem _ h5, lt_trans h6 hlt, h7⟩
    · rw [if_neg hlt]
      obtain ⟨r, h1, h2, h3, h4⟩ := ih hrest acc
      refine ⟨r, h1, h2, ?_, ?_⟩
      · intro k hk nk hnk
        rcases List.mem_cons.mp hk with rfl | hk
        · rw [hnd] at hnk
          simp only [Option.some.injEq] at hnk
          rw [← hnk]; omega
        · exact h3 k hk nk hnk
      · rcases h4 with h4 | ⟨h5, h6, h7⟩
        · exact Or.inl h4
        · exact Or.inr ⟨List.mem_cons_of_mem _ h5, h6, h7⟩

theorem isRoute_append_singleton (g : adjacencyMap) (s : Coordinate) (path : List Coordinate)
    (t : Coordinate) (h1 : IsRoute g s path) (h2 : t ∈ adjacent g (endOf s path)) :
    IsRoute g s (path ++ [t]) := by
  induction path generalizing s with
  | nil => exact ⟨h2, trivial⟩
  | cons x rest ih => exact ⟨h1.1, ih x h1.2 h2⟩

theorem endOf_append_singleton (s : Coordinate) (path : List Coordinate) (t : Coordinate) :
    endOf s (path ++ [t]) = t := by
  induction path generalizing s with
  | nil => rfl
  | cons x rest ih => exact ih x

theorem distsFrom_append_singleton (nodes : GoMap node) (d : Nat) (path : List Coordinate)
    (t : Coordinate) (h1 : DistsFrom nodes d path)
    (h2 : ∃ nd, nodes.get? t = some nd ∧ nd.dist = d + path.length) :
    DistsFrom nodes d (path ++ [t]) := by
  induction path generalizing d with
  | nil => exact ⟨by simpa using h2, trivial⟩
  | cons x rest ih =>
    refine ⟨h1.1, ih (d + 1) h1.2 ?_⟩
    obtain ⟨nd, h3, h4⟩ := h2
    exact ⟨nd, h3, by rw [h4, List.length_cons]; omega⟩

theorem drop_set_self {α : Type} (l : List α) (n : Nat) (a : α) (h : n < l.length) :
    (l.set n a).drop n = a :: l.drop (n + 1) := by
  have h' : n < (l.set n a).length := by simpa using h
  rw [List.drop_eq_getElem_cons h', List.getElem_set_self, List.drop_set_of_lt a l (Nat.lt_succ_self n)]

/-- Following the parent pointers from a node of dist `n` fills the first `n`
places of the route with a path from the source to that node. -/
theorem buildRoute_spec (g : adjacencyMap) (s : Coordinate) (nodes : GoMap node)
    (inv : DijkstraInv g s nodes) (n : Nat) :
    ∀ (target : Coordinate) (nt : node) (route : List Coordinate),
      nodes.get? target = some nt → nt.dist = n → n < infinity → n ≤ route.length →
      ∃ path, buildRoute s nodes n target route = .ok (path ++ route.drop n) ∧
        path.length = n ∧ IsRoute g s path ∧ endOf s path = target ∧
        DistsFrom nodes 1 path := by
  induction n with
  | zero =>
    intro target nt route ht hd _ _
    have hts : target = s := by
      by_contra hne
      obtain ⟨pn, _, _, h3, _⟩ := inv.parent target nt ht (by rw [hd]; simp [infinity]) hne
      omega
    refine ⟨[], ?_, rfl, trivial, hts.symm, trivial⟩
    unfold buildRoute
    simp [hts]
  | succ n ih =>
    intro target nt route ht hd hlt hlen
    have hts : target ≠ s := by
      intro h
      obtain ⟨ns, h1, h2⟩ := inv.source
      rw [h, h1] at ht
      simp only [Option.some.injEq] at ht
      rw [← ht] at hd
      omega
    obtain ⟨pn, h1, _, h3, h4⟩ := inv.parent target nt ht (by rw [hd]; exact hlt) hts
    obtain ⟨path, p1, p2, p3, p4, p5⟩ := ih nt.parent pn (route.set n target) h1 (by omega)
      (by omega) (by rw [List.length_set]; omega)
    refine ⟨path ++ [target], ?_, by rw [List.length_append, p2]; rfl, ?_, ?_, ?_⟩
    · unfold buildRoute
      rw [if_neg hts]
      simp only [ht]
      rw [p1, drop_set_self _ _ _ (by omega)]
      simp
    · exact isRoute_append_singleton g s path target p3 (by rw [p4]; exact h4)
    · exact endOf_append_singleton s path target
    · exact distsFrom_append_singleton nodes 1 path target p5 ⟨nt, ht, by rw [hd, p2]; omega⟩

theorem isRoute_walk (g : adjacencyMap) (a s : Coordinate) (n : Nat) (hw : Walk g a s n)
    (path : List Coordinate) (h : IsRoute g s path) : Walk g a (endOf s path) (n + path.length) := by
  induction path generalizing s n with
  | nil => exact hw
  | cons x rest ih =>
    have := ih x (n + 1) (Walk.snoc hw h.1) h.2
    rw [List.length_cons]
    rw [show n + (rest.length + 1) = n + 1 + rest.length by omega]
    exact this

theorem length_routeDirections (prev : Coordinate) (route : List Coordinate) :
    (routeDirections prev route).length = route.length := by
  induction route generalizing prev with
  | nil => rfl
  | cons x rest ih => simp [routeDirections, ih]

/-- On a route along edges one grid step long, the directions lead back along the route. -/
theorem positions_routeDirections (g : adjacencyMap) (hgrid : GridEdges g) (s : Coordinate)
    (path : List Coordinate) (h : IsRoute g s path) :
    positions s (routeDirections s path) = path := by
  induction path generalizing s with
  | nil => rfl
  | cons x rest ih =>
    have hadj := hgrid s x h.1
    have hup := updatePosition_directionToMove hadj
    simp only [routeDirections, positions, hup]
    rw [ih x h.2]

/-! ## shortestPath -/

/-- With the source and the junction keys in a graph closed under neighbours, and
a junction key fewer than `infinity` steps away, `shortestPath` returns the
directions along a route to a nearest junction key. -/
theorem shortestPath_spec (ρ : RangeOrder) (hfair : ρ.Fair) (cx cy : Int) (g j : adjacencyMap)
    (hg : GraphClosed g) (hs : (⟨cx, cy⟩ : Coordinate) ∈ g.keys) (hj : ∀ k ∈ j.keys, k ∈ g.keys)
    (hreach : ∃ k ∈ j.keys, ∃ L, L < infinity ∧ Walk g ⟨cx, cy⟩ k L) :
    ∃ path, shortestPath ρ cx cy g j = .ok (routeDirections ⟨cx, cy⟩ path) ∧
      IsRoute g ⟨cx, cy⟩ path ∧ endOf ⟨cx, cy⟩ path ∈ j.keys ∧
      ∀ k ∈ j.keys, ∀ L, Walk g ⟨cx, cy⟩ k L → path.length ≤ L := by
  obtain ⟨nodes, hd, inv, hend⟩ := dijkstra_spec ρ hfair cx cy g j hg hs
  have hperm := hfair.2 j.keys
  have horder : ∀ k ∈ ρ.junctionOrder j.keys, k ∈ nodes.keys :=
    fun k hk => inv.keys ▸ hj k (hperm.mem_iff.mp hk)
  obtain ⟨r, hr, _, hmin, hsel⟩ := nearestJunction_spec nodes _ horder (infinity, default)
  obtain ⟨numSteps, junction⟩ := r
  obtain ⟨k0, hk0, L0, hL0, hw0⟩ := hreach
  obtain ⟨nk0, hnk0, hle0⟩ := key_dist_le g j ⟨cx, cy⟩ nodes inv hend hk0 hw0 hL0
  have hmin0 := hmin k0 (hperm.mem_iff.mpr hk0) nk0 hnk0
  simp only at hmin hsel hmin0
  rcases hsel with hsel | ⟨hmem, hlt, nr, hnr, hnrd⟩
  · simp only [Prod.mk.injEq] at hsel
    omega
  · obtain ⟨path, p1, p2, p3, p4, _⟩ := buildRoute_spec g ⟨cx, cy⟩ nodes inv numSteps junction nr
      (List.replicate numSteps default) hnr hnrd hlt (by simp)
    refine ⟨path, ?_, p3, ?_, ?_⟩
    · unfold shortestPath
      simp only [hd, hr, p1]
      simp
    · rw [p4]; exact hperm.mem_iff.mp hmem
    · intro k hk L hw
      by_cases hL : L < infinity
      · obtain ⟨nk, hnk, hle⟩ := key_dist_le g j ⟨cx, cy⟩ nodes inv hend hk hw hL
        have := hmin k (hperm.mem_iff.mpr hk) nk hnk
        omega
      · omega

/-- With no junction key fewer than `infinity` steps from the source `(0, 0)`,
`shortestPath` returns `infinity` times the direction `0`. -/
theorem shortestPath_unreached (ρ : RangeOrder) (hfair : ρ.Fair) (g j : adjacencyMap)
    (hg : GraphClosed g) (hs : (⟨0, 0⟩ : Coordinate) ∈ g.keys) (hj : ∀ k ∈ j.keys, k ∈ g.keys)
    (hfar : ∀ k ∈ j.keys, ∀ L, Walk g ⟨0, 0⟩ k L → infinity ≤ L) :
    shortestPath ρ 0 0 g j = .ok (List.replicate infinity 0) := by
  obtain ⟨nodes, hd, inv, hend⟩ := dijkstra_spec ρ hfair 0 0 g j hg hs
  have hperm := hfair.2 j.keys
  have horder : ∀ k ∈ ρ.junctionOrder j.keys, k ∈ nodes.keys :=
    fun k hk => inv.keys ▸ hj k (hperm.mem_iff.mp hk)
  obtain ⟨r, hr, _, _, hsel⟩ := nearestJunction_spec nodes _ horder (infinity, default)
  rcases hsel with hsel | ⟨hmem, hlt, nr, hnr, hnrd⟩
  · unfold shortestPath
    simp only [hd, hr, hsel]
    rw [show (default : Coordinate) = ⟨0, 0⟩ from rfl, buildRoute_source]
    simp only [routeDirections_replicate]
  · exfalso
    have hw := dist_walk g ⟨0, 0⟩ nodes inv r.1 r.2 nr hnr hnrd hlt
    have := hfar r.2 (hperm.mem_iff.mp hmem) r.1 hw
    simp only at hlt
    omega

/-! ## The corridor graph -/

theorem get?_map_range (f : Nat → List Coordinate) (l : List Nat) (x y : Int) :
    GoMap.get? (l.map (fun (i : Nat) => ((⟨(i : Int), 0⟩ : Coordinate), f i))) ⟨x, y⟩ =
      if y = 0 ∧ 0 ≤ x ∧ x.toNat ∈ l then some (f x.toNat) else none := by
  induction l with
  | nil => simp [GoMap.get?]
  | cons a t ih =>
    simp only [List.map_cons, GoMap.get?, Coordinate.mk.injEq, List.mem_cons]
    by_cases h : (a : Int) = x ∧ (0 : Int) = y
    · rw [if_pos h]
      obtain ⟨h1, h2⟩ := h
      have : x.toNat = a := by omega
      rw [if_pos ⟨h2.symm, by omega, Or.inl this⟩, this]
    · rw [if_neg h, ih]
      by_cases h2 : y = 0 ∧ 0 ≤ x ∧ x.toNat ∈ t
      · rw [if_pos h2, if_pos ⟨h2.1, h2.2.1, Or.inr h2.2.2⟩]
      · rw [if_neg h2, if_neg]
        rintro ⟨h3, h4, h5 | h5⟩
        · exact h ⟨by omega, h3.symm⟩
        · exact h2 ⟨h3, h4, h5⟩

theorem lineGraph_get? (n : Nat) (x y : Int) :
    (lineGraph n).get? ⟨x, y⟩ =
      if y = 0 ∧ 0 ≤ x ∧ x ≤ n then some (lineNeighbours n x.toNat) else none := by
  unfold lineGraph
  rw [get?_map_range]
  by_cases h : y = 0 ∧ 0 ≤ x ∧ x ≤ n
  · rw [if_pos h, if_pos ⟨h.1, h.2.1, by rw [List.mem_range]; omega⟩]
  · rw [if_neg h, if_neg]
    rintro ⟨h1, h2, h3⟩
    rw [List.mem_range] at h3
    exact h ⟨h1, h2, by omega⟩

theorem lineGraph_mem_keys (n : Nat) (c : Coordinate) :
    c ∈ (lineGraph n).keys ↔ c.Y = 0 ∧ 0 ≤ c.X ∧ c.X ≤ n := by
  obtain ⟨x, y⟩ := c
  rw [GoMap.mem_keys_iff, lineGraph_get?]
  by_cases h : y = 0 ∧ 0 ≤ x ∧ x ≤ n <;> simp [h]

theorem lineGraph_adjacent (n : Nat) (k c : Coordinate) (h : c ∈ adjacent (lineGraph n) k) :
    k.Y = 0 ∧ c.Y = 0 ∧ 0 ≤ k.X ∧ k.X ≤ n ∧ 0 ≤ c.X ∧ c.X ≤ n ∧
      (c.X = k.X - 1 ∨ c.X = k.X + 1) := by
  obtain ⟨x, y⟩ := k
  unfold adjacent at h
  rw [lineGraph_get?] at h
  by_cases hk : y = 0 ∧ 0 ≤ x ∧ x ≤ n
  · rw [if_pos hk] at h
    obtain ⟨hk1, hk2, hk3⟩ := hk
    have hcast : ((x.toNat : Nat) : Int) = x := Int.toNat_of_nonneg hk2
    simp only [Option.getD_some, lineNeighbours, List.mem_append] at h
    rcases h with h | h
    · by_cases h0 : x.toNat = 0
      · rw [if_pos h0] at h; simp at h
      · rw [if_neg h0] at h
        simp only [List.mem_singleton] at h
        rw [h, hcast]
        refine ⟨hk1, rfl, hk2, hk3, ?_, ?_, Or.inl rfl⟩ <;> simp only <;> omega
    · by_cases h0 : x.toNat = n
      · rw [if_pos h0] at h; simp at h
      · rw [if_neg h0] at h
        simp only [List.mem_singleton] at h
        rw [h, hcast]
        refine ⟨hk1, rfl, hk2, hk3, ?_, ?_, Or.inr rfl⟩ <;> simp only <;> omega
  · rw [if_neg hk] at h
    simp at h

theorem lineGraph_closed (n : Nat) : GraphClosed (lineGraph n) := by
  intro k c h
  rw [lineGraph_mem_keys]
  have := lineGraph_adjacent n k c h
  omega

theorem lineGraph_grid (n : Nat) : GridEdges (lineGraph n) := by
  intro k c h
  have := lineGraph_adjacent n k c h
  unfold Adjacent
  omega

theorem lineGraph_walk (n : Nat) (i : Nat) (hi : i ≤ n) :
    Walk (lineGraph n) ⟨0, 0⟩ ⟨(i : Int), 0⟩ i := by
  induction i with
  | zero => exact Walk.nil _
  | succ i ih =>
    refine Walk.snoc (ih (by omega)) ?_
    unfold adjacent
    rw [lineGraph_get?, if_pos ⟨rfl, by omega, by omega⟩]
    simp only [Option.getD_some, lineNeighbours, List.mem_append]
    right
    rw [if_neg (by omega)]
    simp

theorem lineGraph_walk_le (n : Nat) {c : Coordinate} {L : Nat}
    (hw : Walk (lineGraph n) ⟨0, 0⟩ c L) : c.X ≤ L := by
  induction hw with
  | nil => simp
  | snoc _ hedge ih =>
    have := lineGraph_adjacent n _ _ hedge
    push_cast
    omega

/-! ## Checking the hypotheses on concrete graphs -/

theorem mem_of_get? {V : Type} {m : GoMap V} {k : Coordinate} {v : V} (h : m.get? k = some v) :
    (k, v) ∈ m := by
  induction m with
  | nil => simp [GoMap.get?] at h
  | cons e t ih =>
    obtain ⟨k', v'⟩ := e
    simp only [GoMap.get?] at h
    by_cases hk : k' = k
    · rw [if_pos hk] at h
      simp only [Option.some.injEq] at h
      rw [hk, h]
      exact List.mem_cons_self _ _
    · rw [if_neg hk] at h
      exact List.mem_cons_of_mem _ (ih h)

theorem mem_adjacent_entry {g : adjacencyMap} {k n : Coordinate} (h : n ∈ adjacent g k) :
    ∃ e ∈ g, e.1 = k ∧ n ∈ e.2 := by
  unfold adjacent at h
  cases hg : g.get? k with
  | none => rw [hg] at h; simp at h
  | some l =>
    rw [hg] at h
    exact ⟨(k, l), mem_of_get? hg, rfl, h⟩

theorem graphClosed_of_entries (g : adjacencyMap) (h : ∀ e ∈ g, ∀ n ∈ e.2, n ∈ g.keys) :
    GraphClosed g := by
  intro k n hn
  obtain ⟨e, he, _, hne⟩ := mem_adjacent_entry hn
  exact h e he n hne

theorem gridEdges_of_entries (g : adjacencyMap) (h : ∀ e ∈ g, ∀ n ∈ e.2, Adjacent e.1 n) :
    GridEdges g := by
  intro k n hn
  obtain ⟨e, he, hk, hne⟩ := mem_adjacent_entry hn
  exact hk ▸ h e he n hne

theorem squareGraph_closed : GraphClosed squareGraph :=
  graphClosed_of_entries _ (by decide)

theorem squareGraph_grid : GridEdges squareGraph :=
  gridEdges_of_entries _ (by decide)

theorem squareGraph_walk : Walk squareGraph ⟨0, 1⟩ ⟨1, 1⟩ 3 :=
  Walk.snoc (Walk.snoc (Walk.snoc (Walk.nil _) (by decide : (⟨0, 0⟩ : Coordinate) ∈ _))
    (by decide : (⟨1, 0⟩ : Coordinate) ∈ _)) (by decide)

theorem positions_replicate_zero (p : Coordinate) (n : Nat) :
    positions p (List.replicate n 0) = List.replicate n p := by
  induction n with
  | zero => rfl
  | succ n ih =>
    have : updatePosition p.X p.Y 0 = (p.X, p.Y) := by simp [updatePosition, N, S, E, W]
    simp only [List.replicate_succ, positions, this]
    rw [ih]

theorem endOf_replicate (p : Coordinate) (n : Nat) : endOf p (List.replicate n p) = p := by
  induction n with
  | zero => rfl
  | succ n ih => simp only [List.replicate_succ, endOf]; exact ih

theorem lineJunctions_keys (n : Nat) : (lineJunctions n).keys = [⟨(n : Int), 0⟩] := rfl

/-- In a corridor of at least `infinity` steps, `shortestPath` from one end with
the other end as only junction returns `infinity` times the direction `0`. -/
theorem shortestPath_lineGraph (ρ : RangeOrder) (hfair : ρ.Fair) (n : Nat) (hn : infinity ≤ n) :
    shortestPath ρ 0 0 (lineGraph n) (lineJunctions n) = .ok (List.replicate infinity 0) := by
  apply shortestPath_unreached ρ hfair _ _ (lineGraph_closed n)
  · rw [lineGraph_mem_keys]; simp
  · intro k hk
    rw [lineJunctions_keys, List.mem_singleton] at hk
    rw [hk, lineGraph_mem_keys]; simp
  · intro k hk L hw
    rw [lineJunctions_keys, List.mem_singleton] at hk
    have := lineGraph_walk_le n hw
    rw [hk] at this
    simp only at this
    omega

theorem lineGraph_hypotheses (n : Nat) :
    (⟨0, 0⟩ : Coordinate) ∈ (lineGraph n).keys ∧ GraphClosed (lineGraph n) ∧
      GridEdges (lineGraph n) ∧ (∀ k ∈ (lineJunctions n).keys, k ∈ (lineGraph n).keys) ∧
      ∃ k ∈ (lineJunctions n).keys, ∃ L, Walk (lineGraph n) ⟨0, 0⟩ k L := by
  refine ⟨?_, lineGraph_closed n, lineGraph_grid n, ?_, ?_⟩
  · rw [lineGraph_mem_keys]; simp
  · intro k hk
    rw [lineJunctions_keys, List.mem_singleton] at hk
    rw [hk, lineGraph_mem_keys]; simp
  · exact ⟨_, by rw [lineJunctions_keys]; exact List.mem_singleton_self _, n,
      lineGraph_walk n n (le_refl _)⟩

/-! ## Reachable junctions in a graph of at most `infinity + 1` rooms -/

theorem two_le_countP {α : Type} (p : α → Bool) (l : List α) (a b : α) (hab : a ≠ b)
    (ha : a ∈ l) (hb : b ∈ l) (hpa : p a = true) (hpb : p b = true) : 2 ≤ l.countP p := by
  induction l with
  | nil => simp at ha
  | cons x t ih =>
    rcases List.mem_cons.mp ha with rfl | hat
    · rcases List.mem_cons.mp hb with hba | hbt
      · exact absurd hba.symm hab
      · rw [List.countP_cons_of_pos _ _ hpa]
        have : 0 < t.countP p := List.countP_pos_iff.mpr ⟨b, hbt, hpb⟩
        omega
    · rcases List.mem_cons.mp hb with rfl | hbt
      · rw [List.countP_cons_of_pos _ _ hpb]
        have : 0 < t.countP p := List.countP_pos_iff.mpr ⟨a, hat, hpa⟩
        omega
      · have := ih hat hbt
        have h2 : t.countP p ≤ (x :: t).countP p := by
          rw [List.countP_cons]; omega
        omega

theorem processed_dist_lt (g : adjacencyMap) (s : Coordinate) (nodes : GoMap node)
    (inv : DijkstraInv g s nodes) {v : Coordinate} {nv : node} (hv : nodes.get? v = some nv)
    (hp : nv.processed = true) : nv.dist < infinity := by
  have h1 := inv.le_inf v nv hv
  by_contra hlt
  have h2 := (inv.unreached v nv hv (by omega)).2
  rw [hp] at h2
  simp at h2

/-- In a graph of at most `infinity + 1` rooms, one of them not the source, no
junction key and entered only from junction keys, a junction key that is
reachable from the source is reachable in fewer than `infinity` steps. -/
theorem key_within_reach (g j : adjacencyMap) (s : Coordinate) (hg : GraphClosed g)
    (hs : s ∈ g.keys) (hj : ∀ k ∈ j.keys, k ∈ g.keys) {k : Coordinate} (hk : k ∈ j.keys)
    {L : Nat} (hw : Walk g s k L) (hsmall : g.keys.length ≤ infinity + 1)
    (u : Coordinate) (hu : u ∈ g.keys) (hus : u ≠ s) (huj : u ∉ j.keys)
    (hin : ∀ v, u ∈ adjacent g v → v ∈ j.keys) :
    ∃ k' ∈ j.keys, ∃ L', L' < infinity ∧ Walk g s k' L' := by
  obtain ⟨nodes, _, inv, hend⟩ := dijkstra_spec RangeOrder.id rangeOrder_id_fair s.X s.Y g j hg hs
  have hs' : (⟨s.X, s.Y⟩ : Coordinate) = s := rfl
  rw [hs'] at inv
  suffices h : ∃ k' ∈ j.keys, ∃ nk, nodes.get? k' = some nk ∧ nk.dist < infinity by
    obtain ⟨k', hk', nk, h1, h2⟩ := h
    exact ⟨k', hk', nk.dist, h2, dist_walk g s nodes inv nk.dist k' nk h1 rfl h2⟩
  rcases hend with hnone | ⟨cur, c, hc1, _, hc3, _, hkeys⟩
  · by_contra hcon
    have hkeyUn : ∀ k' ∈ j.keys, ∀ nk, nodes.get? k' = some nk → nk.processed = false := by
      intro k' hk' nk hnk
      by_contra hp
      exact hcon ⟨k', hk', nk, hnk, processed_dist_lt g s nodes inv hnk (by simpa using hp)⟩
    obtain ⟨nk, hnk⟩ := get?_isSome_of_mem_keys (inv.keys ▸ hj k hk)
    obtain ⟨nu, hnu⟩ := get?_isSome_of_mem_keys (inv.keys ▸ hu)
    have huUn : nu.processed = false := by
      by_contra hp
      have hp' : nu.processed = true := by simpa using hp
      have hlt := processed_dist_lt g s nodes inv hnu hp'
      obtain ⟨pn, h1, h2, _, h4⟩ := inv.parent u nu hnu hlt hus
      have := hkeyUn _ (hin _ h4) pn h1
      rw [h2] at this
      simp at this
    have hcount : 2 ≤ unprocessedCount g.keys nodes := by
      unfold unprocessedCount
      apply two_le_countP _ _ k u (fun h => huj (h ▸ hk)) (hj k hk) hu
      · simp [hnk, hkeyUn k hk nk hnk]
      · simp [hnu, huUn]
    have hall : ∀ v L, Walk g s v L → ∃ nv, nodes.get? v = some nv ∧ nv.processed = true := by
      intro v L hw
      induction hw with
      | nil =>
        obtain ⟨ns, h1, h2⟩ := inv.source
        refine ⟨ns, h1, ?_⟩
        by_contra hp
        have := hnone s ns h1 (by simpa using hp)
        rw [h2] at this
        simp [infinity] at this
      | @snoc b c n _ hedge ih =>
        obtain ⟨nb, h1, h2⟩ := ih
        obtain ⟨nc, h3, h4⟩ := inv.closed b nb h1 h2 c hedge
        refine ⟨nc, h3, ?_⟩
        by_contra hp
        have h5 := hnone c nc h3 (by simpa using hp)
        have h6 := inv.bound b nb h1 h2
        omega
    obtain ⟨nk', h1, h2⟩ := hall k L hw
    rw [hnk] at h1
    simp only [Option.some.injEq] at h1
    have := hkeyUn k hk nk hnk
    rw [h1, h2] at this
    simp at this
  · rcases hkeys k hk with rfl | ⟨nk, h1, h2⟩
    · exact ⟨k, hk, c, hc1, hc3⟩
    · exact ⟨k, hk, nk, h1, processed_dist_lt g s nodes inv h1 h2⟩

/-! ## The keys of the graph along a run -/

theorem keys_set {V : Type} (m : GoMap V) (k : Coordinate) (v : V) :
    (m.set k v).keys = if k ∈ m.keys then m.keys else m.keys ++ [k] := by
  induction m with
  | nil => simp [GoMap.set, GoMap.keys]
  | cons e t ih =>
    obtain ⟨k', v'⟩ := e
    by_cases h : k' = k
    · subst h
      simp [GoMap.set, GoMap.keys]
    · have h' : ¬ k = k' := fun h0 => h h0.symm
      simp only [GoMap.set, h, if_false, GoMap.keys, List.map_cons, List.mem_cons, h', false_or]
      simp only [GoMap.keys] at ih
      rw [ih]
      split <;> simp

theorem mem_keys_set {V : Type} (m : GoMap V) (k : Coordinate) (v : V) (x : Coordinate) :
    x ∈ (m.set k v).keys ↔ x = k ∨ x ∈ m.keys := by
  rw [keys_set]
  split
  · rename_i h
    constructor
    · exact Or.inr
    · rintro (rfl | h1)
      · exact h
      · exact h1
  · simp only [List.mem_append, List.mem_singleton]
    tauto

theorem nodup_keys_set {V : Type} (m : GoMap V) (k : Coordinate) (v : V) (h : m.keys.Nodup) :
    (m.set k v).keys.Nodup := by
  rw [keys_set]
  split
  · exact h
  · rename_i hk
    rw [List.nodup_append]
    refine ⟨h, List.nodup_singleton k, ?_⟩
    intro a ha hb
    rw [List.mem_singleton] at hb
    exact hk (hb ▸ ha)

theorem mem_keys_addReverse (c : Coordinate) (g : adjacencyMap) (paths : List Coordinate)
    (x : Coordinate) : x ∈ (addReverse c g paths).keys ↔ x ∈ g.keys ∨ x ∈ paths := by
  induction paths generalizing g with
  | nil => simp [addReverse]
  | cons p rest ih =>
    rw [addReverse, ih, mem_keys_set, List.mem_cons]
    tauto

theorem nodup_keys_addReverse (c : Coordinate) (g : adjacencyMap) (paths : List Coordinate)
    (h : g.keys.Nodup) : (addReverse c g paths).keys.Nodup := by
  induction paths generalizing g with
  | nil => exact h
  | cons p rest ih => exact ih _ (nodup_keys_set _ _ _ h)

/-- The keys of the graph after a survey: the old ones, the current coordinate
and the neighbours behind the open sides. -/
theorem recordSurvey_keys (ch : Choice) (st : SolverState) (survey : Survey) (x : Coordinate) :
    x ∈ (recordSurvey ch st survey).1.graph.keys ↔
      x ∈ st.graph.keys ∨ x = st.pos ∨
        ∃ dir, (dir = N ∨ dir = S ∨ dir = E ∨ dir = W) ∧ x = neighbour st.pos dir ∧
          wallAt survey dir = false := by
  simp only [recordSurvey]
  rw [mem_keys_addReverse, mem_keys_set, mem_scanned_paths]
  simp only [SolverState.pos]
  constructor
  · rintro ((h | h) | h)
    · exact Or.inr (Or.inl h)
    · exact Or.inl h
    · exact Or.inr (Or.inr h)
  · rintro (h | h | h)
    · exact Or.inl (Or.inr h)
    · exact Or.inl (Or.inl h)
    · exact Or.inr h

theorem recordSurvey_keys_nodup (ch : Choice) (st : SolverState) (survey : Survey)
    (h : st.graph.keys.Nodup) : (recordSurvey ch st survey).1.graph.keys.Nodup := by
  simp only [recordSurvey]
  exact nodup_keys_addReverse _ _ _ (nodup_keys_set _ _ _ h)

/-- The unvisited candidates of a survey. -/
theorem mem_recordSurvey_uv (ch : Choice) (st : SolverState) (survey : Survey) (u : Coordinate) :
    u ∈ (recordSurvey ch st survey).2 ↔
      isVisited st.visited u = false ∧
        ∃ dir, (dir = N ∨ dir = S ∨ dir = E ∨ dir = W) ∧ u = neighbour st.pos dir ∧
          wallAt survey dir = false := by
  simp only [recordSurvey, List.mem_filter]
  rw [mem_scanned_paths]
  constructor
  · rintro ⟨h1, h2⟩
    exact ⟨by simpa using h2, h1⟩
  · rintro ⟨h1, h2⟩
    exact ⟨h2, by simpa using h1⟩

theorem neighbour_ne (c : Coordinate) {d : Int} (h : d = N ∨ d = S ∨ d = E ∨ d = W) :
    neighbour c d ≠ c := by
  obtain ⟨x, y⟩ := c
  rcases h with h | h | h | h <;> subst h <;>
    simp [neighbour, Delta, N, S, E, W]

theorem directionToMove_neighbour (c : Coordinate) {d : Int}
    (h : d = N ∨ d = S ∨ d = E ∨ d = W) : directionToMove c (neighbour c d) = d := by
  rcases h with h | h | h | h <;> subst h <;>
    simp [directionToMove, neighbour, Delta, N, S, E, W]

theorem adjacent_neighbour (c : Coordinate) {d : Int} (h : d = N ∨ d = S ∨ d = E ∨ d = W) :
    Adjacent c (neighbour c d) := adjacent_delta c h

theorem walk_mono {g g' : adjacencyMap} (h : ∀ k n, n ∈ adjacent g k → n ∈ adjacent g' k)
    {a b : Coordinate} {L : Nat} (hw : Walk g a b L) : Walk g' a b L := by
  induction hw with
  | nil => exact Walk.nil _
  | snoc _ hedge ih => exact Walk.snoc ih (h _ _ hedge)

theorem walk_trans {g : adjacencyMap} {a b c : Coordinate} {L1 L2 : Nat}
    (h1 : Walk g a b L1) (h2 : Walk g b c L2) : Walk g a c (L1 + L2) := by
  induction h2 with
  | nil => exact h1
  | snoc _ hedge ih => exact Walk.snoc ih hedge

theorem walk_cons {g : adjacencyMap} {a b c : Coordinate} {L : Nat}
    (hedge : b ∈ adjacent g a) (h : Walk g b c L) : Walk g a c (L + 1) := by
  have := walk_trans (Walk.snoc (Walk.nil a) hedge) h
  rwa [Nat.add_comm] at this

theorem walk_reverse {g : adjacencyMap} (hsymm : ∀ k n, n ∈ adjacent g k → k ∈ adjacent g n)
    {a b : Coordinate} {L : Nat} (hw : Walk g a b L) : Walk g b a L := by
  induction hw with
  | nil => exact Walk.nil _
  | snoc _ hedge ih => exact walk_cons (hsymm _ _ hedge) ih

/-! ## What a survey adds to the graph -/

theorem explored_pos_passable {w : Walls} {st : SolverState} {h : List Coordinate}
    (hE : Explored w st h) : Passable w st.pos := by
  rcases hE.posKey with hk | ⟨_, hp⟩
  · exact hE.chart.keysPassable _ hk
  · rw [hp]; exact Passable.start

theorem surveyed_adjacent (ch : Choice) (st : SolverState) (survey : Survey) (n : Coordinate) :
    n ∈ adjacent (recordSurvey ch st survey).1.graph st.pos ↔
      ∃ dir, (dir = N ∨ dir = S ∨ dir = E ∨ dir = W) ∧ n = neighbour st.pos dir ∧
        wallAt survey dir = false := by
  rw [recordSurvey_graph, if_pos rfl]
  constructor
  · rintro (h | ⟨_, dir, hd, hk, _⟩)
    · exact h
    · exact absurd hk.symm (neighbour_ne _ hd)
  · exact Or.inl

theorem surveyed_mono (w : Walls) (ch : Choice) (st : SolverState)
    (hopen : EdgesOpen w st.graph) (k n : Coordinate) (hn : n ∈ adjacent st.graph k) :
    n ∈ adjacent (recordSurvey ch st (w st.pos)).1.graph k := by
  rw [recordSurvey_graph]
  left
  by_cases hk : st.pos = k
  · rw [if_pos hk]
    obtain ⟨dir, hd, hnb, hwall⟩ := hopen k n hn
    exact ⟨dir, hd, hnb, by rw [hk]; exact hwall⟩
  · rw [if_neg hk]; exact hn

theorem surveyed_symm (w : Walls) (hw : w.Consistent) (ch : Choice) (st : SolverState)
    (hopen : EdgesOpen w st.graph) (hsymm : ∀ k n, n ∈ adjacent st.graph k → k ∈ adjacent st.graph n)
    (k n : Coordinate) (hn : n ∈ adjacent (recordSurvey ch st (w st.pos)).1.graph k) :
    k ∈ adjacent (recordSurvey ch st (w st.pos)).1.graph n := by
  rw [recordSurvey_graph] at hn
  rcases hn with hn | ⟨rfl, dir, hd, rfl, hwall⟩
  · by_cases hk : st.pos = k
    · rw [if_pos hk] at hn
      obtain ⟨dir, hd, rfl, hwall⟩ := hn
      rw [recordSurvey_graph]
      right
      exact ⟨hk.symm, dir, hd, by rw [hk], hwall⟩
    · rw [if_neg hk] at hn
      have hrev := hsymm k n hn
      by_cases hnp : st.pos = n
      · obtain ⟨dir, hd, hnb, hwall⟩ := hopen k n hn
        rw [← hnp]
        rw [surveyed_adjacent]
        refine ⟨Opposite dir, opposite_dir hd, ?_, ?_⟩
        · rw [hnp, hnb, neighbour_opposite _ hd]
        · rw [hnp, hnb, hw _ _ hd]; exact hwall
      · rw [recordSurvey_graph]
        left
        rw [if_neg hnp]; exact hrev
  · rw [surveyed_adjacent]
    exact ⟨dir, hd, rfl, hwall⟩

theorem surveyed_closed (ch : Choice) (st : SolverState) (survey : Survey)
    (hclosed : GraphClosed st.graph) : GraphClosed (recordSurvey ch st survey).1.graph := by
  intro k n hn
  rw [recordSurvey_keys]
  rw [recordSurvey_graph] at hn
  rcases hn with hn | ⟨rfl, _⟩
  · by_cases hk : st.pos = k
    · rw [if_pos hk] at hn
      obtain ⟨dir, hd, hnb, hwall⟩ := hn
      exact Or.inr (Or.inr ⟨dir, hd, by rw [hk]; exact hnb, hwall⟩)
    · rw [if_neg hk] at hn
      exact Or.inl (hclosed k n hn)
  · exact Or.inr (Or.inl rfl)

/-- The state at the top of the loop after a move to `q'`, in terms of the state `stp`
the move started from. -/
theorem arrive_state (ch : Choice) (hfair : ch.Fair) (stp : SolverState) (q' : Coordinate)
    (hadj : Adjacent stp.pos q') :
    (loopHead (moveTo ch stp (directionToMove stp.pos q'))).st.pos = q' ∧
    (loopHead (moveTo ch stp (directionToMove stp.pos q'))).st.graph = stp.graph ∧
    (loopHead (moveTo ch stp (directionToMove stp.pos q'))).st.visited = stp.visited.set q' true ∧
    (loopHead (moveTo ch stp (directionToMove stp.pos q'))).ctl = .recvTop ∧
    ∀ v, (loopHead (moveTo ch stp (directionToMove stp.pos q'))).st.junctions.get? v =
      cleanEntry q'.X q'.Y (stp.junctions.get? v) := by
  have hpos := moveTo_pos ch stp hadj
  have hup := updatePosition_directionToMove hadj
  refine ⟨hpos, rfl, ?_, rfl, ?_⟩
  · show (moveTo ch stp _).visited.set (moveTo ch stp _).pos true = _
    rw [hpos, moveTo_visited]
  · intro v
    show (cleanUpJunctions _ _ _ stp.junctions).get? v = _
    have : (updatePosition stp.cx stp.cy (directionToMove stp.pos q')) = (q'.X, q'.Y) := hup
    rw [this]
    exact cleanUpJunctions_get?_fair _ _ _ _ (hfair.2 _) v

/-! ## The invariant of the exploration -/

/-- After the survey of the room the solver stands in, the graph charts that room too. -/
theorem charted_survey (w : Walls) (hw : w.Consistent) (ch0 : Choice)
    (st : SolverState) (h : List Coordinate) (hE : Explored w st h) :
    Charted w (recordSurvey ch0 st (w st.pos)).1.graph (st.pos :: h) := by
  have hC := hE.chart
  constructor
  · exact edgesOpen_recordSurvey w hw ch0 st hC.edgesOpen
  · intro v hv0 dir hd hwall
    rcases List.mem_cons.mp hv0 with rfl | hvh
    · rw [surveyed_adjacent]; exact ⟨dir, hd, rfl, hwall⟩
    · exact surveyed_mono w ch0 st hC.edgesOpen _ _ (hC.forward v hvh dir hd hwall)
  · exact surveyed_symm w hw ch0 st hC.edgesOpen hC.symm
  · exact surveyed_closed ch0 st _ hC.closed
  · intro k n hn
    rw [recordSurvey_graph] at hn
    rcases hn with hn | ⟨rfl, _⟩
    · by_cases hk : st.pos = k
      · left; rw [hk]; exact List.mem_cons_self _ _
      · rw [if_neg hk] at hn
        rcases hC.surveyedEdge k n hn with h1 | h1
        · exact Or.inl (List.mem_cons_of_mem _ h1)
        · exact Or.inr (List.mem_cons_of_mem _ h1)
    · right; exact List.mem_cons_self _ _
  · exact recordSurvey_keys_nodup ch0 st _ hC.keysNodup
  · intro k hk
    rw [recordSurvey_keys] at hk
    rcases hk with hk | rfl | ⟨dir, hd, rfl, hwall⟩
    · exact hC.keysPassable k hk
    · exact explored_pos_passable hE
    · exact Passable.step dir (explored_pos_passable hE) hd hwall
  · have hpos0 : ∃ L, Walk (recordSurvey ch0 st (w st.pos)).1.graph ⟨0, 0⟩ st.pos L := by
      rcases hE.posKey with hk | ⟨_, hp⟩
      · obtain ⟨L, hL⟩ := hC.connected _ hk
        exact ⟨L, walk_mono (surveyed_mono w ch0 st hC.edgesOpen) hL⟩
      · rw [hp]; exact ⟨0, Walk.nil _⟩
    intro k hk
    rw [recordSurvey_keys] at hk
    rcases hk with hk | rfl | ⟨dir, hd, rfl, hwall⟩
    · obtain ⟨L, hL⟩ := hC.connected _ hk
      exact ⟨L, walk_mono (surveyed_mono w ch0 st hC.edgesOpen) hL⟩
    · exact hpos0
    · obtain ⟨L, hL⟩ := hpos0
      exact ⟨L + 1, Walk.snoc hL ((surveyed_adjacent ch0 st _ _).mpr ⟨dir, hd, rfl, hwall⟩)⟩
  · intro v hv0
    rw [recordSurvey_keys]
    rcases List.mem_cons.mp hv0 with rfl | hvh
    · exact Or.inr (Or.inl rfl)
    · exact Or.inl (hC.surveyedKeys v hvh)

/-- The exploration invariant is kept by a survey of the room the solver stands in
followed by a move, forward or after a replay, to an unvisited neighbour `q'` of the
coordinate `stp.pos` the move starts from. -/
theorem explored_arrive (w : Walls) (hw : w.Consistent) (ch0 ch : Choice) (hfair : ch.Fair)
    (st : SolverState) (h : List Coordinate) (hE : Explored w st h)
    (stp : SolverState) (rest : List Coordinate) (q' : Coordinate)
    (hgraph : stp.graph = (recordSurvey ch0 st (w st.pos)).1.graph)
    (hvis : stp.visited = st.visited)
    (hjun : ∀ v, stp.junctions.get? v =
      if v = st.pos ∧ rest ≠ [] then some rest else st.junctions.get? v)
    (hrest : ∀ u ∈ rest, u ∈ (recordSurvey ch0 st (w st.pos)).2)
    (hcover : ∀ u ∈ (recordSurvey ch0 st (w st.pos)).2, u = q' ∨ u ∈ rest)
    (hnew : isVisited st.visited q' = false)
    (hadj : q' ∈ adjacent stp.graph stp.pos) :
    Explored w (loopHead (moveTo ch stp (directionToMove stp.pos q'))).st (st.pos :: h) ∧
    (loopHead (moveTo ch stp (directionToMove stp.pos q'))).st.pos = q' := by
  have hC1 := charted_survey w hw ch0 st h hE
  rw [← hgraph] at hC1
  have hAdj : Adjacent stp.pos q' := by
    obtain ⟨dir, hd, hq, _⟩ := hC1.edgesOpen _ _ hadj
    rw [hq]; exact adjacent_neighbour _ hd
  obtain ⟨hpos, hg, hv, _, hj⟩ := arrive_state ch hfair stp q' hAdj
  refine ⟨?_, hpos⟩
  have hvisF : ∀ p, isVisited (loopHead (moveTo ch stp (directionToMove stp.pos q'))).st.visited p
      = true ↔ p = q' ∨ p = st.pos ∨ p ∈ h := by
    intro p
    rw [hv, hvis, isVisited_set]
    simp only [Bool.or_eq_true, decide_eq_true_eq, hE.visited]
    constructor
    · rintro (h1 | h1)
      · exact Or.inl h1.symm
      · exact Or.inr h1
    · rintro (h1 | h1)
      · exact Or.inl h1.symm
      · exact Or.inr h1
  have hq'old : ¬ (q' = st.pos ∨ q' ∈ h) := by
    intro hc
    have := (hE.visited q').mpr hc
    rw [hnew] at this
    exact Bool.false_ne_true this
  have huvAdj : ∀ u ∈ (recordSurvey ch0 st (w st.pos)).2,
      u ∈ adjacent (recordSurvey ch0 st (w st.pos)).1.graph st.pos := by
    intro u hu
    rw [surveyed_adjacent]
    exact ((mem_recordSurvey_uv ch0 st _ u).mp hu).2
  have hjunSome : ∀ v l, stp.junctions.get? v = some l →
      (v = st.pos ∧ rest ≠ [] ∧ l = rest) ∨ (st.junctions.get? v = some l) := by
    intro v l hl
    rw [hjun v] at hl
    by_cases hc : v = st.pos ∧ rest ≠ []
    · rw [if_pos hc] at hl
      exact Or.inl ⟨hc.1, hc.2, (Option.some.inj hl).symm⟩
    · rw [if_neg hc] at hl
      exact Or.inr hl
  constructor
  · -- visited
    intro p
    rw [hvisF, hpos]
    simp only [List.mem_cons]
  · -- fresh
    rw [hpos]
    simp only [List.mem_cons]
    exact hq'old
  · exact List.nodup_cons.mpr ⟨hE.fresh, hE.nodup⟩
  · -- origin
    exact (hvisF _).mpr (Or.inr ((hE.visited _).mp hE.origin))
  · -- table
    have htp : TableOk stp.junctions stp.visited := by
      constructor
      · intro k l hl
        rcases hjunSome k l hl with ⟨_, hne, rfl⟩ | hold
        · exact hne
        · exact hE.table.nonempty k l hold
      · intro k l hl p hp
        rw [hvis]
        rcases hjunSome k l hl with ⟨_, _, rfl⟩ | hold
        · exact (recordSurvey_paths ch0 st _ (hrest p hp)).1
        · exact hE.table.fresh k l hold p hp
      · intro k l hl p hp
        rcases hjunSome k l hl with ⟨rfl, _, rfl⟩ | hold
        · exact (recordSurvey_paths ch0 st _ (hrest p hp)).2
        · exact hE.table.adjacent k l hold p hp
      · intro k l hl
        rw [hvis]
        rcases hjunSome k l hl with ⟨rfl, _, _⟩ | hold
        · exact (hE.visited _).mpr (Or.inl rfl)
        · exact hE.table.keys k l hold
    obtain ⟨ht, _⟩ := moveTo_table ch hfair stp hAdj htp
    constructor
    · exact ht.nonempty
    · intro k l hl p hp
      have h1 := ht.fresh k l hl p hp
      have h2 := (cleanEntry_mem (hj k ▸ hl) hp).1
      rw [hv, isVisited_set, h1]
      simp only [Bool.or_false, decide_eq_false_iff_not]
      exact fun hc => h2 hc.symm
    · exact ht.adjacent
    · intro k l hl
      have h1 := ht.keys k l hl
      rw [hv, isVisited_set, h1]
      simp
  · -- keysIn
    intro k l hl
    rw [hj k] at hl
    cases hs : stp.junctions.get? k with
    | none => rw [hs] at hl; exact absurd hl (by simp [cleanEntry])
    | some l0 =>
      rcases hjunSome k l0 hs with ⟨rfl, _, _⟩ | hold
      · exact List.mem_cons_self _ _
      · exact List.mem_cons_of_mem _ (hE.keysIn _ _ hold)
  · -- listed
    intro k l hl u hu
    rw [hj k] at hl
    obtain ⟨_, l0, hl0, hul0⟩ := cleanEntry_mem hl hu
    rw [hg, hgraph]
    rcases hjunSome k l0 hl0 with ⟨rfl, _, rfl⟩ | hold
    · exact huvAdj u (hrest u hul0)
    · exact surveyed_mono w ch0 st hE.chart.edgesOpen k u (hE.listed k l0 hold u hul0)
  · -- complete
    intro v hv0 u hu
    rw [hg, hgraph] at hu
    by_cases huq : u = q'
    · left; exact (hvisF u).mpr (Or.inl huq)
    have hkeep : ∀ l0, stp.junctions.get? v = some l0 → u ∈ l0 →
        ∃ l, (loopHead (moveTo ch stp (directionToMove stp.pos q'))).st.junctions.get? v = some l
          ∧ u ∈ l := by
      intro l0 hl0 hul0
      have hmem : u ∈ otherPaths q'.X q'.Y l0 := by
        unfold otherPaths
        rw [List.mem_filter]
        refine ⟨hul0, ?_⟩
        simp only [decide_eq_true_eq]
        by_contra hc
        push_neg at hc
        exact huq (by cases u; cases q'; simp_all)
      refine ⟨otherPaths q'.X q'.Y l0, ?_, hmem⟩
      rw [hj v, hl0]
      show (if otherPaths q'.X q'.Y l0 = [] then none else some (otherPaths q'.X q'.Y l0)) = _
      rw [if_neg (List.ne_nil_of_mem hmem)]
    rcases List.mem_cons.mp hv0 with rfl | hvh
    · -- the coordinate just surveyed
      by_cases huv : isVisited st.visited u = true
      · left; exact (hvisF u).mpr (Or.inr ((hE.visited u).mp huv))
      · right
        have hmem : u ∈ (recordSurvey ch0 st (w st.pos)).2 := by
          rw [mem_recordSurvey_uv]
          exact ⟨by simpa using huv, (surveyed_adjacent ch0 st _ u).mp hu⟩
        have hur : u ∈ rest := (hcover u hmem).resolve_left huq
        have hne : rest ≠ [] := List.ne_nil_of_mem hur
        apply hkeep rest _ hur
        rw [hjun, if_pos ⟨rfl, hne⟩]
    · have hvq : st.pos ≠ v := fun hc => hE.fresh (hc ▸ hvh)
      rw [recordSurvey_graph, if_neg hvq] at hu
      rcases hu with hu | ⟨rfl, _⟩
      · rcases hE.complete v hvh u hu with hvis0 | ⟨l, hl, hul⟩
        · left; exact (hvisF u).mpr (Or.inr ((hE.visited u).mp hvis0))
        · right
          apply hkeep l _ hul
          rw [hjun, if_neg (fun hc => hvq hc.1.symm)]
          exact hl
      · left; exact (hvisF _).mpr (Or.inr (Or.inl rfl))
  · -- chart
    rw [hg]; exact hC1
  · -- posKey
    left
    rw [hpos, hg]
    exact hC1.closed _ _ hadj

/-- The solver starts with nothing explored. -/
theorem explored_init (w : Walls) : Explored w initConfig.st [] := by
  constructor
  · intro p
    show isVisited (GoMap.set [] ⟨0, 0⟩ true) p = true ↔ _
    rw [isVisited_set]
    simp only [Bool.or_eq_true, decide_eq_true_eq, List.not_mem_nil, or_false]
    constructor
    · rintro (h1 | h1)
      · exact h1.symm
      · exact absurd h1 (by simp [isVisited, GoMap.get?])
    · intro h1; exact Or.inl h1.symm
  · exact List.not_mem_nil _
  · exact List.nodup_nil
  · rfl
  · constructor <;> intro k l hl <;> exact absurd hl (by simp [initConfig, loopHead, GoMap.get?])
  · intro k l hl; exact absurd hl (by simp [initConfig, loopHead, GoMap.get?])
  · intro k l hl; exact absurd hl (by simp [initConfig, loopHead, GoMap.get?])
  · intro v hv; exact absurd hv (List.not_mem_nil _)
  · constructor
    · intro k n hn; exact absurd hn (by simp [initConfig, loopHead, adjacent, GoMap.get?])
    · intro v hv; exact absurd hv (List.not_mem_nil _)
    · intro k n hn; exact absurd hn (by simp [initConfig, loopHead, adjacent, GoMap.get?])
    · intro k n hn; exact absurd hn (by simp [initConfig, loopHead, adjacent, GoMap.get?])
    · intro k n hn; exact absurd hn (by simp [initConfig, loopHead, adjacent, GoMap.get?])
    · exact List.nodup_nil
    · intro k hk; exact absurd hk (by simp [initConfig, loopHead, GoMap.keys])
    · intro k hk; exact absurd hk (by simp [initConfig, loopHead, GoMap.keys])
    · intro v hv; exact absurd hv (List.not_mem_nil _)
  · exact Or.inr ⟨rfl, rfl⟩

/-! ## The maze of the trial loop -/

theorem wallAt_closed {dir : Int} (hd : dir = N ∨ dir = S ∨ dir = E ∨ dir = W) :
    wallAt ⟨true, true, true, true⟩ dir = true := by
  rcases hd with h | h | h | h <;> subst h <;> rfl

theorem opposite_opposite {dir : Int} (hd : dir = N ∨ dir = S ∨ dir = E ∨ dir = W) :
    Opposite (Opposite dir) = dir := by
  rcases hd with h | h | h | h <;> subst h <;> rfl

/-- Outside the maze every side reads as a wall. -/
theorem walls_outside (m : Maze) (c : Coordinate) (h : m.roomAt c = none) :
    m.walls c = ⟨true, true, true, true⟩ := by
  unfold Maze.walls
  rw [h]

/-- An open side leads from a room of the maze to a room of the maze. -/
theorem roomAt_of_open (m : Maze) (hwalls : m.ConsistentWalls) (c : Coordinate) {dir : Int}
    (hd : dir = N ∨ dir = S ∨ dir = E ∨ dir = W) (hin : (m.roomAt c).isSome)
    (hopen : wallAt (m.walls c) dir = false) : (m.roomAt (neighbour c dir)).isSome := by
  have h1 := hwalls c dir hd hin
  rw [hopen] at h1
  cases hr : m.roomAt (neighbour c dir) with
  | some r => rfl
  | none =>
    rw [walls_outside m _ hr, wallAt_closed (opposite_dir hd)] at h1
    exact absurd h1 (by decide)

/-- The walls of a maze with consistent walls and a closed perimeter are consistent
on the whole grid. -/
theorem walls_consistent (m : Maze) (hwalls : m.ConsistentWalls) : m.walls.Consistent := by
  intro c dir hd
  cases hc : m.roomAt c with
  | some r => exact (hwalls c dir hd (by rw [hc]; rfl)).symm
  | none =>
    cases hn : m.roomAt (neighbour c dir) with
    | none =>
      rw [walls_outside m _ hc, walls_outside m _ hn, wallAt_closed hd,
        wallAt_closed (opposite_dir hd)]
    | some r =>
      have h1 := hwalls (neighbour c dir) (Opposite dir) (opposite_dir hd) (by rw [hn]; rfl)
      rw [neighbour_opposite c hd, opposite_opposite hd] at h1
      exact h1

/-- Every coordinate reachable through open sides is a room of the maze. -/
theorem passable_inside (m : Maze) (hwf : m.WellFormed) (hwalls : m.ConsistentWalls)
    {c : Coordinate} (hp : Passable m.walls c) : (m.roomAt c).isSome := by
  induction hp with
  | start =>
    have := hwf.start_in
    unfold Maze.roomAt
    simpa using this
  | step dir _ hd hopen ih => exact roomAt_of_open m hwalls _ hd ih hopen

theorem at_getRoom (m mz : Maze) (x y : Int) (h1 : mz.rooms = m.rooms) :
    mz.GetRoom x y = m.GetRoom x y := by
  unfold Maze.GetRoom Maze.Width Maze.Height
  rw [h1]

/-- The reply of the maze when Icarus stands in a room other than the treasure room:
the walls of that room and no error. -/
theorem reply_at (m mz : Maze) (c : Coordinate) (hat : m.At mz c) (hin : (m.roomAt c).isSome)
    (hne : c ≠ m.treasure) : mz.reply = ⟨m.walls c, none⟩ := by
  obtain ⟨h1, h2, h3, h4⟩ := hat
  have hfin : ¬ (mz.finish.X = mz.icarus.X ∧ mz.finish.Y = mz.icarus.Y) := by
    rw [h3, h4]
    rintro ⟨hx, hy⟩
    apply hne
    unfold Maze.treasure
    cases c
    simp only [Coordinate.mk.injEq] at hx hy ⊢
    constructor <;> omega
  obtain ⟨r, hr⟩ := Option.isSome_iff_exists.mp hin
  have hroom : mz.GetRoom mz.icarus.X mz.icarus.Y = some r := by
    rw [at_getRoom m mz _ _ h1, h4]
    exact hr
  unfold Maze.reply Maze.LookAround
  rw [if_neg hfin]
  unfold Maze.Discover
  rw [hroom]
  unfold Maze.walls
  rw [hr]

/-- The reply of the maze when Icarus stands in the treasure room. -/
theorem reply_treasure (m mz : Maze) (hat : m.At mz m.treasure) :
    mz.reply.Err = some .ErrVictory := by
  obtain ⟨h1, h2, h3, h4⟩ := hat
  have hfin : mz.finish.X = mz.icarus.X ∧ mz.finish.Y = mz.icarus.Y := by
    rw [h3, h4]
    unfold Maze.treasure
    constructor <;> simp
  unfold Maze.reply Maze.LookAround
  rw [if_pos hfin]

/-- A command through an open side moves Icarus to the neighbouring room. -/
theorem play_at (m mz : Maze) (hwalls : m.ConsistentWalls) (c : Coordinate) (hat : m.At mz c)
    (hin : (m.roomAt c).isSome) (hne : c ≠ m.treasure) {dir : Int}
    (hd : dir = N ∨ dir = S ∨ dir = E ∨ dir = W) (hopen : wallAt (m.walls c) dir = false) :
    m.At (mz.play dir) (neighbour c dir) := by
  have hrep := reply_at m mz c hat hin hne
  have hnb := roomAt_of_open m hwalls c hd hin hopen
  obtain ⟨h1, h2, h3, h4⟩ := hat
  have hlook : mz.LookAround = (m.walls c, none) := by
    have := congrArg MazeReply.Survey hrep
    have := congrArg MazeReply.Err hrep
    unfold Maze.reply at *
    simp only at *
    exact Prod.ext (by assumption) (by assumption)
  obtain ⟨r, hr⟩ := Option.isSome_iff_exists.mp hnb
  have hmove : ∀ (wall : Survey → Bool) (x y : Int), wall (m.walls c) = false →
      (⟨x, y⟩ : Coordinate) = ⟨m.start.X + (neighbour c dir).X, m.start.Y + (neighbour c dir).Y⟩ →
      m.At (mz.moveInto wall x y).1 (neighbour c dir) := by
    intro wall x y hwall hxy
    have hroom : mz.GetRoom x y = some r := by
      rw [at_getRoom m mz _ _ h1]
      simp only [Coordinate.mk.injEq] at hxy
      rw [hxy.1, hxy.2]
      exact hr
    unfold Maze.moveInto
    rw [hlook]
    simp only [hwall, hroom]
    exact ⟨h1, h2, h3, hxy⟩
  unfold Maze.play
  rcases hd with h | h | h | h <;> subst h
  · rw [if_pos rfl]
    apply hmove
    · exact hopen
    · rw [h4]; simp [neighbour, Delta]; omega
  · rw [if_neg (by decide), if_pos rfl]
    apply hmove
    · exact hopen
    · rw [h4]; simp [neighbour, Delta, N, S]; omega
  · rw [if_neg (by decide), if_neg (by decide), if_pos rfl]
    apply hmove
    · exact hopen
    · rw [h4]; simp [neighbour, Delta, N, S, E]; omega
  · rw [if_neg (by decide), if_neg (by decide), if_neg (by decide), if_pos rfl]
    apply hmove
    · exact hopen
    · rw [h4]; simp [neighbour, Delta, N, S, E, W]; omega

/-! ## Counting the rooms -/

theorem roomAt_isSome_iff (m : Maze) (c : Coordinate) :
    (m.roomAt c).isSome ↔ 0 ≤ m.start.X + c.X ∧ m.start.X + c.X < m.Width ∧
      0 ≤ m.start.Y + c.Y ∧ m.start.Y + c.Y < m.Height := by
  unfold Maze.roomAt Maze.GetRoom
  split_ifs with h
  · simp only [Option.isSome_none, Bool.false_eq_true, false_iff]
    omega
  · simp only [Option.isSome_some, true_iff]
    omega

/-- Distinct coordinates inside the maze are no more than its rooms. -/
theorem length_le_rooms (m : Maze) (l : List Coordinate) (hn : l.Nodup)
    (hin : ∀ c ∈ l, (m.roomAt c).isSome) : l.length ≤ m.Width.toNat * m.Height.toNat := by
  have hcard : l.toFinset.card = l.length := List.toFinset_card_of_nodup hn
  rw [← hcard]
  have hbox : (Finset.range m.Width.toNat ×ˢ Finset.range m.Height.toNat).card
      = m.Width.toNat * m.Height.toNat := by
    rw [Finset.card_product, Finset.card_range, Finset.card_range]
  rw [← hbox]
  apply Finset.card_le_card_of_injOn
    (fun c : Coordinate => ((m.start.X + c.X).toNat, (m.start.Y + c.Y).toNat))
  · intro c hc
    have h1 := (roomAt_isSome_iff m c).mp (hin c (List.mem_toFinset.mp hc))
    show _ ∈ ((Finset.range m.Width.toNat ×ˢ Finset.range m.Height.toNat : Finset (Nat × Nat)) :
      Set (Nat × Nat))
    rw [Finset.mem_coe, Finset.mem_product, Finset.mem_range, Finset.mem_range]
    constructor <;> omega
  · intro a ha b hb hab
    have h1 := (roomAt_isSome_iff m a).mp (hin a (List.mem_toFinset.mp ha))
    have h2 := (roomAt_isSome_iff m b).mp (hin b (List.mem_toFinset.mp hb))
    simp only [Prod.mk.injEq] at hab
    cases a; cases b
    simp only [Coordinate.mk.injEq] at *
    constructor <;> omega

/-! ## The trial loop -/

theorem trialRun_add (choices : Nat → Choice) (a b : Nat) (t : Trial) :
    trialRun choices (a + b) t = trialRun choices b (trialRun choices a t) := by
  induction a generalizing t with
  | zero => simp [trialRun]
  | succ a ih =>
    rw [Nat.succ_add]
    show (match trialStep (choices (t.currentCount + 1)) t with
      | none => t
      | some t' => trialRun choices (a + b) t') = trialRun choices b
        (match trialStep (choices (t.currentCount + 1)) t with
          | none => t
          | some t' => trialRun choices a t')
    cases hs : trialStep (choices (t.currentCount + 1)) t with
    | some t' => simp only; exact ih t'
    | none =>
      simp only
      have hstop : ∀ n, trialRun choices n t = t := by
        intro n
        cases n with
        | zero => rfl
        | succ n =>
          show (match trialStep (choices (t.currentCount + 1)) t with
            | none => t
            | some t' => trialRun choices n t') = t
          rw [hs]
      exact (hstop b).symm

/-- One iteration of the trial loop when the solver is about to send the command `d`. -/
theorem trialRun_one (choices : Nat → Choice) (t : Trial) (d : Int) (c : Config)
    (hs : send t.solver = some (d, c)) :
    trialRun choices 1 t = ⟨t.maze.play d,
      recv (choices (t.currentCount + 1)) (t.maze.play d).reply c, t.currentCount + 1⟩ := by
  show (match trialStep (choices (t.currentCount + 1)) t with
      | none => t
      | some t' => trialRun choices 0 t') = _
  unfold trialStep
  rw [hs]
  rfl

/-! ## The way back to a junction -/

/-- A shortest route to a nearest junction key stays on visited coordinates, when
every neighbour of a visited coordinate is visited unless the coordinate is a
junction key. -/
theorem route_visited (g j : adjacencyMap) (vis : Coordinate → Prop) (s : Coordinate)
    (hcomplete : ∀ v, vis v → ∀ u ∈ adjacent g v, vis u ∨ v ∈ j.keys)
    (path : List Coordinate) :
    ∀ (a : Coordinate) (n : Nat), Walk g s a n → vis a → IsRoute g a path →
      (∀ k ∈ j.keys, ∀ L, Walk g s k L → n + path.length ≤ L) → ∀ x ∈ path, vis x := by
  induction path with
  | nil => intro a n _ _ _ _ x hx; exact absurd hx (List.not_mem_nil _)
  | cons y ys ih =>
    intro a n hw ha hroute hmin x hx
    obtain ⟨hy, hrest⟩ := hroute
    have hvy : vis y := by
      rcases hcomplete a ha y hy with h1 | h1
      · exact h1
      · have := hmin a h1 n hw
        simp only [List.length_cons] at this
        omega
    rcases List.mem_cons.mp hx with rfl | hxs
    · exact hvy
    · refine ih y (n + 1) (Walk.snoc hw hy) hvy hrest ?_ x hxs
      intro k hk L hL
      have := hmin k hk L hL
      simp only [List.length_cons] at this
      omega

/-- A passable coordinate is visited, unless some junction is left: the sides
of the visited rooms are all charted. -/
theorem passable_visited (w : Walls) (j : adjacencyMap) (vis : Coordinate → Prop)
    (h0 : vis ⟨0, 0⟩)
    (hstep : ∀ v, vis v → ∀ dir, (dir = N ∨ dir = S ∨ dir = E ∨ dir = W) →
      wallAt (w v) dir = false → vis (neighbour v dir) ∨ v ∈ j.keys)
    {c : Coordinate} (hp : Passable w c) : vis c ∨ ∃ k, k ∈ j.keys := by
  induction hp with
  | start => exact Or.inl h0
  | step dir _ hd hopen ih =>
    rcases ih with hv | hk
    · rcases hstep _ hv dir hd hopen with h1 | h1
      · exact Or.inl h1
      · exact Or.inr ⟨_, h1⟩
    · exact Or.inr hk

theorem chooseMove_forward (ch : Choice) (st : SolverState) (uv : List Coordinate)
    (hne : uv ≠ []) :
    chooseMove ch st uv =
      ⟨.sendNext (directionToMove ⟨st.cx, st.cy⟩
          ((priortisePaths st.boundary st.cx st.cy uv st.visited).headD default)),
        moveTo ch
          { st with
            junctions := if uv.length > 1 then st.junctions.set ⟨st.cx, st.cy⟩
              ((priortisePaths st.boundary st.cx st.cy uv st.visited).drop 1) else st.junctions }
          (directionToMove ⟨st.cx, st.cy⟩
            ((priortisePaths st.boundary st.cx st.cy uv st.visited).headD default))⟩ := by
  unfold chooseMove
  rw [if_neg (by simpa using hne)]

theorem setPos_self (st : SolverState) : { st with cx := st.pos.X, cy := st.pos.Y } = st := rfl

/-- The replay of a route through rooms other than the treasure room: the trial
loop moves Icarus along the route, and the solver is left at its end, the replay done. -/
theorem replay_trial (m : Maze) (hwalls : m.ConsistentWalls) (choices : Nat → Choice)
    (hfair : ∀ i, (choices i).Fair) (g : adjacencyMap) (hopen : EdgesOpen m.walls g)
    (path : List Coordinate) :
    ∀ (p : Coordinate) (t : Trial) (ch : Choice) (st : SolverState), ch.Fair → st.pos = p →
      m.At t.maze p → (m.roomAt p).isSome → p ≠ m.treasure → IsRoute g p path →
      (∀ x ∈ path.dropLast, x ≠ m.treasure) →
      t.solver = replayFrom ch st (routeDirections p path) →
      ∃ ch' : Choice, ch'.Fair ∧ m.At (trialRun choices path.length t).maze (endOf p path) ∧
        (m.roomAt (endOf p path)).isSome ∧
        (trialRun choices path.length t).solver =
          replayFrom ch' { st with cx := (endOf p path).X, cy := (endOf p path).Y } [] := by
  induction path with
  | nil =>
    intro p t ch st hch hpos hat hin _ _ _ hsol
    subst hpos
    exact ⟨ch, hch, hat, hin, hsol⟩
  | cons x xs ih =>
    intro p t ch st hch hpos hat hin hne hroute hnot hsol
    obtain ⟨hx, hrest⟩ := hroute
    obtain ⟨dir, hd, hxn, hwall⟩ := hopen p x hx
    have hdir : directionToMove p x = dir := by rw [hxn]; exact directionToMove_neighbour p hd
    have hup : updatePosition st.cx st.cy dir = (x.X, x.Y) := by
      have := updatePosition_directionToMove (p := p) (q := x) (by rw [hxn]; exact adjacent_neighbour p hd)
      rw [hdir, ← hpos] at this
      exact this
    have hsol1 : t.solver = ⟨.sendBack dir (routeDirections x xs),
        { st with cx := x.X, cy := x.Y }⟩ := by
      rw [hsol]
      show replayFrom ch st (directionToMove p x :: routeDirections x xs) = _
      rw [hdir]
      show (⟨.sendBack dir (routeDirections x xs),
        { st with cx := (updatePosition st.cx st.cy dir).1,
                  cy := (updatePosition st.cx st.cy dir).2 }⟩ : Config) = _
      rw [hup]
    have hsend : send t.solver = some (dir, ⟨.recvBack (routeDirections x xs),
        { st with cx := x.X, cy := x.Y }⟩) := by
      rw [hsol1]; rfl
    have hone := trialRun_one choices t dir _ hsend
    have hplay : m.At (t.maze.play dir) x := by
      rw [hxn]; exact play_at m t.maze hwalls p hat hin hne hd hwall
    have hxin : (m.roomAt x).isSome := by
      rw [hxn]; exact roomAt_of_open m hwalls p hd hin hwall
    show ∃ ch' : Choice, ch'.Fair ∧ m.At (trialRun choices (xs.length + 1) t).maze (endOf x xs) ∧
        (m.roomAt (endOf x xs)).isSome ∧
        (trialRun choices (xs.length + 1) t).solver =
          replayFrom ch' { st with cx := (endOf x xs).X, cy := (endOf x xs).Y } []
    rw [Nat.add_comm, trialRun_add, hone]
    cases xs with
    | nil =>
      exact ⟨choices (t.currentCount + 1), hfair _, hplay, hxin, rfl⟩
    | cons y ys =>
      have hxne : x ≠ m.treasure := hnot x (by simp [List.dropLast])
      have hnot2 : ∀ z ∈ (y :: ys).dropLast, z ≠ m.treasure := by
        intro z hz
        exact hnot z (by
          rw [List.dropLast_cons_of_ne_nil (List.cons_ne_nil _ _)]
          exact List.mem_cons_of_mem _ hz)
      exact ih x _ (choices (t.currentCount + 1)) { st with cx := x.X, cy := x.Y } (hfair _) rfl
        hplay hxin hxne hrest hnot2 rfl

/-! ## One round of the exploration -/

/-- A room with an unvisited open neighbour: the solver moves to one, and the trial
loop hands it the reply of that room. -/
theorem atTop_forward (m : Maze) (hwf : m.WellFormed) (hwalls : m.ConsistentWalls)
    (choices : Nat → Choice) (hfair : ∀ i, (choices i).Fair)
    (t : Trial) (st : SolverState) (h : List Coordinate) (hat : AtTop m t st h)
    (hnot : st.pos ≠ m.treasure) (ch : Choice) (hch : ch.Fair)
    (st1 : SolverState) (uv : List Coordinate)
    (hr : recordSurvey ch st (m.walls st.pos) = (st1, uv))
    (hsol : t.solver = chooseMove ch st1 uv) (huv : uv ≠ []) :
    AtTop m (trialRun choices 1 t) (loopHead (chooseMove ch st1 uv).st).st (st.pos :: h) := by
  obtain ⟨hE, hmz, _, hun⟩ := hat
  have hw := walls_consistent m hwalls
  have hqin : (m.roomAt st.pos).isSome :=
    passable_inside m hwf hwalls (explored_pos_passable hE)
  have hframe := recordSurvey_frame ch st (m.walls st.pos)
  have hmem := mem_recordSurvey_uv ch st (m.walls st.pos)
  have hadj1 := surveyed_adjacent ch st (m.walls st.pos)
  have harr := explored_arrive m.walls hw ch ch hch st h hE
  rw [hr] at hframe hmem hadj1 harr
  simp only at hframe hmem hadj1 harr
  obtain ⟨hcx, hcy, hjn, hvs⟩ := hframe
  rw [chooseMove_forward ch _ _ huv] at hsol ⊢
  have hperm := priortisePaths_perm st1.boundary st1.cx st1.cy uv st1.visited
  generalize priortisePaths st1.boundary st1.cx st1.cy uv st1.visited = uv' at hsol hperm ⊢
  obtain ⟨cx1, cy1, g1, j1, v1, b1, ew1, eh1⟩ := st1
  simp only at hcx hcy hjn hvs hsol hadj1 harr ⊢
  subst hcx hcy hjn hvs
  cases uv' with
  | nil => exact absurd (hperm.symm.eq_nil) huv
  | cons q' rest =>
    simp only [List.headD_cons, List.drop_succ_cons, List.drop_zero] at hsol ⊢
    have hq'uv : q' ∈ uv := hperm.mem_iff.mp (List.mem_cons_self _ _)
    obtain ⟨hq'new, dir, hd, hq'n, hwall⟩ := (hmem q').mp hq'uv
    have hlen : uv.length = rest.length + 1 := by
      rw [← hperm.length_eq]; rfl
    obtain ⟨hE', hpos'⟩ := harr
      ⟨st.cx, st.cy, g1, if uv.length > 1 then st.junctions.set ⟨st.cx, st.cy⟩ rest
        else st.junctions, st.visited, b1, ew1, eh1⟩
      rest q' rfl rfl
      (by
        intro v
        show GoMap.get? (if uv.length > 1 then
          GoMap.set st.junctions st.pos rest else st.junctions) v = _
        by_cases hr : rest = []
        · subst hr
          rw [if_neg (by rw [hlen]; simp), if_neg (by simp)]
        · have : 0 < rest.length := List.length_pos.mpr hr
          rw [if_pos (by rw [hlen]; omega), GoMap.get?_set]
          by_cases hv : st.pos = v
          · rw [if_pos hv, if_pos ⟨hv.symm, hr⟩]
          · rw [if_neg hv, if_neg (fun hc => hv hc.1.symm)])
      (fun u hu => hperm.mem_iff.mp (List.mem_cons_of_mem _ hu))
      (fun u hu => List.mem_cons.mp (hperm.mem_iff.mpr hu))
      hq'new
      ((hadj1 q').mpr ⟨dir, hd, hq'n, hwall⟩)
    have hdir : directionToMove st.pos q' = dir := by
      rw [hq'n]; exact directionToMove_neighbour _ hd
    have hsend : send t.solver = some (directionToMove st.pos q', loopHead (moveTo ch
        ⟨st.cx, st.cy, g1, if uv.length > 1 then st.junctions.set ⟨st.cx, st.cy⟩ rest
          else st.junctions, st.visited, b1, ew1, eh1⟩ (directionToMove st.pos q'))) := by
      rw [hsol]; rfl
    rw [trialRun_one choices t _ _ hsend]
    refine ⟨hE', ?_, ⟨choices (t.currentCount + 1), hfair _, rfl⟩, ?_⟩
    · have hgoal : m.At (t.maze.play (directionToMove st.pos q')) q' := by
        rw [hdir, hq'n]
        exact play_at m t.maze hwalls st.pos hmz hqin hnot hd hwall
      exact (congrArg (m.At (t.maze.play (directionToMove st.pos q'))) hpos').mpr hgoal
    · intro hc
      rcases List.mem_cons.mp hc with h1 | h1
      · exact hnot h1.symm
      · exact hun h1

/-- A dead end while the treasure is not found: the solver replays a shortest route to
a nearest junction and moves from it to an unvisited room, and the trial loop hands
it the reply of that room. -/
theorem atTop_deadEnd (m : Maze) (hwf : m.WellFormed) (hwalls : m.ConsistentWalls)
    (hreach : Passable m.walls m.treasure)
    (hsmall : m.Width.toNat * m.Height.toNat ≤ infinity + 1)
    (choices : Nat → Choice) (hfair : ∀ i, (choices i).Fair)
    (t : Trial) (st : SolverState) (h : List Coordinate) (hat : AtTop m t st h)
    (hnot : st.pos ≠ m.treasure) (ch : Choice) (hch : ch.Fair)
    (st1 : SolverState)
    (hr : recordSurvey ch st (m.walls st.pos) = (st1, []))
    (hsol : t.solver = chooseMove ch st1 []) :
    ∃ n st', AtTop m (trialRun choices n t) st' (st.pos :: h) := by
  obtain ⟨hE, hmz, _, hun⟩ := hat
  have hw := walls_consistent m hwalls
  have hqin : (m.roomAt st.pos).isSome :=
    passable_inside m hwf hwalls (explored_pos_passable hE)
  have hframe := recordSurvey_frame ch st (m.walls st.pos)
  have hmem := mem_recordSurvey_uv ch st (m.walls st.pos)
  have hadj1 := surveyed_adjacent ch st (m.walls st.pos)
  have harr := fun ch' hch' => explored_arrive m.walls hw ch ch' hch' st h hE
  have hC1 := charted_survey m.walls hw ch st h hE
  have hmono := surveyed_mono m.walls ch st hE.chart.edgesOpen
  have hgr := recordSurvey_graph ch st (m.walls st.pos)
  rw [hr] at hframe hmem hadj1 harr hC1 hmono hgr
  simp only at hframe hmem hadj1 harr hC1 hmono hgr
  obtain ⟨hcx, hcy, hjn, hvs⟩ := hframe
  obtain ⟨cx1, cy1, g1, j1, v1, b1, ew1, eh1⟩ := st1
  simp only at hcx hcy hjn hvs hsol hadj1 harr hC1 hmono hgr
  subst hcx hcy hjn hvs
  -- the visited coordinates
  have hvisq : ∀ u, isVisited st.visited u = false → ¬ (u = st.pos ∨ u ∈ h) := by
    intro u hu hc
    rw [(hE.visited u).mpr hc] at hu
    exact Bool.noConfusion hu
  have hdead : ∀ u ∈ adjacent g1 st.pos, u = st.pos ∨ u ∈ h := by
    intro u hu
    by_contra hc
    have hnv : isVisited st.visited u = false := by
      cases hv : isVisited st.visited u with
      | false => rfl
      | true => exact absurd ((hE.visited u).mp hv) hc
    have := (hmem u).mpr ⟨hnv, (hadj1 u).mp hu⟩
    exact absurd this (List.not_mem_nil _)
  have hcompl : ∀ v, (v = st.pos ∨ v ∈ h) → ∀ u ∈ adjacent g1 v,
      (u = st.pos ∨ u ∈ h) ∨ v ∈ st.junctions.keys := by
    intro v hv u hu
    rcases hv with rfl | hvh
    · exact Or.inl (hdead u hu)
    · have hvq : st.pos ≠ v := fun hc => hE.fresh (hc ▸ hvh)
      rw [hgr, if_neg hvq] at hu
      rcases hu with hu | ⟨rfl, _⟩
      · rcases hE.complete v hvh u hu with hvis0 | ⟨l, hl, _⟩
        · exact Or.inl ((hE.visited u).mp hvis0)
        · exact Or.inr (mem_keys_of_get? hl)
      · exact Or.inl (Or.inl rfl)
  have htreasure : ¬ (m.treasure = st.pos ∨ m.treasure ∈ h) := by
    rintro (h1 | h1)
    · exact hnot h1.symm
    · exact hun h1
  -- a junction is left
  obtain ⟨k, hk⟩ : ∃ k, k ∈ st.junctions.keys := by
    rcases passable_visited m.walls st.junctions (fun v => v = st.pos ∨ v ∈ h)
      ((hE.visited _).mp hE.origin)
      (fun v hv dir hd hopen => hcompl v hv _
        (hC1.forward v (List.mem_cons.mpr hv) dir hd hopen)) hreach with h1 | h1
    · exact absurd h1 htreasure
    · exact h1
  have hkeysH : ∀ k, k ∈ st.junctions.keys → k ∈ h := by
    intro k hk
    obtain ⟨l, hl⟩ := get?_isSome_of_mem_keys hk
    exact hE.keysIn k l hl
  have hj : ∀ k ∈ st.junctions.keys, k ∈ g1.keys :=
    fun k hk => hC1.surveyedKeys k (List.mem_cons_of_mem _ (hkeysH k hk))
  have hs : (⟨st.cx, st.cy⟩ : Coordinate) ∈ g1.keys :=
    hC1.surveyedKeys _ (List.mem_cons_self _ _)
  have hlen : g1.keys.length ≤ infinity + 1 :=
    le_trans (length_le_rooms m g1.keys hC1.keysNodup
      (fun c hc => passable_inside m hwf hwalls (hC1.keysPassable c hc))) hsmall
  obtain ⟨L1, hL1⟩ := hC1.connected _ hs
  obtain ⟨L2, hL2⟩ := hC1.connected _ (hj k hk)
  have hwalk : Walk g1 ⟨st.cx, st.cy⟩ k (L1 + L2) :=
    walk_trans (walk_reverse hC1.symm hL1) hL2
  -- an unvisited room next to the junction
  obtain ⟨l, hl⟩ := get?_isSome_of_mem_keys hk
  obtain ⟨u, hul⟩ := List.exists_mem_of_ne_nil l (hE.table.nonempty k l hl)
  have hunv := hE.table.fresh k l hl u hul
  have huadj : u ∈ adjacent g1 k := hmono k u (hE.listed k l hl u hul)
  have hreach2 := key_within_reach g1 st.junctions ⟨st.cx, st.cy⟩ hC1.closed hs hj hk hwalk hlen
    u (hC1.closed _ _ huadj) (fun hc => hvisq u hunv (Or.inl hc))
    (fun hc => hvisq u hunv (Or.inr (hkeysH u hc)))
    (by
      intro v hv
      rcases hC1.surveyedEdge v u hv with h1 | h1
      · rcases hcompl v (List.mem_cons.mp h1) u hv with h2 | h2
        · exact absurd h2 (hvisq u hunv)
        · exact h2
      · exact absurd (List.mem_cons.mp h1) (hvisq u hunv))
  obtain ⟨path, hsp, hroute, hend, hmin⟩ :=
    shortestPath_spec ch.route hch.1 st.cx st.cy g1 st.junctions hC1.closed hs hj hreach2
  cases path with
  | nil => exact absurd (hkeysH _ hend) hE.fresh
  | cons x xs =>
    have hsol1 : t.solver = replayFrom ch ⟨st.cx, st.cy, g1, st.junctions, st.visited, b1, ew1, eh1⟩
        (routeDirections ⟨st.cx, st.cy⟩ (x :: xs)) := by
      rw [hsol]
      exact chooseMove_deadEnd ch _ _ _ hsp
    have hvisPath := route_visited g1 st.junctions (fun v => v = st.pos ∨ v ∈ h) st.pos hcompl
      (x :: xs) st.pos 0 (Walk.nil _) (Or.inl rfl) hroute
      (fun k hk L hL => by rw [Nat.zero_add]; exact hmin k hk L hL)
    obtain ⟨ch', hch', hat2, hkin, hsol2⟩ := replay_trial m hwalls choices hfair g1 hC1.edgesOpen
      (x :: xs) st.pos t ch ⟨st.cx, st.cy, g1, st.junctions, st.visited, b1, ew1, eh1⟩ hch rfl
      hmz hqin hnot hroute
      (fun z hz hc => htreasure (hc ▸ hvisPath z (List.mem_of_mem_dropLast hz))) hsol1
    have hend' : endOf st.pos (x :: xs) ∈ st.junctions.keys := hend
    generalize endOf st.pos (x :: xs) = k' at hend' hat2 hkin hsol2
    obtain ⟨l', hl'⟩ := get?_isSome_of_mem_keys hend'
    cases l' with
    | nil => exact absurd rfl (hE.table.nonempty k' _ hl')
    | cons nxt l'' =>
      have hnxt : nxt ∈ adjacent g1 k' := hmono k' nxt (hE.listed k' _ hl' nxt (List.mem_cons_self _ _))
      obtain ⟨dir, hd, hnb, hwall⟩ := hC1.edgesOpen k' nxt hnxt
      have hdir : directionToMove k' nxt = dir := by
        rw [hnb]; exact directionToMove_neighbour _ hd
      have hsol3 : (trialRun choices (x :: xs).length t).solver =
          ⟨.sendNext (directionToMove k' nxt),
            moveTo ch' ⟨k'.X, k'.Y, g1, st.junctions, st.visited, b1, ew1, eh1⟩
              (directionToMove k' nxt)⟩ := by
        rw [hsol2]
        show (match (GoMap.get? st.junctions k').getD [] with
          | [] => (⟨.crashed .invalidMap, _⟩ : Config)
          | nextCoor :: _ => ⟨.sendNext (directionToMove k' nextCoor), moveTo ch' _
              (directionToMove k' nextCoor)⟩) = _
        rw [hl']
        rfl
      have hsend : send (trialRun choices (x :: xs).length t).solver =
          some (directionToMove k' nxt, loopHead (moveTo ch'
            ⟨k'.X, k'.Y, g1, st.junctions, st.visited, b1, ew1, eh1⟩
            (directionToMove k' nxt))) := by
        rw [hsol3]; rfl
      obtain ⟨hE', hpos'⟩ := harr ch' hch'
        ⟨k'.X, k'.Y, g1, st.junctions, st.visited, b1, ew1, eh1⟩ [] nxt rfl rfl
        (by intro v; rw [if_neg (fun hc => hc.2 rfl)])
        (fun u hu => absurd hu (List.not_mem_nil _))
        (fun u hu => absurd hu (List.not_mem_nil _))
        (hE.table.fresh k' _ hl' nxt (List.mem_cons_self _ _))
        hnxt
      refine ⟨(x :: xs).length + 1, ?_⟩
      rw [trialRun_add, trialRun_one choices _ _ _ hsend]
      refine ⟨_, hE', ?_, ⟨_, hfair _, rfl⟩, ?_⟩
      · show m.At ((trialRun choices (x :: xs).length t).maze.play (directionToMove k' nxt)) _
        rw [hpos', hdir, hnb]
        exact play_at m _ hwalls k' hat2 hkin (fun hc => hun (hc ▸ hkeysH k' hend')) hd hwall
      · intro hc
        rcases List.mem_cons.mp hc with h1 | h1
        · exact hnot h1.symm
        · exact hun h1

/-! ## The whole exploration -/

/-- The trial starts with the solver at the top of its loop in the start room. -/
theorem atTop_start (m : Maze) (hwf : m.WellFormed) (ch : Choice) (hch : ch.Fair) :
    AtTop m (trialStart ch m) initConfig.st [] := by
  have hat : m.At m ⟨0, 0⟩ := by
    refine ⟨rfl, rfl, rfl, ?_⟩
    rw [hwf.awake]
    simp
  have hin : (m.roomAt ⟨0, 0⟩).isSome := by
    have := hwf.start_in
    unfold Maze.roomAt
    simpa using this
  have hne : (⟨0, 0⟩ : Coordinate) ≠ m.treasure := by
    intro hc
    apply hwf.apart
    unfold Maze.treasure at hc
    simp only [Coordinate.mk.injEq] at hc
    cases hf : m.finish
    cases hs : m.start
    rw [hf, hs] at hc
    simp only [Coordinate.mk.injEq] at hc ⊢
    constructor <;> omega
  have hrep := reply_at m m ⟨0, 0⟩ hat hin hne
  refine ⟨explored_init _, hat, ⟨ch, hch, ?_⟩, List.not_mem_nil _⟩
  show (⟨m, recv ch ⟨m.LookAround.1, none⟩ initConfig, 0⟩ : Trial).solver = _
  have h2 : m.LookAround.1 = m.walls ⟨0, 0⟩ := congrArg MazeReply.Survey hrep
  show recv ch ⟨m.LookAround.1, none⟩ initConfig = recv ch m.reply ⟨.recvTop, initConfig.st⟩
  rw [hrep, h2]
  rfl

/-- From the top of the loop the solver reaches the treasure: it surveys a new room
in every round, and the maze has finitely many rooms. -/
theorem atTop_victory (m : Maze) (hwf : m.WellFormed) (hwalls : m.ConsistentWalls)
    (hreach : Passable m.walls m.treasure)
    (hsmall : m.Width.toNat * m.Height.toNat ≤ infinity + 1)
    (choices : Nat → Choice) (hfair : ∀ i, (choices i).Fair) (k : Nat) :
    ∀ (t : Trial) (st : SolverState) (h : List Coordinate), AtTop m t st h →
      m.Width.toNat * m.Height.toNat - h.length ≤ k →
      ∃ n, (trialRun choices n t).solver.ctl = .closed ∧
        (trialRun choices n t).maze.reply.Err = some .ErrVictory := by
  induction k with
  | zero =>
    intro t st h hat hk
    by_cases hpos : st.pos = m.treasure
    · refine ⟨0, ?_, ?_⟩
      · obtain ⟨_, hmz, ⟨ch, _, hsol⟩, _⟩ := hat
        have hv := reply_treasure m t.maze (hpos ▸ hmz)
        show t.solver.ctl = .closed
        rw [hsol]
        unfold recv
        simp only [hv, if_true]
      · exact reply_treasure m t.maze (hpos ▸ hat.maze)
    · exfalso
      have hE := hat.explored
      have hlen := length_le_rooms m (st.pos :: h) (List.nodup_cons.mpr ⟨hE.fresh, hE.nodup⟩)
        (by
          intro c hc
          rcases List.mem_cons.mp hc with rfl | hc
          · exact passable_inside m hwf hwalls (explored_pos_passable hE)
          · exact passable_inside m hwf hwalls
              (hE.chart.keysPassable c (hE.chart.surveyedKeys c hc)))
      simp only [List.length_cons] at hlen
      omega
  | succ k ih =>
    intro t st h hat hk
    by_cases hpos : st.pos = m.treasure
    · refine ⟨0, ?_, ?_⟩
      · obtain ⟨_, hmz, ⟨ch, _, hsol⟩, _⟩ := hat
        have hv := reply_treasure m t.maze (hpos ▸ hmz)
        show t.solver.ctl = .closed
        rw [hsol]
        unfold recv
        simp only [hv, if_true]
      · exact reply_treasure m t.maze (hpos ▸ hat.maze)
    · have hE := hat.explored
      have hlen := length_le_rooms m (st.pos :: h) (List.nodup_cons.mpr ⟨hE.fresh, hE.nodup⟩)
        (by
          intro c hc
          rcases List.mem_cons.mp hc with rfl | hc
          · exact passable_inside m hwf hwalls (explored_pos_passable hE)
          · exact passable_inside m hwf hwalls
              (hE.chart.keysPassable c (hE.chart.surveyedKeys c hc)))
      simp only [List.length_cons] at hlen
      obtain ⟨ch, hch, hsol⟩ := hat.solver
      have hqin : (m.roomAt st.pos).isSome :=
        passable_inside m hwf hwalls (explored_pos_passable hE)
      rw [reply_at m t.maze st.pos hat.maze hqin hpos,
        recv_survey ch _ _ rfl (by simp)] at hsol
      simp only at hsol
      obtain ⟨n1, st', hat'⟩ : ∃ n st', AtTop m (trialRun choices n t) st' (st.pos :: h) := by
        cases hr : recordSurvey ch st (m.walls st.pos) with
        | mk st1 uv =>
          rw [hr] at hsol
          cases uv with
          | nil =>
            exact atTop_deadEnd m hwf hwalls hreach hsmall choices hfair t st h hat hpos ch hch
              st1 hr hsol
          | cons u us =>
            exact ⟨1, _, atTop_forward m hwf hwalls choices hfair t st h hat hpos ch hch st1
              (u :: us) hr hsol (List.cons_ne_nil _ _)⟩
      obtain ⟨n2, h1, h2⟩ := ih _ st' (st.pos :: h) hat' (by
        simp only [List.length_cons]; omega)
      refine ⟨n1 + n2, ?_, ?_⟩
      · rw [trialRun_add]; exact h1
      · rw [trialRun_add]; exact h2

/-! ## A junction out of reach -/

/-- From a target that is not the source and is its own parent, the loop building
the route runs off the front of the route. -/
theorem buildRoute_loop (source : Coordinate) (nodes : GoMap node) (target : Coordinate)
    (nd : node) (hne : target ≠ source) (hnd : nodes.get? target = some nd)
    (hpar : nd.parent = target) (n : Nat) :
    ∀ route, buildRoute source nodes n target route = .error .indexOutOfRange := by
  induction n with
  | zero =>
    intro route
    unfold buildRoute
    rw [if_neg hne]
  | succ n ih =>
    intro route
    unfold buildRoute
    rw [if_neg hne]
    simp only [hnd, hpar]
    exact ih _

/-- A walk along grid edges of `L` steps moves the first coordinate by at most `L`. -/
theorem walk_far (g : adjacencyMap) (hgrid : GridEdges g) {a b : Coordinate} {L : Nat}
    (hw : Walk g a b L) : (b.X - a.X).natAbs ≤ L := by
  induction hw with
  | nil => simp
  | snoc _ hedge ih =>
    have := adjacent_cases (hgrid _ _ hedge)
    omega

theorem gridEdges_of_open (w : Walls) (g : adjacencyMap) (h : EdgesOpen w g) : GridEdges g := by
  intro k n hn
  obtain ⟨dir, hd, hq, _⟩ := h k n hn
  rw [hq]; exact adjacent_neighbour _ hd

/-- With every junction key and the coordinate `(0, 0)` at least `infinity` steps
from a source other than `(0, 0)`, `shortestPath` indexes its route out of range. -/
theorem shortestPath_crash (ρ : RangeOrder) (hfair : ρ.Fair) (cx cy : Int) (g j : adjacencyMap)
    (hg : GraphClosed g) (hs : (⟨cx, cy⟩ : Coordinate) ∈ g.keys) (hj : ∀ k ∈ j.keys, k ∈ g.keys)
    (hfar : ∀ k ∈ j.keys, ∀ L, Walk g ⟨cx, cy⟩ k L → infinity ≤ L)
    (h0 : (⟨0, 0⟩ : Coordinate) ∈ g.keys)
    (hfar0 : ∀ L, Walk g ⟨cx, cy⟩ ⟨0, 0⟩ L → infinity ≤ L)
    (hne : (⟨0, 0⟩ : Coordinate) ≠ ⟨cx, cy⟩) :
    shortestPath ρ cx cy g j = .error .indexOutOfRange := by
  obtain ⟨nodes, hd, inv, hend⟩ := dijkstra_spec ρ hfair cx cy g j hg hs
  have hperm := hfair.2 j.keys
  have horder : ∀ k ∈ ρ.junctionOrder j.keys, k ∈ nodes.keys :=
    fun k hk => inv.keys ▸ hj k (hperm.mem_iff.mp hk)
  obtain ⟨r, hr, _, _, hsel⟩ := nearestJunction_spec nodes _ horder (infinity, default)
  rcases hsel with hsel | ⟨hmem, hlt, nr, hnr, hnrd⟩
  · obtain ⟨n0, hn0⟩ := get?_isSome_of_mem_keys (inv.keys ▸ h0)
    have hdist : n0.dist = infinity := by
      by_contra hc
      have hlt : n0.dist < infinity := lt_of_le_of_ne (inv.le_inf _ _ hn0) hc
      have := hfar0 _ (dist_walk g ⟨cx, cy⟩ nodes inv n0.dist _ n0 hn0 rfl hlt)
      omega
    have hpar := (inv.unreached _ _ hn0 hdist).1
    unfold shortestPath
    simp only [hd, hr, hsel]
    rw [show (default : Coordinate) = ⟨0, 0⟩ from rfl,
      buildRoute_loop ⟨cx, cy⟩ nodes ⟨0, 0⟩ n0 hne hn0 hpar]
  · exfalso
    have hw := dist_walk g ⟨cx, cy⟩ nodes inv r.1 r.2 nr hnr hnrd hlt
    have := hfar r.2 (hperm.mem_iff.mp hmem) r.1 hw
    simp only at hlt
    omega

/-- When `shortestPath` faults at a dead end, so does the solver. -/
theorem chooseMove_crash (ch : Choice) (st : SolverState) (f : Fault)
    (h : shortestPath ch.route st.cx st.cy st.graph st.junctions = .error f) :
    chooseMove ch st [] = ⟨.crashed f, st⟩ := by
  unfold chooseMove
  rw [if_pos (by rfl), h]

/-- Where a forward move leads and what it leaves in the junction table. -/
theorem chooseMove_forward_spec (ch : Choice) (hfair : ch.Fair) (st : SolverState)
    (uv : List Coordinate) (hne : uv ≠ []) (hadj : ∀ u ∈ uv, Adjacent st.pos u) :
    ∃ q' rest, q' ∈ uv ∧ (∀ u ∈ rest, u ∈ uv) ∧
      (loopHead (chooseMove ch st uv).st).st.pos = q' ∧
      ∀ v, (loopHead (chooseMove ch st uv).st).st.junctions.get? v =
        cleanEntry q'.X q'.Y
          (if v = st.pos ∧ rest ≠ [] then some rest else st.junctions.get? v) := by
  rw [chooseMove_forward ch _ _ hne]
  have hperm := priortisePaths_perm st.boundary st.cx st.cy uv st.visited
  generalize priortisePaths st.boundary st.cx st.cy uv st.visited = uv' at hperm ⊢
  cases uv' with
  | nil => exact absurd (hperm.symm.eq_nil) hne
  | cons q' rest =>
    simp only [List.headD_cons, List.drop_succ_cons, List.drop_zero]
    have hq'uv : q' ∈ uv := hperm.mem_iff.mp (List.mem_cons_self _ _)
    have hlen : uv.length = rest.length + 1 := by
      rw [← hperm.length_eq]; rfl
    obtain ⟨hpos, _, _, _, hj⟩ := arrive_state ch hfair
      { st with junctions := if uv.length > 1 then st.junctions.set ⟨st.cx, st.cy⟩ rest
          else st.junctions } q' (hadj q' hq'uv)
    refine ⟨q', rest, hq'uv, fun u hu => hperm.mem_iff.mp (List.mem_cons_of_mem _ hu), hpos, ?_⟩
    intro v
    refine (hj v).trans ?_
    congr 1
    show GoMap.get? (if uv.length > 1 then GoMap.set st.junctions st.pos rest
      else st.junctions) v = _
    by_cases hr : rest = []
    · subst hr
      rw [if_neg (by rw [hlen]; simp), if_neg (by simp)]
    · have : 0 < rest.length := List.length_pos.mpr hr
      rw [if_pos (by rw [hlen]; omega), GoMap.get?_set]
      by_cases hv : st.pos = v
      · rw [if_pos hv, if_pos ⟨hv.symm, hr⟩]
      · rw [if_neg hv, if_neg (fun hc => hv hc.1.symm)]

/-! ## The corridor maze -/

theorem corridor_width (n : Nat) : (corridor n).Width = n := by
  simp [Maze.Width, corridor]

theorem corridor_height (n : Nat) : (corridor n).Height = 1 := rfl

theorem corridor_inside (n : Nat) (c : Coordinate) :
    ((corridor n).roomAt c).isSome ↔ c.Y = 0 ∧ -1 ≤ c.X ∧ c.X + 1 < n := by
  rw [roomAt_isSome_iff, corridor_width, corridor_height]
  show 0 ≤ 1 + c.X ∧ 1 + c.X < n ∧ 0 ≤ 0 + c.Y ∧ 0 + c.Y < 1 ↔ _
  omega

theorem corridor_roomAt (n : Nat) (c : Coordinate) (h : c.Y = 0 ∧ -1 ≤ c.X ∧ c.X + 1 < n) :
    (corridor n).roomAt c = some (corridorRoom n (c.X + 1).toNat) := by
  unfold Maze.roomAt Maze.GetRoom
  rw [corridor_width, corridor_height]
  have hs : (corridor n).start = ⟨1, 0⟩ := rfl
  have hrooms : (corridor n).rooms = [(List.range n).map (corridorRoom n)] := rfl
  rw [hs, hrooms]
  simp only
  rw [if_neg (by omega)]
  have hy : (0 + c.Y).toNat = 0 := by omega
  have hx : (1 + c.X).toNat = (c.X + 1).toNat := by rw [add_comm]
  have hlt : (c.X + 1).toNat < n := by omega
  rw [hy, hx]
  simp [List.getD, hlt]

theorem corridor_walls (n : Nat) (c : Coordinate) (h : c.Y = 0 ∧ -1 ≤ c.X ∧ c.X + 1 < n) :
    (corridor n).walls c =
      ⟨true, decide ((c.X + 1).toNat + 1 = n), true, decide ((c.X + 1).toNat = 0)⟩ := by
  unfold Maze.walls
  rw [corridor_roomAt n c h]
  rfl

theorem corridor_walls_outside (n : Nat) (c : Coordinate)
    (h : ¬ (c.Y = 0 ∧ -1 ≤ c.X ∧ c.X + 1 < n)) :
    (corridor n).walls c = ⟨true, true, true, true⟩ := by
  apply walls_outside
  cases hr : (corridor n).roomAt c with
  | none => rfl
  | some r => exact absurd ((corridor_inside n c).mp (by rw [hr]; rfl)) h

theorem corridor_north (n : Nat) (c : Coordinate) : wallAt ((corridor n).walls c) N = true := by
  by_cases h : c.Y = 0 ∧ -1 ≤ c.X ∧ c.X + 1 < n
  · rw [corridor_walls n c h]; rfl
  · rw [corridor_walls_outside n c h]; rfl

theorem corridor_south (n : Nat) (c : Coordinate) : wallAt ((corridor n).walls c) S = true := by
  by_cases h : c.Y = 0 ∧ -1 ≤ c.X ∧ c.X + 1 < n
  · rw [corridor_walls n c h]; rfl
  · rw [corridor_walls_outside n c h]; rfl

theorem corridor_east (n : Nat) (c : Coordinate) :
    wallAt ((corridor n).walls c) E = false ↔ c.Y = 0 ∧ -1 ≤ c.X ∧ c.X + 2 < n := by
  by_cases h : c.Y = 0 ∧ -1 ≤ c.X ∧ c.X + 1 < n
  · rw [corridor_walls n c h]
    show decide ((c.X + 1).toNat + 1 = n) = false ↔ _
    rw [decide_eq_false_iff_not]
    omega
  · rw [corridor_walls_outside n c h]
    show true = false ↔ _
    constructor
    · intro hc; exact absurd hc (by decide)
    · intro hc; exact absurd ⟨hc.1, hc.2.1, by omega⟩ h

theorem corridor_west (n : Nat) (c : Coordinate) :
    wallAt ((corridor n).walls c) W = false ↔ c.Y = 0 ∧ 0 ≤ c.X ∧ c.X + 1 < n := by
  by_cases h : c.Y = 0 ∧ -1 ≤ c.X ∧ c.X + 1 < n
  · rw [corridor_walls n c h]
    show decide ((c.X + 1).toNat = 0) = false ↔ _
    rw [decide_eq_false_iff_not]
    omega
  · rw [corridor_walls_outside n c h]
    show true = false ↔ _
    constructor
    · intro hc; exact absurd hc (by decide)
    · intro hc; exact absurd ⟨hc.1, by omega, hc.2.2⟩ h

theorem bool_eq_of_false_iff {a b : Bool} (h : a = false ↔ b = false) : a = b := by
  cases a <;> cases b <;> simp_all

theorem corridor_consistent (n : Nat) : (corridor n).ConsistentWalls := by
  intro c dir hd _
  rcases hd with h | h | h | h <;> subst h
  · rw [corridor_north]; exact (corridor_south n _).symm
  · rw [corridor_south]; exact (corridor_north n _).symm
  · apply bool_eq_of_false_iff
    show _ ↔ wallAt _ W = false
    rw [corridor_east, corridor_west]
    show _ ↔ c.Y + 0 = 0 ∧ 0 ≤ c.X + 1 ∧ c.X + 1 + 1 < n
    omega
  · apply bool_eq_of_false_iff
    show _ ↔ wallAt _ E = false
    rw [corridor_east, corridor_west]
    show _ ↔ c.Y + 0 = 0 ∧ -1 ≤ c.X + -1 ∧ c.X + -1 + 2 < n
    omega

theorem corridor_wellFormed (n : Nat) (hn : 2 ≤ n) : (corridor n).WellFormed := by
  constructor
  · intro row hrow
    rw [corridor_width]
    have : row = (List.range n).map (corridorRoom n) := by
      simpa [corridor] using hrow
    rw [this]
    simp
  · have := (corridor_inside n ⟨0, 0⟩).mpr ⟨rfl, by simp only; omega, by simp only; omega⟩
    exact this
  · have := (corridor_inside n ⟨-1, 0⟩).mpr ⟨rfl, by simp only; omega, by simp only; omega⟩
    exact this
  · show (⟨0, 0⟩ : Coordinate) ≠ ⟨1, 0⟩
    decide
  · rfl

theorem corridor_treasure (n : Nat) : (corridor n).treasure = ⟨-1, 0⟩ := rfl

theorem corridor_passable (n : Nat) (hn : 2 ≤ n) :
    Passable (corridor n).walls (corridor n).treasure := by
  rw [corridor_treasure]
  exact Passable.step W Passable.start (Or.inr (Or.inr (Or.inr rfl)))
    ((corridor_west n ⟨0, 0⟩).mpr ⟨rfl, le_refl _, by simp only; omega⟩)

/-! ## The solver in the corridor -/

/-- The solver of a fresh trial has read the survey of the start room. -/
theorem trialStart_solver (m : Maze) (hwf : m.WellFormed) (ch : Choice) :
    (trialStart ch m).solver = recv ch ⟨m.walls ⟨0, 0⟩, none⟩ initConfig := by
  have hat := (atTop_start m hwf Choice.id choice_id_fair).maze
  have hin : (m.roomAt ⟨0, 0⟩).isSome :=
    (roomAt_isSome_iff m _).mpr (by
      have := (roomAt_isSome_iff m ⟨m.start.X - m.start.X, m.start.Y - m.start.Y⟩).mp (by
        unfold Maze.roomAt
        have h := hwf.start_in
        simpa using h)
      simpa using this)
  have hne : (⟨0, 0⟩ : Coordinate) ≠ m.treasure := by
    intro hc
    apply hwf.apart
    unfold Maze.treasure at hc
    simp only [Coordinate.mk.injEq] at hc
    cases hf : m.finish
    cases hs : m.start
    rw [hf, hs] at hc
    simp only [Coordinate.mk.injEq] at hc ⊢
    constructor <;> omega
  have hrep := reply_at m m ⟨0, 0⟩ hat hin hne
  have h2 : m.LookAround.1 = m.walls ⟨0, 0⟩ := congrArg MazeReply.Survey hrep
  show recv ch ⟨m.LookAround.1, none⟩ initConfig = _
  rw [h2]

theorem corridor_start_walls (n : Nat) (hn : 3 ≤ n) :
    (corridor n).walls ⟨0, 0⟩ = ⟨true, false, true, false⟩ := by
  rw [corridor_walls n ⟨0, 0⟩ ⟨rfl, by simp only; omega, by simp only; omega⟩]
  simp only [Survey.mk.injEq, decide_eq_false_iff_not, true_and]
  constructor
  · show ¬ (1 + 1 = n)
    omega
  · decide

/-- The first round in the corridor, the shuffle putting the east first: the solver
moves east and keeps the start room as a junction. -/
theorem corridor_first (n : Nat) (hn : 3 ≤ n) :
    ∃ st, CorridorInv n 1
      (trialRun (fun _ => Choice.id) 1 (trialStart Choice.id (corridor n))) st [⟨0, 0⟩] := by
  have hwf := corridor_wellFormed n (by omega)
  have hat0 := atTop_start (corridor n) hwf Choice.id choice_id_fair
  have hwalls0 : (corridor n).walls initConfig.st.pos = ⟨true, false, true, false⟩ :=
    corridor_start_walls n hn
  have hsol := trialStart_solver (corridor n) hwf Choice.id
  rw [corridor_start_walls n hn, recv_survey Choice.id _ _ rfl (by simp)] at hsol
  have hat1 := atTop_forward (corridor n) hwf (corridor_consistent n) (fun _ => Choice.id)
    (fun _ => choice_id_fair) _ _ _ hat0
    (by rw [corridor_treasure]; decide) Choice.id choice_id_fair
    (recordSurvey Choice.id initConfig.st ⟨true, false, true, false⟩).1
    (recordSurvey Choice.id initConfig.st ⟨true, false, true, false⟩).2
    (by rw [hwalls0]) hsol (by decide)
  refine ⟨_, hat1, by decide, ?_, ?_, ?_⟩
  · intro v
    have hj : (loopHead (chooseMove Choice.id
        (recordSurvey Choice.id initConfig.st ⟨true, false, true, false⟩).1
        (recordSurvey Choice.id initConfig.st ⟨true, false, true, false⟩).2).st).st.junctions
        = [(⟨0, 0⟩, [⟨-1, 0⟩])] := by decide
    rw [hj]
    by_cases hv : v = ⟨0, 0⟩
    · rw [if_pos hv, hv]; rfl
    · rw [if_neg hv]
      show (if (⟨0, 0⟩ : Coordinate) = v then _ else _) = _
      rw [if_neg (fun hc => hv hc.symm)]
      rfl
  · intro p hp
    have : p = ⟨0, 0⟩ := by simpa using hp
    subst this
    decide
  · show (⟨(1 : Int) - 1, 0⟩ : Coordinate) ∈ [(⟨0, 0⟩ : Coordinate)]
    decide

/-- What the survey of a room of the corridor behind which everything is visited
leaves unvisited: the room to the east, if there is one. -/
theorem corridor_uv (n i : Nat) (hi : 1 ≤ i) (t : Trial) (st : SolverState)
    (h : List Coordinate) (hinv : CorridorInv n i t st h) (ch : Choice) (u : Coordinate) :
    u ∈ (recordSurvey ch st ((corridor n).walls st.pos)).2 ↔
      u = ⟨(i : Int) + 1, 0⟩ ∧ i + 2 < n := by
  obtain ⟨hat, hpos, _, hbeh, hlast⟩ := hinv
  have hE := hat.explored
  rw [mem_recordSurvey_uv, hpos]
  constructor
  · rintro ⟨hunv, dir, hd, hu, hwall⟩
    rcases hd with hd | hd | hd | hd <;> subst hd
    · rw [corridor_north] at hwall; exact absurd hwall (by decide)
    · rw [corridor_south] at hwall; exact absurd hwall (by decide)
    · rw [corridor_east] at hwall
      refine ⟨?_, ?_⟩
      · rw [hu]
        show (⟨(i : Int) + 1, 0 + 0⟩ : Coordinate) = _
        rfl
      · have := hwall.2.2
        simp only at this
        omega
    · exfalso
      have hv : isVisited st.visited u = true := by
        rw [hE.visited]
        right
        rw [hu]
        show (⟨(i : Int) + -1, 0 + 0⟩ : Coordinate) ∈ h
        exact hlast
      rw [hv] at hunv
      exact absurd hunv (by decide)
  · rintro ⟨rfl, hlt⟩
    refine ⟨?_, E, Or.inr (Or.inr (Or.inl rfl)), ?_, ?_⟩
    · cases hv : isVisited st.visited ⟨(i : Int) + 1, 0⟩ with
      | false => rfl
      | true =>
        exfalso
        rcases (hE.visited _).mp hv with h1 | h1
        · rw [hpos] at h1
          simp only [Coordinate.mk.injEq] at h1
          omega
        · have := (hbeh _ h1).2.2
          simp only at this
          omega
    · show _ = (⟨(i : Int) + 1, 0 + 0⟩ : Coordinate)
      rfl
    · rw [corridor_east]
      refine ⟨rfl, ?_, ?_⟩ <;> simp only <;> omega

/-- One more round to the east in the corridor. -/
theorem corridor_step (n i : Nat) (hi : 1 ≤ i) (hin : i + 2 < n) (choices : Nat → Choice)
    (hfair : ∀ k, (choices k).Fair) (t : Trial) (st : SolverState) (h : List Coordinate)
    (hinv : CorridorInv n i t st h) :
    ∃ st', CorridorInv n (i + 1) (trialRun choices 1 t) st' (st.pos :: h) := by
  have huvAll := corridor_uv n i hi t st h hinv
  obtain ⟨hat, hpos, hjn, hbeh, hlast⟩ := hinv
  have hwf := corridor_wellFormed n (by omega)
  have hwalls := corridor_consistent n
  have hE := hat.explored
  have hnot : st.pos ≠ (corridor n).treasure := by
    rw [hpos, corridor_treasure]
    intro hc
    simp only [Coordinate.mk.injEq] at hc
    omega
  have hqin : ((corridor n).roomAt st.pos).isSome :=
    passable_inside _ hwf hwalls (explored_pos_passable hE)
  obtain ⟨ch, hch, hsol⟩ := hat.solver
  rw [reply_at _ t.maze st.pos hat.maze hqin hnot, recv_survey ch _ _ rfl (by simp)] at hsol
  simp only at hsol
  have hframe := recordSurvey_frame ch st ((corridor n).walls st.pos)
  have hpaths := fun p => recordSurvey_paths ch st ((corridor n).walls st.pos) (p := p)
  have huv := huvAll ch
  cases hr : recordSurvey ch st ((corridor n).walls st.pos) with
  | mk st1 uv =>
    rw [hr] at hsol hframe hpaths huv
    simp only at hframe hpaths huv
    obtain ⟨hcx, hcy, hj1, _⟩ := hframe
    have hpos1 : st1.pos = st.pos := by
      show (⟨st1.cx, st1.cy⟩ : Coordinate) = ⟨st.cx, st.cy⟩
      rw [hcx, hcy]
    have hne : uv ≠ [] := List.ne_nil_of_mem ((huv _).mpr ⟨rfl, hin⟩)
    have hat1 := atTop_forward (corridor n) hwf hwalls choices hfair t st h hat hnot ch hch
      st1 uv hr hsol hne
    obtain ⟨q', rest, hq', hrest, hpos', hj'⟩ := chooseMove_forward_spec ch hch st1 uv hne
      (fun u hu => hpos1 ▸ (hpaths u hu).2)
    have hq'E : q' = ⟨(i : Int) + 1, 0⟩ := ((huv q').mp hq').1
    refine ⟨_, hat1, ?_, ?_, ?_, ?_⟩
    · rw [hpos', hq'E]
      simp
    · intro v
      rw [hj' v, hj1, hpos1, hpos, hjn v, hq'E]
      by_cases hv : v = ⟨0, 0⟩
      · have hvi : ¬ (v = ⟨(i : Int), 0⟩ ∧ rest ≠ []) := by
          rintro ⟨h1, _⟩
          rw [hv] at h1
          simp only [Coordinate.mk.injEq] at h1
          omega
        rw [if_neg hvi, if_pos hv]
        have hother : otherPaths ((i : Int) + 1) 0 [⟨-1, 0⟩] = [⟨-1, 0⟩] := by
          unfold otherPaths
          rw [List.filter_cons_of_pos]
          · rfl
          · simp only [decide_eq_true_eq]
            left
            omega
        show (if otherPaths ((i : Int) + 1) 0 [⟨-1, 0⟩] = [] then none
          else some (otherPaths ((i : Int) + 1) 0 [⟨-1, 0⟩])) = _
        rw [hother]
        rfl
      · rw [if_neg hv]
        by_cases hvi : v = ⟨(i : Int), 0⟩ ∧ rest ≠ []
        · rw [if_pos hvi]
          have hother : otherPaths ((i : Int) + 1) 0 rest = [] := by
            unfold otherPaths
            rw [List.filter_eq_nil_iff]
            intro a ha
            have := ((huv a).mp (hrest a ha)).1
            rw [this]
            simp
          show (if otherPaths ((i : Int) + 1) 0 rest = [] then none
            else some (otherPaths ((i : Int) + 1) 0 rest)) = _
          rw [if_pos hother]
        · rw [if_neg hvi]
          rfl
    · intro p hp
      rcases List.mem_cons.mp hp with rfl | hp
      · rw [hpos]
        refine ⟨rfl, ?_, ?_⟩ <;> simp only <;> omega
      · have := hbeh p hp
        omega
    · rw [hpos]
      simp

/-- At the east end of a corridor too long the solver faults: the one junction is
`infinity` steps away or more. -/
theorem corridor_crash (n i : Nat) (hi : infinity ≤ i) (hin : i + 2 = n) (t : Trial)
    (st : SolverState) (h : List Coordinate) (hinv : CorridorInv n i t st h) :
    t.solver.ctl = .crashed .indexOutOfRange := by
  have hinf : 1 ≤ infinity := by unfold infinity; omega
  have huvAll := corridor_uv n i (by omega) t st h hinv
  obtain ⟨hat, hpos, hjn, hbeh, hlast⟩ := hinv
  have hwf := corridor_wellFormed n (by omega)
  have hwalls := corridor_consistent n
  have hE := hat.explored
  have hnot : st.pos ≠ (corridor n).treasure := by
    rw [hpos, corridor_treasure]
    intro hc
    simp only [Coordinate.mk.injEq] at hc
    omega
  have hqin : ((corridor n).roomAt st.pos).isSome :=
    passable_inside _ hwf hwalls (explored_pos_passable hE)
  obtain ⟨ch, hch, hsol⟩ := hat.solver
  rw [reply_at _ t.maze st.pos hat.maze hqin hnot, recv_survey ch _ _ rfl (by simp)] at hsol
  simp only at hsol
  have hframe := recordSurvey_frame ch st ((corridor n).walls st.pos)
  have hC1 := charted_survey (corridor n).walls (walls_consistent _ hwalls) ch st h hE
  have huv := huvAll ch
  cases hr : recordSurvey ch st ((corridor n).walls st.pos) with
  | mk st1 uv =>
    rw [hr] at hsol hframe hC1 huv
    simp only at hframe hC1 huv
    obtain ⟨hcx, hcy, hj1, _⟩ := hframe
    have huv0 : uv = [] := by
      apply List.eq_nil_iff_forall_not_mem.mpr
      intro u hu
      have := ((huv u).mp hu).2
      omega
    have hsrc : (⟨st1.cx, st1.cy⟩ : Coordinate) = ⟨(i : Int), 0⟩ := by
      rw [hcx, hcy]; exact hpos
    have hkey : ∀ k ∈ st1.junctions.keys, k = ⟨0, 0⟩ := by
      intro k hk
      obtain ⟨l, hl⟩ := get?_isSome_of_mem_keys hk
      rw [hj1, hjn k] at hl
      by_contra hc
      rw [if_neg hc] at hl
      exact absurd hl (by simp)
    have h0h : (⟨0, 0⟩ : Coordinate) ∈ h := hE.keysIn ⟨0, 0⟩ [⟨-1, 0⟩] (by rw [hjn]; rfl)
    have h0 : (⟨0, 0⟩ : Coordinate) ∈ st1.graph.keys :=
      hC1.surveyedKeys _ (List.mem_cons_of_mem _ h0h)
    have hfar0 : ∀ L, Walk st1.graph ⟨st1.cx, st1.cy⟩ ⟨0, 0⟩ L → infinity ≤ L := by
      intro L hL
      have := walk_far st1.graph (gridEdges_of_open _ _ hC1.edgesOpen) hL
      rw [hsrc] at this
      simp only at this
      omega
    have hcrash := shortestPath_crash ch.route hch.1 st1.cx st1.cy st1.graph st1.junctions
      hC1.closed
      (by
        have := hC1.surveyedKeys st.pos (List.mem_cons_self _ _)
        rw [hsrc, ← hpos]; exact this)
      (fun k hk => (hkey k hk) ▸ h0)
      (fun k hk L hL => hfar0 L ((hkey k hk) ▸ hL))
      h0 hfar0
      (by
        rw [hsrc]
        intro hc
        simp only [Coordinate.mk.injEq] at hc
        omega)
    rw [hsol, huv0, chooseMove_crash ch st1 _ hcrash]

/-- The trial in the corridor of `n` rooms after `i` rounds, the shuffle putting the
east first. -/
theorem corridor_run (n : Nat) (hn : 3 ≤ n) (i : Nat) (hi : i + 3 ≤ n) :
    ∃ st h, CorridorInv n (i + 1)
      (trialRun (fun _ => Choice.id) (i + 1) (trialStart Choice.id (corridor n))) st h := by
  induction i with
  | zero =>
    obtain ⟨st, hst⟩ := corridor_first n hn
    exact ⟨st, _, hst⟩
  | succ i ih =>
    obtain ⟨st, h, hinv⟩ := ih (by omega)
    obtain ⟨st', hinv'⟩ := corridor_step n (i + 1) (by omega) (by omega) (fun _ => Choice.id)
      (fun _ => choice_id_fair) _ st h hinv
    rw [← trialRun_add] at hinv'
    exact ⟨st', _, hinv'⟩

/-! ## The end of a trial -/

/-- Once the solver sends no command the trial loop is over. -/
theorem trialRun_stop (choices : Nat → Choice) (t : Trial) (hs : send t.solver = none) (n : Nat) :
    trialRun choices n t = t := by
  cases n with
  | zero => rfl
  | succ n =>
    show (match trialStep (choices (t.currentCount + 1)) t with
      | none => t
      | some t' => trialRun choices n t') = t
    unfold trialStep
    rw [hs]

/-- The trial loop counts at most one command in each iteration. -/
theorem trialRun_count (choices : Nat → Choice) (n : Nat) (t : Trial) :
    (trialRun choices n t).currentCount ≤ t.currentCount + n := by
  induction n generalizing t with
  | zero => exact Nat.le_refl _
  | succ n ih =>
    show (match trialStep (choices (t.currentCount + 1)) t with
      | none => t
      | some t' => trialRun choices n t').currentCount ≤ _
    cases hs : trialStep (choices (t.currentCount + 1)) t with
    | none => simp only; omega
    | some t' =>
      simp only
      have h1 := ih t'
      have h2 : t'.currentCount = t.currentCount + 1 := by
        unfold trialStep at hs
        cases hsend : send t.solver with
        | none => rw [hsend] at hs; exact absurd hs (by simp)
        | some p =>
          rw [hsend] at hs
          simp only [Option.some.injEq] at hs
          rw [← hs]
      omega

theorem twoRooms_wellFormed : twoRooms.WellFormed := by
  constructor
  · intro row hrow
    simp only [twoRooms, List.mem_singleton] at hrow
    subst hrow
    rfl
  · decide
  · decide
  · decide
  · rfl

theorem twoRooms_walls : twoRooms.ConsistentWalls := by
  intro c dir hd hin
  have h1 := (roomAt_isSome_iff twoRooms c).mp hin
  have hW : twoRooms.Width = 2 := rfl
  have hH : twoRooms.Height = 1 := rfl
  have hs : twoRooms.start = ⟨0, 0⟩ := rfl
  rw [hW, hH, hs] at h1
  simp only [zero_add] at h1
  obtain ⟨x, y⟩ := c
  simp only at h1
  have hy : y = 0 := by omega
  subst hy
  have hx : x = 0 ∨ x = 1 := by omega
  rcases hx with rfl | rfl <;> rcases hd with h | h | h | h <;> subst h <;> decide

theorem twoRooms_passable : Passable twoRooms.walls twoRooms.treasure :=
  Passable.step E Passable.start (Or.inr (Or.inr (Or.inl rfl))) (by decide)

theorem twoRooms_small : twoRooms.Width.toNat * twoRooms.Height.toNat ≤ infinity + 1 := by
  decide

theorem corridor_reply (n i : Nat) (t : Trial) (st : SolverState) (h : List Coordinate)
    (hn : 2 ≤ n) (hinv : CorridorInv n i t st h) : t.maze.reply.Err = none := by
  obtain ⟨hat, hpos, _, _, _⟩ := hinv
  have hnot : st.pos ≠ (corridor n).treasure := by
    rw [hpos, corridor_treasure]
    intro hc
    simp only [Coordinate.mk.injEq] at hc
    omega
  rw [reply_at _ t.maze st.pos hat.maze
    (passable_inside _ (corridor_wellFormed n hn) (corridor_consistent n)
      (explored_pos_passable hat.explored)) hnot]

/-- In a corridor of `infinity + 2` rooms or more the trial never hands out the
victory reply when the shuffle puts the east first: the solver faults at the east
end, after `n - 2` commands. -/
theorem corridor_never_solved (n : Nat) (hn : infinity + 2 ≤ n) :
    (trialRun (fun _ => Choice.id) (n - 2) (trialStart Choice.id (corridor n))).solver.ctl
        = .crashed .indexOutOfRange ∧
      ∀ k, (trialRun (fun _ => Choice.id) k (trialStart Choice.id (corridor n))).maze.reply.Err
        ≠ some .ErrVictory := by
  have hinf : 1 ≤ infinity := by unfold infinity; omega
  have hrun : ∀ i, 1 ≤ i → i + 2 ≤ n → ∃ st h, CorridorInv n i
      (trialRun (fun _ => Choice.id) i (trialStart Choice.id (corridor n))) st h := by
    intro i h1 h2
    obtain ⟨j, rfl⟩ : ∃ j, i = j + 1 := ⟨i - 1, by omega⟩
    exact corridor_run n (by omega) j (by omega)
  obtain ⟨st, h, hinv⟩ := hrun (n - 2) (by omega) (by omega)
  have hcrash := corridor_crash n (n - 2) (by omega) (by omega) _ st h hinv
  refine ⟨hcrash, ?_⟩
  have hstop : send (trialRun (fun _ => Choice.id) (n - 2)
      (trialStart Choice.id (corridor n))).solver = none := by
    unfold send
    rw [hcrash]
  intro k
  by_cases hk0 : k = 0
  · subst hk0
    have hwf := corridor_wellFormed n (by omega)
    have hat := atTop_start (corridor n) hwf Choice.id choice_id_fair
    show (trialStart Choice.id (corridor n)).maze.reply.Err ≠ _
    rw [reply_at _ _ _ hat.maze (passable_inside _ hwf (corridor_consistent n)
      (explored_pos_passable hat.explored)) (by rw [corridor_treasure]; decide)]
    simp
  · by_cases hk : k ≤ n - 2
    · obtain ⟨st', h', hinv'⟩ := hrun k (by omega) (by omega)
      rw [corridor_reply n k _ st' h' (by omega) hinv']
      simp
    · have hkn : k = (n - 2) + (k - (n - 2)) := by omega
      rw [hkn, trialRun_add, trialRun_stop _ _ hstop, corridor_reply n (n - 2) _ st h (by omega) hinv]
      simp

/-! ## One round of the loop, in general -/

theorem recordSurvey_uv_eq (ch : Choice) (st : SolverState) (survey : Survey) :
    (recordSurvey ch st survey).2 =
      ((Shuffle ch.rand (openDirs survey)).map
        (fun dir => (⟨st.cx + (Delta dir).X, st.cy + (Delta dir).Y⟩ : Coordinate))).filter
        (fun p => !isVisited st.visited p) := by
  simp only [recordSurvey, scanDirs_fst, List.nil_append]

theorem extendBoundary_ymin (b : bounds) (x y : Int) : (extendBoundary b x y).ymin ≤ b.ymin := by
  unfold extendBoundary
  simp only
  split_ifs at * <;> simp_all <;> omega

theorem scanDirs_ymin (cx cy : Int) (dirs : List Int) (acc : List Coordinate × bounds) :
    (scanDirs cx cy dirs acc).2.ymin ≤ acc.2.ymin := by
  induction dirs generalizing acc with
  | nil => exact le_refl _
  | cons d rest ih =>
    unfold scanDirs
    exact le_trans (ih _) (extendBoundary_ymin _ _ _)

theorem recordSurvey_ymin (ch : Choice) (st : SolverState) (survey : Survey) :
    (recordSurvey ch st survey).1.boundary.ymin ≤ st.boundary.ymin := by
  simp only [recordSurvey]
  exact scanDirs_ymin _ _ _ _

/-- The candidate to the east counts no unvisited coordinate when its column is
beyond `boundary.ymin`: the loop over `x` runs from the column to `ymin`. -/
theorem countUnvisited_east (bd : bounds) (cx cy : Int) (p : Coordinate) (visited : GoMap Bool)
    (hx : p.X - cx = 1) (hy : p.Y - cy = 0) (hb : bd.ymin < p.X) :
    countUnvisited visited (scanRegion bd cx cy p) = 0 := by
  unfold scanRegion
  simp only [hx, hy]
  rw [if_neg (by decide), if_neg (by decide), if_neg (by decide), if_pos trivial]
  unfold countUnvisited intRange
  simp only
  have : (bd.ymin + 1 - p.X).toNat = 0 := by omega
  rw [this]
  rfl

/-- With a second candidate that counts nothing, `priortisePaths` keeps the order. -/
theorem priortisePaths_keep (bd : bounds) (cx cy : Int) (a b : Coordinate) (visited : GoMap Bool)
    (hb : countUnvisited visited (scanRegion bd cx cy b) = 0) :
    priortisePaths bd cx cy [a, b] visited = [a, b] := by
  unfold priortisePaths
  rw [if_neg (by simp)]
  simp only [List.map_cons, List.map_nil, List.tail_cons, List.headD_cons, hb]
  have : findHighest [0] 1 (countUnvisited visited (scanRegion bd cx cy a), 0)
      = (countUnvisited visited (scanRegion bd cx cy a), 0) := by
    unfold findHighest
    rw [if_neg (by omega)]
    rfl
  rw [this]
  rfl

theorem run_afterSend {c : Config} {h : List Coordinate} (hrun : Run c h) :
    Run (afterSend c) h := by
  unfold afterSend
  cases hs : send c with
  | none => exact hrun
  | some p =>
    obtain ⟨d, c1⟩ := p
    exact Run.send hrun hs

/-- A round with an unvisited open neighbour: where the solver stands at the top
of the loop after it, and how its state has changed. -/
theorem round_forward (ch : Choice) (hfair : ch.Fair) (st : SolverState) (survey : Survey)
    (st1 : SolverState) (uv : List Coordinate) (hr : recordSurvey ch st survey = (st1, uv))
    (hne : uv ≠ []) :
    ∃ q' rest, priortisePaths st1.boundary st.cx st.cy uv st.visited = q' :: rest ∧
      q' ∈ uv ∧ (∀ u ∈ rest, u ∈ uv) ∧
      (afterSend (recv ch ⟨survey, none⟩ ⟨.recvTop, st⟩)).ctl = .recvTop ∧
      (afterSend (recv ch ⟨survey, none⟩ ⟨.recvTop, st⟩)).st.pos = q' ∧
      (afterSend (recv ch ⟨survey, none⟩ ⟨.recvTop, st⟩)).st.visited = st.visited.set q' true ∧
      (afterSend (recv ch ⟨survey, none⟩ ⟨.recvTop, st⟩)).st.graph = st1.graph ∧
      (afterSend (recv ch ⟨survey, none⟩ ⟨.recvTop, st⟩)).st.boundary = st1.boundary ∧
      ∀ v, (afterSend (recv ch ⟨survey, none⟩ ⟨.recvTop, st⟩)).st.junctions.get? v =
        cleanEntry q'.X q'.Y
          (if v = st.pos ∧ rest ≠ [] then some rest else st.junctions.get? v) := by
  have hframe := recordSurvey_frame ch st survey
  have hpaths := fun p => recordSurvey_paths ch st survey (p := p)
  rw [recv_survey ch _ _ rfl (by simp)]
  simp only
  rw [hr] at hframe hpaths ⊢
  simp only at hframe hpaths ⊢
  obtain ⟨hcx, hcy, hjn, hvs⟩ := hframe
  rw [chooseMove_forward ch _ _ hne]
  have hperm := priortisePaths_perm st1.boundary st1.cx st1.cy uv st1.visited
  rw [hcx, hcy, hvs] at hperm ⊢
  generalize priortisePaths st1.boundary st.cx st.cy uv st.visited = uv' at hperm ⊢
  obtain ⟨cx1, cy1, g1, j1, v1, b1, ew1, eh1⟩ := st1
  simp only at hcx hcy hjn hvs ⊢
  subst hcx hcy hjn hvs
  cases uv' with
  | nil => exact absurd (hperm.symm.eq_nil) hne
  | cons q' rest =>
    simp only [List.headD_cons, List.drop_succ_cons, List.drop_zero]
    have hq'uv : q' ∈ uv := hperm.mem_iff.mp (List.mem_cons_self _ _)
    have hlen : uv.length = rest.length + 1 := by
      rw [← hperm.length_eq]; rfl
    obtain ⟨hpos, hg, hv, hctl, hj⟩ := arrive_state ch hfair
      ⟨st.cx, st.cy, g1, if uv.length > 1 then st.junctions.set ⟨st.cx, st.cy⟩ rest
        else st.junctions, st.visited, b1, ew1, eh1⟩ q' (hpaths q' hq'uv).2
    refine ⟨q', rest, rfl, hq'uv, fun u hu => hperm.mem_iff.mp (List.mem_cons_of_mem _ hu),
      hctl, hpos, hv, hg, rfl, ?_⟩
    intro v
    refine (hj v).trans ?_
    congr 1
    show GoMap.get? (if uv.length > 1 then GoMap.set st.junctions st.pos rest
      else st.junctions) v = _
    by_cases hr : rest = []
    · subst hr
      rw [if_neg (by rw [hlen]; simp), if_neg (by simp)]
    · have : 0 < rest.length := List.length_pos.mpr hr
      rw [if_pos (by rw [hlen]; omega), GoMap.get?_set]
      by_cases hv : st.pos = v
      · rw [if_pos hv, if_pos ⟨hv.symm, hr⟩]
      · rw [if_neg hv, if_neg (fun hc => hv hc.1.symm)]

theorem wallAt_oneOpen {d dir : Int} (hd : d = N ∨ d = S ∨ d = E ∨ d = W)
    (hdir : dir = N ∨ dir = S ∨ dir = E ∨ dir = W) :
    wallAt (oneOpen d) dir = false ↔ dir = d := by
  rcases hd with h | h | h | h <;> subst h <;> rcases hdir with h | h | h | h <;> subst h <;>
    decide

/-! ## The winding path -/

theorem coord_eq {a b c d : Int} (h1 : a = c) (h2 : b = d) : (⟨a, b⟩ : Coordinate) = ⟨c, d⟩ := by
  rw [h1, h2]

theorem snakeDir_dir (A i : Nat) :
    snakeDir A i = N ∨ snakeDir A i = S ∨ snakeDir A i = E ∨ snakeDir A i = W := by
  unfold snakeDir
  split_ifs <;> simp

theorem snakeRoom_west (A i : Nat) (h : i ≤ A) : snakeRoom A i = ⟨-(i : Int), 0⟩ := by
  unfold snakeRoom
  rw [if_pos h]

theorem snakeRoom_south (A i : Nat) (h1 : A < i) (h2 : i ≤ A + 2) :
    snakeRoom A i = ⟨-(A : Int), (i : Int) - A⟩ := by
  unfold snakeRoom
  rw [if_neg (by omega), if_pos h2]

theorem snakeRoom_east (A i : Nat) (h1 : A + 2 < i) (h2 : i ≤ 2 * A + 2) :
    snakeRoom A i = ⟨(i : Int) - (2 * A + 2), 2⟩ := by
  unfold snakeRoom
  rw [if_neg (by omega), if_neg (by omega), if_pos h2]

theorem snakeRoom_home (A : Nat) : snakeRoom A (2 * A + 3) = ⟨0, 1⟩ := by
  unfold snakeRoom
  rw [if_neg (by omega), if_neg (by omega), if_neg (by omega), if_pos rfl]

theorem snakeRoom_last (A : Nat) : snakeRoom A (2 * A + 4) = ⟨1, 1⟩ := by
  unfold snakeRoom
  rw [if_neg (by omega), if_neg (by omega), if_neg (by omega), if_neg (by omega)]

theorem snakeRoom_zero (A : Nat) : snakeRoom A 0 = ⟨0, 0⟩ := by
  rw [snakeRoom_west A 0 (Nat.zero_le _)]
  rfl

theorem snakeRoom_junction (A : Nat) (hA : 1 ≤ A) : snakeRoom A (2 * A + 2) = ⟨0, 2⟩ := by
  rw [snakeRoom_east A _ (by omega) (le_refl _)]
  apply coord_eq <;> (try dsimp only) <;> (try push_cast) <;> omega

/-- The shape of every room of the path. -/
theorem snakeRoom_cases (A i : Nat) (hi : i ≤ 2 * A + 4) :
    (i ≤ A ∧ snakeRoom A i = ⟨-(i : Int), 0⟩) ∨
    (A < i ∧ i ≤ A + 2 ∧ snakeRoom A i = ⟨-(A : Int), (i : Int) - A⟩) ∨
    (A + 2 < i ∧ i ≤ 2 * A + 2 ∧ snakeRoom A i = ⟨(i : Int) - (2 * A + 2), 2⟩) ∨
    (i = 2 * A + 3 ∧ snakeRoom A i = ⟨0, 1⟩) ∨
    (i = 2 * A + 4 ∧ snakeRoom A i = ⟨1, 1⟩) := by
  by_cases h1 : i ≤ A
  · exact Or.inl ⟨h1, snakeRoom_west A i h1⟩
  by_cases h2 : i ≤ A + 2
  · exact Or.inr (Or.inl ⟨by omega, h2, snakeRoom_south A i (by omega) h2⟩)
  by_cases h3 : i ≤ 2 * A + 2
  · exact Or.inr (Or.inr (Or.inl ⟨by omega, h3, snakeRoom_east A i (by omega) h3⟩))
  by_cases h4 : i = 2 * A + 3
  · exact Or.inr (Or.inr (Or.inr (Or.inl ⟨h4, h4 ▸ snakeRoom_home A⟩)))
  · have h5 : i = 2 * A + 4 := by omega
    exact Or.inr (Or.inr (Or.inr (Or.inr ⟨h5, h5 ▸ snakeRoom_last A⟩)))

theorem delta_values : Delta N = ⟨0, -1⟩ ∧ Delta S = ⟨0, 1⟩ ∧ Delta E = ⟨1, 0⟩ ∧ Delta W = ⟨-1, 0⟩ :=
  ⟨rfl, rfl, rfl, rfl⟩

theorem neighbour_values (c : Coordinate) :
    neighbour c N = ⟨c.X, c.Y - 1⟩ ∧ neighbour c S = ⟨c.X, c.Y + 1⟩ ∧
      neighbour c E = ⟨c.X + 1, c.Y⟩ ∧ neighbour c W = ⟨c.X - 1, c.Y⟩ := by
  obtain ⟨h1, h2, h3, h4⟩ := delta_values
  unfold neighbour
  rw [h1, h2, h3, h4]
  refine ⟨?_, ?_, ?_, ?_⟩ <;> apply coord_eq <;> (try dsimp only) <;> omega

theorem snakeRoom_next (A i : Nat) (hA : 1 ≤ A) (hi : i ≤ 2 * A + 3) :
    snakeRoom A (i + 1) = neighbour (snakeRoom A i) (snakeDir A i) := by
  obtain ⟨hN, hS, hE, hW⟩ := neighbour_values (snakeRoom A i)
  have hcur := snakeRoom_cases A i (by omega)
  by_cases h1 : i < A
  · have hd : snakeDir A i = W := by unfold snakeDir; rw [if_pos h1]
    rw [hd, hW, snakeRoom_west A i (by omega), snakeRoom_west A (i + 1) (by omega)]
    apply coord_eq <;> (try dsimp only) <;> (try push_cast) <;> omega
  by_cases h2 : i < A + 2
  · have hd : snakeDir A i = S := by unfold snakeDir; rw [if_neg h1, if_pos h2]
    rw [hd, hS, snakeRoom_south A (i + 1) (by omega) (by omega)]
    rcases hcur with ⟨_, hc⟩ | ⟨_, _, hc⟩ | ⟨_, _, _⟩ | ⟨_, _⟩ | ⟨_, _⟩
    · rw [hc]
      apply coord_eq <;> (try dsimp only) <;> (try push_cast) <;> omega
    · rw [hc]
      apply coord_eq <;> (try dsimp only) <;> (try push_cast) <;> omega
    · omega
    · omega
    · omega
  by_cases h3 : i < 2 * A + 2
  · have hd : snakeDir A i = E := by unfold snakeDir; rw [if_neg h1, if_neg h2, if_pos h3]
    rw [hd, hE, snakeRoom_east A (i + 1) (by omega) (by omega)]
    rcases hcur with ⟨_, _⟩ | ⟨_, _, hc⟩ | ⟨_, _, hc⟩ | ⟨_, _⟩ | ⟨_, _⟩
    · omega
    · rw [hc]
      apply coord_eq <;> (try dsimp only) <;> (try push_cast) <;> omega
    · rw [hc]
      apply coord_eq <;> (try dsimp only) <;> (try push_cast) <;> omega
    · omega
    · omega
  by_cases h4 : i = 2 * A + 2
  · have hd : snakeDir A i = N := by
      unfold snakeDir; rw [if_neg h1, if_neg h2, if_neg h3, if_pos h4]
    subst h4
    rw [hd, hN, snakeRoom_junction A hA, snakeRoom_home A]
    apply coord_eq <;> (try dsimp only) <;> omega
  · have h5 : i = 2 * A + 3 := by omega
    have hd : snakeDir A i = E := by
      unfold snakeDir; rw [if_neg h1, if_neg h2, if_neg h3, if_neg h4, if_pos h5]
    subst h5
    rw [hd, hE, snakeRoom_home A, snakeRoom_last A]
    apply coord_eq <;> (try dsimp only) <;> omega

theorem snakeRoom_inj (A i i' : Nat) (hA : 1 ≤ A) (hi : i ≤ 2 * A + 4) (hi' : i' ≤ 2 * A + 4)
    (h : snakeRoom A i = snakeRoom A i') : i = i' := by
  rcases snakeRoom_cases A i hi with ⟨_, hc⟩ | ⟨_, _, hc⟩ | ⟨_, _, hc⟩ | ⟨_, hc⟩ | ⟨_, hc⟩ <;>
    rcases snakeRoom_cases A i' hi' with ⟨_, hc'⟩ | ⟨_, _, hc'⟩ | ⟨_, _, hc'⟩ | ⟨_, hc'⟩ | ⟨_, hc'⟩ <;>
    rw [hc, hc'] at h <;> simp only [Coordinate.mk.injEq] at h <;> omega

theorem snakeRoom_ne_pending (A i : Nat) (hi : i ≤ 2 * A + 4) : snakeRoom A i ≠ ⟨1, 2⟩ := by
  intro h
  rcases snakeRoom_cases A i hi with ⟨_, hc⟩ | ⟨_, _, hc⟩ | ⟨_, _, hc⟩ | ⟨_, hc⟩ | ⟨_, hc⟩ <;>
    rw [hc] at h <;> simp only [Coordinate.mk.injEq] at h <;> omega

theorem snakeRank_room (A i : Nat) (hA : 1 ≤ A) (hi : i ≤ 2 * A + 2) :
    snakeRank A (snakeRoom A i) = i := by
  unfold snakeRank
  rcases snakeRoom_cases A i (by omega) with ⟨_, hc⟩ | ⟨_, _, hc⟩ | ⟨_, _, hc⟩ | ⟨_, hc⟩ | ⟨_, hc⟩
  · rw [hc]
    rw [if_neg (by simp), if_neg (by simp), if_neg (by simp), if_pos rfl]
    simp
  · rw [hc]
    rw [if_neg (by simp only [Coordinate.mk.injEq]; omega),
      if_neg (by simp only [Coordinate.mk.injEq]; omega),
      if_neg (by simp only [Coordinate.mk.injEq]; omega)]
    simp only
    split_ifs <;> omega
  · rw [hc]
    rw [if_neg (by simp only [Coordinate.mk.injEq]; omega),
      if_neg (by simp only [Coordinate.mk.injEq]; omega),
      if_neg (by simp only [Coordinate.mk.injEq]; omega)]
    simp only
    rw [if_neg (by omega), if_pos trivial]
    omega
  · omega
  · omega

theorem snakeRank_home (A : Nat) : snakeRank A ⟨0, 1⟩ = -1 := by
  unfold snakeRank
  rw [if_neg (by decide), if_pos rfl]

theorem snakeRank_last (A : Nat) : snakeRank A ⟨1, 1⟩ = -2 := by
  unfold snakeRank
  rw [if_pos rfl]

theorem snakeRank_pending (A : Nat) : snakeRank A ⟨1, 2⟩ = 2 * A + 2 := by
  unfold snakeRank
  rw [if_neg (by decide), if_neg (by decide), if_pos rfl]

theorem snakeRank_step (A i : Nat) (hA : 1 ≤ A) (hi : i ≤ 2 * A + 3) :
    snakeRank A (snakeRoom A (i + 1)) ≤ snakeRank A (snakeRoom A i) + 1 := by
  by_cases h1 : i + 1 ≤ 2 * A + 2
  · rw [snakeRank_room A (i + 1) hA h1, snakeRank_room A i hA (by omega)]
    push_cast
    omega
  by_cases h2 : i = 2 * A + 2
  · subst h2
    rw [snakeRoom_home, snakeRank_home, snakeRank_room A _ hA (le_refl _)]
    push_cast
    omega
  · have h3 : i = 2 * A + 3 := by omega
    subst h3
    rw [snakeRoom_last, snakeRank_last, snakeRoom_home, snakeRank_home]
    omega

/-- The sides the survey of the `i`-th room reports open lead to the next room of
the path, and from `(0, 2)` also to `(1, 2)`, from `(0, 1)` also to `(0, 0)`. -/
theorem snake_listed (A i : Nat) (hA : 1 ≤ A) (hi : i ≤ 2 * A + 3) (y : Coordinate) :
    (∃ dir, (dir = N ∨ dir = S ∨ dir = E ∨ dir = W) ∧ y = neighbour (snakeRoom A i) dir ∧
      wallAt (snakeSurvey A i) dir = false) ↔
    (y = snakeRoom A (i + 1) ∨ (i = 2 * A + 2 ∧ y = ⟨1, 2⟩) ∨ (i = 2 * A + 3 ∧ y = ⟨0, 0⟩)) := by
  obtain ⟨hN, hS, hE, hW⟩ := neighbour_values (snakeRoom A i)
  by_cases h2 : i = 2 * A + 2
  · subst h2
    have hsv : snakeSurvey A (2 * A + 2) = ⟨false, false, true, true⟩ := by
      unfold snakeSurvey; rw [if_pos (Or.inl rfl)]
    rw [hsv, snakeRoom_home]
    rw [snakeRoom_junction A hA] at hN hS hE hW ⊢
    constructor
    · rintro ⟨dir, hd, hy, hwall⟩
      rcases hd with h | h | h | h <;> subst h
      · left; rw [hy, hN]; rfl
      · exact absurd hwall (by decide)
      · right; left; exact ⟨rfl, by rw [hy, hE]; rfl⟩
      · exact absurd hwall (by decide)
    · rintro (h | ⟨_, h⟩ | ⟨h, _⟩)
      · exact ⟨N, Or.inl rfl, by rw [h, hN]; rfl, by decide⟩
      · exact ⟨E, Or.inr (Or.inr (Or.inl rfl)), by rw [h, hE]; rfl, by decide⟩
      · omega
  by_cases h3 : i = 2 * A + 3
  · subst h3
    have hsv : snakeSurvey A (2 * A + 3) = ⟨false, false, true, true⟩ := by
      unfold snakeSurvey; rw [if_pos (Or.inr rfl)]
    rw [hsv, snakeRoom_last]
    rw [snakeRoom_home A] at hN hS hE hW ⊢
    constructor
    · rintro ⟨dir, hd, hy, hwall⟩
      rcases hd with h | h | h | h <;> subst h
      · right; right; exact ⟨rfl, by rw [hy, hN]; rfl⟩
      · exact absurd hwall (by decide)
      · left; rw [hy, hE]; rfl
      · exact absurd hwall (by decide)
    · rintro (h | ⟨h, _⟩ | ⟨_, h⟩)
      · exact ⟨E, Or.inr (Or.inr (Or.inl rfl)), by rw [h, hE]; rfl, by decide⟩
      · omega
      · exact ⟨N, Or.inl rfl, by rw [h, hN]; rfl, by decide⟩
  · have hsv : snakeSurvey A i = oneOpen (snakeDir A i) := by
      unfold snakeSurvey; rw [if_neg (by omega)]
    rw [hsv, snakeRoom_next A i hA hi]
    constructor
    · rintro ⟨dir, hd, hy, hwall⟩
      left
      rw [hy, (wallAt_oneOpen (snakeDir_dir A i) hd).mp hwall]
    · rintro (h | ⟨h, _⟩ | ⟨h, _⟩)
      · exact ⟨snakeDir A i, snakeDir_dir A i, h,
          (wallAt_oneOpen (snakeDir_dir A i) (snakeDir_dir A i)).mpr rfl⟩
      · omega
      · omega

theorem cleanEntry_pending (q : Coordinate) (hq : q ≠ ⟨1, 2⟩) :
    cleanEntry q.X q.Y (some [⟨1, 2⟩]) = some [⟨1, 2⟩] := by
  have hother : otherPaths q.X q.Y [⟨1, 2⟩] = [⟨1, 2⟩] := by
    unfold otherPaths
    rw [List.filter_cons_of_pos]
    · rfl
    · simp only [decide_eq_true_eq]
      by_contra hc
      push_neg at hc
      apply hq
      cases q
      simp only [Coordinate.mk.injEq]
      simp only at hc
      exact ⟨hc.1.symm, hc.2.symm⟩
  show (if otherPaths q.X q.Y [⟨1, 2⟩] = [] then none
    else some (otherPaths q.X q.Y [⟨1, 2⟩])) = _
  rw [hother]
  rfl

theorem cleanEntry_all (q : Coordinate) (rest : List Coordinate) (h : ∀ r ∈ rest, r = q) :
    cleanEntry q.X q.Y (some rest) = none := by
  have hother : otherPaths q.X q.Y rest = [] := by
    unfold otherPaths
    rw [List.filter_eq_nil_iff]
    intro a ha
    rw [h a ha]
    simp
  show (if otherPaths q.X q.Y rest = [] then none else some (otherPaths q.X q.Y rest)) = _
  rw [if_pos hother]

/-- One round along the path: the solver moves to the next room. -/
theorem snake_step (A i : Nat) (hA : 1 ≤ A) (hi : i ≤ 2 * A + 3) (c : Config)
    (hinv : SnakeInv A i c) :
    SnakeInv A (i + 1) (afterSend (recv Choice.id ⟨snakeSurvey A i, none⟩ c)) := by
  obtain ⟨hctl, hpos, hvis, hjun, hedges, hclosed, hkeys, hhome, hbound⟩ := hinv
  obtain ⟨ctl, st⟩ := c
  simp only at hctl hpos hvis hjun hedges hclosed hkeys hhome hbound
  subst hctl
  have hmem := mem_recordSurvey_uv Choice.id st (snakeSurvey A i)
  have hgr := recordSurvey_graph Choice.id st (snakeSurvey A i)
  have hk := recordSurvey_keys Choice.id st (snakeSurvey A i)
  have hcl := surveyed_closed Choice.id st (snakeSurvey A i) hclosed
  have hym := recordSurvey_ymin Choice.id st (snakeSurvey A i)
  have huveq := recordSurvey_uv_eq Choice.id st (snakeSurvey A i)
  have hlist := snake_listed A i hA hi
  rw [hpos] at hmem hgr hk
  simp only [hlist] at hmem hgr hk
  have hnew : isVisited st.visited (snakeRoom A (i + 1)) = false := by
    cases hv : isVisited st.visited (snakeRoom A (i + 1)) with
    | false => rfl
    | true =>
      obtain ⟨i', hi', he⟩ := (hvis _).mp hv
      have := snakeRoom_inj A (i + 1) i' hA (by omega) (by omega) he
      omega
  have hpend : isVisited st.visited ⟨1, 2⟩ = false := by
    cases hv : isVisited st.visited ⟨1, 2⟩ with
    | false => rfl
    | true =>
      obtain ⟨i', hi', he⟩ := (hvis _).mp hv
      exact absurd he.symm (snakeRoom_ne_pending A i' (by omega))
  have horigin : isVisited st.visited ⟨0, 0⟩ = true :=
    (hvis _).mpr ⟨0, Nat.zero_le _, (snakeRoom_zero A).symm⟩
  cases hr : recordSurvey Choice.id st (snakeSurvey A i) with
  | mk st1 uv =>
    rw [hr] at hmem hgr hk hcl hym huveq
    simp only at hmem hgr hk hcl hym huveq
    have huv : ∀ u, u ∈ uv ↔ (u = snakeRoom A (i + 1) ∨ (i = 2 * A + 2 ∧ u = ⟨1, 2⟩)) := by
      intro u
      rw [hmem]
      constructor
      · rintro ⟨hunv, h | h | ⟨_, h⟩⟩
        · exact Or.inl h
        · exact Or.inr h
        · rw [h, horigin] at hunv
          exact absurd hunv (by decide)
      · rintro (h | ⟨h1, h2⟩)
        · exact ⟨h ▸ hnew, Or.inl h⟩
        · exact ⟨h2 ▸ hpend, Or.inr (Or.inl ⟨h1, h2⟩)⟩
    have hne : uv ≠ [] := List.ne_nil_of_mem ((huv _).mpr (Or.inl rfl))
    obtain ⟨q', rest, hprio, hq', hrest, hctl', hpos', hvis', hg', hb', hj'⟩ :=
      round_forward Choice.id choice_id_fair st (snakeSurvey A i) st1 uv hr hne
    -- the room the solver moves to, and what it leaves in the junction table
    have hmove : q' = snakeRoom A (i + 1) ∧
        ((i = 2 * A + 2 ∧ rest = [⟨1, 2⟩]) ∨ (i ≠ 2 * A + 2 ∧ ∀ r ∈ rest, r = q')) := by
      by_cases h2 : i = 2 * A + 2
      · subst h2
        have hsv : snakeSurvey A (2 * A + 2) = ⟨false, false, true, true⟩ := by
          unfold snakeSurvey; rw [if_pos (Or.inl rfl)]
        have hcx : st.cx = 0 ∧ st.cy = 2 := by
          have := hpos
          rw [snakeRoom_junction A hA] at this
          exact ⟨congrArg Coordinate.X this, congrArg Coordinate.Y this⟩
        have hshuffle : Shuffle Choice.id.rand (openDirs ⟨false, false, true, true⟩) = [N, E] := by
          decide
        rw [hsv, hshuffle, hcx.1, hcx.2] at huveq
        have hhome1 : isVisited st.visited ⟨0, 1⟩ = false := by
          have := hnew
          rw [snakeRoom_home] at this
          exact this
        have huv2 : uv = [⟨0, 1⟩, ⟨1, 2⟩] := by
          rw [huveq]
          show List.filter _ [(⟨0 + 0, 2 + -1⟩ : Coordinate), ⟨0 + 1, 2 + 0⟩] = _
          have e1 : (⟨0 + 0, 2 + -1⟩ : Coordinate) = ⟨0, 1⟩ := rfl
          have e2 : (⟨0 + 1, 2 + 0⟩ : Coordinate) = ⟨1, 2⟩ := rfl
          rw [e1, e2, List.filter_cons_of_pos (by rw [hhome1]; rfl),
            List.filter_cons_of_pos (by rw [hpend]; rfl)]
          rfl
        rw [huv2, hcx.1, hcx.2, priortisePaths_keep _ _ _ _ _ _
          (countUnvisited_east _ _ _ _ _ (by decide) (by decide) (by
            show st1.boundary.ymin < 1
            omega))] at hprio
        simp only [List.cons.injEq] at hprio
        refine ⟨?_, Or.inl ⟨rfl, hprio.2.symm⟩⟩
        rw [snakeRoom_home]
        exact hprio.1.symm
      · have hq'e : q' = snakeRoom A (i + 1) := by
          rcases (huv q').mp hq' with h | ⟨h, _⟩
          · exact h
          · exact absurd h h2
        refine ⟨hq'e, Or.inr ⟨h2, ?_⟩⟩
        intro r hr'
        rcases (huv r).mp (hrest r hr') with h | ⟨h, _⟩
        · rw [h, hq'e]
        · exact absurd h h2
    obtain ⟨hq'e, hrest'⟩ := hmove
    subst hq'e
    constructor
    · exact hctl'
    · exact hpos'
    · -- visited
      intro p
      rw [hvis', isVisited_set]
      simp only [Bool.or_eq_true, decide_eq_true_eq, hvis]
      constructor
      · rintro (h | ⟨i', hi', h⟩)
        · exact ⟨i + 1, le_refl _, h.symm⟩
        · exact ⟨i', by omega, h⟩
      · rintro ⟨i', hi', h⟩
        by_cases he : i' = i + 1
        · left; rw [h, he]
        · right; exact ⟨i', by omega, h⟩
    · -- junction
      intro v
      rw [hj' v, hpos, hjun v]
      rcases hrest' with ⟨h2, hrest2⟩ | ⟨h2, hrest2⟩
      · subst h2
        rw [hrest2, snakeRoom_junction A hA]
        by_cases hv : v = ⟨0, 2⟩
        · rw [if_pos ⟨hv, by simp⟩, if_pos ⟨by omega, hv⟩]
          apply cleanEntry_pending
          rw [snakeRoom_home]
          decide
        · rw [if_neg (fun hc => hv hc.1), if_neg (by omega), if_neg (fun hc => hv hc.2)]
          rfl
      · by_cases hv : v = snakeRoom A i ∧ rest ≠ []
        · rw [if_pos hv, cleanEntry_all _ _ hrest2, if_neg]
          rintro ⟨h3, h4⟩
          have := snakeRoom_inj A i (2 * A + 2) hA (by omega) (by omega)
            (by rw [← hv.1, h4, snakeRoom_junction A hA])
          exact h2 this
        · rw [if_neg hv]
          by_cases hold : 2 * A + 2 < i ∧ v = ⟨0, 2⟩
          · rw [if_pos hold, if_pos ⟨by omega, hold.2⟩]
            exact cleanEntry_pending _ (snakeRoom_ne_pending A (i + 1) (by omega))
          · rw [if_neg hold, if_neg]
            · rfl
            · rintro ⟨h3, h4⟩
              exact hold ⟨by omega, h4⟩
    · -- edges
      intro x hx y hy
      rw [hg', hgr] at hy
      rcases hy with hy | ⟨rfl, hxl⟩
      · by_cases hxp : snakeRoom A i = x
        · rw [if_pos hxp] at hy
          subst hxp
          rcases (hlist y).mp hy with h | ⟨h1, h⟩ | ⟨h1, h⟩
          · rw [h]; exact snakeRank_step A i hA hi
          · subst h1
            rw [h, snakeRank_pending, snakeRank_room A _ hA (le_refl _)]
            push_cast
            omega
          · subst h1
            rw [h, snakeRoom_home, snakeRank_home, ← snakeRoom_zero A,
              snakeRank_room A 0 hA (by omega)]
            simp
        · rw [if_neg hxp] at hy
          exact hedges x (fun hc => hxp hc.symm) y hy
      · rcases hxl with h | ⟨h1, h⟩ | ⟨h1, h⟩
        · exact absurd h hx
        · subst h1
          rw [h, snakeRank_pending, snakeRank_room A _ hA (le_refl _)]
          push_cast
          omega
        · subst h1
          rw [h, snakeRoom_home, snakeRank_home, ← snakeRoom_zero A,
            snakeRank_room A 0 hA (by omega)]
          simp
    · rw [hg']; exact hcl
    · -- keys
      intro i' hi'
      rw [hg', hk]
      by_cases he : i' = i
      · right; left; rw [he]
      · left; exact hkeys i' (by omega)
    · -- home
      intro h3
      have h4 : i = 2 * A + 3 := by omega
      subst h4
      rw [hg', hgr, ← snakeRoom_home A, if_pos rfl]
      left
      exact (hlist _).mpr (Or.inr (Or.inr ⟨rfl, rfl⟩))
    · rw [hb']; omega

/-! ## A route to the zero-valued junction -/

theorem walk_zero {g : adjacencyMap} {a b : Coordinate} {L : Nat} (hw : Walk g a b L)
    (hL : L = 0) : b = a := by
  cases hw with
  | nil => rfl
  | snoc _ _ => omega

theorem walk_one {g : adjacencyMap} {a b : Coordinate} {L : Nat} (hw : Walk g a b L)
    (hL : L = 1) : b ∈ adjacent g a := by
  cases hw with
  | nil => omega
  | snoc hw' hedge =>
    have := walk_zero hw' (by omega)
    rw [this] at hedge
    exact hedge

/-- Two turns of the loop building the route, from a target two steps from the source. -/
theorem buildRoute_two (source : Coordinate) (nodes : GoMap node) (t1 t2 : Coordinate)
    (n1 n2 : node) (h1 : nodes.get? t1 = some n1) (h2 : nodes.get? t2 = some n2)
    (hp1 : n1.parent = t2) (hp2 : n2.parent = source) (hne1 : t1 ≠ source) (hne2 : t2 ≠ source)
    (n : Nat) (route : List Coordinate) :
    buildRoute source nodes (n + 2) t1 route = .ok ((route.set (n + 1) t1).set n t2) := by
  unfold buildRoute
  rw [if_neg hne1]
  simp only [h1, hp1]
  unfold buildRoute
  rw [if_neg hne2]
  simp only [h2, hp2]
  unfold buildRoute
  rw [if_pos rfl]

theorem replicate_set_two {α : Type} (n : Nat) (d a b : α) :
    ((List.replicate (n + 2) d).set (n + 1) a).set n b = List.replicate n d ++ [b, a] := by
  induction n with
  | zero => rfl
  | succ n ih =>
    show d :: ((List.replicate (n + 2) d).set (n + 1) a).set n b = d :: (List.replicate n d ++ [b, a])
    rw [ih]

theorem routeDirections_zeros (prev : Coordinate) (n : Nat) (tail : List Coordinate) :
    routeDirections prev (List.replicate (n + 1) ⟨0, 0⟩ ++ tail) =
      directionToMove prev ⟨0, 0⟩ :: (List.replicate n 0 ++ routeDirections ⟨0, 0⟩ tail) := by
  induction n generalizing prev with
  | zero => rfl
  | succ n ih =>
    show directionToMove prev ⟨0, 0⟩ ::
      routeDirections ⟨0, 0⟩ (List.replicate (n + 1) ⟨0, 0⟩ ++ tail) = _
    rw [ih]
    rfl

/-- With every junction key `infinity` steps or more from the source, and `(0, 0)`
two steps from it through `p`, `shortestPath` returns the directions of a route
that is not in the graph: `infinity - 2` times the zero coordinate, then `p` and
`(0, 0)`. -/
theorem shortestPath_garbage (ρ : RangeOrder) (hfair : ρ.Fair) (cx cy : Int) (g j : adjacencyMap)
    (hg : GraphClosed g) (hs : (⟨cx, cy⟩ : Coordinate) ∈ g.keys) (hj : ∀ k ∈ j.keys, k ∈ g.keys)
    (hkey : ∃ k, k ∈ j.keys)
    (hfar : ∀ k ∈ j.keys, ∀ L, Walk g ⟨cx, cy⟩ k L → infinity ≤ L)
    (p : Coordinate) (hsp : ∀ y, y ∈ adjacent g ⟨cx, cy⟩ ↔ y = p)
    (hp0 : (⟨0, 0⟩ : Coordinate) ∈ adjacent g p)
    (hne0 : (⟨0, 0⟩ : Coordinate) ≠ ⟨cx, cy⟩) (hnep : p ≠ ⟨cx, cy⟩) (hne0p : (⟨0, 0⟩ : Coordinate) ≠ p)
    (n : Nat) (hn : infinity = n + 2) :
    shortestPath ρ cx cy g j =
      .ok (routeDirections ⟨cx, cy⟩ (List.replicate n ⟨0, 0⟩ ++ [p, ⟨0, 0⟩])) := by
  obtain ⟨nodes, hd, inv, hend⟩ := dijkstra_spec ρ hfair cx cy g j hg hs
  have hperm := hfair.2 j.keys
  have horder : ∀ k ∈ ρ.junctionOrder j.keys, k ∈ nodes.keys :=
    fun k hk => inv.keys ▸ hj k (hperm.mem_iff.mp hk)
  obtain ⟨r, hr, _, _, hsel⟩ := nearestJunction_spec nodes _ horder (infinity, default)
  have hkeyFar : ∀ k ∈ j.keys, ∀ nk, nodes.get? k = some nk → ¬ nk.dist < infinity := by
    intro k hk nk hnk hlt
    have := hfar k hk _ (dist_walk g ⟨cx, cy⟩ nodes inv nk.dist k nk hnk rfl hlt)
    omega
  rcases hsel with hsel | ⟨hmem, hlt, nr, hnr, hnrd⟩
  · -- the loop ended for want of a node within reach
    have hall : ∀ v nv, nodes.get? v = some nv → nv.processed = false → infinity ≤ nv.dist := by
      rcases hend with hnone | ⟨cur, c, hc1, _, hc3, _, hkeys⟩
      · exact hnone
      · exfalso
        obtain ⟨k, hk⟩ := hkey
        rcases hkeys k hk with rfl | ⟨nk, hnk, hpk⟩
        · exact hkeyFar _ hk c hc1 hc3
        · exact hkeyFar k hk nk hnk (processed_dist_lt g _ nodes inv hnk hpk)
    have htwo : (2 : Nat) < infinity := by unfold infinity; omega
    have hwp : Walk g ⟨cx, cy⟩ p 1 := Walk.snoc (Walk.nil _) ((hsp p).mpr rfl)
    have hw0 : Walk g ⟨cx, cy⟩ ⟨0, 0⟩ 2 := Walk.snoc hwp hp0
    obtain ⟨n0, hn0, _, hd0⟩ : ∃ n0, nodes.get? ⟨0, 0⟩ = some n0 ∧ n0.processed = true ∧
        n0.dist ≤ 2 := by
      rcases walk_bound g _ nodes inv hw0 with h | ⟨y, ny, h1, h2, h3⟩
      · exact h
      · have := hall y ny h1 h2
        omega
    obtain ⟨pn, hpn, _, hpd, hpadj⟩ := inv.parent _ n0 hn0 (by omega) hne0
    have hpar0 : n0.parent = p := by
      have hwalk := dist_walk g ⟨cx, cy⟩ nodes inv pn.dist n0.parent pn hpn rfl (by omega)
      by_cases h1 : pn.dist = 0
      · exfalso
        have := walk_zero hwalk h1
        rw [this] at hpadj
        exact hne0p ((hsp _).mp hpadj)
      · exact (hsp _).mp (walk_one hwalk (by omega))
    rw [hpar0] at hpn
    have hpd1 : pn.dist = 1 := by
      by_contra hc
      have h0 : pn.dist = 0 := by omega
      have hwalk := dist_walk g ⟨cx, cy⟩ nodes inv pn.dist p pn hpn rfl (by omega)
      exact hnep (walk_zero hwalk h0)
    obtain ⟨sn, hsn, _, hsd, _⟩ := inv.parent _ pn hpn (by omega) hnep
    have hparp : pn.parent = ⟨cx, cy⟩ :=
      walk_zero (dist_walk g ⟨cx, cy⟩ nodes inv sn.dist pn.parent sn hsn rfl (by omega))
        (by omega)
    unfold shortestPath
    simp only [hd, hr, hsel]
    rw [show (default : Coordinate) = ⟨0, 0⟩ from rfl, hn,
      buildRoute_two ⟨cx, cy⟩ nodes ⟨0, 0⟩ p n0 pn hn0 hpn hpar0 hparp hne0 hnep,
      replicate_set_two]
  · exact absurd hlt (by
      have := hkeyFar r.2 (hperm.mem_iff.mp hmem) nr hnr
      simp only at hlt
      omega)

/-- No walk is shorter than the rise of a rank that no edge raises by more than one. -/
theorem walk_rank (g : adjacencyMap) (rank : Coordinate → Int)
    (hrank : ∀ x y, y ∈ adjacent g x → rank y ≤ rank x + 1) {a b : Coordinate} {L : Nat}
    (hw : Walk g a b L) : rank b ≤ rank a + L := by
  induction hw with
  | nil => simp
  | snoc _ hedge ih =>
    have := hrank _ _ hedge
    push_cast
    omega

/-! ## The solver along the winding path -/

theorem snake_init (A : Nat) : SnakeInv A 0 initConfig := by
  constructor
  · rfl
  · rw [snakeRoom_zero]; rfl
  · intro p
    show isVisited (GoMap.set [] ⟨0, 0⟩ true) p = true ↔ _
    rw [isVisited_set]
    simp only [Bool.or_eq_true, decide_eq_true_eq]
    constructor
    · rintro (h1 | h1)
      · exact ⟨0, le_refl _, by rw [snakeRoom_zero]; exact h1.symm⟩
      · exact absurd h1 (by simp [isVisited, GoMap.get?])
    · rintro ⟨i', hi', h⟩
      have : i' = 0 := by omega
      subst this
      rw [snakeRoom_zero] at h
      exact Or.inl h.symm
  · intro v
    rw [if_neg (by omega)]
    rfl
  · intro x _ y hy
    exact absurd hy (by simp [initConfig, loopHead, adjacent, GoMap.get?])
  · intro k n hn
    exact absurd hn (by simp [initConfig, loopHead, adjacent, GoMap.get?])
  · intro i' hi'
    omega
  · intro h
    omega
  · exact le_refl _

theorem snake_inv (A : Nat) (hA : 1 ≤ A) (i : Nat) (hi : i ≤ 2 * A + 4) :
    SnakeInv A i (snakeConfig A i) := by
  induction i with
  | zero => exact snake_init A
  | succ i ih => exact snake_step A i hA (by omega) _ (ih (by omega))

theorem snake_run (A i : Nat) : ∃ h, Run (snakeConfig A i) h := by
  induction i with
  | zero => exact ⟨[], Run.init⟩
  | succ i ih =>
    obtain ⟨h, hrun⟩ := ih
    exact ⟨_, run_afterSend (Run.recv Choice.id ⟨snakeSurvey A i, none⟩ hrun choice_id_fair)⟩

/-- The replay of a direction `0` leaves the solver where it is. -/
theorem run_replay_zeros (n : Nat) (st : SolverState) (tail : List Int) (h : List Coordinate) :
    ∀ ch : Choice, ch.Fair → Run (replayFrom ch st (List.replicate n 0 ++ tail)) h →
      ∃ ch' : Choice, ch'.Fair ∧ Run (replayFrom ch' st tail) h := by
  induction n with
  | zero =>
    intro ch hch hrun
    exact ⟨ch, hch, hrun⟩
  | succ n ih =>
    intro ch hch hrun
    have hsend : send (replayFrom ch st (List.replicate (n + 1) 0 ++ tail)) =
        some (0, ⟨.recvBack (List.replicate n 0 ++ tail), st⟩) := rfl
    have h1 := Run.send hrun hsend
    have h2 := Run.recv Choice.id ⟨default, none⟩ h1 choice_id_fair
    exact ih Choice.id choice_id_fair h2

/-- At the end of the path, when the one junction lies `infinity` steps or more
from the dead end, the solver replays a route that is not in the graph, and reads
a reply while it takes itself to be at `(1, 2)`, an unvisited coordinate in the
list of the junction `(0, 2)`. -/
theorem snake_replay (A : Nat) (hA : 1 ≤ A) (hfar : infinity ≤ 2 * A + 4) :
    ∃ c h, Run c h ∧ c.ctl = .recvBack [N] ∧ c.st.pos = ⟨1, 2⟩ ∧
      isVisited c.st.visited ⟨1, 2⟩ = false ∧
      c.st.junctions.get? ⟨0, 2⟩ = some [⟨1, 2⟩] := by
  obtain ⟨h, hrun⟩ := snake_run A (2 * A + 4)
  have hinv := snake_inv A hA (2 * A + 4) (le_refl _)
  have hrun1 := Run.recv Choice.id ⟨snakeSurvey A (2 * A + 4), none⟩ hrun choice_id_fair
  generalize snakeConfig A (2 * A + 4) = c at hrun hrun1 hinv
  obtain ⟨hctl, hpos, hvis, hjun, hedges, hclosed, hkeys, hhome, hbound⟩ := hinv
  obtain ⟨ctl, st⟩ := c
  simp only at hctl hpos hvis hjun hedges hclosed hkeys hhome hbound
  subst hctl
  rw [snakeRoom_last] at hpos hedges
  have hsv : snakeSurvey A (2 * A + 4) = oneOpen W := by
    unfold snakeSurvey snakeDir
    rw [if_neg (by omega), if_neg (by omega), if_neg (by omega), if_neg (by omega),
      if_neg (by omega), if_neg (by omega)]
  have hcx : st.cx = 1 ∧ st.cy = 1 :=
    ⟨congrArg Coordinate.X hpos, congrArg Coordinate.Y hpos⟩
  have hlisted : ∀ y : Coordinate, (∃ dir, (dir = N ∨ dir = S ∨ dir = E ∨ dir = W) ∧
      y = neighbour ⟨1, 1⟩ dir ∧ wallAt (oneOpen W) dir = false) ↔ y = ⟨0, 1⟩ := by
    intro y
    constructor
    · rintro ⟨dir, hd, hy, hwall⟩
      rw [(wallAt_oneOpen (Or.inr (Or.inr (Or.inr rfl))) hd).mp hwall] at hy
      rw [hy]; rfl
    · intro hy
      exact ⟨W, Or.inr (Or.inr (Or.inr rfl)), by rw [hy]; rfl, by decide⟩
  have hmem := mem_recordSurvey_uv Choice.id st (oneOpen W)
  have hgr := recordSurvey_graph Choice.id st (oneOpen W)
  have hk := recordSurvey_keys Choice.id st (oneOpen W)
  have hcl := surveyed_closed Choice.id st (oneOpen W) hclosed
  have hframe := recordSurvey_frame Choice.id st (oneOpen W)
  rw [hsv, recv_survey Choice.id _ _ rfl (by simp)] at hrun1
  simp only at hrun1
  rw [hpos] at hmem hgr hk
  simp only [hlisted] at hmem hk
  cases hr : recordSurvey Choice.id st (oneOpen W) with
  | mk st1 uv =>
    rw [hr] at hmem hgr hk hcl hframe hrun1
    simp only at hmem hgr hk hcl hframe hrun1
    obtain ⟨hcx1, hcy1, hj1, hv1⟩ := hframe
    have hhomeVisited : isVisited st.visited ⟨0, 1⟩ = true :=
      (hvis _).mpr ⟨2 * A + 3, by omega, (snakeRoom_home A).symm⟩
    have huv : uv = [] := by
      apply List.eq_nil_iff_forall_not_mem.mpr
      intro u hu
      obtain ⟨hunv, rfl⟩ := (hmem u).mp hu
      rw [hhomeVisited] at hunv
      exact absurd hunv (by decide)
    have hadjS : ∀ y, y ∈ adjacent st1.graph ⟨1, 1⟩ ↔ y = ⟨0, 1⟩ := by
      intro y
      rw [hgr, if_pos rfl, hlisted]
      constructor
      · rintro (h1 | ⟨_, h2⟩)
        · exact h1
        · exact absurd ((hlisted _).mp h2) (by decide)
      · exact Or.inl
    have hrank : ∀ x y, y ∈ adjacent st1.graph x → snakeRank A y ≤ snakeRank A x + 1 := by
      intro x y hy
      by_cases hx : x = ⟨1, 1⟩
      · subst hx
        rw [(hadjS y).mp hy, snakeRank_home, snakeRank_last]
        omega
      · rw [hgr, if_neg (fun hc => hx hc.symm)] at hy
        rcases hy with hy | ⟨rfl, hx1⟩
        · exact hedges x hx y hy
        · rw [(hlisted x).mp hx1, snakeRank_home, snakeRank_last]
          omega
    have hjunKey : ∀ k ∈ st1.junctions.keys, k = ⟨0, 2⟩ := by
      intro k hk'
      obtain ⟨l, hl⟩ := get?_isSome_of_mem_keys hk'
      rw [hj1, hjun k] at hl
      by_contra hc
      rw [if_neg (fun h => hc h.2)] at hl
      exact absurd hl (by simp)
    have hjunGet : st1.junctions.get? ⟨0, 2⟩ = some [⟨1, 2⟩] := by
      rw [hj1, hjun, if_pos ⟨by omega, rfl⟩]
    have hkeyG : (⟨0, 2⟩ : Coordinate) ∈ st1.graph.keys := by
      rw [hk]
      left
      have := hkeys (2 * A + 2) (by omega)
      rw [snakeRoom_junction A hA] at this
      exact this
    have hfarK : ∀ k ∈ st1.junctions.keys, ∀ L, Walk st1.graph ⟨1, 1⟩ k L → infinity ≤ L := by
      intro k hk' L hL
      rw [hjunKey k hk'] at hL
      have := walk_rank st1.graph (snakeRank A) hrank hL
      rw [snakeRank_last, ← snakeRoom_junction A hA, snakeRank_room A _ hA (le_refl _)] at this
      push_cast at this
      omega
    have hhome1 : (⟨0, 0⟩ : Coordinate) ∈ adjacent st1.graph ⟨0, 1⟩ := by
      rw [hgr, if_neg (by decide)]
      exact Or.inl (hhome (by omega))
    obtain ⟨n, hn⟩ : ∃ n, infinity = (n + 1) + 2 := ⟨999997, rfl⟩
    have hst1 : st1.cx = 1 ∧ st1.cy = 1 := ⟨hcx1.trans hcx.1, hcy1.trans hcx.2⟩
    have hsp : shortestPath Choice.id.route st1.cx st1.cy st1.graph st1.junctions =
        .ok (0 :: (List.replicate n 0 ++ [S, N])) := by
      rw [hst1.1, hst1.2,
        shortestPath_garbage Choice.id.route choice_id_fair.1 1 1 st1.graph st1.junctions
          hcl (by rw [hk]; right; left; rfl) (fun k hk' => (hjunKey k hk') ▸ hkeyG)
          ⟨⟨0, 2⟩, mem_keys_of_get? hjunGet⟩ hfarK ⟨0, 1⟩ hadjS hhome1 (by decide) (by decide)
          (by decide) (n + 1) hn,
        routeDirections_zeros]
      have hd0 : directionToMove ⟨1, 1⟩ ⟨0, 0⟩ = 0 := by decide
      have htail : routeDirections ⟨0, 0⟩ [⟨0, 1⟩, ⟨0, 0⟩] = [S, N] := by decide
      rw [hd0, htail]
    rw [huv] at hrun1
    rw [chooseMove_deadEnd Choice.id st1 0 _ hsp] at hrun1
    obtain ⟨ch', hch', hrun2⟩ := run_replay_zeros (n + 1) st1 [S, N] _ Choice.id choice_id_fair
      (by
        have : (0 : Int) :: (List.replicate n 0 ++ [S, N]) = List.replicate (n + 1) 0 ++ [S, N] := rfl
        rw [← this]; exact hrun1)
    have hsend : send (replayFrom ch' st1 [S, N]) =
        some (S, ⟨.recvBack [N], { st1 with cx := (updatePosition st1.cx st1.cy S).1,
                                            cy := (updatePosition st1.cx st1.cy S).2 }⟩) := rfl
    refine ⟨_, _, Run.send hrun2 hsend, rfl, ?_, ?_, ?_⟩
    · show (⟨(updatePosition st1.cx st1.cy S).1, (updatePosition st1.cx st1.cy S).2⟩ : Coordinate)
        = ⟨1, 2⟩
      rw [hst1.1, hst1.2]
      rfl
    · show isVisited st1.visited ⟨1, 2⟩ = false
      rw [hv1]
      cases hv : isVisited st.visited ⟨1, 2⟩ with
      | false => rfl
      | true =>
        obtain ⟨i', hi', he⟩ := (hvis _).mp hv
        exact absurd he.symm (snakeRoom_ne_pending A i' (by omega))
    · exact hjunGet

/-! ## The invariant of the runs for arbitrary replies -/

theorem trail_mono {g g' : adjacencyMap} {h h' : List Coordinate}
    (hh : ∀ v ∈ h, v ∈ h') (hg : ∀ b ∈ h, ∀ c ∈ adjacent g b, c ∈ adjacent g' b)
    {a b : Coordinate} (ht : Trail g h a b) : Trail g' h' a b := by
  induction ht with
  | nil => exact Trail.nil _
  | snoc _ hb hc ih => exact Trail.snoc ih (hh _ hb) (hg _ hb _ hc)

theorem trail_walk {g : adjacencyMap} {h : List Coordinate} {a b : Coordinate}
    (ht : Trail g h a b) : ∃ L, Walk g a b L := by
  induction ht with
  | nil => exact ⟨0, Walk.nil _⟩
  | snoc _ _ hc ih =>
    obtain ⟨L, hL⟩ := ih
    exact ⟨L + 1, Walk.snoc hL hc⟩

theorem surveyed_grid (ch : Choice) (st : SolverState) (survey : Survey)
    (hgrid : GridEdges st.graph) : GridEdges (recordSurvey ch st survey).1.graph := by
  intro k n hn
  rw [recordSurvey_graph] at hn
  rcases hn with hn | ⟨rfl, dir, hd, rfl, _⟩
  · by_cases hk : st.pos = k
    · rw [if_pos hk] at hn
      obtain ⟨dir, hd, rfl, _⟩ := hn
      exact adjacent_neighbour _ hd
    · rw [if_neg hk] at hn
      exact hgrid k n hn
  · have := adjacent_neighbour st.pos hd
    unfold Adjacent at this ⊢
    omega

/-- The survey of the coordinate the solver stands on, for an arbitrary reply:
`here'` is the unvisited neighbour it will move to, if there is one, and `rest`
what it leaves in the junction table. -/
theorem known_survey (ch : Choice) (st : SolverState) (survey : Survey) (h : List Coordinate)
    (hK : Known st h (some st.pos) true)
    (stp : SolverState) (rest : List Coordinate) (here' : Option Coordinate)
    (hgraph : stp.graph = (recordSurvey ch st survey).1.graph)
    (hvis : stp.visited = st.visited)
    (hjun : ∀ v, stp.junctions.get? v =
      if v = st.pos ∧ rest ≠ [] then some rest else st.junctions.get? v)
    (hrest : ∀ u ∈ rest, u ∈ (recordSurvey ch st survey).2)
    (hcover : ∀ u ∈ (recordSurvey ch st survey).2, here' = some u ∨ u ∈ rest)
    (hhere : ∀ u, here' = some u → u ∈ (recordSurvey ch st survey).2) :
    Known stp (st.pos :: h) here' false := by
  have hq : st.pos ∉ h := hK.hereNew _ rfl
  have hvisOld : ∀ p, isVisited st.visited p = true ↔ p ∈ st.pos :: h := by
    intro p
    rw [hK.visIff, List.mem_cons]
    constructor
    · rintro (h1 | ⟨_, h2⟩)
      · exact Or.inr h1
      · exact Or.inl (Option.some.inj h2).symm
    · rintro (h1 | h1)
      · exact Or.inr ⟨rfl, by rw [h1]⟩
      · exact Or.inl h1
  have hjunSome : ∀ v l, stp.junctions.get? v = some l →
      (v = st.pos ∧ rest ≠ [] ∧ l = rest) ∨ (st.junctions.get? v = some l) := by
    intro v l hl
    rw [hjun v] at hl
    by_cases hc : v = st.pos ∧ rest ≠ []
    · rw [if_pos hc] at hl
      exact Or.inl ⟨hc.1, hc.2, (Option.some.inj hl).symm⟩
    · rw [if_neg hc] at hl
      exact Or.inr hl
  have huvAdj : ∀ u ∈ (recordSurvey ch st survey).2,
      u ∈ adjacent (recordSurvey ch st survey).1.graph st.pos := by
    intro u hu
    rw [surveyed_adjacent]
    exact ((mem_recordSurvey_uv ch st _ u).mp hu).2
  have hmono : ∀ b ∈ h, ∀ c ∈ adjacent st.graph b,
      c ∈ adjacent (recordSurvey ch st survey).1.graph b := by
    intro b hb c hc
    rw [recordSurvey_graph, if_neg (fun (hc' : st.pos = b) => hq (hc' ▸ hb))]
    exact Or.inl hc
  constructor
  · -- visIff
    intro p
    rw [hvis, hvisOld]
    constructor
    · exact Or.inl
    · rintro (h1 | ⟨h1, _⟩)
      · exact h1
      · exact absurd h1 (by decide)
  · -- hereNew
    intro p hp hmem
    have := (recordSurvey_paths ch st survey (hhere p hp)).1
    rw [(hvisOld p).mpr hmem] at this
    exact absurd this (by decide)
  · -- table
    constructor
    · intro k l hl
      rcases hjunSome k l hl with ⟨_, hne, rfl⟩ | hold
      · exact hne
      · exact hK.table.nonempty k l hold
    · intro k l hl p hp
      rw [hvis]
      rcases hjunSome k l hl with ⟨_, _, rfl⟩ | hold
      · exact (recordSurvey_paths ch st _ (hrest p hp)).1
      · exact hK.table.fresh k l hold p hp
    · intro k l hl p hp
      rcases hjunSome k l hl with ⟨rfl, _, rfl⟩ | hold
      · exact (recordSurvey_paths ch st _ (hrest p hp)).2
      · exact hK.table.adjacent k l hold p hp
    · intro k l hl
      rw [hvis]
      rcases hjunSome k l hl with ⟨rfl, _, _⟩ | hold
      · exact (hvisOld _).mpr (List.mem_cons_self _ _)
      · exact hK.table.keys k l hold
  · -- keysIn
    intro k l hl
    rcases hjunSome k l hl with ⟨rfl, _, _⟩ | hold
    · exact List.mem_cons_self _ _
    · exact List.mem_cons_of_mem _ (hK.keysIn _ _ hold)
  · -- listed
    intro k l hl u hu
    rw [hgraph]
    rcases hjunSome k l hl with ⟨rfl, _, rfl⟩ | hold
    · exact huvAdj u (hrest u hu)
    · exact hmono k (hK.keysIn k l hold) u (hK.listed k l hold u hu)
  · -- complete
    intro v hv0 u hu
    rw [hgraph] at hu
    rcases List.mem_cons.mp hv0 with rfl | hvh
    · by_cases huv : isVisited st.visited u = true
      · exact Or.inl ((hvisOld u).mp huv)
      · have hmem : u ∈ (recordSurvey ch st survey).2 := by
          rw [mem_recordSurvey_uv]
          exact ⟨by simpa using huv, (surveyed_adjacent ch st _ u).mp hu⟩
        rcases hcover u hmem with h1 | h1
        · exact Or.inr (Or.inl h1)
        · right; right
          exact ⟨rest, by rw [hjun, if_pos ⟨rfl, List.ne_nil_of_mem h1⟩], h1⟩
    · have hvq : st.pos ≠ v := fun hc => hq (hc ▸ hvh)
      rw [recordSurvey_graph, if_neg hvq] at hu
      rcases hu with hu | ⟨rfl, _⟩
      · rcases hK.complete v hvh u hu with h1 | h1 | ⟨l, hl, hul⟩
        · exact Or.inl (List.mem_cons_of_mem _ h1)
        · exact Or.inl (by rw [Option.some.inj h1]; exact List.mem_cons_self _ _)
        · right; right
          exact ⟨l, by rw [hjun, if_neg (fun hc => hvq hc.1.symm)]; exact hl, hul⟩
      · exact Or.inl (List.mem_cons_self _ _)
  · rw [hgraph]; exact surveyed_closed ch st _ hK.closed
  · rw [hgraph]; exact surveyed_grid ch st _ hK.grid
  · -- surveyedKeys
    intro v hv0
    rw [hgraph, recordSurvey_keys]
    rcases List.mem_cons.mp hv0 with rfl | hvh
    · exact Or.inr (Or.inl rfl)
    · exact Or.inl (hK.surveyedKeys v hvh)
  · -- revOnly
    intro v hv0 u hu
    have hvq : st.pos ≠ v := fun hc => hv0 (hc ▸ List.mem_cons_self _ _)
    have hvh : v ∉ h := fun hc => hv0 (List.mem_cons_of_mem _ hc)
    rw [hgraph, recordSurvey_graph, if_neg hvq] at hu
    rcases hu with hu | ⟨rfl, _⟩
    · exact List.mem_cons_of_mem _ (hK.revOnly v hvh u hu)
    · exact List.mem_cons_self _ _
  · -- trail
    have hold : ∀ v, (v ∈ h ∨ v = st.pos) → Trail stp.graph (st.pos :: h) ⟨0, 0⟩ v := by
      intro v hv
      refine trail_mono (fun x hx => List.mem_cons_of_mem _ hx) ?_
        (hK.trail v (hv.imp id (fun h1 => by rw [h1])))
      intro b hb c hc
      rw [hgraph]
      exact hmono b hb c hc
    intro v hv
    rcases hv with hv | hv
    · exact hold v (by
        rcases List.mem_cons.mp hv with h1 | h1
        · exact Or.inr h1
        · exact Or.inl h1)
    · exact Trail.snoc (hold st.pos (Or.inr rfl)) (List.mem_cons_self _ _)
        (by rw [hgraph]; exact huvAdj v (hhere v hv))
  · -- origin
    left
    rcases hK.origin with h1 | h1
    · exact List.mem_cons_of_mem _ h1
    · rw [← Option.some.inj h1]; exact List.mem_cons_self _ _

theorem cleanEntry_keep (cx cy : Int) {l : List Coordinate} {u : Coordinate}
    (hu : u ∈ l) (hne : u ≠ ⟨cx, cy⟩) :
    ∃ l', cleanEntry cx cy (some l) = some l' ∧ u ∈ l' := by
  have hm : u ∈ otherPaths cx cy l := mem_otherPaths.mpr ⟨hu, hne⟩
  refine ⟨otherPaths cx cy l, ?_, hm⟩
  simp [cleanEntry, List.ne_nil_of_mem hm]

theorem known_congr (st : SolverState) {st' : SolverState} {h : List Coordinate} {here : Option Coordinate}
    {marked : Bool} (hg : st'.graph = st.graph) (hj : st'.junctions = st.junctions)
    (hv : st'.visited = st.visited) (hK : Known st h here marked) :
    Known st' h here marked := by
  obtain ⟨a1, a2, a3, a4, a5, a6, a7, a8, a9, a10, a11, a12⟩ := hK
  constructor <;> (try simp only [hg, hj, hv]) <;> assumption

/-- The move to `q'`: it leaves the junction lists. -/
theorem known_clean {st st' : SolverState} {h : List Coordinate} {q' : Coordinate}
    (hK : Known st h (some q') false)
    (hgraph : st'.graph = st.graph) (hvis : st'.visited = st.visited)
    (hjun : ∀ v, st'.junctions.get? v = cleanEntry q'.X q'.Y (st.junctions.get? v)) :
    Known st' h (some q') false := by
  have hold : ∀ k l, st'.junctions.get? k = some l →
      ∃ l0, st.junctions.get? k = some l0 ∧ ∀ p ∈ l, p ∈ l0 := by
    intro k l hl
    rw [hjun] at hl
    obtain ⟨p0, hp0⟩ := List.exists_mem_of_ne_nil l (cleanEntry_ne_nil hl)
    obtain ⟨_, l0, hl0, _⟩ := cleanEntry_mem hl hp0
    refine ⟨l0, hl0, ?_⟩
    intro p hp
    obtain ⟨_, l1, hl1, hp1⟩ := cleanEntry_mem hl hp
    rw [hl0] at hl1
    rw [Option.some.inj hl1]
    exact hp1
  constructor
  · intro p
    rw [hvis]
    exact hK.visIff p
  · exact hK.hereNew
  · constructor
    · intro k l hl
      rw [hjun] at hl
      exact cleanEntry_ne_nil hl
    · intro k l hl p hp
      obtain ⟨l0, hl0, hsub⟩ := hold k l hl
      rw [hvis]
      exact hK.table.fresh k l0 hl0 p (hsub p hp)
    · intro k l hl p hp
      obtain ⟨l0, hl0, hsub⟩ := hold k l hl
      exact hK.table.adjacent k l0 hl0 p (hsub p hp)
    · intro k l hl
      obtain ⟨l0, hl0, _⟩ := hold k l hl
      rw [hvis]
      exact hK.table.keys k l0 hl0
  · intro k l hl
    obtain ⟨l0, hl0, _⟩ := hold k l hl
    exact hK.keysIn k l0 hl0
  · intro k l hl u hu
    obtain ⟨l0, hl0, hsub⟩ := hold k l hl
    rw [hgraph]
    exact hK.listed k l0 hl0 u (hsub u hu)
  · intro v hv u hu
    rw [hgraph] at hu
    rcases hK.complete v hv u hu with h1 | h1 | ⟨l, hl, hul⟩
    · exact Or.inl h1
    · exact Or.inr (Or.inl h1)
    · by_cases huq : u = q'
      · exact Or.inr (Or.inl (by rw [huq]))
      · obtain ⟨l', hl', hul'⟩ := cleanEntry_keep q'.X q'.Y hul huq
        right; right
        exact ⟨l', by rw [hjun, hl]; exact hl', hul'⟩
  · rw [hgraph]; exact hK.closed
  · rw [hgraph]; exact hK.grid
  · rw [hgraph]; exact hK.surveyedKeys
  · rw [hgraph]; exact hK.revOnly
  · rw [hgraph]; exact hK.trail
  · exact hK.origin

/-- After a replay, the solver picks a coordinate of the junction list. -/
theorem known_pick {st : SolverState} {h : List Coordinate} (hK : Known st h none false)
    {k : Coordinate} {l : List Coordinate} (hl : st.junctions.get? k = some l)
    {q' : Coordinate} (hq : q' ∈ l) : Known st h (some q') false := by
  have hfresh : ∀ p, some q' = some p → p ∉ h := by
    intro p hp hmem
    have h1 := hK.table.fresh k l hl q' hq
    rw [Option.some.inj hp, (hK.visIff p).mpr (Or.inl hmem)] at h1
    exact absurd h1 (by decide)
  constructor
  · intro p
    rw [hK.visIff]
    simp
  · exact hfresh
  · exact hK.table
  · exact hK.keysIn
  · exact hK.listed
  · intro v hv u hu
    rcases hK.complete v hv u hu with h1 | h1 | h1
    · exact Or.inl h1
    · exact absurd h1 (by simp)
    · exact Or.inr (Or.inr h1)
  · exact hK.closed
  · exact hK.grid
  · exact hK.surveyedKeys
  · exact hK.revOnly
  · intro v hv
    rcases hv with hv | hv
    · exact hK.trail v (Or.inl hv)
    · rw [← Option.some.inj hv]
      exact Trail.snoc (hK.trail k (Or.inl (hK.keysIn k l hl))) (hK.keysIn k l hl)
        (hK.listed k l hl q' hq)
  · rcases hK.origin with h1 | h1
    · exact Or.inl h1
    · exact absurd h1 (by simp)

/-- At the head of the loop the coordinate reached is marked visited. -/
theorem known_mark {st st' : SolverState} {h : List Coordinate} {p : Coordinate}
    (hK : Known st h (some p) false)
    (hgraph : st'.graph = st.graph) (hjun : st'.junctions = st.junctions)
    (hvis : st'.visited = st.visited.set p true)
    (hnot : ∀ k l, st.junctions.get? k = some l → p ∉ l) :
    Known st' h (some p) true := by
  have hv : ∀ x, isVisited st'.visited x = true ↔ (p = x ∨ isVisited st.visited x = true) := by
    intro x
    rw [hvis, isVisited_set]
    simp
  constructor
  · intro x
    rw [hv, hK.visIff]
    simp only [Bool.false_eq_true, false_and, or_false, true_and, Option.some.injEq]
    exact Or.comm
  · exact hK.hereNew
  · constructor
    · rw [hjun]; exact hK.table.nonempty
    · rw [hjun]
      intro k l hl x hx
      have h1 := hK.table.fresh k l hl x hx
      have h2 : ¬ (isVisited st'.visited x = true) := by
        rw [hv]
        rintro (h3 | h3)
        · exact hnot k l hl (h3 ▸ hx)
        · rw [h1] at h3; exact absurd h3 (by decide)
      simpa using h2
    · rw [hjun]; exact hK.table.adjacent
    · rw [hjun]
      intro k l hl
      exact (hv k).mpr (Or.inr (hK.table.keys k l hl))
  · rw [hjun]; exact hK.keysIn
  · rw [hjun, hgraph]; exact hK.listed
  · rw [hjun, hgraph]; exact hK.complete
  · rw [hgraph]; exact hK.closed
  · rw [hgraph]; exact hK.grid
  · rw [hgraph]; exact hK.surveyedKeys
  · rw [hgraph]; exact hK.revOnly
  · rw [hgraph]; exact hK.trail
  · exact hK.origin

/-- At a dead end with a junction left, in a graph of at most `infinity + 1`
coordinates, `shortestPath` either faults or returns the directions along a
route through surveyed coordinates. -/
theorem known_route (ρ : RangeOrder) (hfair : ρ.Fair) (st : SolverState) (h : List Coordinate)
    (hK : Known st h none false) (hpos : st.pos ∈ h)
    (hsmall : st.graph.keys.length ≤ infinity + 1)
    (hne : ∃ k l, st.junctions.get? k = some l) :
    shortestPath ρ st.cx st.cy st.graph st.junctions = .error .indexOutOfRange ∨
    ∃ path, shortestPath ρ st.cx st.cy st.graph st.junctions
        = .ok (routeDirections st.pos path) ∧
      IsRoute st.graph st.pos path ∧ ∀ x ∈ path, x ∈ h := by
  have hs : st.pos ∈ st.graph.keys := hK.surveyedKeys _ hpos
  have hj : ∀ k ∈ st.junctions.keys, k ∈ st.graph.keys := by
    intro k hk
    obtain ⟨l, hl⟩ := get?_isSome_of_mem_keys hk
    exact hK.surveyedKeys k (hK.keysIn k l hl)
  have hO : (⟨0, 0⟩ : Coordinate) ∈ h := hK.origin.resolve_right (by simp)
  by_cases hreach : ∃ k ∈ st.junctions.keys, ∃ L, Walk st.graph st.pos k L
  · right
    obtain ⟨k, hk, L, hw⟩ := hreach
    obtain ⟨l, hl⟩ := get?_isSome_of_mem_keys hk
    obtain ⟨u, hu⟩ := List.exists_mem_of_ne_nil l (hK.table.nonempty k l hl)
    have hufresh := hK.table.fresh k l hl u hu
    have huh : u ∉ h := by
      intro hc
      rw [(hK.visIff u).mpr (Or.inl hc)] at hufresh
      exact absurd hufresh (by decide)
    have hwithin := key_within_reach st.graph st.junctions st.pos hK.closed hs hj hk hw hsmall u
      (hK.closed k u (hK.listed k l hl u hu)) (fun hc => huh (hc ▸ hpos))
      (fun hc => by
        obtain ⟨l', hl'⟩ := get?_isSome_of_mem_keys hc
        exact huh (hK.keysIn u l' hl'))
      (fun v hv => by
        by_cases hvh : v ∈ h
        · rcases hK.complete v hvh u hv with h1 | h1 | ⟨l', hl', _⟩
          · exact absurd h1 huh
          · exact absurd h1 (by simp)
          · exact mem_keys_of_get? hl'
        · exact absurd (hK.revOnly v hvh u hv) huh)
    obtain ⟨path, hp1, hp2, _, hp4⟩ := shortestPath_spec ρ hfair st.cx st.cy st.graph
      st.junctions hK.closed hs hj hwithin
    refine ⟨path, hp1, hp2, ?_⟩
    refine route_visited st.graph st.junctions (fun x => x ∈ h) st.pos ?_ path st.pos 0
      (Walk.nil _) hpos hp2 (by simpa using hp4)
    intro v hv u hu
    rcases hK.complete v hv u hu with h1 | h1 | ⟨l', hl', _⟩
    · exact Or.inl h1
    · exact absurd h1 (by simp)
    · exact Or.inr (mem_keys_of_get? hl')
  · left
    have hfar0 : ∀ L, ¬ Walk st.graph st.pos ⟨0, 0⟩ L := by
      intro L hw
      obtain ⟨k, l, hl⟩ := hne
      obtain ⟨L2, hw2⟩ := trail_walk (hK.trail k (Or.inl (hK.keysIn k l hl)))
      exact hreach ⟨k, mem_keys_of_get? hl, _, walk_trans hw hw2⟩
    apply shortestPath_crash ρ hfair _ _ _ _ hK.closed hs hj
    · intro k hk L hw
      exact absurd ⟨k, hk, L, hw⟩ hreach
    · exact hK.surveyedKeys _ hO
    · intro L hw
      exact absurd hw (hfar0 L)
    · intro hc
      apply hfar0 0
      have : st.pos = ⟨0, 0⟩ := hc.symm
      rw [this]
      exact Walk.nil _

/-- One step of a replay. -/
theorem known_replay (ch : Choice) (hfair : ch.Fair) (st : SolverState) (h : List Coordinate)
    (rest : List Int) (hK : Known st h none false) (hR : ReplayOk st h rest) :
    KnownAt (replayFrom ch st rest) h := by
  cases rest with
  | cons d rest' =>
    show Known _ _ none false ∧ ReplayOk _ _ rest'
    refine ⟨known_congr st rfl rfl rfl hK, ?_⟩
    intro hsmall hne
    obtain ⟨_, h2⟩ := hR hsmall hne
    simp only [positions] at h2
    exact ⟨h2 _ (List.mem_cons_self _ _), fun p hp => h2 p (List.mem_cons_of_mem _ hp)⟩
  | nil =>
    unfold replayFrom
    cases hj : st.junctions.get? ⟨st.cx, st.cy⟩ with
    | none => exact trivial
    | some l =>
      cases l with
      | nil => exact trivial
      | cons next l' =>
        have hadj : Adjacent st.pos next :=
          hK.table.adjacent _ _ hj next (List.mem_cons_self _ _)
        show Known (moveTo ch st (directionToMove st.pos next)) h
          (some (moveTo ch st (directionToMove st.pos next)).pos) false
        rw [moveTo_pos ch st hadj]
        exact known_clean (known_pick hK hj (List.mem_cons_self _ _)) rfl rfl
          (arrive_state ch hfair st next hadj).2.2.2.2

/-- The round of the loop that processes a survey. -/
theorem known_top (ch : Choice) (hfair : ch.Fair) (st : SolverState) (survey : Survey)
    (h : List Coordinate) (hK : Known st h (some st.pos) true) :
    KnownAt (chooseMove ch (recordSurvey ch st survey).1 (recordSurvey ch st survey).2)
      (st.pos :: h) := by
  obtain ⟨f1, f2, f3, f4⟩ := recordSurvey_frame ch st survey
  have hadjuv : ∀ u ∈ (recordSurvey ch st survey).2, Adjacent st.pos u :=
    fun u hu => (recordSurvey_paths ch st survey hu).2
  have hsurv := known_survey ch st survey h hK
  cases hr : recordSurvey ch st survey with
  | mk st1 uv =>
    rw [hr] at f1 f2 f3 f4 hadjuv hsurv
    simp only at f1 f2 f3 f4 hadjuv hsurv
    have hpos1 : st1.pos = st.pos := by simp [SolverState.pos, f1, f2]
    by_cases hne : uv = []
    · subst hne
      have hK1 : Known st1 (st.pos :: h) none false :=
        hsurv st1 [] none rfl f4 (by intro v; simp [f3]) (by simp) (by simp) (by simp)
      show KnownAt (chooseMove ch st1 []) _
      cases hsp : shortestPath ch.route st1.cx st1.cy st1.graph st1.junctions with
      | error f =>
        rw [chooseMove_crash ch st1 f hsp]
        exact trivial
      | ok dirs =>
        cases dirs with
        | nil =>
          have hc : chooseMove ch st1 [] = ⟨.closed, st1⟩ := by
            unfold chooseMove
            rw [if_pos (by rfl), hsp]
          rw [hc]
          exact trivial
        | cons d rest =>
          rw [chooseMove_deadEnd ch st1 d rest hsp]
          show Known _ _ none false ∧ ReplayOk _ _ rest
          refine ⟨known_congr st1 rfl rfl rfl hK1, ?_⟩
          intro hsmall hnonempty
          rcases known_route ch.route hfair.1 st1 _ hK1
            (by rw [hpos1]; exact List.mem_cons_self _ _) hsmall hnonempty
            with herr | ⟨path, hp1, hp2, hp3⟩
          · rw [herr] at hsp
            cases hsp
          · rw [hp1] at hsp
            have hdirs : routeDirections st1.pos path = d :: rest := by
              injection hsp
            have hposs := positions_routeDirections st1.graph hK1.grid st1.pos path hp2
            rw [hdirs] at hposs
            simp only [positions] at hposs
            constructor
            · apply hp3
              rw [← hposs]
              exact List.mem_cons_self _ _
            · intro p hp
              apply hp3
              rw [← hposs]
              exact List.mem_cons_of_mem _ hp
    · rw [chooseMove_forward ch st1 uv hne]
      have hperm := priortisePaths_perm st1.boundary st1.cx st1.cy uv st1.visited
      generalize priortisePaths st1.boundary st1.cx st1.cy uv st1.visited = uv' at hperm ⊢
      cases uv' with
      | nil => exact absurd hperm.symm.eq_nil hne
      | cons q' rest =>
        simp only [List.headD_cons, List.drop_succ_cons, List.drop_zero]
        have hq'uv : q' ∈ uv := hperm.mem_iff.mp (List.mem_cons_self _ _)
        have hlen : uv.length = rest.length + 1 := by
          rw [← hperm.length_eq]; rfl
        have hjun : ∀ v, (if uv.length > 1 then st1.junctions.set ⟨st1.cx, st1.cy⟩ rest
            else st1.junctions).get? v =
            if v = st.pos ∧ rest ≠ [] then some rest else st.junctions.get? v := by
          intro v
          by_cases hl : uv.length > 1
          · have hrne : rest ≠ [] := by
              intro hc
              rw [hc] at hlen
              simp only [List.length_nil] at hlen
              omega
            rw [if_pos hl, GoMap.get?_set, f3, f1, f2]
            by_cases hv : v = st.pos
            · rw [if_pos (show (⟨st.cx, st.cy⟩ : Coordinate) = v from hv.symm),
                if_pos ⟨hv, hrne⟩]
            · rw [if_neg (fun (hc : (⟨st.cx, st.cy⟩ : Coordinate) = v) => hv hc.symm),
                if_neg (fun hc => hv hc.1)]
          · have hrnil : rest = [] := by
              apply List.eq_nil_of_length_eq_zero
              omega
            rw [if_neg hl, if_neg (fun hc => hc.2 hrnil), f3]
        have hKp := hsurv
          { st1 with
            junctions := if uv.length > 1 then st1.junctions.set ⟨st1.cx, st1.cy⟩ rest
              else st1.junctions }
          rest (some q') rfl f4 hjun
          (fun u hu => hperm.mem_iff.mp (List.mem_cons_of_mem _ hu))
          (fun u hu => by
            rcases List.mem_cons.mp (hperm.mem_iff.mpr hu) with h1 | h1
            · exact Or.inl (by rw [h1])
            · exact Or.inr h1)
          (fun u hu => by rw [← Option.some.inj hu]; exact hq'uv)
        have hgoal : ∀ stp : SolverState, stp.cx = st1.cx → stp.cy = st1.cy →
            Known stp (st.pos :: h) (some q') false →
            KnownAt ⟨.sendNext (directionToMove ⟨st1.cx, st1.cy⟩ q'),
              moveTo ch stp (directionToMove ⟨st1.cx, st1.cy⟩ q')⟩ (st.pos :: h) := by
          intro stp hx hy hKs
          have he : (⟨st1.cx, st1.cy⟩ : Coordinate) = stp.pos := by
            simp [SolverState.pos, hx, hy]
          have hadj : Adjacent stp.pos q' := by
            rw [← he]
            show Adjacent st1.pos q'
            rw [hpos1]
            exact hadjuv q' hq'uv
          rw [he]
          show Known (moveTo ch stp (directionToMove stp.pos q')) _
            (some (moveTo ch stp (directionToMove stp.pos q')).pos) false
          rw [moveTo_pos ch stp hadj]
          exact known_clean hKs rfl rfl (arrive_state ch hfair stp q' hadj).2.2.2.2
        exact hgoal _ rfl rfl hKp

theorem knownAt_init : KnownAt initConfig [] := by
  show Known initConfig.st [] (some initConfig.st.pos) true
  constructor
  · intro p
    show isVisited (GoMap.set ([] : GoMap Bool) ⟨0, 0⟩ true) p = true ↔ _
    rw [isVisited_set]
    simp [isVisited, GoMap.get?, initConfig, loopHead, SolverState.pos]
  · intro p _
    exact List.not_mem_nil _
  · refine ⟨?_, ?_, ?_, ?_⟩ <;> simp [initConfig, loopHead, GoMap.get?]
  · simp [initConfig, loopHead, GoMap.get?]
  · simp [initConfig, loopHead, GoMap.get?]
  · intro v hv
    exact absurd hv (List.not_mem_nil _)
  · intro k n hn
    simp [initConfig, loopHead, adjacent, GoMap.get?] at hn
  · intro k n hn
    simp [initConfig, loopHead, adjacent, GoMap.get?] at hn
  · intro v hv
    exact absurd hv (List.not_mem_nil _)
  · intro v _ u hu
    simp [initConfig, loopHead, adjacent, GoMap.get?] at hu
  · intro v hv
    rcases hv with hv | hv
    · exact absurd hv (List.not_mem_nil _)
    · have : v = ⟨0, 0⟩ := (Option.some.inj hv).symm
      rw [this]
      exact Trail.nil _
  · exact Or.inr rfl

/-- The invariant holds along every run. -/
theorem known_run {c : Config} {h : List Coordinate} (hrun : Run c h) : KnownAt c h := by
  induction hrun with
  | init => exact knownAt_init
  | @recv c h ch reply hrun hfair ih =>
    cases hctl : c.ctl with
    | recvTop =>
      by_cases hv : reply.Err = some .ErrVictory
      · have hc : recv ch reply c = ⟨.closed, c.st⟩ := by
          unfold Mazelib.recv
          rw [hctl]
          simp only [hv, if_true]
        rw [hc]
        exact trivial
      · have hK : Known c.st h (some c.st.pos) true := by
          unfold KnownAt at ih
          rw [hctl] at ih
          exact ih
        have hsa : surveyedAfter c reply h = c.st.pos :: h := by
          unfold surveyedAfter
          rw [if_pos ⟨hctl, hv⟩]
        rw [recv_survey ch reply c hctl hv, hsa]
        exact known_top ch hfair c.st reply.Survey h hK
    | recvBack rest =>
      have hK : Known c.st h none false ∧ ReplayOk c.st h rest := by
        unfold KnownAt at ih
        rw [hctl] at ih
        exact ih
      have hsa : surveyedAfter c reply h = h := by
        unfold surveyedAfter
        rw [if_neg (by rw [hctl]; simp)]
      have hc : recv ch reply c = replayFrom ch c.st rest := by
        unfold Mazelib.recv
        rw [hctl]
      rw [hc, hsa]
      exact known_replay ch hfair c.st h rest hK.1 hK.2
    | sendBack d rest =>
      have hsa : surveyedAfter c reply h = h := by
        unfold surveyedAfter
        rw [if_neg (by rw [hctl]; simp)]
      have hc : recv ch reply c = c := by
        unfold Mazelib.recv
        rw [hctl]
      rw [hc, hsa]
      exact ih
    | sendNext d =>
      have hsa : surveyedAfter c reply h = h := by
        unfold surveyedAfter
        rw [if_neg (by rw [hctl]; simp)]
      have hc : recv ch reply c = c := by
        unfold Mazelib.recv
        rw [hctl]
      rw [hc, hsa]
      exact ih
    | closed =>
      have hsa : surveyedAfter c reply h = h := by
        unfold surveyedAfter
        rw [if_neg (by rw [hctl]; simp)]
      have hc : recv ch reply c = c := by
        unfold Mazelib.recv
        rw [hctl]
      rw [hc, hsa]
      exact ih
    | crashed f =>
      have hsa : surveyedAfter c reply h = h := by
        unfold surveyedAfter
        rw [if_neg (by rw [hctl]; simp)]
      have hc : recv ch reply c = c := by
        unfold Mazelib.recv
        rw [hctl]
      rw [hc, hsa]
      exact ih
  | @send c c' h d hrun hs ih =>
    have hinv := run_inv hrun
    unfold Mazelib.send at hs
    cases hctl : c.ctl with
    | sendBack dir rest =>
      simp only [hctl, Option.some.injEq, Prod.mk.injEq] at hs
      obtain ⟨_, rfl⟩ := hs
      unfold KnownAt at ih
      rw [hctl] at ih
      exact ih
    | sendNext dir =>
      simp only [hctl, Option.some.injEq, Prod.mk.injEq] at hs
      obtain ⟨_, rfl⟩ := hs
      unfold KnownAt at ih
      rw [hctl] at ih
      show Known (loopHead c.st).st h (some (loopHead c.st).st.pos) true
      exact known_mark (p := c.st.pos) ih rfl rfl rfl (hinv.atNext dir hctl).2
    | recvTop => simp [hctl] at hs
    | recvBack rest => simp [hctl] at hs
    | closed => simp [hctl] at hs
    | crashed f => simp [hctl] at hs

/-- During a replay in a graph of at most `infinity + 1` coordinates, the
solver stands in no list of the junction table. -/
theorem replay_not_listed {c : Config} {h : List Coordinate} (hrun : Run c h)
    (rest : List Int) (hctl : c.ctl = .recvBack rest)
    (hsmall : c.st.graph.keys.length ≤ infinity + 1) :
    ∀ k l, c.st.junctions.get? k = some l → c.st.pos ∉ l := by
  have hK := known_run hrun
  unfold KnownAt at hK
  rw [hctl] at hK
  intro k l hl hmem
  have hpos := (hK.2 hsmall ⟨k, l, hl⟩).1
  have h1 := hK.1.table.fresh k l hl _ hmem
  rw [(hK.1.visIff _).mpr (Or.inl hpos)] at h1
  exact absurd h1 (by decide)

theorem backConfig_run : Run backConfig [⟨0, 1⟩, ⟨0, 0⟩] :=
  run_afterSend (Run.recv Choice.id ⟨oneOpen N, none⟩ (run_afterSend cornerConfig_run)
    choice_id_fair)

/-! ## How often a coordinate stands in an adjacency list -/

theorem adjacent_set (g : adjacencyMap) (c k : Coordinate) (l : List Coordinate) :
    adjacent (g.set c l) k = if c = k then l else adjacent g k := by
  unfold adjacent
  rw [GoMap.get?_set]
  by_cases h : c = k <;> simp [h]

theorem adjacent_addReverse (c : Coordinate) (g : adjacencyMap) (paths : List Coordinate)
    (k : Coordinate) :
    adjacent (addReverse c g paths) k = adjacent g k ++ List.replicate (paths.count k) c := by
  induction paths generalizing g with
  | nil => simp [addReverse]
  | cons p rest ih =>
    rw [addReverse, ih, adjacent_set]
    by_cases h : p = k
    · subst h
      simp only [if_true, List.count_cons_self, List.replicate_succ, List.append_assoc,
        List.singleton_append]
      rfl
    · rw [if_neg h, List.count_cons_of_ne (fun hc => h hc.symm)]

theorem openDirs_nodup (survey : Survey) : (openDirs survey).Nodup := by
  obtain ⟨t, r, b, l⟩ := survey
  cases t <;> cases r <;> cases b <;> cases l <;> decide

theorem neighbour_inj (c : Coordinate) {d e : Int} (hd : d = N ∨ d = S ∨ d = E ∨ d = W)
    (he : e = N ∨ e = S ∨ e = E ∨ e = W) (h : neighbour c d = neighbour c e) : d = e := by
  obtain ⟨x, y⟩ := c
  rcases hd with hd | hd | hd | hd <;> rcases he with he | he | he | he <;> subst hd <;>
    subst he <;> first | rfl | (simp [neighbour, Delta, N, S, E, W] at h)

/-- The candidate coordinates of a survey are pairwise different. -/
theorem scanned_nodup (ch : Choice) (st : SolverState) (survey : Survey) :
    (scanDirs st.cx st.cy (Shuffle ch.rand (openDirs survey)) ([], st.boundary)).1.Nodup := by
  rw [scanDirs_fst]
  simp only [List.nil_append]
  have hperm := Shuffle_perm ch.rand (openDirs survey)
  refine List.Nodup.map_on ?_ (hperm.nodup_iff.mpr (openDirs_nodup survey))
  intro d hd e he heq
  exact neighbour_inj ⟨st.cx, st.cy⟩ (mem_openDirs (hperm.mem_iff.mp hd))
    (mem_openDirs (hperm.mem_iff.mp he)) heq

theorem recordSurvey_uv_nodup (ch : Choice) (st : SolverState) (survey : Survey) :
    (recordSurvey ch st survey).2.Nodup := by
  simp only [recordSurvey]
  exact (scanned_nodup ch st survey).filter _

/-- The adjacency lists after a survey: the list of the surveyed coordinate is
the list of its open neighbours, every open neighbour has the surveyed
coordinate appended, the other lists are as before. -/
theorem recordSurvey_adjacent (ch : Choice) (st : SolverState) (survey : Survey)
    (k : Coordinate) :
    adjacent (recordSurvey ch st survey).1.graph k =
      if st.pos = k then
        (scanDirs st.cx st.cy (Shuffle ch.rand (openDirs survey)) ([], st.boundary)).1
      else adjacent st.graph k ++
        if k ∈ (scanDirs st.cx st.cy (Shuffle ch.rand (openDirs survey)) ([], st.boundary)).1
        then [st.pos] else [] := by
  have hnd := scanned_nodup ch st survey
  simp only [recordSurvey]
  rw [adjacent_addReverse, adjacent_set]
  by_cases hk : st.pos = k
  · have hk' : (⟨st.cx, st.cy⟩ : Coordinate) = k := hk
    rw [if_pos hk', if_pos hk]
    have hnot : k ∉ (scanDirs st.cx st.cy (Shuffle ch.rand (openDirs survey))
        ([], st.boundary)).1 := by
      intro hmem
      obtain ⟨dir, hd, hn, _⟩ := (mem_scanned_paths ch st survey k).mp hmem
      rw [← hk] at hn
      exact neighbour_ne _ hd hn.symm
    rw [List.count_eq_zero_of_not_mem hnot]
    simp
  · have hk' : ¬ (⟨st.cx, st.cy⟩ : Coordinate) = k := hk
    rw [if_neg hk', if_neg hk]
    congr 1
    by_cases hmem : k ∈ (scanDirs st.cx st.cy (Shuffle ch.rand (openDirs survey))
        ([], st.boundary)).1
    · rw [if_pos hmem, List.count_eq_one_of_mem hnd hmem]
      rfl
    · rw [if_neg hmem, List.count_eq_zero_of_not_mem hmem]
      rfl

/-- Along a run a coordinate stands in an adjacency list once at most for each
of the two coordinates that is surveyed. -/
theorem count_adjacent_le {c : Config} {h : List Coordinate} (hrun : Run c h) (v n : Coordinate) :
    (adjacent c.st.graph v).count n ≤ (if v ∈ h then 1 else 0) + (if n ∈ h then 1 else 0) := by
  induction hrun generalizing v n with
  | init => simp [initConfig, loopHead, adjacent, GoMap.get?]
  | @recv c h ch reply hrun hfair ih =>
    have hinv := run_inv hrun
    rw [recv_graph]
    unfold surveyedAfter
    by_cases hc : c.ctl = .recvTop ∧ reply.Err ≠ some .ErrVictory
    · rw [if_pos hc, if_pos hc, recordSurvey_adjacent]
      have hpos : c.st.pos ∉ h := (hinv.atTop hc.1).2
      by_cases hk : c.st.pos = v
      · rw [if_pos hk]
        have h1 := List.nodup_iff_count_le_one.mp (scanned_nodup ch c.st reply.Survey) n
        have h2 : v ∈ c.st.pos :: h := by rw [hk]; exact List.mem_cons_self _ _
        rw [if_pos h2]
        omega
      · rw [if_neg hk, List.count_append]
        have h0 := ih v n
        have hv : (v ∈ c.st.pos :: h) ↔ v ∈ h := by
          rw [List.mem_cons]
          exact ⟨fun hh => hh.resolve_left (fun hc' => hk hc'.symm), Or.inr⟩
        by_cases hn : n = c.st.pos
        · subst hn
          have h3 : (if c.st.pos ∈ c.st.pos :: h then 1 else 0) = 1 :=
            if_pos (List.mem_cons_self _ _)
          rw [if_neg hpos] at h0
          rw [h3]
          have h4 : List.count c.st.pos (if v ∈ (scanDirs c.st.cx c.st.cy
              (Shuffle ch.rand (openDirs reply.Survey)) ([], c.st.boundary)).1
              then [c.st.pos] else []) ≤ 1 := by
            split <;> simp
          by_cases hvh : v ∈ h
          · rw [if_pos hvh] at h0
            rw [if_pos (hv.mpr hvh)]
            omega
          · rw [if_neg hvh] at h0
            rw [if_neg (fun hh => hvh (hv.mp hh))]
            omega
        · have h4 : List.count n (if v ∈ (scanDirs c.st.cx c.st.cy
              (Shuffle ch.rand (openDirs reply.Survey)) ([], c.st.boundary)).1
              then [c.st.pos] else []) = 0 := by
            split
            · exact List.count_eq_zero_of_not_mem (by simpa using hn)
            · rfl
          have hn' : (n ∈ c.st.pos :: h) ↔ n ∈ h := by
            rw [List.mem_cons]
            exact ⟨fun hh => hh.resolve_left hn, Or.inr⟩
          rw [h4]
          simp only [hv, hn']
          exact h0
    · rw [if_neg hc, if_neg hc]
      exact ih v n
  | @send c c' h d hrun hs ih =>
    rw [send_graph hs]
    exact ih v n

theorem openConfig2_run : Run openConfig2 [⟨0, 1⟩, ⟨0, 0⟩] :=
  run_afterSend (Run.recv Choice.id ⟨openWalls openConfig.st.pos, none⟩
    (run_afterSend (Run.recv Choice.id ⟨openWalls ⟨0, 0⟩, none⟩ Run.init choice_id_fair))
    choice_id_fair)

/-! ## The symmetry of the graph on consistent walls -/

theorem stepsOn_symm (w : Walls) (hw : w.Consistent) {c c' : Config}
    (hs : StepsOn w c c') (hopen : EdgesOpen w c.st.graph)
    (hsymm : ∀ k n, n ∈ adjacent c.st.graph k → k ∈ adjacent c.st.graph n) :
    ∀ k n, n ∈ adjacent c'.st.graph k → k ∈ adjacent c'.st.graph n := by
  induction hs with
  | refl => exact hsymm
  | @recv c1 ch reply hs1 hfair hfed ih =>
    have hopen1 := stepsOn_edgesOpen w hw hs1 hopen
    rw [recv_graph]
    split
    · rename_i hc
      rw [hfed hc.1 hc.2]
      exact surveyed_symm w hw ch _ hopen1 ih
    · exact ih
  | @send c1 c2 d hs1 hsend ih =>
    rw [send_graph hsend]
    exact ih

/-! ## cleanUpJunctions as a function on tables -/

theorem otherPaths_eq_filter (cx cy : Int) (paths : List Coordinate) :
    otherPaths cx cy paths = paths.filter (fun p => decide (p ≠ ⟨cx, cy⟩)) := by
  unfold otherPaths
  apply List.filter_congr
  intro p _
  obtain ⟨x, y⟩ := p
  by_cases hx : x = cx <;> by_cases hy : y = cy <;> simp [hx, hy]

/-- A step of `cleanUpJunctions` at a key whose list does not hold `(cx, cy)`
leaves the table as it is. -/
theorem cleanUpStep_clean (cx cy : Int) (j : adjacencyMap) (k : Coordinate)
    (h : ∀ l, j.get? k = some l → l ≠ [] ∧ otherPaths cx cy l = l) :
    cleanUpStep cx cy j k = j := by
  unfold cleanUpStep
  cases hk : j.get? k with
  | none => rfl
  | some l =>
    obtain ⟨hne, hl⟩ := h l hk
    simp only [hl]
    rw [if_neg (by simpa using hne), if_neg (lt_irrefl _)]

theorem cleanUpJunctions_clean (cx cy : Int) (order : List Coordinate) (j : adjacencyMap)
    (h : ∀ k l, j.get? k = some l → l ≠ [] ∧ otherPaths cx cy l = l) :
    cleanUpJunctions cx cy order j = j := by
  unfold cleanUpJunctions
  induction order with
  | nil => rfl
  | cons k rest ih =>
    rw [List.foldl_cons, cleanUpStep_clean cx cy j k (h k)]
    exact ih

/-! ## priortisePaths: the exchange and the index it picks -/

theorem swapAt_getElem? {α : Type} (s : List α) (i j k : Nat) (hi : i < s.length)
    (hj : j < s.length) :
    (swapAt s i j)[k]? = if k = j then s[i]? else if k = i then s[j]? else s[k]? := by
  unfold swapAt
  rw [List.get?_eq_getElem?, List.get?_eq_getElem?, List.getElem?_eq_getElem hi,
    List.getElem?_eq_getElem hj]
  simp only
  rw [List.getElem?_set, List.getElem?_set]
  by_cases hkj : k = j
  · subst hkj
    simp [hi, hj]
  · by_cases hki : k = i
    · subst hki
      simp [hkj, hi, Ne.symm hkj]
    · simp [hkj, hki, Ne.symm hkj, Ne.symm hki]

theorem swapAt_self {α : Type} (s : List α) (i : Nat) : swapAt s i i = s := by
  unfold swapAt
  cases h : s.get? i with
  | none => rfl
  | some a =>
    simp only
    rw [List.get?_eq_getElem?] at h
    obtain ⟨hi, ha⟩ := List.getElem?_eq_some.mp h
    apply List.ext_getElem?
    intro k
    rw [List.getElem?_set, List.getElem?_set]
    by_cases hk : i = k
    · subst hk
      simp [hi, h]
    · simp [hk]

/-- The loop looking for the highest count: it returns the first index of the
largest value, and that value. -/
theorem findHighest_spec (us pre : List Nat) (acc : Nat × Nat)
    (hidx : acc.2 < pre.length) (hval : pre[acc.2]? = some acc.1)
    (hmax : ∀ (j : Nat) u, pre[j]? = some u → u ≤ acc.1)
    (hfirst : ∀ (j : Nat) u, j < acc.2 → pre[j]? = some u → u < acc.1) :
    (findHighest us pre.length acc).2 < (pre ++ us).length ∧
    (pre ++ us)[(findHighest us pre.length acc).2]? = some (findHighest us pre.length acc).1 ∧
    (∀ (j : Nat) u, (pre ++ us)[j]? = some u → u ≤ (findHighest us pre.length acc).1) ∧
    (∀ (j : Nat) u, j < (findHighest us pre.length acc).2 → (pre ++ us)[j]? = some u →
      u < (findHighest us pre.length acc).1) := by
  induction us generalizing pre acc with
  | nil =>
    simp only [findHighest, List.append_nil]
    exact ⟨hidx, hval, hmax, hfirst⟩
  | cons u rest ih =>
    have hlen : (pre ++ [u]).length = pre.length + 1 := by simp
    have happ : pre ++ u :: rest = (pre ++ [u]) ++ rest := by simp
    have hget : ∀ j v, (pre ++ [u])[j]? = some v → pre[j]? = some v ∨ (j = pre.length ∧ v = u) := by
      intro j v hj
      rw [List.getElem?_append] at hj
      by_cases hlt : j < pre.length
      · rw [if_pos hlt] at hj
        exact Or.inl hj
      · rw [if_neg hlt] at hj
        right
        have hj0 : j - pre.length = 0 := by
          by_contra hne
          rw [List.getElem?_eq_none (by simp; omega)] at hj
          exact absurd hj (by simp)
        rw [hj0] at hj
        simp only [List.getElem?_cons_zero, Option.some.injEq] at hj
        exact ⟨by omega, hj.symm⟩
    rw [happ]
    simp only [findHighest]
    by_cases hgt : u > acc.1
    · rw [if_pos hgt, ← hlen]
      apply ih (pre ++ [u]) (u, pre.length)
      · simp
      · simp
      · intro j v hj
        rcases hget j v hj with h1 | ⟨_, h1⟩
        · exact le_of_lt (lt_of_le_of_lt (hmax j v h1) hgt)
        · exact le_of_eq h1
      · intro j v hlt hj
        rcases hget j v hj with h1 | ⟨h1, _⟩
        · exact lt_of_le_of_lt (hmax j v h1) hgt
        · simp only at hlt
          omega
    · rw [if_neg hgt, ← hlen]
      apply ih (pre ++ [u]) acc
      · rw [hlen]; omega
      · rw [List.getElem?_append_left hidx]
        exact hval
      · intro j v hj
        rcases hget j v hj with h1 | ⟨_, h1⟩
        · exact hmax j v h1
        · rw [h1]; omega
      · intro j v hlt hj
        rcases hget j v hj with h1 | ⟨h1, _⟩
        · exact hfirst j v hlt h1
        · omega

/-- With two candidates or more `priortisePaths` exchanges the candidate at
index 0 with the one at the first index of the largest count. -/
theorem priortisePaths_eq_swap (b : bounds) (cx cy : Int) (paths : List Coordinate)
    (visited : GoMap Bool) (hlen : 2 ≤ paths.length) :
    ∃ i q, i < paths.length ∧ paths[i]? = some q ∧
      priortisePaths b cx cy paths visited = swapAt paths 0 i ∧
      (∀ (j : Nat) p, paths[j]? = some p → countUnvisited visited (scanRegion b cx cy p) ≤
        countUnvisited visited (scanRegion b cx cy q)) ∧
      (∀ (j : Nat) p, j < i → paths[j]? = some p → countUnvisited visited (scanRegion b cx cy p) <
        countUnvisited visited (scanRegion b cx cy q)) := by
  cases paths with
  | nil => simp at hlen
  | cons p0 rest =>
    have hspec := findHighest_spec
      (rest.map (fun path => countUnvisited visited (scanRegion b cx cy path)))
      [countUnvisited visited (scanRegion b cx cy p0)]
      (countUnvisited visited (scanRegion b cx cy p0), 0) (by simp) (by simp)
      (by
        intro j u hj
        cases j with
        | zero => simp at hj; omega
        | succ j => simp at hj)
      (by intro j u hj; simp at hj)
    simp only [List.length_singleton, List.singleton_append] at hspec
    have hmap : countUnvisited visited (scanRegion b cx cy p0) ::
        rest.map (fun path => countUnvisited visited (scanRegion b cx cy path)) =
        (p0 :: rest).map (fun path => countUnvisited visited (scanRegion b cx cy path)) := rfl
    rw [hmap] at hspec
    obtain ⟨h1, h2, h3, h4⟩ := hspec
    generalize hr : findHighest
      (rest.map (fun path => countUnvisited visited (scanRegion b cx cy path))) 1
      (countUnvisited visited (scanRegion b cx cy p0), 0) = r at h1 h2 h3 h4
    rw [List.length_map] at h1
    rw [List.getElem?_map] at h2
    obtain ⟨q, hq, hqc⟩ := Option.map_eq_some'.mp h2
    refine ⟨r.2, q, h1, hq, ?_, ?_, ?_⟩
    · unfold priortisePaths
      rw [if_neg (by omega)]
      simp only [List.map_cons, List.tail_cons, List.headD_cons]
      rw [hr]
    · intro j p hp
      rw [hqc]
      apply h3 j
      rw [List.getElem?_map, hp]
      rfl
    · intro j p hlt hp
      rw [hqc]
      apply h4 j _ hlt
      rw [List.getElem?_map, hp]
      rfl

/-- Whatever the list, `priortisePaths` exchanges the candidate at index 0 with
the one at some index `i`, which is 0 for fewer than two candidates. -/
theorem priortisePaths_swap (b : bounds) (cx cy : Int) (paths : List Coordinate)
    (visited : GoMap Bool) :
    ∃ i, (i = 0 ∨ i < paths.length) ∧ (paths.length < 2 → i = 0) ∧
      (priortisePaths b cx cy paths visited)[0]? = paths[i]? ∧
      (priortisePaths b cx cy paths visited)[i]? = paths[0]? ∧
      (∀ k : Nat, k ≠ 0 → k ≠ i → (priortisePaths b cx cy paths visited)[k]? = paths[k]?) ∧
      (i ≤ 1 → (priortisePaths b cx cy paths visited).tail = paths.eraseIdx i) := by
  by_cases hlen : 2 ≤ paths.length
  · obtain ⟨i, q, hi, _, hsw, _, _⟩ := priortisePaths_eq_swap b cx cy paths visited hlen
    have h0 : 0 < paths.length := by omega
    refine ⟨i, Or.inr hi, fun h => by omega, ?_, ?_, ?_, ?_⟩
    · rw [hsw, swapAt_getElem? paths 0 i 0 h0 hi]
      by_cases h : 0 = i
      · rw [if_pos h, h]
      · rw [if_neg h, if_pos rfl]
    · rw [hsw, swapAt_getElem? paths 0 i i h0 hi, if_pos rfl]
    · intro k hk hki
      rw [hsw, swapAt_getElem? paths 0 i k h0 hi, if_neg hki, if_neg hk]
    · intro hle
      rw [hsw]
      cases paths with
      | nil => simp at hlen
      | cons a rest =>
        cases rest with
        | nil => simp at hlen
        | cons c rest2 =>
          have hcases : i = 0 ∨ i = 1 := by omega
          rcases hcases with rfl | rfl
          · rw [swapAt_self]; rfl
          · simp [swapAt]
  · have hout : priortisePaths b cx cy paths visited = paths := by
      unfold priortisePaths
      rw [if_pos (by omega)]
    rw [hout]
    exact ⟨0, Or.inl rfl, fun _ => rfl, rfl, rfl, fun _ _ _ => rfl, fun _ => by
      cases paths <;> rfl⟩

/-! ## The counting loops of priortisePaths -/

theorem intRange_eq (a b : Int) :
    intRange a b = (List.range (b + 1 - a).toNat).map (fun i : Nat => a + (i : Int)) := by
  unfold intRange
  generalize List.range (b + 1 - a).toNat = l
  induction l with
  | nil => rfl
  | cons x rest ih => simpa using ih

theorem mem_intRange (a b z : Int) : z ∈ intRange a b ↔ a ≤ z ∧ z ≤ b := by
  rw [intRange_eq]
  simp only [List.mem_map, List.mem_range]
  constructor
  · rintro ⟨i, hi, rfl⟩
    omega
  · rintro ⟨h1, h2⟩
    exact ⟨(z - a).toNat, by omega, by omega⟩

theorem intRange_nodup (a b : Int) : (intRange a b).Nodup := by
  rw [intRange_eq]
  refine List.Nodup.map ?_ (List.nodup_range _)
  intro i j hij
  simp only at hij
  omega

theorem intRange_toFinset (a b : Int) : (intRange a b).toFinset = Finset.Icc a b := by
  ext z
  rw [List.mem_toFinset, mem_intRange, Finset.mem_Icc]

/-- The nested counting loops count the cells of the rectangle that satisfy the test. -/
theorem count_cells (P : Coordinate → Bool) (x0 x1 y0 y1 : Int) :
    ((intRange x0 x1).map (fun x =>
      ((intRange y0 y1).filter (fun y => P ⟨x, y⟩)).length)).sum = cellsWhere P x0 x1 y0 y1 := by
  unfold cellsWhere
  rw [Finset.card_filter, Finset.sum_product, ← List.sum_toFinset _ (intRange_nodup x0 x1),
    intRange_toFinset]
  apply Finset.sum_congr rfl
  intro x _
  rw [← Finset.card_filter, ← intRange_toFinset y0 y1, ← List.toFinset_filter,
    List.toFinset_card_of_nodup ((intRange_nodup y0 y1).filter _)]

theorem countUnvisited_eq (visited : GoMap Bool) (x0 x1 y0 y1 : Int) :
    countUnvisited visited (x0, x1, y0, y1) =
      cellsWhere (fun c => (visited.get? c).isNone) x0 x1 y0 y1 := by
  unfold countUnvisited
  exact count_cells (fun c => (visited.get? c).isNone) x0 x1 y0 y1

/-- In a map that stores `true` only, the coordinates that are no key are those
that read as not visited. -/
theorem isNone_eq_not_isVisited (visited : GoMap Bool)
    (htrue : ∀ c v, visited.get? c = some v → v = true) (c : Coordinate) :
    (visited.get? c).isNone = !isVisited visited c := by
  unfold isVisited
  cases h : visited.get? c with
  | none => rfl
  | some v => rw [htrue c v h]; rfl

/-- A receive leaves the visited map as it is. -/
theorem recv_visited (ch : Choice) (reply : MazeReply) (c : Config) :
    (recv ch reply c).st.visited = c.st.visited := by
  unfold Mazelib.recv
  cases hctl : c.ctl with
  | recvTop =>
    simp only []
    split
    · rfl
    · simp only [chooseMove]
      have f := (recordSurvey_frame ch c.st reply.Survey).2.2.2
      split
      · split
        · exact f
        · exact f
        · rename_i dir rest _
          simp only [replayFrom]; exact f
      · simp only [moveTo]; exact f
  | recvBack rest =>
    simp only []
    cases rest with
    | cons d r => rfl
    | nil =>
      simp only [replayFrom]
      split <;> rfl
  | sendBack d rest => rfl
  | sendNext d => rfl
  | closed => rfl
  | crashed f => rfl

/-- The visited map of `FindTreasure` stores `true` only. -/
theorem run_visited_true {c : Config} {h : List Coordinate} (hrun : Run c h) :
    ∀ p v, c.st.visited.get? p = some v → v = true := by
  induction hrun with
  | init =>
    intro p v hv
    simp only [initConfig, loopHead, GoMap.get?_set] at hv
    split at hv
    · exact (Option.some.inj hv).symm
    · simp [GoMap.get?] at hv
  | @recv c h ch reply hrun _ ih =>
    intro p v hv
    rw [recv_visited] at hv
    exact ih p v hv
  | @send c c' h d hrun hs ih =>
    intro p v hv
    unfold Mazelib.send at hs
    split at hs
    · simp only [Option.some.injEq, Prod.mk.injEq] at hs
      rw [← hs.2] at hv
      exact ih p v hv
    · simp only [Option.some.injEq, Prod.mk.injEq] at hs
      rw [← hs.2] at hv
      simp only [loopHead, GoMap.get?_set] at hv
      split at hv
      · exact (Option.some.inj hv).symm
      · exact ih p v hv
    · simp at hs

theorem stillChoice_fair : stillChoice.Fair :=
  ⟨rangeOrder_id_fair, fun l => List.Perm.refl l⟩

theorem forkBack_run : Run forkBack [⟨-1, 1⟩, ⟨-1, 0⟩, ⟨0, 0⟩] :=
  run_afterSend (Run.recv Choice.id ⟨default, none⟩
    (run_afterSend (Run.recv Choice.id ⟨oneOpen N, none⟩
      (run_afterSend (Run.recv Choice.id ⟨bendSurvey, none⟩
        (run_afterSend (Run.recv Choice.id ⟨forkSurvey, none⟩ Run.init choice_id_fair))
        choice_id_fair))
      choice_id_fair))
    choice_id_fair)

/-! ## The junction entry a survey leaves -/

theorem otherPaths_of_not_mem {cx cy : Int} {l : List Coordinate}
    (h : (⟨cx, cy⟩ : Coordinate) ∉ l) : otherPaths cx cy l = l := by
  rw [otherPaths_eq_filter]
  apply List.filter_eq_self.mpr
  intro p hp
  simp only [ne_eq, decide_eq_true_eq]
  intro hc
  exact h (hc ▸ hp)

/-- The state after a forward move, in terms of the prioritised candidates
`q' :: rest`. -/
theorem forward_entry (ch : Choice) (hfair : ch.Fair) (st : SolverState)
    (uv : List Coordinate) (hne : uv ≠ []) (hadj : ∀ u ∈ uv, Adjacent st.pos u) :
    ∃ q' rest, (q' :: rest).Perm uv ∧ (chooseMove ch st uv).st.pos = q' ∧
      ∀ v, (chooseMove ch st uv).st.junctions.get? v =
        cleanEntry q'.X q'.Y
          (if v = st.pos ∧ rest ≠ [] then some rest else st.junctions.get? v) := by
  rw [chooseMove_forward ch _ _ hne]
  have hperm := priortisePaths_perm st.boundary st.cx st.cy uv st.visited
  generalize priortisePaths st.boundary st.cx st.cy uv st.visited = uv' at hperm ⊢
  cases uv' with
  | nil => exact absurd (hperm.symm.eq_nil) hne
  | cons q' rest =>
    simp only [List.headD_cons, List.drop_succ_cons, List.drop_zero]
    have hq'uv : q' ∈ uv := hperm.mem_iff.mp (List.mem_cons_self _ _)
    have hlen : uv.length = rest.length + 1 := by
      rw [← hperm.length_eq]; rfl
    obtain ⟨hpos, _, _, _, hj⟩ := arrive_state ch hfair
      { st with junctions := if uv.length > 1 then st.junctions.set ⟨st.cx, st.cy⟩ rest
          else st.junctions } q' (hadj q' hq'uv)
    refine ⟨q', rest, hperm, hpos, ?_⟩
    intro v
    refine (hj v).trans ?_
    congr 1
    by_cases hl : uv.length > 1
    · have hrne : rest ≠ [] := by
        intro hc
        rw [hc] at hlen
        simp only [List.length_nil] at hlen
        omega
      simp only [if_pos hl]
      rw [GoMap.get?_set]
      by_cases hv : v = st.pos
      · rw [if_pos (show (⟨st.cx, st.cy⟩ : Coordinate) = v from hv.symm), if_pos ⟨hv, hrne⟩]
      · rw [if_neg (fun (hc : (⟨st.cx, st.cy⟩ : Coordinate) = v) => hv hc.symm),
          if_neg (fun hc => hv hc.1)]
    · have hrnil : rest = [] := by
        apply List.eq_nil_of_length_eq_zero
        omega
      simp only [if_neg hl]
      rw [if_neg (fun hc => hc.2 hrnil)]

/-! ## The moves of Icarus -/

/-- What `moveInto` returns, case by case. -/
theorem moveInto_cases (m : Maze) (wall : Survey → Bool) (x y : Int) :
    ((m.moveInto wall x y).2 ≠ none ∧ (m.moveInto wall x y).1 = m) ∨
    ((m.moveInto wall x y).2 = none ∧
      (m.moveInto wall x y).1 = { m with icarus := ⟨x, y⟩, StepsTaken := m.StepsTaken + 1 } ∧
      m.LookAround.2 = none ∧ wall m.LookAround.1 = false ∧ (m.GetRoom x y).isSome) := by
  unfold Maze.moveInto
  cases hl : m.LookAround with
  | mk s e =>
    cases e with
    | some e => left; simp
    | none =>
      simp only
      by_cases hw : wall s = true
      · left; simp [hw]
      · rw [if_neg hw]
        cases hg : m.GetRoom x y with
        | none => left; simp
        | some r => right; simp [hw]

/-- The survey `LookAround` returns when Icarus stands in the room `r`, away
from the treasure. -/
theorem lookAround_room (m : Maze) (r : Room)
    (hin : m.GetRoom m.icarus.X m.icarus.Y = some r)
    (hnot : ¬ (m.finish.X = m.icarus.X ∧ m.finish.Y = m.icarus.Y)) :
    m.LookAround = (r.Walls, none) := by
  unfold Maze.LookAround Maze.Discover
  rw [if_neg hnot, hin]

theorem lookAround_treasure (m : Maze)
    (hat : m.finish.X = m.icarus.X ∧ m.finish.Y = m.icarus.Y) :
    m.LookAround = (default, some .ErrVictory) := by
  unfold Maze.LookAround
  rw [if_pos hat]

/-- A move that meets a wall or the edge of the maze fails and changes nothing. -/
theorem moveInto_blocked (m : Maze) (wall : Survey → Bool) (x y : Int) (r : Room)
    (hin : m.GetRoom m.icarus.X m.icarus.Y = some r)
    (h : wall r.Walls = true ∨ m.GetRoom x y = none) :
    (m.moveInto wall x y).2 ≠ none ∧ (m.moveInto wall x y).1 = m := by
  rcases moveInto_cases m wall x y with hc | ⟨_, _, hl, hw, hg⟩
  · exact hc
  · exfalso
    by_cases hat : m.finish.X = m.icarus.X ∧ m.finish.Y = m.icarus.Y
    · rw [lookAround_treasure m hat] at hl
      simp at hl
    · rw [lookAround_room m r hin hat] at hw
      rcases h with h | h
      · rw [h] at hw; exact absurd hw (by decide)
      · rw [h] at hg; simp at hg

/-- A move through an open side into a room of the maze. -/
theorem moveInto_open (m : Maze) (wall : Survey → Bool) (x y : Int) (r : Room)
    (hin : m.GetRoom m.icarus.X m.icarus.Y = some r)
    (hnot : ¬ (m.finish.X = m.icarus.X ∧ m.finish.Y = m.icarus.Y))
    (hopen : wall r.Walls = false) (hroom : (m.GetRoom x y).isSome) :
    m.moveInto wall x y =
      ({ m with icarus := ⟨x, y⟩, StepsTaken := m.StepsTaken + 1 }, none) := by
  unfold Maze.moveInto
  rw [lookAround_room m r hin hnot]
  simp only
  rw [if_neg (by rw [hopen]; decide)]
  obtain ⟨r', hr'⟩ := Option.isSome_iff_exists.mp hroom
  rw [hr']

theorem getRoom_congr (m m' : Maze) (h : m'.rooms = m.rooms) (x y : Int) :
    m'.GetRoom x y = m.GetRoom x y := by
  unfold Maze.GetRoom Maze.Width Maze.Height
  rw [h]

/-- A move leaves the rooms as they are and Icarus inside the maze. -/
theorem moveInto_inside (m : Maze) (wall : Survey → Bool) (x y : Int)
    (hin : (m.GetRoom m.icarus.X m.icarus.Y).isSome) :
    (m.moveInto wall x y).1.rooms = m.rooms ∧
      ((m.moveInto wall x y).1.GetRoom (m.moveInto wall x y).1.icarus.X
        (m.moveInto wall x y).1.icarus.Y).isSome := by
  rcases moveInto_cases m wall x y with ⟨_, hc⟩ | ⟨_, hc, _, _, hg⟩
  · rw [hc]; exact ⟨rfl, hin⟩
  · rw [hc]
    refine ⟨rfl, ?_⟩
    have := getRoom_congr m { m with icarus := ⟨x, y⟩, StepsTaken := m.StepsTaken + 1 } rfl x y
    exact this ▸ hg

theorem play_inside (m : Maze) (step : Int)
    (hin : (m.GetRoom m.icarus.X m.icarus.Y).isSome) :
    (m.play step).rooms = m.rooms ∧
      ((m.play step).GetRoom (m.play step).icarus.X (m.play step).icarus.Y).isSome := by
  unfold Maze.play
  split
  · exact moveInto_inside m _ _ _ hin
  · split
    · exact moveInto_inside m _ _ _ hin
    · split
      · exact moveInto_inside m _ _ _ hin
      · split
        · exact moveInto_inside m _ _ _ hin
        · exact ⟨rfl, hin⟩

theorem plays_inside (steps : List Int) (m : Maze)
    (hin : (m.GetRoom m.icarus.X m.icarus.Y).isSome) :
    (steps.foldl Maze.play m).rooms = m.rooms ∧
      ((steps.foldl Maze.play m).GetRoom (steps.foldl Maze.play m).icarus.X
        (steps.foldl Maze.play m).icarus.Y).isSome := by
  induction steps generalizing m with
  | nil => exact ⟨rfl, hin⟩
  | cons s rest ih =>
    rw [List.foldl_cons]
    obtain ⟨h1, h2⟩ := play_inside m s hin
    obtain ⟨h3, h4⟩ := ih (m.play s) h2
    exact ⟨h3.trans h1, h4⟩

/-! ## Reads and sends -/

/-- A receive away from the top of the loop does not look at the reply. -/
theorem recv_discards (ch : Choice) (r r' : MazeReply) (c : Config) (h : c.ctl ≠ .recvTop) :
    recv ch r c = recv ch r' c := by
  unfold Mazelib.recv
  cases hctl : c.ctl with
  | recvTop => exact absurd hctl h
  | recvBack rest => rfl
  | sendBack d rest => rfl
  | sendNext d => rfl
  | closed => rfl
  | crashed f => rfl

theorem feed_discards (ch : Choice) (r r' : MazeReply) (c : Config) (h : c.ctl ≠ .recvTop) :
    feed ch r c = feed ch r' c := by
  unfold feed
  rw [recv_discards ch r r' c h]

theorem feedAll_agree (choices : Nat → Choice) (rs : List MazeReply) :
    ∀ (i : Nat) (c : Config) (rs' : List MazeReply), agreeAtTop choices i c rs rs' = true →
      feedAll choices i c rs = feedAll choices i c rs' := by
  induction rs with
  | nil =>
    intro i c rs' h
    cases rs' with
    | nil => rfl
    | cons r' rs' => simp [agreeAtTop] at h
  | cons r rs ih =>
    intro i c rs' h
    cases rs' with
    | nil => simp [agreeAtTop] at h
    | cons r' rs' =>
      simp only [agreeAtTop, Bool.and_eq_true, decide_eq_true_eq] at h
      obtain ⟨h1, h2⟩ := h
      have hf : feed (choices i) r c = feed (choices i) r' c := by
        by_cases htop : c.ctl = .recvTop
        · rw [h1 htop]
        · exact feed_discards _ r r' c htop
      simp only [feedAll]
      rw [← hf, ih (i + 1) _ rs' h2]

/-- After a receive at a state that reads, the goroutine sends or has ended. -/
theorem recv_then_send (ch : Choice) (reply : MazeReply) (c : Config)
    (h : c.ctl = .recvTop ∨ ∃ rest, c.ctl = .recvBack rest) :
    (∃ d c', send (recv ch reply c) = some (d, c')) ∨ (recv ch reply c).ctl = .closed ∨
      ∃ f, (recv ch reply c).ctl = .crashed f := by
  have hreplay : ∀ (st : SolverState) (rest : List Int),
      (∃ d c', send (replayFrom ch st rest) = some (d, c')) ∨
        (replayFrom ch st rest).ctl = .closed ∨ ∃ f, (replayFrom ch st rest).ctl = .crashed f := by
    intro st rest
    cases rest with
    | cons d r => exact Or.inl ⟨d, _, rfl⟩
    | nil =>
      unfold replayFrom
      cases hj : (st.junctions.get? ⟨st.cx, st.cy⟩).getD [] with
      | nil => exact Or.inr (Or.inr ⟨_, rfl⟩)
      | cons n l => exact Or.inl ⟨_, _, rfl⟩
  rcases h with h | ⟨rest, h⟩
  · unfold Mazelib.recv
    rw [h]
    simp only
    split
    · exact Or.inr (Or.inl rfl)
    · unfold chooseMove
      split
      · split
        · exact Or.inr (Or.inr ⟨_, rfl⟩)
        · exact Or.inr (Or.inl rfl)
        · exact hreplay _ _
      · exact Or.inl ⟨_, _, rfl⟩
  · unfold Mazelib.recv
    rw [h]
    exact hreplay _ _

/-! ## The boundary is the bounding box of the coordinates seen -/

theorem chooseMove_boundary (ch : Choice) (st : SolverState) (uv : List Coordinate) :
    (chooseMove ch st uv).st.boundary = st.boundary := by
  unfold chooseMove
  split
  · split
    · rfl
    · rfl
    · rfl
  · rfl

theorem replayFrom_boundary (ch : Choice) (st : SolverState) (rest : List Int) :
    (replayFrom ch st rest).st.boundary = st.boundary := by
  cases rest with
  | cons d r => rfl
  | nil =>
    simp only [replayFrom]
    split <;> rfl

theorem send_boundary {c c' : Config} {d : Int} (h : send c = some (d, c')) :
    c'.st.boundary = c.st.boundary := by
  unfold Mazelib.send at h
  split at h
  · simp only [Option.some.injEq, Prod.mk.injEq] at h; rw [← h.2]
  · simp only [Option.some.injEq, Prod.mk.injEq] at h; rw [← h.2]; rfl
  · simp at h

/-- The boundary after a receive: unchanged, or the one `recordSurvey` leaves. -/
theorem recv_boundary (ch : Choice) (reply : MazeReply) (c : Config) :
    (recv ch reply c).st.boundary =
      if c.ctl = .recvTop ∧ reply.Err ≠ some .ErrVictory then
        (recordSurvey ch c.st reply.Survey).1.boundary
      else c.st.boundary := by
  unfold Mazelib.recv
  cases hctl : c.ctl with
  | recvTop =>
    by_cases hv : reply.Err = some .ErrVictory
    · simp [hv]
    · simp only [hv, if_false, true_and, ne_eq, not_false_eq_true, if_true]
      exact chooseMove_boundary _ _ _
  | recvBack rest => simp [replayFrom_boundary]
  | sendBack d rest => simp
  | sendNext d => simp
  | closed => simp
  | crashed f => simp

theorem recordSurvey_boundary (ch : Choice) (st : SolverState) (survey : Survey) :
    (recordSurvey ch st survey).1.boundary =
      (scanDirs st.cx st.cy (Shuffle ch.rand (openDirs survey)) ([], st.boundary)).2 := rfl

theorem boxOf_congr {S S' : Coordinate → Prop} {b : bounds} (h : ∀ p, S p ↔ S' p)
    (hb : BoxOf S b) : BoxOf S' b := by
  obtain ⟨h1, ⟨p2, h2, e2⟩, ⟨p3, h3, e3⟩, ⟨p4, h4, e4⟩, ⟨p5, h5, e5⟩⟩ := hb
  exact ⟨fun p hp => h1 p ((h p).mpr hp), ⟨p2, (h p2).mp h2, e2⟩, ⟨p3, (h p3).mp h3, e3⟩,
    ⟨p4, (h p4).mp h4, e4⟩, ⟨p5, (h p5).mp h5, e5⟩⟩

theorem extendBoundary_fields (b : bounds) (x y : Int) :
    (extendBoundary b x y).xmax = (if x > b.xmax then x else b.xmax) ∧
    (extendBoundary b x y).xmin =
      (if x > b.xmax then b.xmin else if x < b.xmin then x else b.xmin) ∧
    (extendBoundary b x y).ymax = (if y > b.ymax then y else b.ymax) ∧
    (extendBoundary b x y).ymin =
      (if y > b.ymax then b.ymin else if y < b.ymin then y else b.ymin) := by
  unfold extendBoundary
  by_cases h1 : x > b.xmax <;> by_cases h2 : x < b.xmin <;> by_cases h3 : y > b.ymax <;>
    by_cases h4 : y < b.ymin <;> simp [h1, h2, h3, h4]

theorem extendBoundary_bounds (b : bounds) (x y : Int) (hx : b.xmin ≤ b.xmax)
    (hy : b.ymin ≤ b.ymax) :
    ((x < b.xmin ∧ (extendBoundary b x y).xmin = x) ∨
      (b.xmin ≤ x ∧ (extendBoundary b x y).xmin = b.xmin)) ∧
    ((b.xmax < x ∧ (extendBoundary b x y).xmax = x) ∨
      (x ≤ b.xmax ∧ (extendBoundary b x y).xmax = b.xmax)) ∧
    ((y < b.ymin ∧ (extendBoundary b x y).ymin = y) ∨
      (b.ymin ≤ y ∧ (extendBoundary b x y).ymin = b.ymin)) ∧
    ((b.ymax < y ∧ (extendBoundary b x y).ymax = y) ∨
      (y ≤ b.ymax ∧ (extendBoundary b x y).ymax = b.ymax)) := by
  obtain ⟨e1, e2, e3, e4⟩ := extendBoundary_fields b x y
  rw [e1, e2, e3, e4]
  refine ⟨?_, ?_, ?_, ?_⟩ <;> split_ifs <;> omega

/-- Widening the bounding box to one more coordinate. -/
theorem extendBoundary_box (S : Coordinate → Prop) (b : bounds) (hb : BoxOf S b) (x y : Int) :
    BoxOf (fun p => S p ∨ p = ⟨x, y⟩) (extendBoundary b x y) := by
  obtain ⟨h1, ⟨p2, h2, e2⟩, ⟨p3, h3, e3⟩, ⟨p4, h4, e4⟩, ⟨p5, h5, e5⟩⟩ := hb
  have i2 := h1 p2 h2
  have i4 := h1 p4 h4
  unfold InBox at i2 i4
  have hx : b.xmin ≤ b.xmax := by omega
  have hy : b.ymin ≤ b.ymax := by omega
  obtain ⟨hxmin, hxmax, hymin, hymax⟩ := extendBoundary_bounds b x y hx hy
  refine ⟨?_, ?_, ?_, ?_, ?_⟩
  · intro p hp
    unfold InBox
    rcases hp with hp | hp
    · have := h1 p hp
      unfold InBox at this
      omega
    · rw [hp]
      dsimp only
      omega
  · rcases hxmin with ⟨_, e⟩ | ⟨_, e⟩
    · exact ⟨⟨x, y⟩, Or.inr rfl, e.symm⟩
    · exact ⟨p2, Or.inl h2, by rw [e2, e]⟩
  · rcases hxmax with ⟨_, e⟩ | ⟨_, e⟩
    · exact ⟨⟨x, y⟩, Or.inr rfl, e.symm⟩
    · exact ⟨p3, Or.inl h3, by rw [e3, e]⟩
  · rcases hymin with ⟨_, e⟩ | ⟨_, e⟩
    · exact ⟨⟨x, y⟩, Or.inr rfl, e.symm⟩
    · exact ⟨p4, Or.inl h4, by rw [e4, e]⟩
  · rcases hymax with ⟨_, e⟩ | ⟨_, e⟩
    · exact ⟨⟨x, y⟩, Or.inr rfl, e.symm⟩
    · exact ⟨p5, Or.inl h5, by rw [e5, e]⟩

/-- The loop over the open directions widens the bounding box to the candidates. -/
theorem scanDirs_box (cx cy : Int) (dirs : List Int) :
    ∀ (S : Coordinate → Prop) (acc : List Coordinate × bounds), BoxOf S acc.2 →
      BoxOf (fun p => S p ∨
        p ∈ dirs.map (fun dir => (⟨cx + (Delta dir).X, cy + (Delta dir).Y⟩ : Coordinate)))
        (scanDirs cx cy dirs acc).2 := by
  induction dirs with
  | nil =>
    intro S acc hb
    exact boxOf_congr (fun p => by simp) hb
  | cons d rest ih =>
    intro S acc hb
    unfold scanDirs
    have h1 := extendBoundary_box S acc.2 hb (cx + (Delta d).X) (cy + (Delta d).Y)
    have h2 := ih _ (acc.1 ++ [⟨cx + (Delta d).X, cy + (Delta d).Y⟩],
      extendBoundary acc.2 (cx + (Delta d).X) (cy + (Delta d).Y)) h1
    refine boxOf_congr ?_ h2
    intro p
    simp only [List.map_cons, List.mem_cons]
    tauto

/-- The box never shrinks when it is widened. -/
theorem extendBoundary_mono (b : bounds) (x y : Int) (p : Coordinate) (h : InBox b p) :
    InBox (extendBoundary b x y) p := by
  unfold InBox at h ⊢
  obtain ⟨e1, e2, e3, e4⟩ := extendBoundary_fields b x y
  rw [e1, e2, e3, e4]
  split_ifs <;> omega

theorem scanDirs_mono (cx cy : Int) (dirs : List Int) (acc : List Coordinate × bounds)
    (p : Coordinate) (h : InBox acc.2 p) : InBox (scanDirs cx cy dirs acc).2 p := by
  induction dirs generalizing acc with
  | nil => exact h
  | cons d rest ih =>
    unfold scanDirs
    exact ih _ (extendBoundary_mono _ _ _ _ h)

/-- The keys of the graph are the surveyed coordinates and the neighbours the
surveys have reported open. -/
theorem keys_seen {c : Config} {h : List Coordinate} (hrun : Run c h) (p : Coordinate) :
    p ∈ c.st.graph.keys ↔ p ∈ h ∨ ∃ v ∈ h, p ∈ adjacent c.st.graph v := by
  induction hrun generalizing p with
  | init => simp [initConfig, loopHead, GoMap.keys]
  | @recv c h ch reply hrun hfair ih =>
    have hinv := run_inv hrun
    rw [recv_graph]
    unfold surveyedAfter
    by_cases hc : c.ctl = .recvTop ∧ reply.Err ≠ some .ErrVictory
    · rw [if_pos hc, if_pos hc, recordSurvey_keys]
      have hq : c.st.pos ∉ h := (hinv.atTop hc.1).2
      constructor
      · rintro (hk | hk | hk)
        · rcases (ih p).mp hk with h1 | ⟨v, hv, hpv⟩
          · exact Or.inl (List.mem_cons_of_mem _ h1)
          · refine Or.inr ⟨v, List.mem_cons_of_mem _ hv, ?_⟩
            rw [recordSurvey_graph, if_neg (fun (e : c.st.pos = v) => hq (e ▸ hv))]
            exact Or.inl hpv
        · exact Or.inl (by rw [hk]; exact List.mem_cons_self _ _)
        · refine Or.inr ⟨c.st.pos, List.mem_cons_self _ _, ?_⟩
          rw [recordSurvey_graph, if_pos rfl]
          exact Or.inl hk
      · rintro (hk | ⟨v, hv, hpv⟩)
        · rcases List.mem_cons.mp hk with h1 | h1
          · exact Or.inr (Or.inl h1)
          · exact Or.inl ((ih p).mpr (Or.inl h1))
        · rw [recordSurvey_graph] at hpv
          rcases hpv with hpv | ⟨h1, _⟩
          · by_cases hv0 : c.st.pos = v
            · rw [if_pos hv0, ← hv0] at hpv
              exact Or.inr (Or.inr hpv)
            · rw [if_neg hv0] at hpv
              have hvh : v ∈ h := (List.mem_cons.mp hv).resolve_left (fun e => hv0 e.symm)
              exact Or.inl ((ih p).mpr (Or.inr ⟨v, hvh, hpv⟩))
          · exact Or.inr (Or.inl h1)
    · rw [if_neg hc, if_neg hc]
      exact ih p
  | @send c c' h d hrun hs ih =>
    rw [send_graph hs]
    exact ih p

theorem trail_end {g : adjacencyMap} {h : List Coordinate} {a b : Coordinate}
    (ht : Trail g h a b) : b = a ∨ ∃ v, b ∈ adjacent g v := by
  cases ht with
  | nil => exact Or.inl rfl
  | snoc _ _ hc => exact Or.inr ⟨_, hc⟩

/-- At the top of the loop and before the send of an exploration move the
position is the start or a key of the graph. -/
theorem pos_seen {c : Config} {h : List Coordinate} (hrun : Run c h)
    (hctl : c.ctl = .recvTop ∨ ∃ d, c.ctl = .sendNext d) :
    c.st.pos = ⟨0, 0⟩ ∨ c.st.pos ∈ c.st.graph.keys := by
  have hK := known_run hrun
  unfold KnownAt at hK
  have key : ∀ m, Known c.st h (some c.st.pos) m →
      c.st.pos = ⟨0, 0⟩ ∨ c.st.pos ∈ c.st.graph.keys := by
    intro m hk
    rcases trail_end (hk.trail c.st.pos (Or.inr rfl)) with h0 | ⟨v, hv⟩
    · exact Or.inl h0
    · exact Or.inr (hk.closed _ _ hv)
  rcases hctl with h1 | ⟨d, h1⟩
  · rw [h1] at hK
    exact key _ hK
  · rw [h1] at hK
    exact key _ hK

/-- Along a run the boundary is the bounding box of the start and the keys of
the graph. -/
theorem box_run {c : Config} {h : List Coordinate} (hrun : Run c h) :
    BoxOf (fun p => p = ⟨0, 0⟩ ∨ p ∈ c.st.graph.keys) c.st.boundary := by
  induction hrun with
  | init =>
    have h0 : InBox initConfig.st.boundary ⟨0, 0⟩ := by
      simp [InBox, initConfig, loopHead]
    refine ⟨?_, ⟨⟨0, 0⟩, Or.inl rfl, rfl⟩, ⟨⟨0, 0⟩, Or.inl rfl, rfl⟩,
      ⟨⟨0, 0⟩, Or.inl rfl, rfl⟩, ⟨⟨0, 0⟩, Or.inl rfl, rfl⟩⟩
    intro p hp
    rcases hp with hp | hp
    · rw [hp]; exact h0
    · simp [initConfig, loopHead, GoMap.keys] at hp
  | @recv c h ch reply hrun hfair ih =>
    rw [recv_graph, recv_boundary]
    by_cases hc : c.ctl = .recvTop ∧ reply.Err ≠ some .ErrVictory
    · rw [if_pos hc, if_pos hc, recordSurvey_boundary]
      have hpos := pos_seen hrun (Or.inl hc.1)
      have hb := scanDirs_box c.st.cx c.st.cy (Shuffle ch.rand (openDirs reply.Survey)) _
        ([], c.st.boundary) ih
      refine boxOf_congr ?_ hb
      intro p
      rw [recordSurvey_keys, ← mem_scanned_paths ch c.st reply.Survey p, scanDirs_fst]
      simp only [List.nil_append]
      constructor
      · rintro ((h1 | h1) | h1)
        · exact Or.inl h1
        · exact Or.inr (Or.inl h1)
        · exact Or.inr (Or.inr (Or.inr h1))
      · rintro (h1 | h1 | h1 | h1)
        · exact Or.inl (Or.inl h1)
        · exact Or.inl (Or.inr h1)
        · rw [h1]; exact Or.inl hpos
        · exact Or.inr h1
    · rw [if_neg hc, if_neg hc]
      exact ih
  | @send c c' h d hrun hs ih =>
    rw [send_graph hs, send_boundary hs]
    exact ih

/-- Every visited coordinate is the start or a key of the graph. -/
theorem visited_seen {c : Config} {h : List Coordinate} (hrun : Run c h) (p : Coordinate)
    (hp : isVisited c.st.visited p = true) : p = ⟨0, 0⟩ ∨ p ∈ c.st.graph.keys := by
  induction hrun generalizing p with
  | init =>
    left
    simp only [initConfig, loopHead] at hp
    rw [isVisited_set] at hp
    simp only [isVisited, GoMap.get?, Option.getD_none, Bool.or_false,
      decide_eq_true_eq] at hp
    exact hp.symm
  | @recv c h ch reply hrun hfair ih =>
    rw [recv_visited] at hp
    rw [recv_graph]
    rcases ih p hp with h1 | h1
    · exact Or.inl h1
    · right
      split
      · rw [recordSurvey_keys]
        exact Or.inl h1
      · exact h1
  | @send c c' h d hrun hs ih =>
    rw [send_graph hs]
    unfold Mazelib.send at hs
    cases hctl : c.ctl with
    | sendBack dir rest =>
      simp only [hctl, Option.some.injEq, Prod.mk.injEq] at hs
      rw [← hs.2] at hp
      exact ih p hp
    | sendNext dir =>
      simp only [hctl, Option.some.injEq, Prod.mk.injEq] at hs
      rw [← hs.2] at hp
      simp only [loopHead] at hp
      rw [isVisited_set] at hp
      simp only [Bool.or_eq_true, decide_eq_true_eq] at hp
      rcases hp with h1 | h1
      · have := pos_seen hrun (Or.inr ⟨dir, hctl⟩)
        rw [← h1]
        exact this
      · exact ih p h1
    | recvTop => simp [hctl] at hs
    | recvBack rest => simp [hctl] at hs
    | closed => simp [hctl] at hs
    | crashed f => simp [hctl] at hs

/-! ## The commands of a trial -/

theorem trialSteps_stop (choices : Nat → Choice) (t : Trial) (hs : send t.solver = none)
    (n : Nat) : trialSteps choices n t = [] := by
  cases n with
  | zero => rfl
  | succ n =>
    unfold trialSteps
    rw [hs]

theorem trialSteps_succ (choices : Nat → Choice) (t : Trial) (d : Int) (c : Config)
    (hs : send t.solver = some (d, c)) (n : Nat) :
    trialSteps choices (n + 1) t = d :: trialSteps choices n (trialRun choices 1 t) := by
  rw [trialRun_one choices t d c hs]
  show (match send t.solver, trialStep (choices (t.currentCount + 1)) t with
    | some (step, _), some t' => step :: trialSteps choices n t'
    | _, _ => []) = _
  unfold trialStep
  rw [hs]

theorem trialSteps_add (choices : Nat → Choice) (a b : Nat) (t : Trial) :
    trialSteps choices (a + b) t =
      trialSteps choices a t ++ trialSteps choices b (trialRun choices a t) := by
  induction a generalizing t with
  | zero => simp [trialSteps, trialRun]
  | succ a ih =>
    rw [Nat.succ_add]
    cases hs : send t.solver with
    | none =>
      rw [trialSteps_stop choices t hs, trialSteps_stop choices t hs, trialRun_stop choices t hs,
        trialSteps_stop choices t hs]
      rfl
    | some p =>
      obtain ⟨d, c⟩ := p
      rw [trialSteps_succ choices t d c hs, trialSteps_succ choices t d c hs, ih,
        Nat.add_comm a 1, trialRun_add]
      rfl

/-- One round of the trial loop from a room with an unvisited open neighbour:
the solver sends the direction of such a neighbour and the next round starts
there. -/
theorem trial_round (m : Maze) (hwf : m.WellFormed) (hwalls : m.ConsistentWalls)
    (choices : Nat → Choice) (hfair : ∀ i, (choices i).Fair)
    (t : Trial) (st : SolverState) (h : List Coordinate) (hat : AtTop m t st h)
    (hnot : st.pos ≠ m.treasure)
    (hopen : ∃ dir, (dir = N ∨ dir = S ∨ dir = E ∨ dir = W) ∧
      wallAt (m.walls st.pos) dir = false ∧ isVisited st.visited (neighbour st.pos dir) = false) :
    ∃ dir st', (dir = N ∨ dir = S ∨ dir = E ∨ dir = W) ∧
      wallAt (m.walls st.pos) dir = false ∧
      isVisited st.visited (neighbour st.pos dir) = false ∧
      st'.pos = neighbour st.pos dir ∧
      AtTop m (trialRun choices 1 t) st' (st.pos :: h) ∧
      t.solver.ctl = .sendNext dir ∧ (∃ c, send t.solver = some (dir, c)) := by
  have hE := hat.explored
  have hqin : (m.roomAt st.pos).isSome :=
    passable_inside m hwf hwalls (explored_pos_passable hE)
  obtain ⟨ch, hch, hsol⟩ := hat.solver
  rw [reply_at m t.maze st.pos hat.maze hqin hnot, recv_survey ch _ _ rfl (by simp)] at hsol
  simp only at hsol
  have hframe := recordSurvey_frame ch st (m.walls st.pos)
  have hpaths := fun p => recordSurvey_paths ch st (m.walls st.pos) (p := p)
  have hmem := mem_recordSurvey_uv ch st (m.walls st.pos)
  cases hr : recordSurvey ch st (m.walls st.pos) with
  | mk st1 uv =>
    rw [hr] at hsol hframe hpaths hmem
    simp only at hframe hpaths hmem
    obtain ⟨hcx, hcy, _, _⟩ := hframe
    have hpos1 : st1.pos = st.pos := by
      show (⟨st1.cx, st1.cy⟩ : Coordinate) = ⟨st.cx, st.cy⟩
      rw [hcx, hcy]
    have hne : uv ≠ [] := by
      obtain ⟨dir, hd, hw, hv⟩ := hopen
      exact List.ne_nil_of_mem ((hmem _).mpr ⟨hv, dir, hd, rfl, hw⟩)
    have hat1 := atTop_forward m hwf hwalls choices hfair t st h hat hnot ch hch
      st1 uv hr hsol hne
    obtain ⟨q', rest, hperm, hpos', _⟩ := forward_entry ch hch st1 uv hne
      (fun u hu => hpos1 ▸ (hpaths u hu).2)
    have hq'uv : q' ∈ uv := hperm.mem_iff.mp (List.mem_cons_self _ _)
    obtain ⟨hv, dir, hd, hq'n, hw⟩ := (hmem q').mp hq'uv
    have hctl : (chooseMove ch st1 uv).ctl = .sendNext dir := by
      rw [chooseMove_forward ch _ _ hne]
      have hperm2 := priortisePaths_perm st1.boundary st1.cx st1.cy uv st1.visited
      have hhead : (priortisePaths st1.boundary st1.cx st1.cy uv st1.visited).headD default
          = (chooseMove ch st1 uv).st.pos := by
        rw [chooseMove_forward ch _ _ hne]
        generalize priortisePaths st1.boundary st1.cx st1.cy uv st1.visited = uv' at hperm2 ⊢
        cases uv' with
        | nil => exact absurd hperm2.symm.eq_nil hne
        | cons a l =>
          simp only [List.headD_cons]
          have ha : a ∈ uv := hperm2.mem_iff.mp (List.mem_cons_self _ _)
          exact (moveTo_pos ch _ (q := a) (hpos1 ▸ (hpaths a ha).2)).symm
      show Ctl.sendNext (directionToMove ⟨st1.cx, st1.cy⟩
        ((priortisePaths st1.boundary st1.cx st1.cy uv st1.visited).headD default)) = _
      rw [hhead, hpos', hq'n]
      have : (⟨st1.cx, st1.cy⟩ : Coordinate) = st.pos := hpos1
      rw [this, directionToMove_neighbour _ hd]
    refine ⟨dir, _, hd, hw, by rw [← hq'n]; exact hv, ?_, hat1, by rw [hsol]; exact hctl, ?_⟩
    · show (chooseMove ch st1 uv).st.pos = _
      rw [hpos', hq'n]
    · rw [hsol]
      unfold Mazelib.send
      rw [hctl]
      exact ⟨_, rfl⟩

/-! ## Walking a corridor -/

/-- At the treasure the solver has closed `steps` on the victory reply. -/
theorem atTop_treasure (m : Maze) (t : Trial) (st : SolverState) (h : List Coordinate)
    (hat : AtTop m t st h) (hpos : st.pos = m.treasure) :
    t.solver.ctl = .closed ∧ t.maze.reply.Err = some .ErrVictory ∧ send t.solver = none := by
  obtain ⟨_, hmz, ⟨ch, _, hsol⟩, _⟩ := hat
  have hv := reply_treasure m t.maze (hpos ▸ hmz)
  have hc : t.solver = ⟨.closed, st⟩ := by
    rw [hsol]
    unfold Mazelib.recv
    simp only [hv, if_true]
  rw [hc]
  exact ⟨rfl, hv, rfl⟩

theorem roomAfter_zero (ds : List Int) : roomAfter ds 0 = ⟨0, 0⟩ := rfl

theorem roomAfter_succ (ds : List Int) (i : Nat) (d : Int) (hd : ds[i]? = some d) :
    roomAfter ds (i + 1) = neighbour (roomAfter ds i) d := by
  unfold roomAfter
  rw [List.take_succ, hd]
  simp [List.foldl_append]

theorem take_succ_dir (ds : List Int) (i : Nat) (d : Int) (hd : ds[i]? = some d) :
    ds.take (i + 1) = ds.take i ++ [d] := by
  rw [List.take_succ, hd]
  rfl

/-- In a corridor the trial loop is, after `i` commands, at the top of the
solver's loop in the `i`-th room, the commands being the first `i` directions. -/
theorem corridor_inv (m : Maze) (hwf : m.WellFormed) (hwalls : m.ConsistentWalls)
    (ds : List Int) (hcor : m.IsCorridor ds) (choices : Nat → Choice)
    (hfair : ∀ i, (choices i).Fair) :
    ∀ i, i ≤ ds.length → ∃ st h,
      AtTop m (trialRun choices i (trialStart (choices 0) m)) st h ∧
      st.pos = roomAfter ds i ∧ (∀ p, p ∈ h ↔ ∃ j, j < i ∧ p = roomAfter ds j) ∧
      trialSteps choices i (trialStart (choices 0) m) = ds.take i ∧
      ∀ k, k < i → ∃ d, ds[k]? = some d ∧
        (trialRun choices k (trialStart (choices 0) m)).solver.ctl = .sendNext d := by
  intro i
  induction i with
  | zero =>
    intro _
    refine ⟨initConfig.st, [], atTop_start m hwf (choices 0) (hfair 0), rfl, ?_, rfl, ?_⟩
    · intro p
      constructor
      · intro hp; exact absurd hp (List.not_mem_nil _)
      · rintro ⟨j, hj, _⟩; omega
    · intro k hk; omega
  | succ i ih =>
    intro hi
    obtain ⟨st, h, hat, hpos, hh, hsteps, hctl⟩ := ih (by omega)
    have hlt : i < ds.length := by omega
    have hd : ds[i]? = some ds[i] := List.getElem?_eq_getElem hlt
    have hd4 := hcor.dirs ds[i] (List.getElem_mem hlt)
    have hnext := roomAfter_succ ds i ds[i] hd
    have hvis := hat.explored.visited
    have hnot : st.pos ≠ m.treasure := by
      rw [hpos, hcor.treasure]
      intro hc
      have := hcor.distinct i ds.length (by omega) (le_refl _) hc
      omega
    have hfresh : isVisited st.visited (neighbour st.pos ds[i]) = false := by
      cases hv : isVisited st.visited (neighbour st.pos ds[i]) with
      | false => rfl
      | true =>
        exfalso
        rw [hpos, ← hnext] at hv
        rcases (hvis _).mp hv with h1 | h1
        · rw [hpos] at h1
          have := hcor.distinct (i + 1) i (by omega) (by omega) h1
          omega
        · obtain ⟨j, hj, hpj⟩ := (hh _).mp h1
          have := hcor.distinct (i + 1) j (by omega) (by omega) hpj
          omega
    have hopenD : wallAt (m.walls st.pos) ds[i] = false := by
      rw [hpos]
      by_cases h0 : i = 0
      · subst h0
        exact (hcor.startOpen ds[0] hd4).mpr hd
      · exact (hcor.between i (by omega) hlt ds[i] hd4).mpr (Or.inl hd)
    obtain ⟨dir, st', hdir4, hw, hv, hpos', hat', hsend, c', hsome⟩ :=
      trial_round m hwf hwalls choices hfair _ st h hat hnot ⟨ds[i], hd4, hopenD, hfresh⟩
    have hdir : dir = ds[i] := by
      rw [hpos] at hw
      by_cases h0 : i = 0
      · subst h0
        have := (hcor.startOpen dir hdir4).mp hw
        rw [hd] at this
        exact (Option.some.inj this).symm
      · rcases (hcor.between i (by omega) hlt dir hdir4).mp hw with h1 | h1
        · rw [hd] at h1
          exact (Option.some.inj h1).symm
        · exfalso
          have hlt' : i - 1 < ds.length := by omega
          have he : ds[i - 1]? = some ds[i - 1] := List.getElem?_eq_getElem hlt'
          rw [he] at h1
          simp only [Option.map_some', Option.some.injEq] at h1
          have he4 := hcor.dirs ds[i - 1] (List.getElem_mem hlt')
          have hprev := roomAfter_succ ds (i - 1) ds[i - 1] he
          have hi1 : i - 1 + 1 = i := by omega
          rw [hi1] at hprev
          have hback : neighbour st.pos dir = roomAfter ds (i - 1) := by
            rw [hpos, hprev, ← h1]
            exact neighbour_opposite _ he4
          have hmem : roomAfter ds (i - 1) ∈ h := (hh _).mpr ⟨i - 1, by omega, rfl⟩
          have := (hvis _).mpr (Or.inr hmem)
          rw [← hback, hv] at this
          exact absurd this (by decide)
    subst hdir
    refine ⟨st', st.pos :: h, ?_, ?_, ?_, ?_, ?_⟩
    · rw [trialRun_add]
      exact hat'
    · rw [hpos', hpos, hnext]
    · intro p
      rw [List.mem_cons, hh, hpos]
      constructor
      · rintro (h1 | ⟨j, hj, h1⟩)
        · exact ⟨i, by omega, h1⟩
        · exact ⟨j, by omega, h1⟩
      · rintro ⟨j, hj, h1⟩
        by_cases hji : j = i
        · left; rw [h1, hji]
        · right; exact ⟨j, by omega, h1⟩
    · rw [trialSteps_add, hsteps, trialSteps_succ choices _ _ c' hsome 0,
        take_succ_dir ds i _ hd]
      rfl
    · intro k hk
      by_cases hki : k = i
      · subst hki
        exact ⟨_, hd, hsend⟩
      · exact hctl k (by omega)

/-- The trial loop counts the commands it receives. -/
theorem trialRun_count_steps (choices : Nat → Choice) (n : Nat) (t : Trial) :
    (trialRun choices n t).currentCount = t.currentCount + (trialSteps choices n t).length := by
  induction n generalizing t with
  | zero => rfl
  | succ n ih =>
    cases hs : send t.solver with
    | none =>
      rw [trialRun_stop choices t hs, trialSteps_stop choices t hs]
      rfl
    | some p =>
      obtain ⟨d, c⟩ := p
      rw [Nat.add_comm n 1, trialRun_add, Nat.add_comm 1 n, trialSteps_succ choices t d c hs, ih,
        trialRun_one choices t d c hs]
      simp only [List.length_cons]
      omega

theorem twoRooms_corridor : twoRooms.IsCorridor [E] := by
  have h0 : roomAfter [E] 0 = ⟨0, 0⟩ := rfl
  have h1 : roomAfter [E] 1 = ⟨1, 0⟩ := by decide
  constructor
  · intro d hd
    rw [List.mem_singleton.mp hd]
    exact Or.inr (Or.inr (Or.inl rfl))
  · exact List.cons_ne_nil _ _
  · intro i j hi hj hij
    simp only [List.length_singleton] at hi hj
    have hi' : i = 0 ∨ i = 1 := by omega
    have hj' : j = 0 ∨ j = 1 := by omega
    rcases hi' with rfl | rfl <;> rcases hj' with rfl | rfl
    · rfl
    · rw [h0, h1] at hij; exact absurd hij (by decide)
    · rw [h0, h1] at hij; exact absurd hij (by decide)
    · rfl
  · decide
  · intro dir hd
    rcases hd with h | h | h | h <;> subst h <;> decide
  · intro i hi hlt
    simp only [List.length_singleton] at hlt
    omega

/-! ## The two-by-two maze -/

theorem square2_wellFormed : square2.WellFormed := by
  constructor
  · intro row hrow
    simp only [square2, List.mem_cons, List.mem_singleton, List.not_mem_nil, or_false] at hrow
    rcases hrow with h | h <;> subst h <;> rfl
  · decide
  · decide
  · decide
  · rfl

theorem square2_walls : square2.ConsistentWalls := by
  intro c dir hd hin
  have h1 := (roomAt_isSome_iff square2 c).mp hin
  have hW : square2.Width = 2 := rfl
  have hH : square2.Height = 2 := rfl
  have hs : square2.start = ⟨0, 0⟩ := rfl
  rw [hW, hH, hs] at h1
  simp only [zero_add] at h1
  obtain ⟨x, y⟩ := c
  simp only at h1
  have hx : x = 0 ∨ x = 1 := by omega
  have hy : y = 0 ∨ y = 1 := by omega
  rcases hx with rfl | rfl <;> rcases hy with rfl | rfl <;> rcases hd with h | h | h | h <;>
    subst h <;> decide

/-- The second move in the two-by-two maze leads to the treasure. -/
theorem square2_second (choices : Nat → Choice) (hfair : ∀ i, (choices i).Fair)
    (t : Trial) (st : SolverState) (d1 d2 : Int)
    (hd : (d1 = E ∧ d2 = S) ∨ (d1 = S ∧ d2 = E))
    (hat : AtTop square2 t st [⟨0, 0⟩]) (hpos : st.pos = neighbour ⟨0, 0⟩ d1) :
    (∃ c, send t.solver = some (d2, c)) ∧
      (trialRun choices 1 t).solver.ctl = .closed ∧
      (trialRun choices 1 t).maze.reply.Err = some .ErrVictory ∧
      send (trialRun choices 1 t).solver = none := by
  have hvis := hat.explored.visited
  have hq : st.pos = ⟨1, 0⟩ ∨ st.pos = ⟨0, 1⟩ := by
    rcases hd with ⟨h1, _⟩ | ⟨h1, _⟩ <;> rw [hpos, h1]
    · left; decide
    · right; decide
  have hnot : st.pos ≠ square2.treasure := by
    rcases hq with h | h <;> rw [h] <;> decide
  have hd2 : d2 = N ∨ d2 = S ∨ d2 = E ∨ d2 = W := by
    rcases hd with ⟨_, h2⟩ | ⟨_, h2⟩ <;> rw [h2] <;> simp
  have htarget : neighbour st.pos d2 = ⟨1, 1⟩ := by
    rcases hd with ⟨h1, h2⟩ | ⟨h1, h2⟩ <;> rw [hpos, h1, h2] <;> decide
  have hfresh : isVisited st.visited (neighbour st.pos d2) = false := by
    cases hv : isVisited st.visited (neighbour st.pos d2) with
    | false => rfl
    | true =>
      exfalso
      rw [htarget] at hv
      rcases (hvis _).mp hv with h1 | h1
      · rcases hq with h | h <;> rw [h] at h1 <;> exact absurd h1 (by decide)
      · exact absurd h1 (by decide)
  have hopen2 : wallAt (square2.walls st.pos) d2 = false := by
    rcases hd with ⟨h1, h2⟩ | ⟨h1, h2⟩ <;> rw [hpos, h1, h2] <;> decide
  obtain ⟨dir, st', hdir4, hw, hv, hpos', hat', _, c', hsome⟩ :=
    trial_round square2 square2_wellFormed square2_walls choices hfair t st _ hat hnot
      ⟨d2, hd2, hopen2, hfresh⟩
  have hback : isVisited st.visited ⟨0, 0⟩ = true := (hvis _).mpr (Or.inr (by simp))
  have hdir : dir = d2 := by
    rcases hd with ⟨h1, h2⟩ | ⟨h1, h2⟩
    · rw [hpos, h1] at hw hv
      rw [h2]
      rcases hdir4 with h | h | h | h <;> subst h
      · exact absurd hw (by decide)
      · rfl
      · exact absurd hw (by decide)
      · have e : neighbour (neighbour ⟨0, 0⟩ E) W = ⟨0, 0⟩ := by decide
        rw [e, hback] at hv
        exact absurd hv (by decide)
    · rw [hpos, h1] at hw hv
      rw [h2]
      rcases hdir4 with h | h | h | h <;> subst h
      · have e : neighbour (neighbour ⟨0, 0⟩ S) N = ⟨0, 0⟩ := by decide
        rw [e, hback] at hv
        exact absurd hv (by decide)
      · exact absurd hw (by decide)
      · rfl
      · exact absurd hw (by decide)
  subst hdir
  have htr : st'.pos = square2.treasure := by
    rw [hpos', htarget]
    decide
  obtain ⟨hc, hvic, hstop⟩ := atTop_treasure square2 _ st' _ hat' htr
  exact ⟨⟨c', hsome⟩, hc, hvic, hstop⟩

theorem directionToMove_far (c n : Coordinate)
    (h : ∀ d, d = N ∨ d = S ∨ d = E ∨ d = W → n ≠ ⟨c.X + (Delta d).X, c.Y + (Delta d).Y⟩) :
    directionToMove c n = 0 := by
  obtain ⟨hN, hS, hE, hW⟩ := delta_values
  have h1 := h N (Or.inl rfl)
  have h2 := h S (Or.inr (Or.inl rfl))
  have h3 := h E (Or.inr (Or.inr (Or.inl rfl)))
  have h4 := h W (Or.inr (Or.inr (Or.inr rfl)))
  rw [hN] at h1
  rw [hS] at h2
  rw [hE] at h3
  rw [hW] at h4
  obtain ⟨cx, cy⟩ := c
  obtain ⟨nx, ny⟩ := n
  simp only [ne_eq, Coordinate.mk.injEq, not_and] at h1 h2 h3 h4
  unfold directionToMove
  simp only
  split_ifs with a b c' d
  · exact absurd (by omega) (h3 (by omega))
  · exact absurd (by omega) (h4 (by omega))
  · exact absurd (by omega) (h2 (by omega))
  · exact absurd (by omega) (h1 (by omega))
  · rfl

theorem recv_forward_pos (ch : Choice) (reply : MazeReply) (c : Config)
    (htop : c.ctl = .recvTop) (hv : reply.Err ≠ some .ErrVictory)
    (hne : (recordSurvey ch c.st reply.Survey).2 ≠ []) :
    ∃ q, (priortisePaths (recordSurvey ch c.st reply.Survey).1.boundary c.st.cx c.st.cy
        (recordSurvey ch c.st reply.Survey).2 c.st.visited).head? = some q ∧
      q ∈ (recordSurvey ch c.st reply.Survey).2 ∧
      recv ch reply c = ⟨.sendNext (directionToMove c.st.pos q), (recv ch reply c).st⟩ ∧
      (recv ch reply c).st.pos = q := by
  obtain ⟨hcx, hcy, hj, hvis⟩ := recordSurvey_frame ch c.st reply.Survey
  have hperm := priortisePaths_perm (recordSurvey ch c.st reply.Survey).1.boundary c.st.cx c.st.cy
    (recordSurvey ch c.st reply.Survey).2 c.st.visited
  cases hp : priortisePaths (recordSurvey ch c.st reply.Survey).1.boundary c.st.cx c.st.cy
      (recordSurvey ch c.st reply.Survey).2 c.st.visited with
  | nil =>
    rw [hp] at hperm
    exact absurd hperm.symm.eq_nil hne
  | cons q rest =>
    have hq : q ∈ (recordSurvey ch c.st reply.Survey).2 := by
      rw [hp] at hperm
      exact hperm.subset (List.mem_cons_self _ _)
    have hadj : Adjacent c.st.pos q := (recordSurvey_paths ch c.st reply.Survey hq).2
    have hrecv := recv_survey ch reply c htop hv
    rw [chooseMove_forward ch _ _ hne, hcx, hcy, hvis, hp] at hrecv
    simp only [List.headD_cons] at hrecv
    refine ⟨q, rfl, hq, ?_, ?_⟩
    · rw [hrecv]
      rfl
    · rw [hrecv]
      have := moveTo_pos ch
        { (recordSurvey ch c.st reply.Survey).1 with
          junctions := if (recordSurvey ch c.st reply.Survey).2.length > 1 then
            (recordSurvey ch c.st reply.Survey).1.junctions.set ⟨c.st.cx, c.st.cy⟩
              (List.drop 1 (q :: rest))
            else (recordSurvey ch c.st reply.Survey).1.junctions }
        (q := q) (by
          have : ({ (recordSurvey ch c.st reply.Survey).1 with
            junctions := if (recordSurvey ch c.st reply.Survey).2.length > 1 then
              (recordSurvey ch c.st reply.Survey).1.junctions.set ⟨c.st.cx, c.st.cy⟩
                (List.drop 1 (q :: rest))
              else (recordSurvey ch c.st reply.Survey).1.junctions } : SolverState).pos
              = c.st.pos := by
            simp only [SolverState.pos, hcx, hcy]
          rw [this]
          exact hadj)
      simp only [SolverState.pos, hcx, hcy] at this ⊢
      exact this

theorem buildRoute_finds (g : adjacencyMap) (s : Coordinate) (nodes : GoMap node)
    (inv : DijkstraInv g s nodes) (h0 : (default : Coordinate) ∈ g.keys) (n : Nat) :
    ∀ (target : Coordinate) (route : List Coordinate), target ∈ g.keys →
      buildRoute s nodes n target route ≠ .error .nilDeref := by
  induction n with
  | zero =>
    intro target route _
    unfold buildRoute
    split_ifs <;> simp
  | succ n ih =>
    intro target route ht
    unfold buildRoute
    by_cases hts : target = s
    · rw [if_pos hts]
      simp
    · rw [if_neg hts]
      have hk : target ∈ nodes.keys := by rw [inv.keys]; exact ht
      obtain ⟨nd, hnd⟩ := Option.isSome_iff_exists.mp ((GoMap.mem_keys_iff nodes target).mp hk)
      simp only [hnd]
      apply ih
      by_cases hlt : nd.dist < infinity
      · obtain ⟨pn, hp, _⟩ := inv.parent target nd hnd hlt hts
        rw [← inv.keys, GoMap.mem_keys_iff, hp]
        rfl
      · have hle := inv.le_inf target nd hnd
        rw [(inv.unreached target nd hnd (by omega)).1]
        exact h0

theorem surveyed_lookups (ch : Choice) (st : SolverState) (survey : Survey)
    (h : List Coordinate) (hK : Known st h (some st.pos) true) :
    (recordSurvey ch st survey).1.pos ∈ (recordSurvey ch st survey).1.graph.keys ∧
    GraphClosed (recordSurvey ch st survey).1.graph ∧
    (∀ k ∈ (recordSurvey ch st survey).1.junctions.keys,
      isVisited (recordSurvey ch st survey).1.visited k = true ∧
        k ∈ (recordSurvey ch st survey).1.graph.keys) ∧
    (default : Coordinate) ∈ (recordSurvey ch st survey).1.graph.keys := by
  obtain ⟨hcx, hcy, hj, hvis⟩ := recordSurvey_frame ch st survey
  have hpos : (recordSurvey ch st survey).1.pos = st.pos := by
    simp only [SolverState.pos, hcx, hcy]
  refine ⟨?_, surveyed_closed ch st survey hK.closed, ?_, ?_⟩
  · rw [hpos]
    exact (recordSurvey_keys ch st survey _).mpr (Or.inr (Or.inl rfl))
  · intro k hk
    rw [hj] at hk
    rw [hvis]
    obtain ⟨l, hl⟩ := Option.isSome_iff_exists.mp ((GoMap.mem_keys_iff _ k).mp hk)
    exact ⟨hK.table.keys k l hl,
      (recordSurvey_keys ch st survey _).mpr (Or.inl (hK.surveyedKeys k (hK.keysIn k l hl)))⟩
  · rcases hK.origin with h0 | h0
    · exact (recordSurvey_keys ch st survey _).mpr (Or.inl (hK.surveyedKeys _ h0))
    · simp only [Option.some.injEq] at h0
      exact (recordSurvey_keys ch st survey _).mpr (Or.inr (Or.inl h0.symm))

theorem shortestPath_lookups (ρ : RangeOrder) (hfair : ρ.Fair) (cx cy : Int) (g j : adjacencyMap)
    (hg : GraphClosed g) (hs : (⟨cx, cy⟩ : Coordinate) ∈ g.keys) (hj : ∀ k ∈ j.keys, k ∈ g.keys)
    (h0 : (default : Coordinate) ∈ g.keys) :
    ∃ nodes, dijkstra ρ cx cy g j = .ok nodes ∧ nodes.keys = g.keys ∧
      (∃ r, nearestJunction nodes (ρ.junctionOrder j.keys) (infinity, default) = .ok r) ∧
      shortestPath ρ cx cy g j ≠ .error .nilDeref := by
  obtain ⟨nodes, hd, inv, _⟩ := dijkstra_spec ρ hfair cx cy g j hg hs
  have horder : ∀ k ∈ ρ.junctionOrder j.keys, k ∈ nodes.keys := by
    intro k hk
    rw [inv.keys]
    exact hj k ((hfair.2 j.keys).subset hk)
  obtain ⟨r, hr, _, _, hcase⟩ := nearestJunction_spec nodes _ horder (infinity, default)
  refine ⟨nodes, hd, inv.keys, ⟨r, hr⟩, ?_⟩
  have hkey : r.2 ∈ g.keys := by
    rcases hcase with h1 | ⟨h1, _⟩
    · rw [h1]
      exact h0
    · rw [← inv.keys]
      exact horder _ h1
  unfold shortestPath
  simp only [hd, hr]
  have hb := buildRoute_finds g ⟨cx, cy⟩ nodes inv h0 r.1 r.2 (List.replicate r.1 default) hkey
  cases hbr : buildRoute ⟨cx, cy⟩ nodes r.1 r.2 (List.replicate r.1 default) with
  | error e =>
    simp only [ne_eq, Except.error.injEq]
    intro he
    exact hb (by rw [hbr, he])
  | ok route => simp

theorem foldlM_range_inv {σ : Type} (step : σ → Nat → Option σ) (P : Nat → σ → Prop) (n : Nat)
    (s0 : σ) (h0 : P 0 s0)
    (hstep : ∀ k s, k < n → P k s → ∃ s', step s k = some s' ∧ P (k + 1) s') :
    ∃ s', (List.range n).foldlM step s0 = some s' ∧ P n s' := by
  induction n with
  | zero => exact ⟨s0, rfl, h0⟩
  | succ n ih =>
    obtain ⟨s1, h1, p1⟩ := ih (fun k s hk hp => hstep k s (by omega) hp)
    obtain ⟨s2, h2, p2⟩ := hstep n s1 (by omega) p1
    refine ⟨s2, ?_, p2⟩
    rw [List.range_succ, List.foldlM_append, h1]
    simp [h2]

theorem updateRoom_spec (rooms : List (List Room)) (w h : Nat) (hd : Dims rooms w h)
    (x y : Int) (hx : 0 ≤ x ∧ x < w) (hy : 0 ≤ y ∧ y < h) (f : Room → Room) :
    ∃ rooms', updateRoom rooms x y f = some rooms' ∧ Dims rooms' w h ∧
      ∀ x' y', 0 ≤ x' → 0 ≤ y' → cellAt rooms' x' y' =
        if x' = x ∧ y' = y then f (cellAt rooms x y) else cellAt rooms x' y' := by
  obtain ⟨hlen, hrows⟩ := hd
  have hyl : y.toNat < rooms.length := by omega
  have hrow : rooms[y.toNat]? = some rooms[y.toNat] := List.getElem?_eq_getElem hyl
  have hrl : (rooms[y.toNat]).length = w := hrows _ (List.getElem_mem hyl)
  have hxl : x.toNat < (rooms[y.toNat]).length := by omega
  have hcell : (rooms[y.toNat])[x.toNat]? = some (rooms[y.toNat])[x.toNat] :=
    List.getElem?_eq_getElem hxl
  refine ⟨rooms.set y.toNat ((rooms[y.toNat]).set x.toNat (f (rooms[y.toNat])[x.toNat])), ?_, ?_, ?_⟩
  · unfold updateRoom
    rw [if_neg (by omega)]
    simp only [hrow, hcell]
  · refine ⟨by rw [List.length_set]; exact hlen, ?_⟩
    intro row hmem
    rcases List.mem_or_eq_of_mem_set hmem with h1 | h1
    · exact hrows row h1
    · rw [h1, List.length_set]
      exact hrl
  · intro x' y' hx' hy'
    simp only [cellAt, List.getD_eq_getElem?_getD, List.getElem?_set]
    by_cases hyy : y.toNat = y'.toNat
    · rw [if_pos hyy, if_pos hyl, Option.getD_some, List.getElem?_set]
      by_cases hxx : x.toNat = x'.toNat
      · rw [if_pos hxx, if_pos hxl, Option.getD_some, if_pos ⟨by omega, by omega⟩, hrow,
          Option.getD_some, hcell, Option.getD_some]
      · rw [if_neg hxx, if_neg (by omega), ← hyy, hrow, Option.getD_some]
    · rw [if_neg hyy, if_neg (by omega)]

theorem emptyMaze_spec (w h : Nat) (hw : 1 ≤ w) (hh : 1 ≤ h) :
    ∃ m, emptyMaze w h = some m ∧ Dims m.rooms w h ∧ m.start = ⟨0, 0⟩ := by
  have hd0 : Dims (List.replicate h
      (List.replicate w (⟨false, false, false, ⟨false, false, false, false⟩⟩ : Room))) w h := by
    refine ⟨List.length_replicate _ _, ?_⟩
    intro row hrow
    rw [List.eq_of_mem_replicate hrow, List.length_replicate]
  obtain ⟨r1, h1, d1⟩ := foldlM_range_inv (fun rooms (x : Nat) =>
      (updateRoom rooms x 0 (fun r => r.AddWall N)).bind
        (fun rooms1 => updateRoom rooms1 x ((h : Int) - 1) (fun r => r.AddWall S)))
    (fun _ rooms => Dims rooms w h) w _ hd0 (by
      intro k s hk hs
      obtain ⟨s1, e1, p1, _⟩ := updateRoom_spec s w h hs k 0 (by omega) (by omega)
        (fun r => r.AddWall N)
      obtain ⟨s2, e2, p2, _⟩ := updateRoom_spec s1 w h p1 k ((h : Int) - 1) (by omega) (by omega)
        (fun r => r.AddWall S)
      exact ⟨s2, by simp only [e1, Option.some_bind, e2], p2⟩)
  obtain ⟨r2, h2, d2⟩ := foldlM_range_inv (fun rooms (y : Nat) =>
      (updateRoom rooms 0 y (fun r => r.AddWall W)).bind
        (fun rooms2 => updateRoom rooms2 ((w : Int) - 1) y (fun r => r.AddWall E)))
    (fun _ rooms => Dims rooms w h) h r1 d1 (by
      intro k s hk hs
      obtain ⟨s1, e1, p1, _⟩ := updateRoom_spec s w h hs 0 k (by omega) (by omega)
        (fun r => r.AddWall W)
      obtain ⟨s2, e2, p2, _⟩ := updateRoom_spec s1 w h p1 ((w : Int) - 1) k (by omega) (by omega)
        (fun r => r.AddWall E)
      exact ⟨s2, by simp only [e1, Option.some_bind, e2], p2⟩)
  refine ⟨⟨r2, ⟨0, 0⟩, ⟨0, 0⟩, ⟨0, 0⟩, 0⟩, ?_, d2, rfl⟩
  unfold emptyMaze
  simp only []
  rw [h1]
  simp only []
  rw [h2]

theorem fullMaze_spec (w h : Nat) (hw : 1 ≤ w) (hh : 1 ≤ h) :
    ∃ m, fullMaze w h = some m ∧ Dims m.rooms w h ∧ m.start = ⟨0, 0⟩ ∧
      ∀ x y : Int, 0 ≤ x → x < w → 0 ≤ y → y < h →
        (cellAt m.rooms x y).Walls = ⟨true, true, true, true⟩ := by
  obtain ⟨z, hz, dz, sz⟩ := emptyMaze_spec w h hw hh
  obtain ⟨r, hr, dr, pr⟩ := foldlM_range_inv (fun rooms (y : Nat) =>
      (List.range w).foldlM (fun rooms1 (x : Nat) =>
        updateRoom rooms1 x y (fun r => { r with Walls := ⟨true, true, true, true⟩ })) rooms)
    (fun k rooms => Dims rooms w h ∧ ∀ x y : Int, 0 ≤ x → x < w → 0 ≤ y → y < k →
      (cellAt rooms x y).Walls = ⟨true, true, true, true⟩) h z.rooms
    ⟨dz, fun x y _ _ h1 h2 => absurd h2 (by omega)⟩ (by
      intro k s hk hs
      obtain ⟨s1, e1, d1, p1, q1⟩ := foldlM_range_inv (fun rooms1 (x : Nat) =>
          updateRoom rooms1 x k (fun r => { r with Walls := ⟨true, true, true, true⟩ }))
        (fun j rooms => Dims rooms w h ∧
          (∀ x y : Int, 0 ≤ x → x < w → 0 ≤ y → y < k →
            (cellAt rooms x y).Walls = ⟨true, true, true, true⟩) ∧
          ∀ x : Int, 0 ≤ x → x < j → (cellAt rooms x k).Walls = ⟨true, true, true, true⟩) w s
        ⟨hs.1, hs.2, fun x h1 h2 => absurd h2 (by omega)⟩ (by
          intro j t hj ht
          obtain ⟨t1, e1, d1, c1⟩ := updateRoom_spec t w h ht.1 j k (by omega) (by omega)
            (fun r => { r with Walls := ⟨true, true, true, true⟩ })
          refine ⟨t1, e1, d1, ?_, ?_⟩
          · intro x y hx0 hx1 hy0 hy1
            rw [c1 x y hx0 hy0, if_neg (by omega)]
            exact ht.2.1 x y hx0 hx1 hy0 hy1
          · intro x hx0 hx1
            rw [c1 x k hx0 (by omega)]
            by_cases hxj : x = j
            · rw [if_pos ⟨hxj, rfl⟩]
            · rw [if_neg (by omega)]
              exact ht.2.2 x hx0 (by omega))
      refine ⟨s1, e1, d1, ?_⟩
      intro x y hx0 hx1 hy0 hy1
      by_cases hyk : y = k
      · rw [hyk]
        exact q1 x hx0 hx1
      · exact p1 x y hx0 hx1 hy0 (by omega))
  refine ⟨{ z with rooms := r }, ?_, dr, sz, fun x y hx0 hx1 hy0 hy1 => pr x y hx0 hx1 hy0 hy1⟩
  unfold fullMaze
  rw [hz]
  simp only []
  rw [hr]

/-! ## Maps keyed by set ids -/

theorem idGet_set {V : Type} (m : IdMap V) (k k1 : Int) (v : V) :
    IdMap.get? (IdMap.set m k v) k1 = if k = k1 then some v else IdMap.get? m k1 := by
  induction m with
  | nil =>
    by_cases h : k = k1
    · simp [IdMap.set, IdMap.get?, h]
    · simp [IdMap.set, IdMap.get?, h]
  | cons e t ih =>
    obtain ⟨k', v'⟩ := e
    by_cases h : k' = k
    · subst h
      by_cases h1 : k' = k1
      · simp [IdMap.set, IdMap.get?, h1]
      · simp [IdMap.set, IdMap.get?, h1]
    · simp only [IdMap.set, h, if_false, IdMap.get?]
      rw [ih]
      by_cases h1 : k' = k1
      · have : ¬ k = k1 := fun h2 => h (h1.trans h2.symm)
        simp [h1, this]
      · simp [h1]

theorem idGet_delete {V : Type} (m : IdMap V) (k k1 : Int) :
    IdMap.get? (IdMap.delete m k) k1 = if k = k1 then none else IdMap.get? m k1 := by
  induction m with
  | nil => simp [IdMap.delete, IdMap.get?]
  | cons e t ih =>
    obtain ⟨k', v'⟩ := e
    by_cases h : k' = k
    · subst h
      simp only [IdMap.delete, if_true, IdMap.get?]
      rw [ih]
      by_cases h1 : k' = k1
      · simp [h1]
      · simp [h1]
    · simp only [IdMap.delete, h, if_false, IdMap.get?]
      rw [ih]
      by_cases h1 : k' = k1
      · have : ¬ k = k1 := fun h2 => h (h1.trans h2.symm)
        simp [h1, this]
      · simp [h1]

theorem idKeys_iff {V : Type} (m : IdMap V) (k : Int) :
    k ∈ IdMap.keys m ↔ (IdMap.get? m k).isSome := by
  induction m with
  | nil => simp [IdMap.keys, IdMap.get?]
  | cons e t ih =>
    obtain ⟨k', v'⟩ := e
    by_cases h : k' = k
    · simp [IdMap.keys, IdMap.get?, h]
    · have h' : ¬ k = k' := fun h0 => h h0.symm
      simp only [IdMap.keys, List.map_cons, List.mem_cons, IdMap.get?, h, if_false, h', false_or]
      simpa [IdMap.keys] using ih

theorem idSet_new {V : Type} (m : IdMap V) (k : Int) (v : V) (h : k ∉ IdMap.keys m) :
    IdMap.set m k v = m ++ [(k, v)] := by
  induction m with
  | nil => rfl
  | cons e t ih =>
    obtain ⟨k', v'⟩ := e
    simp only [IdMap.keys, List.map_cons, List.mem_cons, not_or] at h
    have h' : ¬ k' = k := fun h0 => h.1 h0.symm
    simp only [IdMap.set, h', if_false, List.cons_append]
    rw [ih h.2]

theorem idSet_mem {V : Type} (m : IdMap V) (k : Int) (v v0 : V)
    (h : IdMap.get? m k = some v0) :
    IdMap.keys (IdMap.set m k v) = IdMap.keys m ∧
      (IdMap.set m k v).length = m.length ∧
      ∀ f : V → Nat, ((IdMap.set m k v).map (fun p => f p.2)).sum + f v0 =
        (m.map (fun p => f p.2)).sum + f v := by
  induction m with
  | nil => simp [IdMap.get?] at h
  | cons e t ih =>
    obtain ⟨k', v'⟩ := e
    by_cases h' : k' = k
    · subst h'
      simp only [IdMap.get?, if_true, Option.some.injEq] at h
      subst h
      simp only [IdMap.set, if_true, IdMap.keys, List.map_cons, List.length_cons, List.sum_cons,
        true_and]
      intro f
      omega
    · simp only [IdMap.get?, h', if_false] at h
      obtain ⟨i1, i2, i3⟩ := ih h
      simp only [IdMap.set, h', if_false, IdMap.keys, List.map_cons, List.length_cons,
        List.sum_cons]
      refine ⟨by rw [← IdMap.keys, ← IdMap.keys, i1], by rw [i2], ?_⟩
      intro f
      have := i3 f
      omega

theorem idDelete_keys {V : Type} (m : IdMap V) (k : Int) :
    (IdMap.keys (IdMap.delete m k)).Sublist (IdMap.keys m) := by
  induction m with
  | nil => exact List.Sublist.refl _
  | cons e t ih =>
    obtain ⟨k', v'⟩ := e
    by_cases h : k' = k
    · simp only [IdMap.delete, h, if_true, IdMap.keys, List.map_cons]
      exact List.Sublist.cons _ ih
    · simp only [IdMap.delete, h, if_false, IdMap.keys, List.map_cons]
      exact List.Sublist.cons₂ _ ih

theorem idDelete_absent {V : Type} (m : IdMap V) (k : Int) (h : k ∉ IdMap.keys m) :
    IdMap.delete m k = m := by
  induction m with
  | nil => rfl
  | cons e t ih =>
    obtain ⟨k', v'⟩ := e
    simp only [IdMap.keys, List.map_cons, List.mem_cons, not_or] at h
    have h' : ¬ k' = k := fun h0 => h.1 h0.symm
    simp only [IdMap.delete, h', if_false]
    rw [ih h.2]

theorem idDelete_mem {V : Type} (m : IdMap V) (k : Int) (v0 : V)
    (hnd : (IdMap.keys m).Nodup) (h : IdMap.get? m k = some v0) :
    (IdMap.delete m k).length + 1 = m.length ∧
      ∀ f : V → Nat, ((IdMap.delete m k).map (fun p => f p.2)).sum + f v0 =
        (m.map (fun p => f p.2)).sum := by
  induction m with
  | nil => simp [IdMap.get?] at h
  | cons e t ih =>
    obtain ⟨k', v'⟩ := e
    simp only [IdMap.keys, List.map_cons, List.nodup_cons] at hnd
    by_cases h' : k' = k
    · subst h'
      simp only [IdMap.get?, if_true, Option.some.injEq] at h
      subst h
      simp only [IdMap.delete, if_true]
      rw [idDelete_absent t k' hnd.1]
      simp only [List.length_cons, List.map_cons, List.sum_cons, true_and]
      intro f
      omega
    · simp only [IdMap.get?, h', if_false] at h
      obtain ⟨i1, i2⟩ := ih hnd.2 h
      simp only [IdMap.delete, h', if_false, List.length_cons, List.map_cons, List.sum_cons]
      refine ⟨by omega, ?_⟩
      intro f
      have := i2 f
      omega

/-! ## The loop that joins two sets -/

theorem absorbSet_keys (nextSet : GoMap Int) (order : List Coordinate) :
    ∀ thisSet : GoMap Int, order.Nodup → (∀ c ∈ order, c ∉ thisSet.keys) →
      (absorbSet nextSet order thisSet).keys = thisSet.keys ++ order := by
  induction order with
  | nil =>
    intro thisSet _ _
    simp [absorbSet]
  | cons k rest ih =>
    intro thisSet hnd hdis
    have hk : k ∉ thisSet.keys := hdis k (List.mem_cons_self _ _)
    rw [List.nodup_cons] at hnd
    have hstep : absorbSet nextSet (k :: rest) thisSet =
        absorbSet nextSet rest (GoMap.set thisSet k ((GoMap.get? nextSet k).getD 0)) := rfl
    rw [hstep, ih _ hnd.2, keys_set, if_neg hk]
    · simp
    · intro c hc
      rw [keys_set, if_neg hk, List.mem_append, List.mem_singleton]
      rintro (h1 | h1)
      · exact hdis c (List.mem_cons_of_mem _ hc) h1
      · exact hnd.1 (h1 ▸ hc)

/-! ## The edges -/

theorem mem_kruskalEdges (w h : Nat) (e : edge) :
    e ∈ kruskalEdges w h ↔
      ∃ x y : Nat, x < w ∧ y < h ∧ ((0 < y ∧ e = ⟨x, y, N⟩) ∨ (0 < x ∧ e = ⟨x, y, W⟩)) := by
  unfold kruskalEdges
  simp only [List.mem_flatMap, List.mem_range, List.mem_append]
  constructor
  · rintro ⟨x, hx, y, hy, h1 | h1⟩
    · by_cases hy0 : y > 0
      · rw [if_pos hy0, List.mem_singleton] at h1
        exact ⟨x, y, hx, hy, Or.inl ⟨hy0, h1⟩⟩
      · rw [if_neg hy0] at h1
        exact absurd h1 (List.not_mem_nil _)
    · by_cases hx0 : x > 0
      · rw [if_pos hx0, List.mem_singleton] at h1
        exact ⟨x, y, hx, hy, Or.inr ⟨hx0, h1⟩⟩
      · rw [if_neg hx0] at h1
        exact absurd h1 (List.not_mem_nil _)
  · rintro ⟨x, y, hx, hy, ⟨hy0, h1⟩ | ⟨hx0, h1⟩⟩
    · refine ⟨x, hx, y, hy, Or.inl ?_⟩
      rw [if_pos hy0, List.mem_singleton]
      exact h1
    · refine ⟨x, hx, y, hy, Or.inr ?_⟩
      rw [if_pos hx0, List.mem_singleton]
      exact h1

theorem shuffleEdgesFrom_perm (rand : Nat → Nat) (n i : Nat) (s : List edge) :
    (shuffleEdgesFrom rand n i s).Perm s := by
  induction n generalizing i s with
  | zero => simp [shuffleEdgesFrom]
  | succ n ih =>
    simp only [shuffleEdgesFrom]
    exact (ih _ _).trans (swapAt_perm _ _ _)

theorem edge_coords (x y : Int) :
    (⟨x, y, N⟩ : edge).thisCoor = ⟨x, y⟩ ∧ (⟨x, y, N⟩ : edge).nextCoor = ⟨x, y - 1⟩ ∧
    (⟨x, y, W⟩ : edge).thisCoor = ⟨x, y⟩ ∧ (⟨x, y, W⟩ : edge).nextCoor = ⟨x - 1, y⟩ := by
  obtain ⟨hN, _, _, hW⟩ := delta_values
  refine ⟨rfl, ?_, rfl, ?_⟩
  · simp only [edge.nextCoor, hN]
    exact coord_eq (by omega) (by omega)
  · simp only [edge.nextCoor, hW]
    exact coord_eq (by omega) (by omega)

/-! ## The loop that looks the two rooms up -/

theorem inSet_iff (sets : IdMap (GoMap Int)) (id : Int) (c : Coordinate) :
    InSet sets id c ↔ (GoMap.get? ((IdMap.get? sets id).getD []) c).isSome = true := by
  unfold InSet
  cases h : IdMap.get? sets id with
  | none => simp
  | some m =>
    simp only [Option.some.injEq, exists_eq_left', Option.getD_some]
    exact GoMap.mem_keys_iff m c

theorem findSets_spec (sets : IdMap (GoMap Int)) (a b : Coordinate) (order : List Int)
    (hpos : ∀ id ∈ order, 0 ≤ id) :
    ∀ acc : Int × Int, (acc.1 = -1 ∨ InSet sets acc.1 a) → (acc.2 = -1 ∨ InSet sets acc.2 b) →
      (((findSets sets a b order acc).1 = -1 ∧ acc.1 = -1 ∧ ∀ id ∈ order, ¬ InSet sets id a) ∨
        ((findSets sets a b order acc).1 ≠ -1 ∧ InSet sets (findSets sets a b order acc).1 a)) ∧
      (((findSets sets a b order acc).2 = -1 ∧ acc.2 = -1 ∧ ∀ id ∈ order, ¬ InSet sets id b) ∨
        ((findSets sets a b order acc).2 ≠ -1 ∧ InSet sets (findSets sets a b order acc).2 b)) := by
  induction order with
  | nil =>
    intro acc h1 h2
    simp only [findSets, List.not_mem_nil, false_implies, implies_true, and_true]
    constructor
    · by_cases h : acc.1 = -1
      · exact Or.inl ⟨h, h⟩
      · exact Or.inr ⟨h, h1.resolve_left h⟩
    · by_cases h : acc.2 = -1
      · exact Or.inl ⟨h, h⟩
      · exact Or.inr ⟨h, h2.resolve_left h⟩
  | cons id rest ih =>
    intro acc h1 h2
    have hid : 0 ≤ id := hpos id (List.mem_cons_self _ _)
    have ih' := ih (fun x hx => hpos x (List.mem_cons_of_mem _ hx))
    have key : ∀ (c : Coordinate) (old : Int), (old = -1 ∨ InSet sets old c) →
        ((if (GoMap.get? ((IdMap.get? sets id).getD []) c).isSome = true then id else old) = -1 ∨
          InSet sets
            (if (GoMap.get? ((IdMap.get? sets id).getD []) c).isSome = true then id else old) c) ∧
        ((if (GoMap.get? ((IdMap.get? sets id).getD []) c).isSome = true then id else old) = -1 →
          old = -1 ∧ ¬ InSet sets id c) := by
      intro c old hold
      by_cases hC : InSet sets id c
      · rw [if_pos ((inSet_iff sets id c).mp hC)]
        exact ⟨Or.inr hC, fun h => absurd h (by omega)⟩
      · rw [if_neg (fun h => hC ((inSet_iff sets id c).mpr h))]
        exact ⟨hold, fun h => ⟨h, hC⟩⟩
    obtain ⟨ht, ht2⟩ := key a acc.1 h1
    obtain ⟨hn, hn2⟩ := key b acc.2 h2
    simp only [findSets]
    generalize (if (GoMap.get? ((IdMap.get? sets id).getD []) a).isSome = true then id
      else acc.1) = t at ht ht2 ⊢
    generalize (if (GoMap.get? ((IdMap.get? sets id).getD []) b).isSome = true then id
      else acc.2) = n at hn hn2 ⊢
    by_cases hbr : t ≥ 0 ∧ n ≥ 0
    · rw [if_pos hbr]
      exact ⟨Or.inr ⟨by simp only; omega, ht.resolve_left (by omega)⟩,
        Or.inr ⟨by simp only; omega, hn.resolve_left (by omega)⟩⟩
    · rw [if_neg hbr]
      obtain ⟨r1, r2⟩ := ih' (t, n) ht hn
      constructor
      · rcases r1 with ⟨e1, e2, e3⟩ | e1
        · left
          refine ⟨e1, (ht2 e2).1, ?_⟩
          intro x hx
          rcases List.mem_cons.mp hx with h | h
          · rw [h]
            exact (ht2 e2).2
          · exact e3 x h
        · exact Or.inr e1
      · rcases r2 with ⟨e1, e2, e3⟩ | e1
        · left
          refine ⟨e1, (hn2 e2).1, ?_⟩
          intro x hx
          rcases List.mem_cons.mp hx with h | h
          · rw [h]
            exact (hn2 e2).2
          · exact e3 x h
        · exact Or.inr e1

/-! ## Chains of joined edges -/

theorem linked_mono {O O' : List edge} (h : ∀ e ∈ O, e ∈ O') {a b : Coordinate}
    (hl : Linked O a b) : Linked O' a b := by
  unfold Linked at hl ⊢
  exact Relation.EqvGen.mono (fun x y ⟨e, he, h1, h2⟩ => ⟨e, h e he, h1, h2⟩) hl

theorem linked_edge {O : List edge} {e : edge} (he : e ∈ O) :
    Linked O e.thisCoor e.nextCoor :=
  Relation.EqvGen.rel _ _ ⟨e, he, rfl, rfl⟩

theorem linked_refl (O : List edge) (a : Coordinate) : Linked O a a :=
  Relation.EqvGen.refl a

theorem linked_symm {O : List edge} {a b : Coordinate} (h : Linked O a b) : Linked O b a :=
  Relation.EqvGen.symm a b h

theorem linked_trans {O : List edge} {a b c : Coordinate} (h1 : Linked O a b)
    (h2 : Linked O b c) : Linked O a c :=
  Relation.EqvGen.trans a b c h1 h2

/-! ## The invariant of the sets -/

theorem inSet_key {sets : IdMap (GoMap Int)} {id : Int} {c : Coordinate}
    (h : InSet sets id c) : id ∈ IdMap.keys sets := by
  obtain ⟨m, hm, _⟩ := h
  rw [idKeys_iff, hm]
  rfl

theorem setsInv_skip {done : List edge} {i : Nat} {sets : IdMap (GoMap Int)} {O : List edge}
    (e : edge) (inv : SetsInv done i sets O) (t : Int) (ha : InSet sets t e.thisCoor)
    (hb : InSet sets t e.nextCoor) : SetsInv (done ++ [e]) (i + 1) sets O where
  ids := fun id hid => by
    have := inv.ids id hid
    push_cast
    omega
  nodupIds := inv.nodupIds
  inner := inv.inner
  nonempty := inv.nonempty
  disjoint := inv.disjoint
  members := inv.members
  count := inv.count
  joined := fun e1 he1 => by
    rcases List.mem_append.mp he1 with h | h
    · exact inv.joined e1 h
    · rw [List.mem_singleton] at h
      rw [h]
      exact ⟨t, ha, hb⟩
  linked := inv.linked
  sub := fun e1 he1 => List.mem_append_left _ (inv.sub e1 he1)
  nodupO := inv.nodupO

theorem setsInv_join {done : List edge} {i : Nat} {sets sets1 : IdMap (GoMap Int)}
    {O : List edge} (e : edge) (inv : SetsInv done i sets O) (dead tgt : Int)
    (Added : Coordinate → Prop)
    (hchar : ∀ id c, InSet sets1 id c ↔ id ≠ dead ∧ (InSet sets id c ∨ (id = tgt ∧ Added c)))
    (hfresh : ∀ c, Added c → ∀ id, InSet sets id c → id = dead)
    (htgt : tgt ≠ dead)
    (hlink : ∀ x y, (Added x ∨ InSet sets tgt x) → (Added y ∨ InSet sets tgt y) →
      Linked (e :: O) x y)
    (hmem : ∀ c, Added c → ∃ e1 ∈ e :: O, c = e1.thisCoor ∨ c = e1.nextCoor)
    (hdead : ∀ c, InSet sets dead c → Added c)
    (hje : (Added e.thisCoor ∨ InSet sets tgt e.thisCoor) ∧
      (Added e.nextCoor ∨ InSet sets tgt e.nextCoor))
    (hapart : ¬ ∃ id, InSet sets id e.thisCoor ∧ InSet sets id e.nextCoor)
    (hids : ∀ id ∈ IdMap.keys sets1, 0 ≤ id ∧ id < ((i + 1 : Nat) : Int))
    (hnd : (IdMap.keys sets1).Nodup)
    (hinner : ∀ id m, IdMap.get? sets1 id = some m → m.keys.Nodup)
    (hne : ∀ id m, IdMap.get? sets1 id = some m → m ≠ [])
    (hcount : (e :: O).length + sets1.length = totalSize sets1) :
    SetsInv (done ++ [e]) (i + 1) sets1 (e :: O) where
  ids := hids
  nodupIds := hnd
  inner := hinner
  nonempty := hne
  disjoint := by
    intro id1 id2 c h1 h2
    obtain ⟨d1, c1⟩ := (hchar id1 c).mp h1
    obtain ⟨d2, c2⟩ := (hchar id2 c).mp h2
    rcases c1 with c1 | ⟨c1, a1⟩
    · rcases c2 with c2 | ⟨c2, a2⟩
      · exact inv.disjoint id1 id2 c c1 c2
      · exact absurd (hfresh c a2 id1 c1) d1
    · rcases c2 with c2 | ⟨c2, a2⟩
      · exact absurd (hfresh c a1 id2 c2) d2
      · rw [c1, c2]
  members := by
    intro id c h1
    obtain ⟨_, c1⟩ := (hchar id c).mp h1
    rcases c1 with c1 | ⟨_, a1⟩
    · obtain ⟨e1, he1, h2⟩ := inv.members id c c1
      exact ⟨e1, List.mem_cons_of_mem _ he1, h2⟩
    · exact hmem c a1
  count := hcount
  joined := by
    have hmove : ∀ id x, InSet sets id x → ∃ id1, InSet sets1 id1 x ∧
        (id ≠ dead → id1 = id) ∧ (id = dead → id1 = tgt) := by
      intro id x hx
      by_cases hd : id = dead
      · refine ⟨tgt, (hchar tgt x).mpr ⟨htgt, Or.inr ⟨rfl, hdead x (hd ▸ hx)⟩⟩, ?_, fun _ => rfl⟩
        intro h
        exact absurd hd h
      · exact ⟨id, (hchar id x).mpr ⟨hd, Or.inl hx⟩, fun _ => rfl, fun h => absurd h hd⟩
    intro e1 he1
    rcases List.mem_append.mp he1 with h | h
    · obtain ⟨id, h1, h2⟩ := inv.joined e1 h
      obtain ⟨ia, pa, qa, ra⟩ := hmove id _ h1
      obtain ⟨ib, pb, qb, rb⟩ := hmove id _ h2
      have : ia = ib := by
        by_cases hd : id = dead
        · rw [ra hd, rb hd]
        · rw [qa hd, qb hd]
      exact ⟨ia, pa, this ▸ pb⟩
    · rw [List.mem_singleton] at h
      rw [h]
      refine ⟨tgt, (hchar tgt _).mpr ⟨htgt, ?_⟩, (hchar tgt _).mpr ⟨htgt, ?_⟩⟩
      · rcases hje.1 with h1 | h1
        · exact Or.inr ⟨rfl, h1⟩
        · exact Or.inl h1
      · rcases hje.2 with h1 | h1
        · exact Or.inr ⟨rfl, h1⟩
        · exact Or.inl h1
  linked := by
    intro id x y hx hy
    obtain ⟨_, cx⟩ := (hchar id x).mp hx
    obtain ⟨_, cy⟩ := (hchar id y).mp hy
    by_cases hid : id = tgt
    · apply hlink
      · rcases cx with c1 | ⟨_, a1⟩
        · exact Or.inr (hid ▸ c1)
        · exact Or.inl a1
      · rcases cy with c1 | ⟨_, a1⟩
        · exact Or.inr (hid ▸ c1)
        · exact Or.inl a1
    · have h1 : InSet sets id x := cx.resolve_right (fun h => hid h.1)
      have h2 : InSet sets id y := cy.resolve_right (fun h => hid h.1)
      exact linked_mono (fun e1 he1 => List.mem_cons_of_mem _ he1) (inv.linked id x y h1 h2)
  sub := by
    intro e1 he1
    rcases List.mem_cons.mp he1 with h | h
    · rw [h]
      exact List.mem_append_right _ (List.mem_singleton_self _)
    · exact List.mem_append_left _ (inv.sub e1 h)
  nodupO := by
    rw [List.nodup_cons]
    refine ⟨fun he => hapart (inv.joined e (inv.sub e he)), inv.nodupO⟩

theorem pair_set (a b : Coordinate) (hab : a ≠ b) :
    GoMap.set (GoMap.set ([] : GoMap Int) a 0) b 0 = [(a, 0), (b, 0)] := by
  simp [GoMap.set, hab]

theorem totalSize_append (sets : IdMap (GoMap Int)) (id : Int) (m : GoMap Int) :
    totalSize (sets ++ [(id, m)]) = totalSize sets + m.length := by
  simp [totalSize]

theorem setsInv_new {done : List edge} {i : Nat} {sets : IdMap (GoMap Int)} {O : List edge}
    (e : edge) (inv : SetsInv done i sets O) (ha : ∀ id, ¬ InSet sets id e.thisCoor)
    (hb : ∀ id, ¬ InSet sets id e.nextCoor) (hab : e.thisCoor ≠ e.nextCoor) :
    SetsInv (done ++ [e]) (i + 1)
      (IdMap.set sets i (GoMap.set (GoMap.set [] e.thisCoor 0) e.nextCoor 0)) (e :: O) := by
  have hi : (i : Int) ∉ IdMap.keys sets := fun h => by
    have := (inv.ids _ h).2
    omega
  have hnoti : ∀ c, ¬ InSet sets i c := fun c h => hi (inSet_key h)
  rw [pair_set _ _ hab]
  have hget : ∀ id, IdMap.get? (IdMap.set sets i [(e.thisCoor, (0 : Int)), (e.nextCoor, 0)]) id =
      if (i : Int) = id then some [(e.thisCoor, 0), (e.nextCoor, 0)] else IdMap.get? sets id :=
    fun id => idGet_set sets i id _
  apply setsInv_join e inv (-1) i (fun c => c = e.thisCoor ∨ c = e.nextCoor)
  · intro id c
    unfold InSet
    rw [hget]
    by_cases hid : (i : Int) = id
    · subst hid
      rw [if_pos rfl]
      have h0 : ¬ ∃ m, IdMap.get? sets (i : Int) = some m ∧ c ∈ GoMap.keys m := hnoti c
      simp only [Option.some.injEq, exists_eq_left', GoMap.keys, List.map_cons, List.map_nil,
        List.mem_cons, List.mem_singleton, List.not_mem_nil, or_false, true_and]
      constructor
      · intro h
        exact ⟨by omega, Or.inr h⟩
      · rintro ⟨_, h | h⟩
        · exact absurd h h0
        · exact h
    · rw [if_neg hid]
      constructor
      · intro h
        have hk := (inv.ids id (inSet_key h)).1
        exact ⟨by omega, Or.inl h⟩
      · rintro ⟨_, h | ⟨h, _⟩⟩
        · exact h
        · exact absurd h.symm hid
  · rintro c (hc | hc) id hin
    · exact absurd (hc ▸ hin) (ha id)
    · exact absurd (hc ▸ hin) (hb id)
  · omega
  · have hl : Linked (e :: O) e.thisCoor e.nextCoor := linked_edge (List.mem_cons_self _ _)
    have hcase : ∀ x, ((x = e.thisCoor ∨ x = e.nextCoor) ∨ InSet sets i x) →
        Linked (e :: O) e.thisCoor x := by
      rintro x ((h | h) | h)
      · rw [h]
        exact linked_refl _ _
      · rw [h]
        exact hl
      · exact absurd h (hnoti x)
    intro x y hx hy
    exact linked_trans (linked_symm (hcase x hx)) (hcase y hy)
  · intro c _
    exact ⟨e, List.mem_cons_self _ _, by assumption⟩
  · intro c hc
    have := (inv.ids _ (inSet_key hc)).1
    omega
  · exact ⟨Or.inl (Or.inl rfl), Or.inl (Or.inr rfl)⟩
  · rintro ⟨id, h1, _⟩
    exact ha id h1
  · intro id hid
    rw [idSet_new sets i _ hi] at hid
    simp only [IdMap.keys, List.map_append, List.map_cons, List.map_nil, List.mem_append,
      List.mem_singleton] at hid
    rcases hid with h | h
    · have := inv.ids id h
      push_cast
      omega
    · push_cast
      omega
  · rw [idSet_new sets i _ hi]
    simp only [IdMap.keys, List.map_append, List.map_cons, List.map_nil]
    rw [List.nodup_append]
    refine ⟨inv.nodupIds, List.nodup_singleton _, ?_⟩
    intro x hx hx2
    rw [List.mem_singleton] at hx2
    exact hi (hx2 ▸ hx)
  · intro id m hm
    rw [hget] at hm
    by_cases hid : (i : Int) = id
    · rw [if_pos hid, Option.some.injEq] at hm
      rw [← hm]
      simp [GoMap.keys, hab]
    · rw [if_neg hid] at hm
      exact inv.inner id m hm
  · intro id m hm
    rw [hget] at hm
    by_cases hid : (i : Int) = id
    · rw [if_pos hid, Option.some.injEq] at hm
      rw [← hm]
      simp
    · rw [if_neg hid] at hm
      exact inv.nonempty id m hm
  · rw [idSet_new sets i _ hi, totalSize_append]
    have := inv.count
    simp only [List.length_cons, List.length_append, List.length_nil]
    omega

theorem setsInv_absorb {done : List edge} {i : Nat} {sets : IdMap (GoMap Int)}
    {O : List edge} (e : edge) (inv : SetsInv done i sets O) (p q : Coordinate)
    (hpq : (p = e.thisCoor ∧ q = e.nextCoor) ∨ (p = e.nextCoor ∧ q = e.thisCoor))
    (n : Int) (m : GoMap Int) (hn : IdMap.get? sets n = some m) (hq : q ∈ m.keys)
    (hp : ∀ id, ¬ InSet sets id p) :
    SetsInv (done ++ [e]) (i + 1) (IdMap.set sets n (GoMap.set m p 0)) (e :: O) := by
  have hqn : InSet sets n q := ⟨m, hn, hq⟩
  have hnk := inv.ids n (inSet_key hqn)
  have hpm : p ∉ m.keys := fun h => hp n ⟨m, hn, h⟩
  have hget : ∀ id, IdMap.get? (IdMap.set sets n (GoMap.set m p 0)) id =
      if n = id then some (GoMap.set m p 0) else IdMap.get? sets id :=
    fun id => idGet_set sets n id _
  obtain ⟨hk1, hlen1, hsum1⟩ := idSet_mem sets n (GoMap.set m p 0) m hn
  apply setsInv_join e inv (-1) n (fun c => c = p)
  · intro id c
    unfold InSet
    rw [hget]
    by_cases hid : n = id
    · subst hid
      rw [if_pos rfl, hn]
      simp only [Option.some.injEq, exists_eq_left', mem_keys_set]
      constructor
      · rintro (h | h)
        · exact ⟨by omega, Or.inr ⟨trivial, h⟩⟩
        · exact ⟨by omega, Or.inl h⟩
      · rintro ⟨_, h | ⟨_, h⟩⟩
        · exact Or.inr h
        · exact Or.inl h
    · rw [if_neg hid]
      constructor
      · intro h
        have hk := (inv.ids id (inSet_key h)).1
        exact ⟨by omega, Or.inl h⟩
      · rintro ⟨_, h | ⟨h, _⟩⟩
        · exact h
        · exact absurd h.symm hid
  · intro c hc id hin
    exact absurd (hc ▸ hin) (hp id)
  · omega
  · have hl : Linked (e :: O) q p := by
      rcases hpq with ⟨h1, h2⟩ | ⟨h1, h2⟩
      · rw [h1, h2]
        exact linked_symm (linked_edge (List.mem_cons_self _ _))
      · rw [h1, h2]
        exact linked_edge (List.mem_cons_self _ _)
    have hcase : ∀ x, (x = p ∨ InSet sets n x) → Linked (e :: O) q x := by
      rintro x (h | h)
      · rw [h]
        exact hl
      · exact linked_mono (fun e1 he1 => List.mem_cons_of_mem _ he1) (inv.linked n q x hqn h)
    intro x y hx hy
    exact linked_trans (linked_symm (hcase x hx)) (hcase y hy)
  · intro c hc
    refine ⟨e, List.mem_cons_self _ _, ?_⟩
    rcases hpq with ⟨h1, _⟩ | ⟨h1, _⟩
    · exact Or.inl (hc.trans h1)
    · exact Or.inr (hc.trans h1)
  · intro c hc
    have := (inv.ids _ (inSet_key hc)).1
    omega
  · rcases hpq with ⟨h1, h2⟩ | ⟨h1, h2⟩
    · exact ⟨Or.inl h1.symm, Or.inr (h2 ▸ hqn)⟩
    · exact ⟨Or.inr (h2 ▸ hqn), Or.inl h1.symm⟩
  · rintro ⟨id, h1, h2⟩
    rcases hpq with ⟨e1, _⟩ | ⟨e1, _⟩
    · exact hp id (e1 ▸ h1)
    · exact hp id (e1 ▸ h2)
  · intro id hid
    rw [hk1] at hid
    have := inv.ids id hid
    push_cast
    omega
  · rw [hk1]
    exact inv.nodupIds
  · intro id m1 hm
    rw [hget] at hm
    by_cases hid : n = id
    · rw [if_pos hid, Option.some.injEq] at hm
      rw [← hm]
      exact nodup_keys_set m p 0 (inv.inner n m hn)
    · rw [if_neg hid] at hm
      exact inv.inner id m1 hm
  · intro id m1 hm
    rw [hget] at hm
    by_cases hid : n = id
    · rw [if_pos hid, Option.some.injEq] at hm
      rw [← hm]
      intro h0
      have : p ∈ (GoMap.set m p 0).keys := (mem_keys_set m p 0 p).mpr (Or.inl rfl)
      rw [h0] at this
      exact absurd this (List.not_mem_nil _)
    · rw [if_neg hid] at hm
      exact inv.nonempty id m1 hm
  · have h1 := hsum1 (fun v => v.length)
    have h2 : (GoMap.set m p 0).length = m.length + 1 := by
      have := congrArg List.length (keys_set m p (0 : Int))
      rw [if_neg hpm] at this
      simpa [GoMap.keys] using this
    have := inv.count
    unfold totalSize at this ⊢
    simp only [List.length_cons]
    omega

theorem setsInv_merge {done : List edge} {i : Nat} {sets : IdMap (GoMap Int)}
    {O : List edge} (e : edge) (inv : SetsInv done i sets O) (t n : Int) (mt mn : GoMap Int)
    (ht : IdMap.get? sets t = some mt) (hn : IdMap.get? sets n = some mn)
    (hat : e.thisCoor ∈ mt.keys) (hbn : e.nextCoor ∈ mn.keys) (htn : t ≠ n)
    (order : List Coordinate) (hord : order.Perm mn.keys) :
    SetsInv (done ++ [e]) (i + 1)
      (IdMap.delete (IdMap.set sets t (absorbSet mn order mt)) n) (e :: O) := by
  have hain : InSet sets t e.thisCoor := ⟨mt, ht, hat⟩
  have hbin : InSet sets n e.nextCoor := ⟨mn, hn, hbn⟩
  have hdis : ∀ c ∈ order, c ∉ mt.keys := by
    intro c hc hc2
    exact htn (inv.disjoint t n c ⟨mt, ht, hc2⟩ ⟨mn, hn, hord.subset hc⟩)
  have hkeys : (absorbSet mn order mt).keys = mt.keys ++ order :=
    absorbSet_keys mn order mt (hord.nodup_iff.mpr (inv.inner n mn hn)) hdis
  have hget : ∀ id, IdMap.get? (IdMap.delete (IdMap.set sets t (absorbSet mn order mt)) n) id =
      if n = id then none else if t = id then some (absorbSet mn order mt)
        else IdMap.get? sets id := by
    intro id
    rw [idGet_delete, idGet_set]
  obtain ⟨hk1, hlen1, hsum1⟩ := idSet_mem sets t (absorbSet mn order mt) mt ht
  have hn1 : IdMap.get? (IdMap.set sets t (absorbSet mn order mt)) n = some mn := by
    rw [idGet_set, if_neg htn]
    exact hn
  obtain ⟨hlen2, hsum2⟩ := idDelete_mem (IdMap.set sets t (absorbSet mn order mt)) n mn
    (by rw [hk1]; exact inv.nodupIds) hn1
  have hsub := idDelete_keys (IdMap.set sets t (absorbSet mn order mt)) n
  rw [hk1] at hsub
  apply setsInv_join e inv n t (fun c => c ∈ mn.keys)
  · intro id c
    unfold InSet
    rw [hget]
    by_cases hid : n = id
    · rw [if_pos hid]
      constructor
      · rintro ⟨m1, hm1, _⟩
        exact absurd hm1 (by simp)
      · rintro ⟨h, _⟩
        exact absurd hid.symm h
    · rw [if_neg hid]
      have hid' : id ≠ n := fun h => hid h.symm
      by_cases hid2 : t = id
      · subst hid2
        rw [if_pos rfl, ht]
        simp only [Option.some.injEq, exists_eq_left', hkeys, List.mem_append]
        constructor
        · rintro (h | h)
          · exact ⟨hid', Or.inl h⟩
          · exact ⟨hid', Or.inr ⟨trivial, hord.subset h⟩⟩
        · rintro ⟨_, h | ⟨_, h⟩⟩
          · exact Or.inl h
          · exact Or.inr (hord.symm.subset h)
      · rw [if_neg hid2]
        constructor
        · intro h
          exact ⟨hid', Or.inl h⟩
        · rintro ⟨_, h | ⟨h, _⟩⟩
          · exact h
          · exact absurd h.symm hid2
  · intro c hc id hin
    exact inv.disjoint id n c hin ⟨mn, hn, hc⟩
  · exact htn
  · have hl : Linked (e :: O) e.thisCoor e.nextCoor := linked_edge (List.mem_cons_self _ _)
    have hcase : ∀ x, (x ∈ mn.keys ∨ InSet sets t x) → Linked (e :: O) e.thisCoor x := by
      rintro x (h | h)
      · exact linked_trans hl (linked_mono (fun e1 he1 => List.mem_cons_of_mem _ he1)
          (inv.linked n _ x hbin ⟨mn, hn, h⟩))
      · exact linked_mono (fun e1 he1 => List.mem_cons_of_mem _ he1) (inv.linked t _ x hain h)
    intro x y hx hy
    exact linked_trans (linked_symm (hcase x hx)) (hcase y hy)
  · intro c hc
    obtain ⟨e1, he1, h2⟩ := inv.members n c ⟨mn, hn, hc⟩
    exact ⟨e1, List.mem_cons_of_mem _ he1, h2⟩
  · rintro c ⟨m1, hm1, hc⟩
    rw [hn, Option.some.injEq] at hm1
    exact hm1 ▸ hc
  · exact ⟨Or.inr hain, Or.inl hbn⟩
  · rintro ⟨id, h1, h2⟩
    exact htn ((inv.disjoint id t _ h1 hain).symm.trans (inv.disjoint id n _ h2 hbin))
  · intro id hid
    have := inv.ids id (hsub.subset hid)
    push_cast
    omega
  · exact hsub.nodup inv.nodupIds
  · intro id m1 hm
    rw [hget] at hm
    by_cases hid : n = id
    · rw [if_pos hid] at hm
      exact absurd hm (by simp)
    · rw [if_neg hid] at hm
      by_cases hid2 : t = id
      · rw [if_pos hid2, Option.some.injEq] at hm
        rw [← hm, hkeys, List.nodup_append]
        refine ⟨inv.inner t mt ht, hord.nodup_iff.mpr (inv.inner n mn hn), ?_⟩
        intro x hx hx2
        exact hdis x hx2 hx
      · rw [if_neg hid2] at hm
        exact inv.inner id m1 hm
  · intro id m1 hm
    rw [hget] at hm
    by_cases hid : n = id
    · rw [if_pos hid] at hm
      exact absurd hm (by simp)
    · rw [if_neg hid] at hm
      by_cases hid2 : t = id
      · rw [if_pos hid2, Option.some.injEq] at hm
        intro h0
        have : e.thisCoor ∈ (absorbSet mn order mt).keys := by
          rw [hkeys]
          exact List.mem_append_left _ hat
        rw [hm, h0] at this
        exact absurd this (List.not_mem_nil _)
      · rw [if_neg hid2] at hm
        exact inv.nonempty id m1 hm
  · have h1 := hsum1 (fun v => v.length)
    have h2 := hsum2 (fun v => v.length)
    have h3 : (absorbSet mn order mt).length = mt.length + mn.length := by
      have := congrArg List.length hkeys
      rw [List.length_append, hord.length_eq] at this
      simpa [GoMap.keys] using this
    have := inv.count
    unfold totalSize at this ⊢
    simp only [List.length_cons]
    omega

/-! ## One edge of the loop of `createMazeKruskal` -/

theorem kruskal_sets_step (κ : KruskalChoice) (hfair : κ.Fair) {done : List edge} {i : Nat}
    {sets : IdMap (GoMap Int)} {O : List edge} (inv : SetsInv done i sets O) (e : edge)
    (hab : e.thisCoor ≠ e.nextCoor) :
    ((findSets sets e.thisCoor e.nextCoor (κ.setsOrder i (IdMap.keys sets)) (-1, -1)).1 =
        (findSets sets e.thisCoor e.nextCoor (κ.setsOrder i (IdMap.keys sets)) (-1, -1)).2 ∧
      (findSets sets e.thisCoor e.nextCoor (κ.setsOrder i (IdMap.keys sets)) (-1, -1)).1 ≠ -1 →
      SetsInv (done ++ [e]) (i + 1) sets O) ∧
    (¬ ((findSets sets e.thisCoor e.nextCoor (κ.setsOrder i (IdMap.keys sets)) (-1, -1)).1 =
        (findSets sets e.thisCoor e.nextCoor (κ.setsOrder i (IdMap.keys sets)) (-1, -1)).2 ∧
      (findSets sets e.thisCoor e.nextCoor (κ.setsOrder i (IdMap.keys sets)) (-1, -1)).1 ≠ -1) →
      ∃ sets1, joinSets (κ.mergeOrder i) i e.thisCoor e.nextCoor
          (findSets sets e.thisCoor e.nextCoor (κ.setsOrder i (IdMap.keys sets)) (-1, -1)).1
          (findSets sets e.thisCoor e.nextCoor (κ.setsOrder i (IdMap.keys sets)) (-1, -1)).2
          sets = some sets1 ∧
        SetsInv (done ++ [e]) (i + 1) sets1 (e :: O)) := by
  have hperm := hfair.1 i (IdMap.keys sets)
  have hpos : ∀ id ∈ κ.setsOrder i (IdMap.keys sets), 0 ≤ id :=
    fun id hid => (inv.ids id (hperm.subset hid)).1
  obtain ⟨sa, sb⟩ := findSets_spec sets e.thisCoor e.nextCoor _ hpos (-1, -1)
    (Or.inl rfl) (Or.inl rfl)
  generalize findSets sets e.thisCoor e.nextCoor (κ.setsOrder i (IdMap.keys sets)) (-1, -1)
    = ids at sa sb ⊢
  obtain ⟨t, n⟩ := ids
  simp only at sa sb ⊢
  have hall : ∀ c, (∀ id ∈ κ.setsOrder i (IdMap.keys sets), ¬ InSet sets id c) →
      ∀ id, ¬ InSet sets id c := by
    intro c h id hin
    exact h id (hperm.symm.subset (inSet_key hin)) hin
  rcases sa with ⟨ta, _, na⟩ | ⟨ta, ia⟩
  · have na' := hall _ na
    rcases sb with ⟨tb, _, nb⟩ | ⟨tb, ib⟩
    · have nb' := hall _ nb
      refine ⟨fun h => absurd ta h.2, fun _ => ?_⟩
      refine ⟨_, ?_, setsInv_new e inv na' nb' hab⟩
      unfold joinSets
      rw [if_pos ⟨by rw [ta, tb], ta⟩]
    · refine ⟨fun h => absurd ta h.2, fun _ => ?_⟩
      obtain ⟨mn, hmn, hb⟩ := ib
      refine ⟨_, ?_, setsInv_absorb e inv e.thisCoor e.nextCoor (Or.inl ⟨rfl, rfl⟩) n mn hmn hb
        na'⟩
      have hc1 : ¬ (t = n ∧ t = -1) := fun h => tb (h.1 ▸ h.2)
      unfold joinSets
      rw [if_neg hc1, if_pos ta]
      simp only [hmn]
  · rcases sb with ⟨tb, _, nb⟩ | ⟨tb, ib⟩
    · have nb' := hall _ nb
      refine ⟨fun h => absurd (h.1 ▸ tb) h.2, fun _ => ?_⟩
      obtain ⟨mt, hmt, ha⟩ := ia
      refine ⟨_, ?_, setsInv_absorb e inv e.nextCoor e.thisCoor (Or.inr ⟨rfl, rfl⟩) t mt hmt ha
        nb'⟩
      have hc1 : ¬ (t = n ∧ t = -1) := fun h => ta h.2
      unfold joinSets
      rw [if_neg hc1, if_neg ta, if_pos tb]
      simp only [hmt]
    · by_cases htn : t = n
      · refine ⟨fun _ => setsInv_skip e inv t ia (htn ▸ ib), fun h => absurd ⟨htn, ta⟩ h⟩
      · refine ⟨fun h => absurd h.1 htn, fun _ => ?_⟩
        obtain ⟨mt, hmt, ha⟩ := ia
        obtain ⟨mn, hmn, hb⟩ := ib
        refine ⟨_, ?_, setsInv_merge e inv t n mt mn hmt hmn ha hb htn
          (κ.mergeOrder i mn.keys) (hfair.2 i mn.keys)⟩
        have hc1 : ¬ (t = n ∧ t = -1) := fun h => ta h.2
        unfold joinSets
        rw [if_neg hc1, if_neg ta, if_neg tb]
        simp only [hmt, hmn]

theorem rmWall_walls (r : Room) :
    (r.RmWall N).Walls = { r.Walls with Top := false } ∧
    (r.RmWall S).Walls = { r.Walls with Bottom := false } ∧
    (r.RmWall E).Walls = { r.Walls with Right := false } ∧
    (r.RmWall W).Walls = { r.Walls with Left := false } := by
  refine ⟨?_, ?_, ?_, ?_⟩ <;> simp [Room.RmWall, N, S, E, W]

theorem edge_apart (w h : Nat) (e : edge) (he : e ∈ kruskalEdges w h) :
    e.thisCoor ≠ e.nextCoor := by
  obtain ⟨x, y, _, _, h1⟩ := (mem_kruskalEdges w h e).mp he
  obtain ⟨c1, c2, c3, c4⟩ := edge_coords x y
  rcases h1 with ⟨_, h1⟩ | ⟨_, h1⟩
  · rw [h1, c1, c2]
    intro h2
    have := congrArg Coordinate.Y h2
    simp only at this
    omega
  · rw [h1, c3, c4]
    intro h2
    have := congrArg Coordinate.X h2
    simp only at this
    omega

theorem survey_ext {a b : Survey} (h1 : a.Top = b.Top) (h2 : a.Right = b.Right)
    (h3 : a.Bottom = b.Bottom) (h4 : a.Left = b.Left) : a = b := by
  cases a
  cases b
  simp only at h1 h2 h3 h4
  rw [h1, h2, h3, h4]

theorem wall_keep (O : List edge) (e e1 : edge) (hne : e1 ≠ e) :
    decide (e1 ∉ O) = decide (e1 ∉ e :: O) := by
  simp [hne]

theorem wall_open (O : List edge) (e e1 : edge) (heq : e1 = e) :
    false = decide (e1 ∉ e :: O) := by
  simp [heq]

theorem edge_ne_of (x1 y1 d1 x2 y2 d2 : Int) (h : ¬ (x1 = x2 ∧ y1 = y2 ∧ d1 = d2)) :
    (⟨x1, y1, d1⟩ : edge) ≠ ⟨x2, y2, d2⟩ := by
  intro heq
  rw [edge.mk.injEq] at heq
  exact h heq

theorem edge_eq_of (x1 y1 x2 y2 d : Int) (h1 : x1 = x2) (h2 : y1 = y2) :
    (⟨x1, y1, d⟩ : edge) = ⟨x2, y2, d⟩ := by
  rw [h1, h2]

theorem walls_step {O : List edge} {rooms : List (List Room)} {w h : Nat}
    (hwalls : WallsOf O rooms w h) (e : edge) (he : e ∈ kruskalEdges w h) :
    ∃ rooms1 rooms2,
      updateRoom rooms e.thisCoor.X e.thisCoor.Y (fun r => r.RmWall e.dir) = some rooms1 ∧
      updateRoom rooms1 e.nextCoor.X e.nextCoor.Y (fun r => r.RmWall (Opposite e.dir))
        = some rooms2 ∧
      WallsOf (e :: O) rooms2 w h := by
  obtain ⟨hd, hcells⟩ := hwalls
  obtain ⟨x, y, hx, hy, h1⟩ := (mem_kruskalEdges w h e).mp he
  obtain ⟨c1, c2, c3, c4⟩ := edge_coords x y
  have hNW : N ≠ W := by decide
  have hWN : W ≠ N := by decide
  rcases h1 with ⟨hy0, h1⟩ | ⟨hx0, h1⟩
  · subst h1
    rw [c1, c2]
    have hopp : Opposite N = S := rfl
    simp only [hopp]
    obtain ⟨r1, e1, d1, q1⟩ := updateRoom_spec rooms w h hd x y (by omega) (by omega)
      (fun r => r.RmWall N)
    obtain ⟨r2, e2, d2, q2⟩ := updateRoom_spec r1 w h d1 x ((y : Int) - 1) (by omega) (by omega)
      (fun r => r.RmWall S)
    refine ⟨r1, r2, e1, e2, d2, ?_⟩
    intro x' y' hx0' hx1' hy0' hy1'
    rw [q2 x' y' hx0' hy0']
    have hold := hcells x' y' hx0' hx1' hy0' hy1'
    by_cases hA : x' = (x : Int) ∧ y' = (y : Int) - 1
    · rw [if_pos hA, q1 x ((y : Int) - 1) (by omega) (by omega),
        if_neg (by omega), (rmWall_walls _).2.1, ← hA.1, ← hA.2, hold]
      apply survey_ext
      · exact wall_keep O _ _ (edge_ne_of _ _ _ _ _ _ (by omega))
      · exact wall_keep O _ _ (edge_ne_of _ _ _ _ _ _ (fun h => hWN h.2.2))
      · exact wall_open O _ _ (edge_eq_of _ _ _ _ _ (by omega) (by omega))
      · exact wall_keep O _ _ (edge_ne_of _ _ _ _ _ _ (fun h => hWN h.2.2))
    · rw [if_neg hA, q1 x' y' hx0' hy0']
      by_cases hB : x' = (x : Int) ∧ y' = (y : Int)
      · rw [if_pos hB, (rmWall_walls _).1, ← hB.1, ← hB.2, hold]
        apply survey_ext
        · exact wall_open O _ _ (edge_eq_of _ _ _ _ _ (by omega) (by omega))
        · exact wall_keep O _ _ (edge_ne_of _ _ _ _ _ _ (fun h => hWN h.2.2))
        · exact wall_keep O _ _ (edge_ne_of _ _ _ _ _ _ (by omega))
        · exact wall_keep O _ _ (edge_ne_of _ _ _ _ _ _ (fun h => hWN h.2.2))
      · rw [if_neg hB, hold]
        apply survey_ext
        · exact wall_keep O _ _ (edge_ne_of _ _ _ _ _ _ (by omega))
        · exact wall_keep O _ _ (edge_ne_of _ _ _ _ _ _ (fun h => hWN h.2.2))
        · exact wall_keep O _ _ (edge_ne_of _ _ _ _ _ _ (by omega))
        · exact wall_keep O _ _ (edge_ne_of _ _ _ _ _ _ (fun h => hWN h.2.2))
  · subst h1
    rw [c3, c4]
    have hopp : Opposite W = E := rfl
    simp only [hopp]
    obtain ⟨r1, e1, d1, q1⟩ := updateRoom_spec rooms w h hd x y (by omega) (by omega)
      (fun r => r.RmWall W)
    obtain ⟨r2, e2, d2, q2⟩ := updateRoom_spec r1 w h d1 ((x : Int) - 1) y (by omega) (by omega)
      (fun r => r.RmWall E)
    refine ⟨r1, r2, e1, e2, d2, ?_⟩
    intro x' y' hx0' hx1' hy0' hy1'
    rw [q2 x' y' hx0' hy0']
    have hold := hcells x' y' hx0' hx1' hy0' hy1'
    by_cases hA : x' = (x : Int) - 1 ∧ y' = (y : Int)
    · rw [if_pos hA, q1 ((x : Int) - 1) y (by omega) (by omega),
        if_neg (by omega), (rmWall_walls _).2.2.1, ← hA.1, ← hA.2, hold]
      apply survey_ext
      · exact wall_keep O _ _ (edge_ne_of _ _ _ _ _ _ (fun h => hNW h.2.2))
      · exact wall_open O _ _ (edge_eq_of _ _ _ _ _ (by omega) (by omega))
      · exact wall_keep O _ _ (edge_ne_of _ _ _ _ _ _ (fun h => hNW h.2.2))
      · exact wall_keep O _ _ (edge_ne_of _ _ _ _ _ _ (by omega))
    · rw [if_neg hA, q1 x' y' hx0' hy0']
      by_cases hB : x' = (x : Int) ∧ y' = (y : Int)
      · rw [if_pos hB, (rmWall_walls _).2.2.2, ← hB.1, ← hB.2, hold]
        apply survey_ext
        · exact wall_keep O _ _ (edge_ne_of _ _ _ _ _ _ (fun h => hNW h.2.2))
        · exact wall_keep O _ _ (edge_ne_of _ _ _ _ _ _ (by omega))
        · exact wall_keep O _ _ (edge_ne_of _ _ _ _ _ _ (fun h => hNW h.2.2))
        · exact wall_open O _ _ (edge_eq_of _ _ _ _ _ (by omega) (by omega))
      · rw [if_neg hB, hold]
        apply survey_ext
        · exact wall_keep O _ _ (edge_ne_of _ _ _ _ _ _ (fun h => hNW h.2.2))
        · exact wall_keep O _ _ (edge_ne_of _ _ _ _ _ _ (by omega))
        · exact wall_keep O _ _ (edge_ne_of _ _ _ _ _ _ (fun h => hNW h.2.2))
        · exact wall_keep O _ _ (edge_ne_of _ _ _ _ _ _ (by omega))

theorem kruskalLoop_spec (κ : KruskalChoice) (hfair : κ.Fair) (w h : Nat) (rest : List edge) :
    ∀ (i : Nat) (done : List edge) (s : KruskalState) (O : List edge),
      (∀ e ∈ rest, e ∈ kruskalEdges w h) → SetsInv done i s.sets O → WallsOf O s.rooms w h →
      ∃ s1 O1, kruskalLoop κ i rest s = some s1 ∧
        SetsInv (done ++ rest) (i + rest.length) s1.sets O1 ∧ WallsOf O1 s1.rooms w h := by
  induction rest with
  | nil =>
    intro i done s O _ inv hw
    exact ⟨s, O, rfl, by simpa using inv, hw⟩
  | cons e rest ih =>
    intro i done s O hin inv hw
    have he := hin e (List.mem_cons_self _ _)
    obtain ⟨k1, k2⟩ := kruskal_sets_step κ hfair inv e (edge_apart w h e he)
    have hstep : ∃ s1 O1, kruskalStep κ i e s = some s1 ∧
        SetsInv (done ++ [e]) (i + 1) s1.sets O1 ∧ WallsOf O1 s1.rooms w h := by
      unfold kruskalStep
      by_cases hc : (findSets s.sets e.thisCoor e.nextCoor (κ.setsOrder i (IdMap.keys s.sets))
            (-1, -1)).1 =
          (findSets s.sets e.thisCoor e.nextCoor (κ.setsOrder i (IdMap.keys s.sets)) (-1, -1)).2 ∧
          (findSets s.sets e.thisCoor e.nextCoor (κ.setsOrder i (IdMap.keys s.sets))
            (-1, -1)).1 ≠ -1
      · refine ⟨s, O, ?_, k1 hc, hw⟩
        simp only
        rw [if_pos hc]
      · obtain ⟨sets1, j1, j2⟩ := k2 hc
        obtain ⟨r1, r2, u1, u2, u3⟩ := walls_step hw e he
        refine ⟨⟨sets1, r2⟩, e :: O, ?_, j2, u3⟩
        simp only
        rw [if_neg hc]
        simp only [j1, u1, u2]
    obtain ⟨s1, O1, q1, q2, q3⟩ := hstep
    obtain ⟨s2, O2, p1, p2, p3⟩ := ih (i + 1) (done ++ [e]) s1 O1
      (fun x hx => hin x (List.mem_cons_of_mem _ hx)) q2 q3
    refine ⟨s2, O2, ?_, ?_, p3⟩
    · simp only [kruskalLoop, q1, p1]
    · have h1 : done ++ e :: rest = done ++ [e] ++ rest := by simp
      have h2 : i + (e :: rest).length = i + 1 + rest.length := by
        simp only [List.length_cons]
        omega
      rw [h1, h2]
      exact p2

/-! ## The sets when every edge has been handled -/

theorem edge_cells (w h : Nat) (e : edge) (he : e ∈ kruskalEdges w h) :
    (∃ x y : Nat, x < w ∧ y < h ∧ e.thisCoor = ⟨(x : Int), (y : Int)⟩) ∧
    (∃ x y : Nat, x < w ∧ y < h ∧ e.nextCoor = ⟨(x : Int), (y : Int)⟩) := by
  obtain ⟨x, y, hx, hy, h1⟩ := (mem_kruskalEdges w h e).mp he
  obtain ⟨c1, c2, c3, c4⟩ := edge_coords x y
  rcases h1 with ⟨h0, h1⟩ | ⟨h0, h1⟩
  · rw [h1, c1, c2]
    exact ⟨⟨x, y, hx, hy, rfl⟩, ⟨x, y - 1, hx, by omega, coord_eq rfl (by omega)⟩⟩
  · rw [h1, c3, c4]
    exact ⟨⟨x, y, hx, hy, rfl⟩, ⟨x - 1, y, by omega, hy, coord_eq (by omega) rfl⟩⟩

theorem one_set (w h : Nat) {done : List edge} {n : Nat} {sets : IdMap (GoMap Int)}
    {O : List edge} (inv : SetsInv done n sets O) (hdone : ∀ e ∈ kruskalEdges w h, e ∈ done)
    (hbig : 2 ≤ w ∨ 2 ≤ h) (hw : 1 ≤ w) (hh : 1 ≤ h) :
    ∃ id0, ∀ x y : Nat, x < w → y < h → InSet sets id0 ⟨(x : Int), (y : Int)⟩ := by
  have hN : ∀ x y : Nat, x < w → y + 1 < h →
      ∃ id, InSet sets id ⟨(x : Int), ((y + 1 : Nat) : Int)⟩ ∧
        InSet sets id ⟨(x : Int), (y : Int)⟩ := by
    intro x y hx hy
    obtain ⟨id, h1, h2⟩ := inv.joined _ (hdone _ ((mem_kruskalEdges w h _).mpr
      ⟨x, y + 1, hx, hy, Or.inl ⟨by omega, rfl⟩⟩))
    obtain ⟨c1, c2, _, _⟩ := edge_coords (x : Int) ((y + 1 : Nat) : Int)
    rw [c1] at h1
    rw [c2] at h2
    have e2 : (⟨(x : Int), ((y + 1 : Nat) : Int) - 1⟩ : Coordinate) = ⟨(x : Int), (y : Int)⟩ :=
      coord_eq rfl (by push_cast; omega)
    rw [e2] at h2
    exact ⟨id, h1, h2⟩
  have hW : ∀ x y : Nat, x + 1 < w → y < h →
      ∃ id, InSet sets id ⟨((x + 1 : Nat) : Int), (y : Int)⟩ ∧
        InSet sets id ⟨(x : Int), (y : Int)⟩ := by
    intro x y hx hy
    obtain ⟨id, h1, h2⟩ := inv.joined _ (hdone _ ((mem_kruskalEdges w h _).mpr
      ⟨x + 1, y, hx, hy, Or.inr ⟨by omega, rfl⟩⟩))
    obtain ⟨_, _, c3, c4⟩ := edge_coords ((x + 1 : Nat) : Int) (y : Int)
    rw [c3] at h1
    rw [c4] at h2
    have e2 : (⟨((x + 1 : Nat) : Int) - 1, (y : Int)⟩ : Coordinate) = ⟨(x : Int), (y : Int)⟩ :=
      coord_eq (by push_cast; omega) rfl
    rw [e2] at h2
    exact ⟨id, h1, h2⟩
  have h00 : ∃ id0, InSet sets id0 ⟨((0 : Nat) : Int), ((0 : Nat) : Int)⟩ := by
    rcases hbig with h2 | h2
    · obtain ⟨id, _, h3⟩ := hW 0 0 (by omega) (by omega)
      exact ⟨id, h3⟩
    · obtain ⟨id, _, h3⟩ := hN 0 0 (by omega) (by omega)
      exact ⟨id, h3⟩
  obtain ⟨id0, h0⟩ := h00
  refine ⟨id0, ?_⟩
  have hrow : ∀ x : Nat, x < w → InSet sets id0 ⟨(x : Int), ((0 : Nat) : Int)⟩ := by
    intro x
    induction x with
    | zero => exact fun _ => h0
    | succ x ih =>
      intro hx
      obtain ⟨id, h1, h2⟩ := hW x 0 hx (by omega)
      have := inv.disjoint id id0 _ h2 (ih (by omega))
      exact this ▸ h1
  intro x y hx
  induction y with
  | zero => exact fun _ => hrow x hx
  | succ y ih =>
    intro hy
    obtain ⟨id, h1, h2⟩ := hN x y hx hy
    have := inv.disjoint id id0 _ h2 (ih (by omega))
    exact this ▸ h1

theorem list_single {α : Type} (l : List α) (a : α) (hnd : l.Nodup) (hall : ∀ x ∈ l, x = a)
    (ha : a ∈ l) : l = [a] := by
  match l, hnd, hall, ha with
  | [x], _, hall, _ => rw [hall x (List.mem_singleton_self x)]
  | x :: y :: t, hnd, hall, _ =>
    have h1 := hall x (List.mem_cons_self _ _)
    have h2 := hall y (List.mem_cons_of_mem _ (List.mem_cons_self _ _))
    rw [List.nodup_cons] at hnd
    exact absurd (List.mem_cons_self _ _) (h2 ▸ h1 ▸ hnd.1)

theorem grid_card (w h : Nat) (l : List Coordinate) (hnd : l.Nodup)
    (hmem : ∀ c, c ∈ l ↔ ∃ x y : Nat, x < w ∧ y < h ∧ c = ⟨(x : Int), (y : Int)⟩) :
    l.length = w * h := by
  have hinj : Function.Injective (fun p : Nat × Nat => (⟨(p.1 : Int), (p.2 : Int)⟩ : Coordinate)) := by
    rintro ⟨a1, a2⟩ ⟨b1, b2⟩ hab
    simp only [Coordinate.mk.injEq, Nat.cast_inj] at hab
    rw [hab.1, hab.2]
  have heq : l.toFinset = (Finset.range w ×ˢ Finset.range h).image
      (fun p : Nat × Nat => (⟨(p.1 : Int), (p.2 : Int)⟩ : Coordinate)) := by
    ext c
    rw [List.mem_toFinset, hmem, Finset.mem_image]
    constructor
    · rintro ⟨x, y, hx, hy, hc⟩
      exact ⟨(x, y), Finset.mem_product.mpr ⟨Finset.mem_range.mpr hx, Finset.mem_range.mpr hy⟩,
        hc.symm⟩
    · rintro ⟨⟨x, y⟩, hp, hc⟩
      rw [Finset.mem_product, Finset.mem_range, Finset.mem_range] at hp
      exact ⟨x, y, hp.1, hp.2, hc.symm⟩
  rw [← List.toFinset_card_of_nodup hnd, heq, Finset.card_image_of_injective _ hinj,
    Finset.card_product, Finset.card_range, Finset.card_range]

theorem kruskal_joined (w h : Nat) {done : List edge} {n : Nat} {sets : IdMap (GoMap Int)}
    {O : List edge} (inv : SetsInv done n sets O) (hdone : ∀ e ∈ kruskalEdges w h, e ∈ done)
    (hO : ∀ e ∈ O, e ∈ kruskalEdges w h) (hw : 1 ≤ w) (hh : 1 ≤ h) :
    O.length + 1 = w * h ∧
      ∀ x1 y1 x2 y2 : Nat, x1 < w → y1 < h → x2 < w → y2 < h →
        Linked O ⟨(x1 : Int), (y1 : Int)⟩ ⟨(x2 : Int), (y2 : Int)⟩ := by
  by_cases hbig : 2 ≤ w ∨ 2 ≤ h
  · obtain ⟨id0, hall⟩ := one_set w h inv hdone hbig hw hh
    refine ⟨?_, fun x1 y1 x2 y2 hx1 hy1 hx2 hy2 =>
      inv.linked id0 _ _ (hall x1 y1 hx1 hy1) (hall x2 y2 hx2 hy2)⟩
    have hcell : ∀ id c, InSet sets id c →
        ∃ x y : Nat, x < w ∧ y < h ∧ c = ⟨(x : Int), (y : Int)⟩ := by
      intro id c hc
      obtain ⟨e, he, h1⟩ := inv.members id c hc
      obtain ⟨p1, p2⟩ := edge_cells w h e (hO e he)
      rcases h1 with h1 | h1
      · rw [h1]
        exact p1
      · rw [h1]
        exact p2
    have hkeys : ∀ id ∈ IdMap.keys sets, id = id0 := by
      intro id hid
      obtain ⟨m, hm⟩ := Option.isSome_iff_exists.mp ((idKeys_iff sets id).mp hid)
      have hne := inv.nonempty id m hm
      obtain ⟨p, hp⟩ := List.exists_mem_of_ne_nil m hne
      have hin : InSet sets id p.1 := ⟨m, hm, List.mem_map_of_mem Prod.fst hp⟩
      obtain ⟨x, y, hx, hy, hc⟩ := hcell id p.1 hin
      exact inv.disjoint id id0 p.1 hin (hc ▸ hall x y hx hy)
    obtain ⟨m0, hm0, _⟩ := hall 0 0 (by omega) (by omega)
    have hid0 : id0 ∈ IdMap.keys sets := by
      rw [idKeys_iff, hm0]
      rfl
    have hk := list_single (IdMap.keys sets) id0 inv.nodupIds hkeys hid0
    have hsets : sets = [(id0, m0)] := by
      match sets, hk, hm0 with
      | [(k, v)], hk, hm0 =>
        simp only [IdMap.keys, List.map_cons, List.map_nil, List.cons.injEq, and_true] at hk
        subst hk
        simp only [IdMap.get?, if_true, Option.some.injEq] at hm0
        rw [hm0]
    have hlen : m0.length = w * h := by
      have := grid_card w h m0.keys (inv.inner id0 m0 hm0) (by
        intro c
        constructor
        · intro hc
          exact hcell id0 c ⟨m0, hm0, hc⟩
        · rintro ⟨x, y, hx, hy, hc⟩
          obtain ⟨m1, hm1, h1⟩ := hall x y hx hy
          rw [hm0, Option.some.injEq] at hm1
          rw [hc, hm1]
          exact h1)
      simpa [GoMap.keys] using this
    have hcount := inv.count
    rw [hsets] at hcount
    simp only [totalSize, List.length_cons, List.length_nil, List.map_cons, List.map_nil,
      List.sum_cons, List.sum_nil] at hcount
    omega
  · have hw1 : w = 1 := by omega
    have hh1 : h = 1 := by omega
    subst hw1 hh1
    have hnil : O = [] := by
      cases O with
      | nil => rfl
      | cons e t =>
        obtain ⟨x, y, hx, hy, h1⟩ := (mem_kruskalEdges 1 1 e).mp (hO e (List.mem_cons_self _ _))
        omega
    refine ⟨by rw [hnil]; rfl, ?_⟩
    intro x1 y1 x2 y2 hx1 hy1 hx2 hy2
    have e1 : x1 = 0 := by omega
    have e2 : y1 = 0 := by omega
    have e3 : x2 = 0 := by omega
    have e4 : y2 = 0 := by omega
    subst e1 e2 e3 e4
    exact linked_refl _ _

theorem setsInv_init : SetsInv [] 0 [] [] where
  ids := fun id hid => absurd hid (List.not_mem_nil _)
  nodupIds := List.nodup_nil
  inner := fun id m hm => absurd hm (by simp [IdMap.get?])
  nonempty := fun id m hm => absurd hm (by simp [IdMap.get?])
  disjoint := fun id1 id2 c h1 _ => by
    obtain ⟨m, hm, _⟩ := h1
    exact absurd hm (by simp [IdMap.get?])
  members := fun id c h1 => by
    obtain ⟨m, hm, _⟩ := h1
    exact absurd hm (by simp [IdMap.get?])
  count := rfl
  joined := fun e he => absurd he (List.not_mem_nil _)
  linked := fun id a b h1 _ => by
    obtain ⟨m, hm, _⟩ := h1
    exact absurd hm (by simp [IdMap.get?])
  sub := fun e he => absurd he (List.not_mem_nil _)
  nodupO := List.nodup_nil

/-! ## The walls of the Kruskal maze -/

theorem wallAt_values (s : Survey) :
    wallAt s N = s.Top ∧ wallAt s S = s.Bottom ∧ wallAt s E = s.Right ∧ wallAt s W = s.Left := by
  refine ⟨?_, ?_, ?_, ?_⟩ <;> simp [wallAt, N, S, E, W]

theorem wallEdge_values (c : Coordinate) :
    wallEdge c N = ⟨c.X, c.Y, N⟩ ∧ wallEdge c S = ⟨c.X, c.Y + 1, N⟩ ∧
    wallEdge c E = ⟨c.X + 1, c.Y, W⟩ ∧ wallEdge c W = ⟨c.X, c.Y, W⟩ := by
  have h1 : S ≠ N := by decide
  have h2 : E ≠ N := by decide
  have h3 : E ≠ S := by decide
  have h4 : W ≠ N := by decide
  have h5 : W ≠ S := by decide
  have h6 : W ≠ E := by decide
  refine ⟨?_, ?_, ?_, ?_⟩
  · unfold wallEdge
    rw [if_pos rfl]
  · unfold wallEdge
    rw [if_neg h1, if_pos rfl]
  · unfold wallEdge
    rw [if_neg h2, if_neg h3, if_pos rfl]
  · unfold wallEdge
    rw [if_neg h4, if_neg h5, if_neg h6]

theorem wallEdge_opposite (c : Coordinate) {dir : Int}
    (hd : dir = N ∨ dir = S ∨ dir = E ∨ dir = W) :
    wallEdge (neighbour c dir) (Opposite dir) = wallEdge c dir := by
  obtain ⟨n1, n2, n3, n4⟩ := neighbour_values c
  have o1 : Opposite N = S := rfl
  have o2 : Opposite S = N := rfl
  have o3 : Opposite E = W := rfl
  have o4 : Opposite W = E := rfl
  rcases hd with rfl | rfl | rfl | rfl
  · rw [n1, o1, (wallEdge_values _).2.1, (wallEdge_values _).1]
    exact edge_eq_of _ _ _ _ _ rfl (by simp)
  · rw [n2, o2, (wallEdge_values _).1, (wallEdge_values _).2.1]
  · rw [n3, o3, (wallEdge_values _).2.2.2, (wallEdge_values _).2.2.1]
  · rw [n4, o4, (wallEdge_values _).2.2.1, (wallEdge_values _).2.2.2]
    exact edge_eq_of _ _ _ _ _ (by simp) rfl

theorem wallEdge_outside (w h : Nat) (c : Coordinate) {dir : Int}
    (hd : dir = N ∨ dir = S ∨ dir = E ∨ dir = W)
    (hin : 0 ≤ c.X ∧ c.X < w ∧ 0 ≤ c.Y ∧ c.Y < h)
    (hout : ¬ (0 ≤ (neighbour c dir).X ∧ (neighbour c dir).X < w ∧
      0 ≤ (neighbour c dir).Y ∧ (neighbour c dir).Y < h)) :
    wallEdge c dir ∉ kruskalEdges w h := by
  obtain ⟨n1, n2, n3, n4⟩ := neighbour_values c
  have hNW : N ≠ W := by decide
  have hWN : W ≠ N := by decide
  rw [mem_kruskalEdges]
  rintro ⟨x, y, hx, hy, h1⟩
  rcases hd with rfl | rfl | rfl | rfl
  · rw [n1] at hout
    rw [(wallEdge_values _).1] at h1
    simp only [edge.mk.injEq, hNW, and_false, or_false] at h1 hout
    omega
  · rw [n2] at hout
    rw [(wallEdge_values _).2.1] at h1
    simp only [edge.mk.injEq, hNW, and_false, or_false] at h1 hout
    omega
  · rw [n3] at hout
    rw [(wallEdge_values _).2.2.1] at h1
    simp only [edge.mk.injEq, hWN, and_false, false_or] at h1 hout
    omega
  · rw [n4] at hout
    rw [(wallEdge_values _).2.2.2] at h1
    simp only [edge.mk.injEq, hWN, and_false, false_or] at h1 hout
    omega

theorem maze_dims (m : Maze) (w h : Nat) (hd : Dims m.rooms w h) (hh : 1 ≤ h) :
    m.Width = w ∧ m.Height = h ∧ ∀ row ∈ m.rooms, (row.length : Int) = m.Width := by
  obtain ⟨hlen, hrows⟩ := hd
  have hW : m.Width = w := by
    unfold Maze.Width
    cases hr : m.rooms with
    | nil =>
      rw [hr] at hlen
      simp only [List.length_nil] at hlen
      omega
    | cons r t =>
      simp only [List.headD_cons]
      rw [hrows r (by rw [hr]; exact List.mem_cons_self _ _)]
  refine ⟨hW, by unfold Maze.Height; rw [hlen], ?_⟩
  intro row hrow
  rw [hW, hrows row hrow]

theorem maze_roomAt (m : Maze) (w h : Nat) (hd : Dims m.rooms w h) (hh : 1 ≤ h)
    (hstart : m.start = ⟨0, 0⟩) (c : Coordinate) :
    ((m.roomAt c).isSome ↔ 0 ≤ c.X ∧ c.X < w ∧ 0 ≤ c.Y ∧ c.Y < h) ∧
    (0 ≤ c.X ∧ c.X < w ∧ 0 ≤ c.Y ∧ c.Y < h → m.walls c = (cellAt m.rooms c.X c.Y).Walls) := by
  obtain ⟨hW, hH, _⟩ := maze_dims m w h hd hh
  have hroom : m.roomAt c = if c.X < 0 ∨ c.Y < 0 ∨ c.X ≥ w ∨ c.Y ≥ h then none
      else some (cellAt m.rooms c.X c.Y) := by
    unfold Maze.roomAt Maze.GetRoom cellAt
    rw [hstart, hW, hH]
    simp only [zero_add]
  constructor
  · rw [hroom]
    constructor
    · intro h1
      by_contra h2
      rw [if_pos (by omega)] at h1
      exact absurd h1 (by simp)
    · intro h1
      rw [if_neg (by omega)]
      rfl
  · intro h1
    unfold Maze.walls
    rw [hroom, if_neg (by omega)]

theorem maze_wall (m : Maze) (w h : Nat) (O : List edge) (hwalls : WallsOf O m.rooms w h)
    (hh : 1 ≤ h) (hstart : m.start = ⟨0, 0⟩) (c : Coordinate)
    (hin : 0 ≤ c.X ∧ c.X < w ∧ 0 ≤ c.Y ∧ c.Y < h) {dir : Int}
    (hd : dir = N ∨ dir = S ∨ dir = E ∨ dir = W) :
    wallAt (m.walls c) dir = decide (wallEdge c dir ∉ O) := by
  rw [(maze_roomAt m w h hwalls.1 hh hstart c).2 hin, hwalls.2 c.X c.Y hin.1 hin.2.1 hin.2.2.1
    hin.2.2.2]
  rcases hd with rfl | rfl | rfl | rfl
  · rw [(wallAt_values _).1, (wallEdge_values _).1]
  · rw [(wallAt_values _).2.1, (wallEdge_values _).2.1]
  · rw [(wallAt_values _).2.2.1, (wallEdge_values _).2.2.1]
  · rw [(wallAt_values _).2.2.2, (wallEdge_values _).2.2.2]

theorem maze_consistent (m : Maze) (w h : Nat) (O : List edge)
    (hwalls : WallsOf O m.rooms w h) (hh : 1 ≤ h) (hstart : m.start = ⟨0, 0⟩)
    (hO : ∀ e ∈ O, e ∈ kruskalEdges w h) :
    m.ConsistentWalls ∧
    ∀ c dir, (dir = N ∨ dir = S ∨ dir = E ∨ dir = W) → (m.roomAt c).isSome →
      m.roomAt (neighbour c dir) = none → wallAt (m.walls c) dir = true := by
  have hperim : ∀ c dir, (dir = N ∨ dir = S ∨ dir = E ∨ dir = W) → (m.roomAt c).isSome →
      m.roomAt (neighbour c dir) = none → wallAt (m.walls c) dir = true := by
    intro c dir hd hc hn
    have hin := (maze_roomAt m w h hwalls.1 hh hstart c).1.mp hc
    have hout : ¬ (0 ≤ (neighbour c dir).X ∧ (neighbour c dir).X < w ∧
        0 ≤ (neighbour c dir).Y ∧ (neighbour c dir).Y < h) := by
      intro h1
      have := (maze_roomAt m w h hwalls.1 hh hstart (neighbour c dir)).1.mpr h1
      rw [hn] at this
      exact absurd this (by simp)
    rw [maze_wall m w h O hwalls hh hstart c hin hd, decide_eq_true_eq]
    intro h1
    exact wallEdge_outside w h c hd hin hout (hO _ h1)
  refine ⟨?_, hperim⟩
  intro c dir hd hc
  have hin := (maze_roomAt m w h hwalls.1 hh hstart c).1.mp hc
  cases hn : m.roomAt (neighbour c dir) with
  | none =>
    rw [hperim c dir hd hc hn, walls_outside m _ hn, wallAt_closed (opposite_dir hd)]
  | some r =>
    have hin2 := (maze_roomAt m w h hwalls.1 hh hstart (neighbour c dir)).1.mp
      (by rw [hn]; rfl)
    rw [maze_wall m w h O hwalls hh hstart c hin hd,
      maze_wall m w h O hwalls hh hstart _ hin2 (opposite_dir hd), wallEdge_opposite c hd]

theorem reach_trans (m : Maze) {a b c : Coordinate} (h1 : m.Reach a b) (h2 : m.Reach b c) :
    m.Reach a c := by
  induction h2 with
  | refl => exact h1
  | step dir _ hd hw hr ih => exact Maze.Reach.step dir ih hd hw hr

theorem edge_dir (w h : Nat) (e : edge) (he : e ∈ kruskalEdges w h) :
    (e.dir = N ∨ e.dir = S ∨ e.dir = E ∨ e.dir = W) ∧ wallEdge e.thisCoor e.dir = e ∧
      neighbour e.thisCoor e.dir = e.nextCoor := by
  obtain ⟨x, y, _, _, h1⟩ := (mem_kruskalEdges w h e).mp he
  rcases h1 with ⟨_, h1⟩ | ⟨_, h1⟩
  · subst h1
    exact ⟨Or.inl rfl, (wallEdge_values _).1, rfl⟩
  · subst h1
    exact ⟨Or.inr (Or.inr (Or.inr rfl)), (wallEdge_values _).2.2.2, rfl⟩

theorem maze_reach (m : Maze) (w h : Nat) (O : List edge)
    (hwalls : WallsOf O m.rooms w h) (hh : 1 ≤ h) (hstart : m.start = ⟨0, 0⟩)
    (hO : ∀ e ∈ O, e ∈ kruskalEdges w h) {a b : Coordinate} (hl : Linked O a b) :
    m.Reach a b ∧ m.Reach b a := by
  obtain ⟨hcons, _⟩ := maze_consistent m w h O hwalls hh hstart hO
  unfold Linked at hl
  induction hl with
  | rel x y hxy =>
    obtain ⟨e, he, h1, h2⟩ := hxy
    subst h1 h2
    have hek := hO e he
    obtain ⟨hd, hwe, hnb⟩ := edge_dir w h e hek
    obtain ⟨⟨x1, y1, hx1, hy1, p1⟩, ⟨x2, y2, hx2, hy2, p2⟩⟩ := edge_cells w h e hek
    have hin1 : 0 ≤ e.thisCoor.X ∧ e.thisCoor.X < w ∧ 0 ≤ e.thisCoor.Y ∧ e.thisCoor.Y < h := by
      rw [p1]
      simp only
      omega
    have hin2 : 0 ≤ e.nextCoor.X ∧ e.nextCoor.X < w ∧ 0 ≤ e.nextCoor.Y ∧ e.nextCoor.Y < h := by
      rw [p2]
      simp only
      omega
    have hs1 := (maze_roomAt m w h hwalls.1 hh hstart e.thisCoor).1.mpr hin1
    have hs2 := (maze_roomAt m w h hwalls.1 hh hstart e.nextCoor).1.mpr hin2
    have hopen : wallAt (m.walls e.thisCoor) e.dir = false := by
      rw [maze_wall m w h O hwalls hh hstart _ hin1 hd, hwe]
      simp [he]
    have hopen2 : wallAt (m.walls e.nextCoor) (Opposite e.dir) = false := by
      have := hcons e.thisCoor e.dir hd hs1
      rw [hnb] at this
      rw [← this]
      exact hopen
    constructor
    · have := Maze.Reach.step e.dir (Maze.Reach.refl (m := m) e.thisCoor) hd hopen
        (by rw [hnb]; exact hs2)
      rw [hnb] at this
      exact this
    · have hback : neighbour e.nextCoor (Opposite e.dir) = e.thisCoor := by
        rw [← hnb]
        exact neighbour_opposite _ hd
      have := Maze.Reach.step (Opposite e.dir) (Maze.Reach.refl (m := m) e.nextCoor)
        (opposite_dir hd) hopen2 (by rw [hback]; exact hs1)
      rw [hback] at this
      exact this
  | refl x => exact ⟨Maze.Reach.refl x, Maze.Reach.refl x⟩
  | symm x y _ ih => exact ⟨ih.2, ih.1⟩
  | trans x y z _ _ ih1 ih2 =>
    exact ⟨reach_trans m ih1.1 ih2.1, reach_trans m ih2.2 ih1.2⟩

/-! ## The passages of the Kruskal maze -/

theorem count_open (m : Maze) (w h : Nat) (O : List edge) (hwalls : WallsOf O m.rooms w h)
    (hh : 1 ≤ h) (hstart : m.start = ⟨0, 0⟩) (hnd : O.Nodup) (dir d : Int)
    (hd : dir = N ∨ dir = S ∨ dir = E ∨ dir = W)
    (hdir : ∀ c, (wallEdge c dir).dir = d)
    (hinj : ∀ c c1, wallEdge c dir = wallEdge c1 dir → c = c1)
    (himg : ∀ e ∈ O, e.dir = d →
      ∃ c : Coordinate, (0 ≤ c.X ∧ c.X < w ∧ 0 ≤ c.Y ∧ c.Y < h) ∧ wallEdge c dir = e) :
    m.openSides dir = (O.filter (fun e => decide (e.dir = d))).length := by
  obtain ⟨hW, hH, _⟩ := maze_dims m w h hwalls.1 hh
  unfold Maze.openSides cellsWhere
  rw [hW, hH, ← List.toFinset_card_of_nodup (hnd.filter _)]
  have himage : ((Finset.Icc (0 : Int) ((w : Int) - 1) ×ˢ Finset.Icc (0 : Int) ((h : Int) - 1)).filter
      (fun c => (!wallAt (m.walls ⟨c.1, c.2⟩) dir) = true)).image
        (fun p => wallEdge ⟨p.1, p.2⟩ dir) =
      (O.filter (fun e => decide (e.dir = d))).toFinset := by
    ext e
    simp only [Finset.mem_image, Finset.mem_filter, Finset.mem_product, Finset.mem_Icc,
      List.mem_toFinset, List.mem_filter, decide_eq_true_eq, Prod.exists]
    constructor
    · rintro ⟨x, y, ⟨⟨⟨hx0, hx1⟩, hy0, hy1⟩, hopen⟩, he⟩
      have hin : 0 ≤ (⟨x, y⟩ : Coordinate).X ∧ (⟨x, y⟩ : Coordinate).X < w ∧
          0 ≤ (⟨x, y⟩ : Coordinate).Y ∧ (⟨x, y⟩ : Coordinate).Y < h := by
        simp only
        omega
      rw [maze_wall m w h O hwalls hh hstart ⟨x, y⟩ hin hd] at hopen
      simp only [Bool.not_eq_true', decide_eq_false_iff_not, not_not] at hopen
      rw [← he]
      exact ⟨hopen, hdir _⟩
    · rintro ⟨he, hed⟩
      obtain ⟨c, hin, hc⟩ := himg e he hed
      refine ⟨c.X, c.Y, ⟨⟨⟨hin.1, by omega⟩, hin.2.2.1, by omega⟩, ?_⟩, hc⟩
      rw [maze_wall m w h O hwalls hh hstart ⟨c.X, c.Y⟩ hin hd]
      simp only [Bool.not_eq_true', decide_eq_false_iff_not, not_not]
      rw [hc]
      exact he
  rw [← himage, Finset.card_image_of_injOn]
  intro p _ q _ hpq
  have := hinj _ _ hpq
  simp only [Coordinate.mk.injEq] at this
  exact Prod.ext this.1 this.2

theorem wallEdge_inj (dir : Int) (hd : dir = N ∨ dir = S ∨ dir = E ∨ dir = W)
    (c c1 : Coordinate) (h : wallEdge c dir = wallEdge c1 dir) : c = c1 := by
  obtain ⟨x, y⟩ := c
  obtain ⟨x1, y1⟩ := c1
  rcases hd with rfl | rfl | rfl | rfl
  · rw [(wallEdge_values _).1, (wallEdge_values _).1, edge.mk.injEq] at h
    exact coord_eq h.1 h.2.1
  · rw [(wallEdge_values _).2.1, (wallEdge_values _).2.1, edge.mk.injEq] at h
    simp only at h
    exact coord_eq h.1 (by omega)
  · rw [(wallEdge_values _).2.2.1, (wallEdge_values _).2.2.1, edge.mk.injEq] at h
    simp only at h
    exact coord_eq (by omega) h.2.1
  · rw [(wallEdge_values _).2.2.2, (wallEdge_values _).2.2.2, edge.mk.injEq] at h
    exact coord_eq h.1 h.2.1

theorem length_by_dir (O : List edge) (hO : ∀ e ∈ O, e.dir = N ∨ e.dir = W) :
    (O.filter (fun e => decide (e.dir = N))).length +
      (O.filter (fun e => decide (e.dir = W))).length = O.length := by
  have hNW : N ≠ W := by decide
  induction O with
  | nil => rfl
  | cons e t ih =>
    have ih' := ih (fun x hx => hO x (List.mem_cons_of_mem _ hx))
    rcases hO e (List.mem_cons_self _ _) with h1 | h1
    · have h2 : ¬ e.dir = W := fun h => hNW (h1.symm.trans h)
      rw [List.filter_cons_of_pos (by simpa using h1),
        List.filter_cons_of_neg (by simpa using h2), List.length_cons, List.length_cons]
      omega
    · have h2 : ¬ e.dir = N := fun h => hNW (h.symm.trans h1)
      rw [List.filter_cons_of_neg (by simpa using h2),
        List.filter_cons_of_pos (by simpa using h1), List.length_cons, List.length_cons]
      omega

theorem maze_passages (m : Maze) (w h : Nat) (O : List edge) (hwalls : WallsOf O m.rooms w h)
    (hh : 1 ≤ h) (hstart : m.start = ⟨0, 0⟩) (hnd : O.Nodup)
    (hO : ∀ e ∈ O, e ∈ kruskalEdges w h) :
    m.openSides N + m.openSides W = O.length ∧ m.openSides S + m.openSides E = O.length := by
  have hNW : N ≠ W := by decide
  have hWN : W ≠ N := by decide
  have hdirs : ∀ e ∈ O, e.dir = N ∨ e.dir = W := by
    intro e he
    obtain ⟨x, y, _, _, h1⟩ := (mem_kruskalEdges w h e).mp (hO e he)
    rcases h1 with ⟨_, h1⟩ | ⟨_, h1⟩
    · rw [h1]
      exact Or.inl rfl
    · rw [h1]
      exact Or.inr rfl
  have cN := count_open m w h O hwalls hh hstart hnd N N (Or.inl rfl)
    (fun c => by rw [(wallEdge_values c).1])
    (wallEdge_inj N (Or.inl rfl)) (by
      intro e he hed
      obtain ⟨x, y, hx, hy, h1⟩ := (mem_kruskalEdges w h e).mp (hO e he)
      rcases h1 with ⟨_, h1⟩ | ⟨_, h1⟩
      · refine ⟨⟨x, y⟩, by simp only; omega, ?_⟩
        rw [(wallEdge_values _).1, h1]
      · rw [h1] at hed
        exact absurd hed hWN)
  have cW := count_open m w h O hwalls hh hstart hnd W W (Or.inr (Or.inr (Or.inr rfl)))
    (fun c => by rw [(wallEdge_values c).2.2.2])
    (wallEdge_inj W (Or.inr (Or.inr (Or.inr rfl)))) (by
      intro e he hed
      obtain ⟨x, y, hx, hy, h1⟩ := (mem_kruskalEdges w h e).mp (hO e he)
      rcases h1 with ⟨_, h1⟩ | ⟨_, h1⟩
      · rw [h1] at hed
        exact absurd hed hNW
      · refine ⟨⟨x, y⟩, by simp only; omega, ?_⟩
        rw [(wallEdge_values _).2.2.2, h1])
  have cS := count_open m w h O hwalls hh hstart hnd S N (Or.inr (Or.inl rfl))
    (fun c => by rw [(wallEdge_values c).2.1])
    (wallEdge_inj S (Or.inr (Or.inl rfl))) (by
      intro e he hed
      obtain ⟨x, y, hx, hy, h1⟩ := (mem_kruskalEdges w h e).mp (hO e he)
      rcases h1 with ⟨h0, h1⟩ | ⟨_, h1⟩
      · refine ⟨⟨x, (y : Int) - 1⟩, by simp only; omega, ?_⟩
        rw [(wallEdge_values _).2.1, h1]
        exact edge_eq_of _ _ _ _ _ rfl (by simp)
      · rw [h1] at hed
        exact absurd hed hWN)
  have cE := count_open m w h O hwalls hh hstart hnd E W (Or.inr (Or.inr (Or.inl rfl)))
    (fun c => by rw [(wallEdge_values c).2.2.1])
    (wallEdge_inj E (Or.inr (Or.inr (Or.inl rfl)))) (by
      intro e he hed
      obtain ⟨x, y, hx, hy, h1⟩ := (mem_kruskalEdges w h e).mp (hO e he)
      rcases h1 with ⟨_, h1⟩ | ⟨h0, h1⟩
      · rw [h1] at hed
        exact absurd hed hNW
      · refine ⟨⟨(x : Int) - 1, y⟩, by simp only; omega, ?_⟩
        rw [(wallEdge_values _).2.2.1, h1]
        exact edge_eq_of _ _ _ _ _ (by simp) rfl)
  have := length_by_dir O hdirs
  constructor
  · rw [cN, cW]
    exact this
  · rw [cS, cE]
    exact this

/-! ## `createMazeKruskal` -/

theorem createMazeKruskal_spec (κ : KruskalChoice) (hfair : κ.Fair) (w h : Nat) (hw : 1 ≤ w)
    (hh : 1 ≤ h) :
    ∃ m O, createMazeKruskal κ w h = some m ∧ m.start = ⟨0, 0⟩ ∧ WallsOf O m.rooms w h ∧
      O.Nodup ∧ (∀ e ∈ O, e ∈ kruskalEdges w h) ∧ O.length + 1 = w * h ∧
      ∀ x1 y1 x2 y2 : Nat, x1 < w → y1 < h → x2 < w → y2 < h →
        Linked O ⟨(x1 : Int), (y1 : Int)⟩ ⟨(x2 : Int), (y2 : Int)⟩ := by
  obtain ⟨m0, hfull, hd0, hs0, hw0⟩ := fullMaze_spec w h hw hh
  have hwalls0 : WallsOf [] m0.rooms w h := by
    refine ⟨hd0, ?_⟩
    intro x y hx0 hx1 hy0 hy1
    rw [hw0 x y hx0 hx1 hy0 hy1]
    simp
  have hperm := shuffleEdgesFrom_perm κ.rand (kruskalEdges w h).length 0 (kruskalEdges w h)
  obtain ⟨s1, O1, hloop, hinv, hwalls1⟩ := kruskalLoop_spec κ hfair w h
    (shuffleEdgesFrom κ.rand (kruskalEdges w h).length 0 (kruskalEdges w h)) 0 []
    ⟨[], m0.rooms⟩ [] (fun e he => hperm.subset he) setsInv_init hwalls0
  simp only [List.nil_append] at hinv
  have hO : ∀ e ∈ O1, e ∈ kruskalEdges w h := fun e he => hperm.subset (hinv.sub e he)
  obtain ⟨hcount, hlinked⟩ := kruskal_joined w h hinv (fun e he => hperm.symm.subset he) hO hw hh
  refine ⟨{ m0 with rooms := s1.rooms }, O1, ?_, hs0, hwalls1, hinv.nodupO, hO, hcount, hlinked⟩
  obtain ⟨hlen, hrows⟩ := hd0
  unfold createMazeKruskal
  rw [hfull]
  simp only
  cases hr : m0.rooms with
  | nil =>
    rw [hr] at hlen
    simp only [List.length_nil] at hlen
    omega
  | cons r t =>
    have h1 : r.length = w := hrows r (by rw [hr]; exact List.mem_cons_self _ _)
    have h2 : (r :: t).length = h := by rw [← hr]; exact hlen
    simp only [List.head?_cons]
    rw [h1, h2, ← hr, hloop]

theorem kruskalChoice_id_fair : KruskalChoice.id.Fair :=
  ⟨fun _ l => List.Perm.refl l, fun _ l => List.Perm.refl l⟩

theorem bendMaze_wellFormed : bendMaze.WellFormed := by
  constructor
  · intro row hrow
    simp only [bendMaze, List.mem_cons, List.mem_singleton, List.not_mem_nil, or_false] at hrow
    rcases hrow with h | h <;> subst h <;> rfl
  · decide
  · decide
  · decide
  · rfl

theorem bendMaze_walls : bendMaze.ConsistentWalls := by
  intro c dir hd hin
  have h1 := (roomAt_isSome_iff bendMaze c).mp hin
  have hW : bendMaze.Width = 2 := rfl
  have hH : bendMaze.Height = 2 := rfl
  have hs : bendMaze.start = ⟨0, 0⟩ := rfl
  rw [hW, hH, hs] at h1
  simp only [zero_add] at h1
  obtain ⟨x, y⟩ := c
  simp only at h1
  have hx : x = 0 ∨ x = 1 := by omega
  have hy : y = 0 ∨ y = 1 := by omega
  rcases hx with rfl | rfl <;> rcases hy with rfl | rfl <;> rcases hd with h | h | h | h <;>
    subst h <;> decide

theorem bendMaze_corridor : bendMaze.IsCorridor [E, S] := by
  have h0 : roomAfter [E, S] 0 = ⟨0, 0⟩ := rfl
  have h1 : roomAfter [E, S] 1 = ⟨1, 0⟩ := by decide
  have h2 : roomAfter [E, S] 2 = ⟨1, 1⟩ := by decide
  constructor
  · intro d hd
    simp only [List.mem_cons, List.mem_singleton, List.not_mem_nil, or_false] at hd
    rcases hd with h | h <;> subst h
    · exact Or.inr (Or.inr (Or.inl rfl))
    · exact Or.inr (Or.inl rfl)
  · exact List.cons_ne_nil _ _
  · intro i j hi hj hij
    simp only [List.length_cons, List.length_nil] at hi hj
    have hi' : i = 0 ∨ i = 1 ∨ i = 2 := by omega
    have hj' : j = 0 ∨ j = 1 ∨ j = 2 := by omega
    rcases hi' with rfl | rfl | rfl <;> rcases hj' with rfl | rfl | rfl <;>
      first
        | rfl
        | (simp only [h0, h1, h2] at hij; exact absurd hij (by decide))
  · decide
  · intro dir hd
    rcases hd with h | h | h | h <;> subst h <;> decide
  · intro i hi hlt dir hd
    simp only [List.length_cons, List.length_nil] at hlt
    have hi1 : i = 1 := by omega
    subst hi1
    rcases hd with h | h | h | h <;> subst h <;> decide

theorem tdiv_index (n : Nat) :
    Int.tdiv ((n : Int) - 1) 100 = (((n - 1) / 100 : Nat) : Int) := by
  rcases Nat.eq_zero_or_pos n with h | h
  · subst h
    decide
  · have h1 : (n : Int) - 1 = ((n - 1 : Nat) : Int) := by omega
    rw [h1, Int.tdiv_eq_ediv (by omega) (by omega)]
    rfl

theorem recordVictory_ready (g : MazeStats) (stepsTaken : Int) (h : g.Ready) :
    ∃ g1, recordVictory g stepsTaken = some g1 ∧ g1.mCount = g.mCount ∧
      g1.mazeStats.length = g.mazeStats.length := by
  unfold MazeStats.Ready at h
  rw [tdiv_index] at h
  have hlt : ((g.mCount - 1) / 100) < g.mazeStats.length := by omega
  unfold recordVictory
  simp only []
  rw [tdiv_index, if_neg (by omega), Int.toNat_ofNat, List.getElem?_eq_getElem hlt]
  exact ⟨_, rfl, rfl, by simp⟩

theorem look_commands (m : Maze) (g : MazeStats) (h : g.Ready) :
    ∃ g1, commands.LookAround m g = some (g1, m.LookAround) ∧ g1.Ready := by
  unfold commands.LookAround Maze.LookAround
  by_cases hat : m.finish.X = m.icarus.X ∧ m.finish.Y = m.icarus.Y
  · obtain ⟨g1, e1, e2, e3⟩ := recordVictory_ready g m.StepsTaken h
    rw [if_pos hat, if_pos hat, e1]
    refine ⟨g1, rfl, ?_⟩
    unfold MazeStats.Ready at h ⊢
    rw [e2, e3]
    exact h
  · rw [if_neg hat, if_neg hat]
    exact ⟨g, rfl, h⟩

theorem look_ztest (m : Maze) (g : MazeStats) (h : g.mCount = 0 ∨ g.Ready) :
    ∃ g1, ztest.LookAround m g = some (g1, m.LookAround) ∧ (g1.mCount = 0 ∨ g1.Ready) := by
  unfold ztest.LookAround Maze.LookAround
  by_cases hat : m.finish.X = m.icarus.X ∧ m.finish.Y = m.icarus.Y
  · rw [if_pos hat, if_pos hat]
    by_cases hm : g.mCount > 0
    · have hr : g.Ready := h.resolve_left (by omega)
      obtain ⟨g1, e1, e2, e3⟩ := recordVictory_ready g m.StepsTaken hr
      rw [if_pos hm, e1]
      refine ⟨g1, rfl, Or.inr ?_⟩
      unfold MazeStats.Ready at hr ⊢
      rw [e2, e3]
      exact hr
    · rw [if_neg hm]
      exact ⟨g, rfl, h⟩
  · rw [if_neg hat, if_neg hat]
    exact ⟨g, rfl, h⟩

theorem moveIntoWith_eq
    (look : Maze → MazeStats → Option (MazeStats × Survey × Option GoError))
    (m : Maze) (g g1 : MazeStats) (wall : Survey → Bool) (x y : Int)
    (h : look m g = some (g1, m.LookAround)) :
    moveIntoWith look m g wall x y = some (g1, m.moveInto wall x y) := by
  unfold moveIntoWith Maze.moveInto
  rw [h]
  cases hl : m.LookAround with
  | mk s e =>
    cases e with
    | some e => rfl
    | none =>
      simp only
      by_cases hw : wall s = true
      · rw [if_pos hw, if_pos hw]
      · rw [if_neg hw, if_neg hw]
        cases m.GetRoom x y <;> rfl

theorem commands_move_inside
    (f : Maze → MazeStats → Option (MazeStats × Maze × Option GoError))
    (hf : f ∈ commands.moves) (m : Maze) (g : MazeStats) (h : g.Ready)
    (hin : (m.GetRoom m.icarus.X m.icarus.Y).isSome) :
    ∃ g1 m1 e, f m g = some (g1, m1, e) ∧ g1.Ready ∧ m1.rooms = m.rooms ∧
      (m1.GetRoom m1.icarus.X m1.icarus.Y).isSome := by
  obtain ⟨gc, hc, rc⟩ := look_commands m g h
  simp only [commands.moves, List.mem_cons, List.mem_singleton, List.not_mem_nil,
    or_false] at hf
  rcases hf with h1 | h1 | h1 | h1 <;> subst h1 <;>
    exact ⟨gc, _, _, moveIntoWith_eq _ m g gc _ _ _ hc, rc, moveInto_inside m _ _ _ hin⟩

theorem ztest_move_inside
    (f : Maze → MazeStats → Option (MazeStats × Maze × Option GoError))
    (hf : f ∈ ztest.moves) (m : Maze) (g : MazeStats) (h : g.mCount = 0 ∨ g.Ready)
    (hin : (m.GetRoom m.icarus.X m.icarus.Y).isSome) :
    ∃ g1 m1 e, f m g = some (g1, m1, e) ∧ (g1.mCount = 0 ∨ g1.Ready) ∧ m1.rooms = m.rooms ∧
      (m1.GetRoom m1.icarus.X m1.icarus.Y).isSome := by
  obtain ⟨gz, hz, rz⟩ := look_ztest m g h
  simp only [ztest.moves, List.mem_cons, List.mem_singleton, List.not_mem_nil,
    or_false] at hf
  rcases hf with h1 | h1 | h1 | h1 <;> subst h1 <;>
    exact ⟨gz, _, _, moveIntoWith_eq _ m g gz _ _ _ hz, rz, moveInto_inside m _ _ _ hin⟩

theorem runMoves_inside (P : MazeStats → Prop)
    (fs : List (Maze → MazeStats → Option (MazeStats × Maze × Option GoError)))
    (hfs : ∀ f ∈ fs, ∀ (m : Maze) (g : MazeStats), P g →
      (m.GetRoom m.icarus.X m.icarus.Y).isSome →
      ∃ g1 m1 e, f m g = some (g1, m1, e) ∧ P g1 ∧ m1.rooms = m.rooms ∧
        (m1.GetRoom m1.icarus.X m1.icarus.Y).isSome)
    (m : Maze) (g : MazeStats) (h : P g)
    (hin : (m.GetRoom m.icarus.X m.icarus.Y).isSome) :
    ∃ g1 m1, runMoves fs m g = some (g1, m1) ∧ m1.rooms = m.rooms ∧
      (m1.GetRoom m1.icarus.X m1.icarus.Y).isSome := by
  induction fs generalizing m g with
  | nil => exact ⟨g, m, rfl, rfl, hin⟩
  | cons f rest ih =>
    obtain ⟨g1, m1, e, e1, r1, q1, i1⟩ := hfs f (List.mem_cons_self _ _) m g h hin
    obtain ⟨g2, m2, e2, q2, i2⟩ :=
      ih (fun f hf => hfs f (List.mem_cons_of_mem _ hf)) m1 g1 r1 i1
    refine ⟨g2, m2, ?_, q2.trans q1, i2⟩
    unfold runMoves
    rw [e1]
    exact e2

theorem moveWith_blocked
    (look : Maze → MazeStats → Option (MazeStats × Survey × Option GoError))
    (m : Maze) (g g1 : MazeStats) (wall : Survey → Bool) (x y : Int) (r : Room)
    (hlook : look m g = some (g1, m.LookAround))
    (hin : m.GetRoom m.icarus.X m.icarus.Y = some r)
    (h : wall r.Walls = true ∨ m.GetRoom x y = none) :
    ∃ e, moveIntoWith look m g wall x y = some (g1, m, some e) := by
  rw [moveIntoWith_eq look m g g1 wall x y hlook]
  obtain ⟨h1, h2⟩ := moveInto_blocked m wall x y r hin h
  obtain ⟨e, he⟩ := Option.ne_none_iff_exists.mp h1
  refine ⟨e, ?_⟩
  have : m.moveInto wall x y = ((m.moveInto wall x y).1, (m.moveInto wall x y).2) := rfl
  rw [this, h2, ← he]

theorem getMaze_batches (s : MazeStats) (h : s.Batches) :
    (getMaze s).1.Batches ∧ (getMaze s).1.Ready := by
  unfold MazeStats.Batches at h
  unfold getMaze
  by_cases h0 : s.mCount % 100 = 0
  · rw [if_pos h0]
    simp only [MazeStats.Batches, MazeStats.Ready, List.length_append, List.length_singleton]
    rw [h, tdiv_index]
    constructor
    · omega
    · have : s.mCount + 1 - 1 = s.mCount := by omega
      rw [this]
      push_cast
      omega
  · rw [if_neg h0]
    simp only [MazeStats.Batches, MazeStats.Ready]
    rw [h, tdiv_index]
    constructor
    · omega
    · have : s.mCount + 1 - 1 = s.mCount := by omega
      rw [this]
      push_cast
      omega

theorem wrapInt_32 (z : Int) : wrapInt 32 z = (z + 2147483648) % 4294967296 - 2147483648 := by
  unfold wrapInt
  norm_num

theorem wrapInt_64 (z : Int) :
    wrapInt 64 z = (z + 9223372036854775808) % 18446744073709551616 - 9223372036854775808 := by
  unfold wrapInt
  norm_num

theorem isInt_32 (z : Int) : IsInt 32 z ↔ -2147483648 ≤ z ∧ z < 2147483648 := by
  unfold IsInt
  norm_num

theorem isInt_64 (z : Int) :
    IsInt 64 z ↔ -9223372036854775808 ≤ z ∧ z < 9223372036854775808 := by
  unfold IsInt
  norm_num

/-- The facts about wrapping used below, for both sizes of `int`. -/
theorem wrapInt_facts (bits : Nat) (hbits : bits = 32 ∨ bits = 64) (a b : Int)
    (ha : IsInt bits a) (hb : IsInt bits b) :
    (IsInt bits (b - a) → wrapInt bits (b - a) = b - a) ∧
    (∀ k : Int, (k = 1 ∨ k = 0 ∨ k = -1) →
      (wrapInt bits (b - a) = k ↔ b = wrapInt bits (a + k)) ∧ IsInt bits (wrapInt bits (a + k)) ∧
      (IsInt bits (a + k) → wrapInt bits (a + k) = a + k)) := by
  rcases hbits with h | h <;> subst h
  · simp only [wrapInt_32, isInt_32] at ha hb ⊢
    refine ⟨fun h => by omega, fun k hk => ?_⟩
    rcases hk with hk | hk | hk <;> subst hk <;> refine ⟨?_, ?_, ?_⟩ <;> omega
  · simp only [wrapInt_64, isInt_64] at ha hb ⊢
    refine ⟨fun h => by omega, fun k hk => ?_⟩
    rcases hk with hk | hk | hk <;> subst hk <;> refine ⟨?_, ?_, ?_⟩ <;> omega

theorem direction_of_differences (dx dy : Int) :
    ((if dx = 1 ∧ dy = 0 then E else if dx = -1 ∧ dy = 0 then W
      else if dx = 0 ∧ dy = 1 then S else if dx = 0 ∧ dy = -1 then N else 0) = N ↔
        dx = 0 ∧ dy = -1) ∧
    ((if dx = 1 ∧ dy = 0 then E else if dx = -1 ∧ dy = 0 then W
      else if dx = 0 ∧ dy = 1 then S else if dx = 0 ∧ dy = -1 then N else 0) = S ↔
        dx = 0 ∧ dy = 1) ∧
    ((if dx = 1 ∧ dy = 0 then E else if dx = -1 ∧ dy = 0 then W
      else if dx = 0 ∧ dy = 1 then S else if dx = 0 ∧ dy = -1 then N else 0) = E ↔
        dx = 1 ∧ dy = 0) ∧
    ((if dx = 1 ∧ dy = 0 then E else if dx = -1 ∧ dy = 0 then W
      else if dx = 0 ∧ dy = 1 then S else if dx = 0 ∧ dy = -1 then N else 0) = W ↔
        dx = -1 ∧ dy = 0) := by
  unfold N S E W
  refine ⟨?_, ?_, ?_, ?_⟩ <;> split_ifs <;> omega

theorem directionToMoveInt_spec (bits : Nat) (hbits : bits = 32 ∨ bits = 64) (c n : Coordinate)
    (hc : IsInt bits c.X ∧ IsInt bits c.Y) (hn : IsInt bits n.X ∧ IsInt bits n.Y) :
    (∀ d, d = N ∨ d = S ∨ d = E ∨ d = W →
      (directionToMoveInt bits c n = d ↔ n = neighbourInt bits c d)) ∧
    ((∀ d, d = N ∨ d = S ∨ d = E ∨ d = W → n ≠ neighbourInt bits c d) →
      directionToMoveInt bits c n = 0) := by
  obtain ⟨cx, cy⟩ := c
  obtain ⟨nx, ny⟩ := n
  simp only at hc hn
  obtain ⟨_, fx⟩ := wrapInt_facts bits hbits cx nx hc.1 hn.1
  obtain ⟨_, fy⟩ := wrapInt_facts bits hbits cy ny hc.2 hn.2
  have x1 := (fx 1 (Or.inl rfl)).1
  have x0 := (fx 0 (Or.inr (Or.inl rfl))).1
  have xm := (fx (-1) (Or.inr (Or.inr rfl))).1
  have y1 := (fy 1 (Or.inl rfl)).1
  have y0 := (fy 0 (Or.inr (Or.inl rfl))).1
  have ym := (fy (-1) (Or.inr (Or.inr rfl))).1
  obtain ⟨dN, dS, dE, dW⟩ := delta_values
  have eN : (⟨nx, ny⟩ : Coordinate) = neighbourInt bits ⟨cx, cy⟩ N ↔
      wrapInt bits (nx - cx) = 0 ∧ wrapInt bits (ny - cy) = -1 := by
    unfold neighbourInt
    rw [dN, Coordinate.mk.injEq, x0, ym]
  have eS : (⟨nx, ny⟩ : Coordinate) = neighbourInt bits ⟨cx, cy⟩ S ↔
      wrapInt bits (nx - cx) = 0 ∧ wrapInt bits (ny - cy) = 1 := by
    unfold neighbourInt
    rw [dS, Coordinate.mk.injEq, x0, y1]
  have eE : (⟨nx, ny⟩ : Coordinate) = neighbourInt bits ⟨cx, cy⟩ E ↔
      wrapInt bits (nx - cx) = 1 ∧ wrapInt bits (ny - cy) = 0 := by
    unfold neighbourInt
    rw [dE, Coordinate.mk.injEq, x1, y0]
  have eW : (⟨nx, ny⟩ : Coordinate) = neighbourInt bits ⟨cx, cy⟩ W ↔
      wrapInt bits (nx - cx) = -1 ∧ wrapInt bits (ny - cy) = 0 := by
    unfold neighbourInt
    rw [dW, Coordinate.mk.injEq, xm, y0]
  obtain ⟨qN, qS, qE, qW⟩ :=
    direction_of_differences (wrapInt bits (nx - cx)) (wrapInt bits (ny - cy))
  unfold directionToMoveInt
  simp only []
  constructor
  · intro d hd
    rcases hd with h | h | h | h <;> subst h
    · rw [eN]; exact qN
    · rw [eS]; exact qS
    · rw [eE]; exact qE
    · rw [eW]; exact qW
  · intro h
    have h1 := h N (Or.inl rfl)
    have h2 := h S (Or.inr (Or.inl rfl))
    have h3 := h E (Or.inr (Or.inr (Or.inl rfl)))
    have h4 := h W (Or.inr (Or.inr (Or.inr rfl)))
    rw [Ne, eN] at h1
    rw [Ne, eS] at h2
    rw [Ne, eE] at h3
    rw [Ne, eW] at h4
    rw [if_neg h3, if_neg h4, if_neg h2, if_neg h1]

theorem updatePositionInt_spec (bits : Nat) (hbits : bits = 32 ∨ bits = 64) (c : Coordinate)
    (hc : IsInt bits c.X ∧ IsInt bits c.Y) (d : Int) :
    (d = N ∨ d = S ∨ d = E ∨ d = W →
      updatePositionInt bits c.X c.Y d = ((neighbourInt bits c d).X, (neighbourInt bits c d).Y) ∧
      IsInt bits (neighbourInt bits c d).X ∧ IsInt bits (neighbourInt bits c d).Y) ∧
    (¬ (d = N ∨ d = S ∨ d = E ∨ d = W) → updatePositionInt bits c.X c.Y d = (c.X, c.Y)) := by
  obtain ⟨_, fx⟩ := wrapInt_facts bits hbits c.X c.X hc.1 hc.1
  obtain ⟨_, fy⟩ := wrapInt_facts bits hbits c.Y c.Y hc.2 hc.2
  have x0 : wrapInt bits (c.X + 0) = c.X := by
    have := (fx 0 (Or.inr (Or.inl rfl))).2.2 (by rw [Int.add_zero]; exact hc.1)
    rw [this, Int.add_zero]
  have y0 : wrapInt bits (c.Y + 0) = c.Y := by
    have := (fy 0 (Or.inr (Or.inl rfl))).2.2 (by rw [Int.add_zero]; exact hc.2)
    rw [this, Int.add_zero]
  have ix1 := (fx 1 (Or.inl rfl)).2.1
  have ixm := (fx (-1) (Or.inr (Or.inr rfl))).2.1
  have iy1 := (fy 1 (Or.inl rfl)).2.1
  have iym := (fy (-1) (Or.inr (Or.inr rfl))).2.1
  obtain ⟨dN, dS, dE, dW⟩ := delta_values
  have hNS : N ≠ S := by decide
  have hNE : N ≠ E := by decide
  have hNW : N ≠ W := by decide
  have hSE : S ≠ E := by decide
  have hSW : S ≠ W := by decide
  have hEW : E ≠ W := by decide
  constructor
  · intro hd
    unfold updatePositionInt neighbourInt
    rcases hd with h | h | h | h <;> subst h
    · rw [if_pos rfl, dN]
      simp only []
      rw [x0]
      exact ⟨rfl, hc.1, iym⟩
    · rw [if_neg hNS.symm, if_pos rfl, dS]
      simp only []
      rw [x0]
      exact ⟨rfl, hc.1, iy1⟩
    · rw [if_neg hNE.symm, if_neg hSE.symm, if_pos rfl, dE]
      simp only []
      rw [y0]
      exact ⟨rfl, ix1, hc.2⟩
    · rw [if_neg hNW.symm, if_neg hSW.symm, if_neg hEW.symm, if_pos rfl, dW]
      simp only []
      rw [y0]
      exact ⟨rfl, ixm, hc.2⟩
  · intro hd
    unfold updatePositionInt
    rw [if_neg (fun h => hd (Or.inl h)), if_neg (fun h => hd (Or.inr (Or.inl h))),
      if_neg (fun h => hd (Or.inr (Or.inr (Or.inl h)))),
      if_neg (fun h => hd (Or.inr (Or.inr (Or.inr h))))]

theorem directionToMoveInt_exact (bits : Nat) (hbits : bits = 32 ∨ bits = 64) (c n : Coordinate)
    (hc : IsInt bits c.X ∧ IsInt bits c.Y) (hn : IsInt bits n.X ∧ IsInt bits n.Y)
    (hx : IsInt bits (n.X - c.X)) (hy : IsInt bits (n.Y - c.Y)) :
    directionToMoveInt bits c n = directionToMove c n := by
  obtain ⟨fx, _⟩ := wrapInt_facts bits hbits c.X n.X hc.1 hn.1
  obtain ⟨fy, _⟩ := wrapInt_facts bits hbits c.Y n.Y hc.2 hn.2
  unfold directionToMoveInt directionToMove
  rw [fx hx, fy hy]

theorem updatePositionInt_exact (bits : Nat) (hbits : bits = 32 ∨ bits = 64) (c : Coordinate)
    (hc : IsInt bits c.X ∧ IsInt bits c.Y)
    (hx1 : IsInt bits (c.X + 1)) (hx2 : IsInt bits (c.X + -1))
    (hy1 : IsInt bits (c.Y + 1)) (hy2 : IsInt bits (c.Y + -1)) (d : Int) :
    updatePositionInt bits c.X c.Y d = updatePosition c.X c.Y d := by
  obtain ⟨_, fx⟩ := wrapInt_facts bits hbits c.X c.X hc.1 hc.1
  obtain ⟨_, fy⟩ := wrapInt_facts bits hbits c.Y c.Y hc.2 hc.2
  have x1 := (fx 1 (Or.inl rfl)).2.2 hx1
  have xm := (fx (-1) (Or.inr (Or.inr rfl))).2.2 hx2
  have y1 := (fy 1 (Or.inl rfl)).2.2 hy1
  have ym := (fy (-1) (Or.inr (Or.inr rfl))).2.2 hy2
  unfold updatePositionInt updatePosition
  rw [Int.sub_eq_add_neg, Int.sub_eq_add_neg, x1, xm, y1, ym]

/-- For a candidate to the north or to the south the count of the code is the
count of the region. -/
theorem regionCount_north_south (b : bounds) (cx cy : Int) (p : Coordinate)
    (visited : GoMap Bool) (hp : p.Y = cy - 1 ∨ p.Y = cy + 1) :
    countUnvisited visited (scanRegion b cx cy p) = regionCount b cx cy p visited := by
  unfold regionCount
  rcases hp with h | h
  · have hr : scanRegion b cx cy p = (b.xmin, b.xmax, b.ymin, p.Y) := by
      unfold scanRegion
      simp only
      rw [if_pos (by omega)]
    rw [hr, countUnvisited_eq, if_pos h]
  · have hr : scanRegion b cx cy p = (b.xmin, b.xmax, p.Y, b.ymax) := by
      unfold scanRegion
      simp only
      rw [if_neg (by omega), if_pos (by omega)]
    rw [hr, countUnvisited_eq, if_neg (by omega), if_pos h]

theorem regionCount_corner :
    regionCount ⟨0, 0, 1, 1⟩ 0 0 ⟨1, 0⟩ [(⟨0, 0⟩, true)] = 2 ∧
      regionCount ⟨0, 0, 1, 1⟩ 0 0 ⟨0, 1⟩ [(⟨0, 0⟩, true)] = 2 := by
  constructor
  · have : regionCount ⟨0, 0, 1, 1⟩ 0 0 ⟨1, 0⟩ [(⟨0, 0⟩, true)] =
        cellsWhere (fun c => (GoMap.get? [(⟨0, 0⟩, true)] c).isNone) 1 1 0 1 := by
      unfold regionCount
      rw [if_neg (by decide), if_neg (by decide), if_pos (by decide)]
    rw [this, ← count_cells]
    decide
  · have : regionCount ⟨0, 0, 1, 1⟩ 0 0 ⟨0, 1⟩ [(⟨0, 0⟩, true)] =
        cellsWhere (fun c => (GoMap.get? [(⟨0, 0⟩, true)] c).isNone) 0 1 1 1 := by
      unfold regionCount
      rw [if_neg (by decide), if_pos (by decide)]
    rw [this, ← count_cells]
    decide

/-! # The claims -/

/-- C1 (as amended): for every graph that contains the source and every key of
the junction table, is closed under neighbours and whose edges join
grid-adjacent coordinates, and for every junction table with a key fewer than
1000000 steps from the source: `shortestPath` returns directions; starting at
the source and applying them one after another with `updatePosition`, every
coordinate reached is a graph neighbour of the previous one, and the last
coordinate reached is a key of the junction table. -/
theorem shortestPath_route_valid (ρ : RangeOrder) (hfair : ρ.Fair) (cx cy : Int)
    (g j : adjacencyMap) (hs : (⟨cx, cy⟩ : Coordinate) ∈ g.keys) (hg : GraphClosed g)
    (hgrid : GridEdges g) (hj : ∀ k ∈ j.keys, k ∈ g.keys)
    (hreach : ∃ k ∈ j.keys, ∃ L, L < infinity ∧ Walk g ⟨cx, cy⟩ k L) :
    ∃ dirs, shortestPath ρ cx cy g j = .ok dirs ∧
      IsRoute g ⟨cx, cy⟩ (positions ⟨cx, cy⟩ dirs) ∧
      endOf ⟨cx, cy⟩ (positions ⟨cx, cy⟩ dirs) ∈ j.keys := by
  obtain ⟨path, h1, h2, h3, _⟩ := shortestPath_spec ρ hfair cx cy g j hg hs hj hreach
  refine ⟨_, h1, ?_, ?_⟩
  · rw [positions_routeDirections g hgrid _ path h2]; exact h2
  · rw [positions_routeDirections g hgrid _ path h2]; exact h3

theorem shortestPath_route_valid_witness :
    shortestPath RangeOrder.id 0 1 squareGraph squareJunctions = .ok [N, E, S] ∧
      ∃ dirs, shortestPath RangeOrder.id 0 1 squareGraph squareJunctions = .ok dirs ∧
        IsRoute squareGraph ⟨0, 1⟩ (positions ⟨0, 1⟩ dirs) ∧
        endOf ⟨0, 1⟩ (positions ⟨0, 1⟩ dirs) ∈ squareJunctions.keys :=
  ⟨by decide, shortestPath_route_valid RangeOrder.id rangeOrder_id_fair 0 1 squareGraph
    squareJunctions (by decide) squareGraph_closed squareGraph_grid (by decide)
    ⟨⟨1, 1⟩, by decide, 3, by decide, squareGraph_walk⟩⟩

/-- C1, counterexample.  First input: the junction table has the reachable key
`(1, 1)` and a key `(5, 0)` that is no room of the graph; `shortestPath` panics
on the nil node of `(5, 0)`.  Second input: a corridor of 1000001 rooms whose
far end is the only junction key; it is reachable, but at 1000000 steps, the
value of `infinity`, and `shortestPath` returns 1000000 times the direction
`0`, which leaves the source in place, not on a junction key. -/
theorem shortestPath_route_invalid :
    ((⟨0, 1⟩ : Coordinate) ∈ squareGraph.keys ∧ GraphClosed squareGraph ∧ GridEdges squareGraph ∧
      (∃ k ∈ strayJunctions.keys, ∃ L, Walk squareGraph ⟨0, 1⟩ k L) ∧
      shortestPath RangeOrder.id 0 1 squareGraph strayJunctions = .error .nilDeref) ∧
    ((⟨0, 0⟩ : Coordinate) ∈ (lineGraph 1000000).keys ∧ GraphClosed (lineGraph 1000000) ∧
      GridEdges (lineGraph 1000000) ∧
      (∀ k ∈ (lineJunctions 1000000).keys, k ∈ (lineGraph 1000000).keys) ∧
      (∃ k ∈ (lineJunctions 1000000).keys, ∃ L, Walk (lineGraph 1000000) ⟨0, 0⟩ k L) ∧
      ∃ dirs, shortestPath RangeOrder.id 0 0 (lineGraph 1000000) (lineJunctions 1000000) = .ok dirs ∧
        endOf ⟨0, 0⟩ (positions ⟨0, 0⟩ dirs) ∉ (lineJunctions 1000000).keys) := by
  refine ⟨⟨by decide, squareGraph_closed, squareGraph_grid,
    ⟨⟨1, 1⟩, by decide, 3, squareGraph_walk⟩, by decide⟩, ?_⟩
  obtain ⟨h1, h2, h3, h4, h5⟩ := lineGraph_hypotheses 1000000
  refine ⟨h1, h2, h3, h4, h5, _,
    shortestPath_lineGraph RangeOrder.id rangeOrder_id_fair 1000000 (le_refl _), ?_⟩
  rw [positions_replicate_zero, endOf_replicate, lineJunctions_keys, List.mem_singleton]
  intro h
  have := congrArg Coordinate.X h
  simp at this

/-- C2 (as amended): for every graph that contains the source and every key of
the junction table and is closed under neighbours, and for every junction table
with a key fewer than 1000000 steps from the source, whatever order the maps
are iterated in: the number of directions returned by `shortestPath` is the
minimum, over the keys of the junction table, of the number of steps of a walk
from the source in the graph. -/
theorem shortestPath_length_minimal (ρ : RangeOrder) (hfair : ρ.Fair) (cx cy : Int)
    (g j : adjacencyMap) (hs : (⟨cx, cy⟩ : Coordinate) ∈ g.keys) (hg : GraphClosed g)
    (hj : ∀ k ∈ j.keys, k ∈ g.keys)
    (hreach : ∃ k ∈ j.keys, ∃ L, L < infinity ∧ Walk g ⟨cx, cy⟩ k L) :
    ∃ dirs, shortestPath ρ cx cy g j = .ok dirs ∧
      (∃ k ∈ j.keys, Walk g ⟨cx, cy⟩ k dirs.length) ∧
      ∀ k ∈ j.keys, ∀ L, Walk g ⟨cx, cy⟩ k L → dirs.length ≤ L := by
  obtain ⟨path, h1, h2, h3, h4⟩ := shortestPath_spec ρ hfair cx cy g j hg hs hj hreach
  refine ⟨_, h1, ⟨_, h3, ?_⟩, ?_⟩
  · rw [length_routeDirections]
    have := isRoute_walk g ⟨cx, cy⟩ ⟨cx, cy⟩ 0 (Walk.nil _) path h2
    rwa [Nat.zero_add] at this
  · rw [length_routeDirections]; exact h4

theorem shortestPath_length_minimal_witness :
    ∃ dirs, shortestPath RangeOrder.id 0 1 squareGraph squareJunctions = .ok dirs ∧
      (∃ k ∈ squareJunctions.keys, Walk squareGraph ⟨0, 1⟩ k dirs.length) ∧
      ∀ k ∈ squareJunctions.keys, ∀ L, Walk squareGraph ⟨0, 1⟩ k L → dirs.length ≤ L :=
  shortestPath_length_minimal RangeOrder.id rangeOrder_id_fair 0 1 squareGraph
    squareJunctions (by decide) squareGraph_closed (by decide)
    ⟨⟨1, 1⟩, by decide, 3, by decide, squareGraph_walk⟩

/-- C2, counterexample.  First input: the graph lists the neighbour `(0, 1)` of
the source without an entry for it, and `shortestPath` panics on its nil node
although the junction key `(1, 0)` is one step away.  Second input: a junction
key that is no room of the graph, next to a reachable one; `shortestPath`
panics.  Third input: a corridor of 1000002 rooms whose far end is the only
junction key, 1000001 steps away; `shortestPath` returns 1000000 directions. -/
theorem shortestPath_length_not_minimal :
    ((⟨0, 0⟩ : Coordinate) ∈ openGraph.keys ∧
      (∃ k ∈ openJunctions.keys, Walk openGraph ⟨0, 0⟩ k 1) ∧
      shortestPath RangeOrder.id 0 0 openGraph openJunctions = .error .nilDeref) ∧
    ((⟨0, 0⟩ : Coordinate) ∈ squareGraph.keys ∧
      (∃ k ∈ strayJunctions.keys, Walk squareGraph ⟨0, 0⟩ k 2) ∧
      shortestPath RangeOrder.id 0 0 squareGraph strayJunctions = .error .nilDeref) ∧
    ((⟨0, 0⟩ : Coordinate) ∈ (lineGraph 1000001).keys ∧ GraphClosed (lineGraph 1000001) ∧
      (∀ k ∈ (lineJunctions 1000001).keys, k ∈ (lineGraph 1000001).keys) ∧
      (∃ k ∈ (lineJunctions 1000001).keys, Walk (lineGraph 1000001) ⟨0, 0⟩ k 1000001) ∧
      (∀ k ∈ (lineJunctions 1000001).keys, ∀ L, Walk (lineGraph 1000001) ⟨0, 0⟩ k L →
        1000001 ≤ L) ∧
      ∃ dirs, shortestPath RangeOrder.id 0 0 (lineGraph 1000001) (lineJunctions 1000001) = .ok dirs ∧
        dirs.length = 1000000) := by
  refine ⟨⟨by decide, ⟨⟨1, 0⟩, by decide, Walk.snoc (Walk.nil _) (by decide)⟩, by decide⟩,
    ⟨by decide, ⟨⟨1, 1⟩, by decide,
      Walk.snoc (Walk.snoc (Walk.nil _) (by decide : (⟨1, 0⟩ : Coordinate) ∈ _)) (by decide)⟩,
      by decide⟩, ?_⟩
  obtain ⟨h1, h2, _, h4, _⟩ := lineGraph_hypotheses 1000001
  refine ⟨h1, h2, h4, ⟨_, by rw [lineJunctions_keys]; exact List.mem_singleton_self _,
    lineGraph_walk 1000001 1000001 (le_refl _)⟩, ?_, _,
    shortestPath_lineGraph RangeOrder.id rangeOrder_id_fair 1000001 (by decide), ?_⟩
  · intro k hk L hw
    rw [lineJunctions_keys, List.mem_singleton] at hk
    have := lineGraph_walk_le 1000001 hw
    rw [hk] at this
    simp only at this
    omega
  · rw [List.length_replicate]; rfl

/-- C3 (as amended): for every rectangular maze of at most 1000001 rooms, with the
start and the treasure in different rooms, whose walls are consistent (a wall
between two rooms is reported by both) and whose perimeter is closed, in which
the treasure room is reachable from the start room, and for every outcome of
`Shuffle` and every order of the map ranges: when `FindTreasure` runs in the
trial loop against that maze, there is a number `n` of iterations after which
the solver has left its loop and closed `steps`, the last reply handed to it
being the victory reply, and the loop never counts more than `n` commands. -/
theorem findTreasure_finds_treasure (m : Maze) (choices : Nat → Choice)
    (hwf : m.WellFormed) (hwalls : m.ConsistentWalls) (hreach : Passable m.walls m.treasure)
    (hsmall : m.Width.toNat * m.Height.toNat ≤ infinity + 1)
    (hfair : ∀ i, (choices i).Fair) :
    ∃ n, (trialRun choices n (trialStart (choices 0) m)).solver.ctl = .closed ∧
      (trialRun choices n (trialStart (choices 0) m)).maze.reply.Err = some .ErrVictory ∧
      ∀ k, (trialRun choices k (trialStart (choices 0) m)).currentCount ≤ n := by
  obtain ⟨n, h1, h2⟩ := atTop_victory m hwf hwalls hreach hsmall choices hfair _ _ _ _
    (atTop_start m hwf (choices 0) (hfair 0)) (Nat.le_refl _)
  refine ⟨n, h1, h2, ?_⟩
  intro k
  have hstop : send (trialRun choices n (trialStart (choices 0) m)).solver = none := by
    unfold send
    rw [h1]
  have h0 : (trialStart (choices 0) m).currentCount = 0 := rfl
  by_cases hk : k ≤ n
  · have := trialRun_count choices k (trialStart (choices 0) m)
    omega
  · have hkn : k = n + (k - n) := by omega
    rw [hkn, trialRun_add, trialRun_stop choices _ hstop]
    have := trialRun_count choices n (trialStart (choices 0) m)
    omega

theorem findTreasure_finds_treasure_witness :
    twoRooms.WellFormed ∧ twoRooms.ConsistentWalls ∧ Passable twoRooms.walls twoRooms.treasure ∧
      twoRooms.Width.toNat * twoRooms.Height.toNat ≤ infinity + 1 ∧
      (∀ i : Nat, ((fun _ => Choice.id) i : Choice).Fair) ∧
      ∃ n, (trialRun (fun _ => Choice.id) n (trialStart Choice.id twoRooms)).solver.ctl = .closed ∧
        (trialRun (fun _ => Choice.id) n (trialStart Choice.id twoRooms)).maze.reply.Err
          = some .ErrVictory ∧
        ∀ k, (trialRun (fun _ => Choice.id) k (trialStart Choice.id twoRooms)).currentCount ≤ n :=
  ⟨twoRooms_wellFormed, twoRooms_walls, twoRooms_passable, twoRooms_small,
    fun _ => choice_id_fair,
    findTreasure_finds_treasure twoRooms (fun _ => Choice.id) twoRooms_wellFormed twoRooms_walls
      twoRooms_passable twoRooms_small (fun _ => choice_id_fair)⟩

/-- C3, counterexample: a corridor of 1000002 rooms in one row, the treasure in
the leftmost room and the start in the room next to it.  The walls are
consistent, the perimeter is closed and the treasure is one step west of the
start.  When `Shuffle` puts the east first, the solver walks the 1000000 rooms
east of the start; at the dead end the one junction, the start room, is 1000000
steps away, which is the value of `infinity`: `shortestPath` finds no junction
nearer than `infinity`, and the loop building its route indexes the route out of
range.  The goroutine panics after 1000000 commands, and no iteration of the
trial loop hands out the victory reply. -/
theorem long_corridor_not_solved :
    (corridor 1000002).WellFormed ∧ (corridor 1000002).ConsistentWalls ∧
      Passable (corridor 1000002).walls (corridor 1000002).treasure ∧
      (∀ i : Nat, ((fun _ => Choice.id) i : Choice).Fair) ∧
      (trialRun (fun _ => Choice.id) 1000000 (trialStart Choice.id (corridor 1000002))).solver.ctl
        = .crashed .indexOutOfRange ∧
      ∀ k, (trialRun (fun _ => Choice.id) k (trialStart Choice.id (corridor 1000002))).maze.reply.Err
        ≠ some .ErrVictory := by
  have hn : infinity + 2 ≤ 1000002 := by unfold infinity; omega
  have hrun := corridor_never_solved 1000002 hn
  have hsub : 1000002 - 2 = 1000000 := by omega
  rw [hsub] at hrun
  exact ⟨corridor_wellFormed 1000002 (by omega), corridor_consistent 1000002,
    corridor_passable 1000002 (by omega), fun _ => choice_id_fair, hrun⟩

/-- C6: when the reply read at the top of the loop carries `ErrVictory`, the
goroutine closes `steps` whatever its state: it is then in no state that sends,
and nothing it could still be handed changes that. -/
theorem victory_closes_steps (ch : Choice) (reply : MazeReply) (c : Config)
    (htop : c.ctl = .recvTop) (hv : reply.Err = some .ErrVictory) :
    (recv ch reply c).ctl = .closed ∧ send (recv ch reply c) = none ∧
      ∀ ch' reply', recv ch' reply' (recv ch reply c) = recv ch reply c := by
  have h : recv ch reply c = ⟨.closed, c.st⟩ := by simp [recv, htop, hv]
  rw [h]
  exact ⟨rfl, rfl, fun _ _ => rfl⟩

theorem victory_closes_steps_witness :
    initConfig.ctl = .recvTop ∧
      (recv Choice.id ⟨default, some .ErrVictory⟩ initConfig).ctl = .closed ∧
      send (recv Choice.id ⟨default, some .ErrVictory⟩ initConfig) = none :=
  ⟨rfl, (victory_closes_steps Choice.id ⟨default, some .ErrVictory⟩ initConfig rfl rfl).1,
    (victory_closes_steps Choice.id ⟨default, some .ErrVictory⟩ initConfig rfl rfl).2.1⟩

/-- C7: in every configuration a run of `FindTreasure` reaches (the initial one,
and the one after each survey step and its exploration move), every key of the
junction table maps to a non-empty list. -/
theorem junction_lists_nonempty {c : Config} {h : List Coordinate} (hrun : Run c h)
    (k : Coordinate) (paths : List Coordinate) (hk : c.st.junctions.get? k = some paths) :
    paths ≠ [] :=
  (run_inv hrun).table.nonempty k paths hk

theorem junction_lists_nonempty_witness :
    Run cornerConfig [⟨0, 0⟩] ∧ cornerConfig.st.junctions.get? ⟨0, 0⟩ = some [⟨1, 0⟩] ∧
      ([⟨1, 0⟩] : List Coordinate) ≠ [] :=
  ⟨cornerConfig_run, by decide,
    junction_lists_nonempty cornerConfig_run ⟨0, 0⟩ [⟨1, 0⟩] (by decide)⟩

/-- The junction table along a run: in every configuration a run of
`FindTreasure` reaches, so each time it is about to read a survey, at the top
of its loop or during a backtrack replay, no list in the junction table
contains a coordinate that is in the visited set, and every key of the
junction table is a visited coordinate; at the top of the loop, after a forward
move or after the move that ends a backtrack, no list contains the current
position; and during a backtrack replay no list contains the current position
as long as the graph holds at most `infinity + 1`, that is 1000001,
coordinates, the size up to which `shortestPath` finds the junctions. -/
theorem junction_table_invariant {c : Config} {h : List Coordinate} (hrun : Run c h) :
    (∀ k l, c.st.junctions.get? k = some l →
      (∀ p ∈ l, isVisited c.st.visited p = false) ∧ isVisited c.st.visited k = true) ∧
    (c.ctl = .recvTop → ∀ k l, c.st.junctions.get? k = some l → c.st.pos ∉ l) ∧
    (∀ rest, c.ctl = .recvBack rest → c.st.graph.keys.length ≤ infinity + 1 →
      ∀ k l, c.st.junctions.get? k = some l → c.st.pos ∉ l) := by
  have inv := run_inv hrun
  refine ⟨fun k l hl => ⟨inv.table.fresh k l hl, inv.table.keys k l hl⟩, ?_,
    fun rest hctl hsmall => replay_not_listed hrun rest hctl hsmall⟩
  intro htop k l hl hmem
  have h1 := inv.table.fresh k l hl _ hmem
  rw [(inv.atTop htop).1] at h1
  exact absurd h1 (by decide)

set_option maxRecDepth 100000 in
theorem junction_table_invariant_witness :
    (Run (afterSend cornerConfig) [⟨0, 0⟩] ∧ (afterSend cornerConfig).ctl = .recvTop ∧
      (afterSend cornerConfig).st.junctions = [(⟨0, 0⟩, [⟨1, 0⟩])] ∧
      ∀ k l, (afterSend cornerConfig).st.junctions.get? k = some l →
        (afterSend cornerConfig).st.pos ∉ l) ∧
    (Run backConfig [⟨0, 1⟩, ⟨0, 0⟩] ∧ backConfig.ctl = .recvBack [] ∧
      backConfig.st.junctions = [(⟨0, 0⟩, [⟨1, 0⟩])] ∧
      backConfig.st.graph.keys.length ≤ infinity + 1 ∧
      (∀ k l, backConfig.st.junctions.get? k = some l →
        (∀ p ∈ l, isVisited backConfig.st.visited p = false) ∧
          isVisited backConfig.st.visited k = true) ∧
      ∀ k l, backConfig.st.junctions.get? k = some l → backConfig.st.pos ∉ l) :=
  ⟨⟨run_afterSend cornerConfig_run, by decide, by decide,
      (junction_table_invariant (run_afterSend cornerConfig_run)).2.1 (by decide)⟩,
    backConfig_run, by decide, by decide, by decide,
      (junction_table_invariant backConfig_run).1,
      (junction_table_invariant backConfig_run).2.2 [] (by decide) (by decide)⟩

/-- C8, the failing input: a run in which a replay read finds the current
position in a junction list.  The solver is fed the surveys of a winding path with
one-way walls: from `(0, 0)` west along row 0 for 499998 rooms, south for two,
east along row 2 back to `(0, 2)`, where the north and the east side are open;
it goes north to `(0, 1)`, leaving `(1, 2)` in the list of the junction
`(0, 2)`, then east to `(1, 1)`, a dead end.  The room `(0, 1)` reports its
north side, to `(0, 0)`, open, so `(0, 0)` is two steps from the dead end, and
the junction `(0, 2)` is 1000000 steps from it, the value of `infinity`:
`shortestPath` finds no junction nearer than `infinity` and builds its route
from the zero-valued junction `(0, 0)`, 999998 zero coordinates followed by
`(0, 1)` and `(0, 0)`.  Its directions are 999998 times `0`, then `S` and `N`.
After the replay of `S` from `(1, 1)` the solver takes itself to be at
`(1, 2)` and reads a reply there: an unvisited coordinate, in the list of the
junction `(0, 2)`. -/
theorem replay_reads_at_listed_coordinate :
    ∃ c h, Run c h ∧ c.ctl = .recvBack [N] ∧ c.st.pos = ⟨1, 2⟩ ∧
      isVisited c.st.visited ⟨1, 2⟩ = false ∧
      c.st.junctions.get? ⟨0, 2⟩ = some [⟨1, 2⟩] ∧
      ∃ k l, c.st.junctions.get? k = some l ∧ c.st.pos ∈ l := by
  obtain ⟨c, h, h1, h2, h3, h4, h5⟩ :=
    snake_replay 499998 (by omega) (by unfold infinity; omega)
  exact ⟨c, h, h1, h2, h3, h4, h5, ⟨0, 2⟩, [⟨1, 2⟩], h5, by rw [h3]; exact List.mem_singleton.mpr rfl⟩

/-- C9: along a run the visited set only grows (a receive leaves it as it is, a
send adds to it), the command of an exploration move leads from the coordinate
the survey was taken at to a coordinate that is not visited at that moment,
and the coordinates whose survey was processed are pairwise different. -/
theorem visited_grows_and_moves_are_fresh {c : Config} {h : List Coordinate} (hrun : Run c h) :
    h.Nodup ∧
      (∀ d, c.ctl = .sendNext d → isVisited c.st.visited c.st.pos = false) ∧
      (∀ ch reply, (recv ch reply c).st.visited = c.st.visited) ∧
      (∀ d c' p, send c = some (d, c') → isVisited c.st.visited p = true →
        isVisited c'.st.visited p = true) ∧
      (∀ ch reply d, c.ctl ≠ .sendNext d → (recv ch reply c).ctl = .sendNext d →
        ((recv ch reply c).st.cx, (recv ch reply c).st.cy) =
          updatePosition c.st.cx c.st.cy d) := by
  have inv := run_inv hrun
  refine ⟨inv.nodup, fun d hd => (inv.atNext d hd).1, ?_, ?_, ?_⟩
  · intro ch reply
    unfold Mazelib.recv
    cases hctl : c.ctl with
    | recvTop =>
      simp only []
      split
      · rfl
      · simp only [chooseMove]
        have f := (recordSurvey_frame ch c.st reply.Survey).2.2.2
        split
        · split
          · exact f
          · exact f
          · rename_i dir rest _
            simp only [replayFrom]; exact f
        · simp only [moveTo]; exact f
    | recvBack rest =>
      simp only []
      cases rest with
      | cons d r => rfl
      | nil =>
        simp only [replayFrom]
        split <;> rfl
    | sendBack d rest => rfl
    | sendNext d => rfl
    | closed => rfl
    | crashed f => rfl
  · intro d c' p hs hp
    unfold Mazelib.send at hs
    cases hctl : c.ctl with
    | sendBack dir rest =>
      simp only [hctl, Option.some.injEq, Prod.mk.injEq] at hs
      obtain ⟨_, rfl⟩ := hs
      exact hp
    | sendNext dir =>
      simp only [hctl, Option.some.injEq, Prod.mk.injEq] at hs
      obtain ⟨_, rfl⟩ := hs
      simp only [loopHead]
      rw [isVisited_set]; simp [hp]
    | recvTop => simp [hctl] at hs
    | recvBack rest => simp [hctl] at hs
    | closed => simp [hctl] at hs
    | crashed f => simp [hctl] at hs
  · intro ch reply d hne hd
    exact recv_sendNext_pos ch reply c d hne hd

theorem visited_grows_and_moves_are_fresh_witness :
    Run cornerConfig [⟨0, 0⟩] ∧ ([⟨0, 0⟩] : List Coordinate).Nodup ∧
      cornerConfig.ctl = .sendNext S ∧ isVisited cornerConfig.st.visited cornerConfig.st.pos = false :=
  ⟨cornerConfig_run, (visited_grows_and_moves_are_fresh cornerConfig_run).1, by decide,
    (visited_grows_and_moves_are_fresh cornerConfig_run).2.1 S (by decide)⟩

/-- C10 (as amended): when the surveys read at the top of the loop are those of
walls that are consistent, a coordinate `n` that is in the adjacency list of
`k` in `graph` at some point of a run is still in it at every later point. -/
theorem edges_kept_on_consistent_walls (w : Walls) (hw : w.Consistent) {c c' : Config}
    (hrun : StepsOn w initConfig c) (hlater : StepsOn w c c') (k n : Coordinate)
    (hn : n ∈ adjacent c.st.graph k) : n ∈ adjacent c'.st.graph k := by
  induction hlater with
  | refl => exact hn
  | @recv c1 ch reply hsteps hfair hfed ih =>
    have hopen := stepsOn_edgesOpen w hw (stepsOn_trans hrun hsteps) (edgesOpen_init w)
    exact recv_keeps_edges w ch reply c1 hopen hfed k n ih
  | send _ hsend ih =>
    rw [adjacent, send_graph hsend]; exact ih

theorem edges_kept_on_consistent_walls_witness :
    openWalls.Consistent ∧ StepsOn openWalls initConfig openConfig ∧
      StepsOn openWalls openConfig openConfig2 ∧
      (⟨0, 0⟩ : Coordinate) ∈ adjacent openConfig.st.graph openConfig.st.pos ∧
      (⟨0, 0⟩ : Coordinate) ∈ adjacent openConfig2.st.graph openConfig.st.pos :=
  ⟨openWalls_consistent, openConfig_stepsOn, openConfig2_stepsOn, by decide,
    edges_kept_on_consistent_walls openWalls openWalls_consistent openConfig_stepsOn
      openConfig2_stepsOn openConfig.st.pos ⟨0, 0⟩ (by decide)⟩

/-- C10, counterexample: the start room reports its east side open and the room
east of it then reports a wall on its west side; the edge from `(1, 0)` to
`(0, 0)`, present before that second survey, is gone after it. -/
theorem edge_removed_by_one_way_wall :
    Run oneWayConfig [⟨0, 0⟩] ∧ Run oneWayConfig2 [⟨1, 0⟩, ⟨0, 0⟩] ∧
      (⟨0, 0⟩ : Coordinate) ∈ adjacent oneWayConfig.st.graph ⟨1, 0⟩ ∧
      (⟨0, 0⟩ : Coordinate) ∉ adjacent oneWayConfig2.st.graph ⟨1, 0⟩ := by
  have h1 : Run oneWayConfig [⟨0, 0⟩] :=
    Run.send (d := E) (Run.recv Choice.id ⟨eastSurvey, none⟩ Run.init choice_id_fair) (by decide)
  exact ⟨h1, Run.recv Choice.id ⟨eastSurvey, none⟩ h1 choice_id_fair, by decide, by decide⟩

/-- C4, the failing input: in a graph of one room without passages, with an
empty junction table, no junction is reachable and `shortestPath` returns not
the empty sequence but 1000000 times the direction `0`. -/
theorem shortestPath_without_junction_not_empty :
    shortestPath RangeOrder.id 0 0 loneGraph [] = .ok (List.replicate infinity 0) ∧
      infinity = 1000000 ∧
      shortestPath RangeOrder.id 0 0 loneGraph [] ≠ .ok [] := by
  have h := shortestPath_loneGraph
  refine ⟨h, rfl, ?_⟩
  rw [h, replicate_infinity]
  intro h0
  exact List.cons_ne_nil _ _ (Except.ok.inj h0)

/-- C5, the failing input: the start room has a wall on every side, so all
reachable rooms are visited and the junction table is empty; after that survey
the solver does not close `steps`, it sends the command `0`. -/
theorem exhausted_maze_sends_zero :
    (recv Choice.id ⟨closedSurvey, none⟩ initConfig).ctl = .sendBack 0 (List.replicate 999999 0) ∧
      ∃ c', send (recv Choice.id ⟨closedSurvey, none⟩ initConfig) = some (0, c') := by
  have hr : recordSurvey Choice.id initConfig.st closedSurvey =
      (⟨0, 0, loneGraph, [], [(⟨0, 0⟩, true)], ⟨0, 0, 0, 0⟩, 1, 1⟩, []) := by decide
  have hc : (recv Choice.id ⟨closedSurvey, none⟩ initConfig).ctl =
      .sendBack 0 (List.replicate 999999 0) := by
    rw [recv_survey Choice.id ⟨closedSurvey, none⟩ initConfig rfl (by simp), hr]
    rw [chooseMove_deadEnd Choice.id _ 0 (List.replicate 999999 0)
      (by rw [← replicate_infinity]; exact shortestPath_loneGraph)]
    exact replayFrom_cons_ctl _ _ _ _
  refine ⟨hc, ?_⟩
  unfold Mazelib.send
  rw [hc]
  exact ⟨_, rfl⟩

/-- C11 (as amended): registering an edge is not idempotent, the surveyed
coordinate is appended to the list of each open neighbour whether it is there
or not; along every run of `FindTreasure` a coordinate `n` stands in the
adjacency list of `v` at most once for each of `v` and `n` that is surveyed, so
at most twice, and the list written for the coordinate being surveyed has no
coordinate twice. -/
theorem adjacency_lists_at_most_twice {c : Config} {h : List Coordinate} (hrun : Run c h) :
    (∀ v n, (adjacent c.st.graph v).count n ≤
      (if v ∈ h then 1 else 0) + (if n ∈ h then 1 else 0)) ∧
    (∀ v n, (adjacent c.st.graph v).count n ≤ 2) ∧
    (∀ ch reply, c.ctl = .recvTop → reply.Err ≠ some .ErrVictory →
      (adjacent (recv ch reply c).st.graph c.st.pos).Nodup) := by
  refine ⟨count_adjacent_le hrun, ?_, ?_⟩
  · intro v n
    have := count_adjacent_le hrun v n
    split at this <;> split at this <;> omega
  · intro ch reply htop hv
    rw [recv_graph, if_pos ⟨htop, hv⟩, recordSurvey_adjacent, if_pos rfl]
    exact scanned_nodup ch c.st reply.Survey

theorem adjacency_lists_at_most_twice_witness :
    Run openConfig2 [⟨0, 1⟩, ⟨0, 0⟩] ∧
      (adjacent openConfig2.st.graph ⟨0, 0⟩).count ⟨0, 1⟩ ≤ 2 ∧
      (adjacent openConfig2.st.graph ⟨0, 1⟩).count ⟨0, 2⟩ ≤
        (if (⟨0, 1⟩ : Coordinate) ∈ [(⟨0, 1⟩ : Coordinate), ⟨0, 0⟩] then 1 else 0) +
          (if (⟨0, 2⟩ : Coordinate) ∈ [(⟨0, 1⟩ : Coordinate), ⟨0, 0⟩] then 1 else 0) :=
  ⟨openConfig2_run, (adjacency_lists_at_most_twice openConfig2_run).2.1 ⟨0, 0⟩ ⟨0, 1⟩,
    (adjacency_lists_at_most_twice openConfig2_run).1 ⟨0, 1⟩ ⟨0, 2⟩⟩

/-- C11, counterexample: in a maze without inner walls the solver surveys the
start room, moves south and surveys `(0, 1)`; the second survey appends `(0, 1)`
to the list of `(0, 0)`, where the first survey has put it already. -/
theorem reverse_edge_registered_twice :
    openWalls.Consistent ∧ StepsOn openWalls initConfig openConfig2 ∧
      Run openConfig2 [⟨0, 1⟩, ⟨0, 0⟩] ∧
      adjacent openConfig2.st.graph ⟨0, 0⟩ = [⟨0, 1⟩, ⟨-1, 0⟩, ⟨1, 0⟩, ⟨0, -1⟩, ⟨0, 1⟩] ∧
      ¬ (adjacent openConfig2.st.graph ⟨0, 0⟩).Nodup :=
  ⟨openWalls_consistent, stepsOn_trans openConfig_stepsOn openConfig2_stepsOn, openConfig2_run,
    by decide, by decide⟩

/-- C12: when the surveys read at the top of the loop are those of walls that
are consistent, the graph is symmetric in every configuration `FindTreasure`
reaches: if `n` is in the adjacency list of `k`, then `k` is in the adjacency
list of `n`. -/
theorem graph_symmetric_on_consistent_walls (w : Walls) (hw : w.Consistent) {c : Config}
    (hs : StepsOn w initConfig c) :
    ∀ k n, n ∈ adjacent c.st.graph k → k ∈ adjacent c.st.graph n :=
  stepsOn_symm w hw hs (edgesOpen_init w)
    (fun k n hn => by simp [initConfig, loopHead, adjacent, GoMap.get?] at hn)

theorem graph_symmetric_on_consistent_walls_witness :
    openWalls.Consistent ∧ StepsOn openWalls initConfig openConfig2 ∧
      (⟨0, 2⟩ : Coordinate) ∈ adjacent openConfig2.st.graph ⟨0, 1⟩ ∧
      (⟨0, 1⟩ : Coordinate) ∈ adjacent openConfig2.st.graph ⟨0, 2⟩ :=
  ⟨openWalls_consistent, stepsOn_trans openConfig_stepsOn openConfig2_stepsOn, by decide,
    graph_symmetric_on_consistent_walls openWalls openWalls_consistent
      (stepsOn_trans openConfig_stepsOn openConfig2_stepsOn) ⟨0, 1⟩ ⟨0, 2⟩ (by decide)⟩

/-- C13: for every junction table `j` and coordinate `(cx, cy)`, when the range
of `cleanUpJunctions` visits every key of the table once: a key is present
afterwards iff it was present before and its old list has an element other than
`(cx, cy)`; the list of a remaining key is its old list without the occurrences
of `(cx, cy)`, in the original order; no key is added; and a second call with
the same coordinate, in whatever order, leaves the table it is given as it is. -/
theorem cleanUpJunctions_prunes (cx cy : Int) (order : List Coordinate) (j : adjacencyMap)
    (hfair : order.Perm j.keys) :
    (∀ k, k ∈ (cleanUpJunctions cx cy order j).keys ↔
      ∃ l, j.get? k = some l ∧ ∃ p ∈ l, p ≠ ⟨cx, cy⟩) ∧
    (∀ k l', (cleanUpJunctions cx cy order j).get? k = some l' →
      ∃ l, j.get? k = some l ∧ l' = l.filter (fun p => decide (p ≠ ⟨cx, cy⟩))) ∧
    (∀ k, k ∈ (cleanUpJunctions cx cy order j).keys → k ∈ j.keys) ∧
    (∀ order', cleanUpJunctions cx cy order' (cleanUpJunctions cx cy order j) =
      cleanUpJunctions cx cy order j) := by
  have hget := cleanUpJunctions_get?_fair cx cy order j hfair
  have hsome : ∀ k l', (cleanUpJunctions cx cy order j).get? k = some l' →
      ∃ l, j.get? k = some l ∧ l' = otherPaths cx cy l ∧ l' ≠ [] := by
    intro k l' hl'
    rw [hget] at hl'
    cases hk : j.get? k with
    | none => rw [hk] at hl'; simp [cleanEntry] at hl'
    | some l =>
      rw [hk] at hl'
      by_cases h0 : otherPaths cx cy l = []
      · simp [cleanEntry, h0] at hl'
      · simp only [cleanEntry, h0, if_false, Option.some.injEq] at hl'
        exact ⟨l, rfl, hl'.symm, by rw [← hl']; exact h0⟩
  refine ⟨?_, ?_, ?_, ?_⟩
  · intro k
    constructor
    · intro hk
      obtain ⟨l', hl'⟩ := get?_isSome_of_mem_keys hk
      obtain ⟨l, hl, heq, hne⟩ := hsome k l' hl'
      obtain ⟨p, hp⟩ := List.exists_mem_of_ne_nil l' hne
      rw [heq, mem_otherPaths] at hp
      exact ⟨l, hl, p, hp.1, hp.2⟩
    · rintro ⟨l, hl, p, hp, hne⟩
      obtain ⟨l', hl', _⟩ := cleanEntry_keep cx cy hp hne
      exact mem_keys_of_get? (by rw [hget, hl]; exact hl')
  · intro k l' hl'
    obtain ⟨l, hl, heq, _⟩ := hsome k l' hl'
    exact ⟨l, hl, by rw [heq, otherPaths_eq_filter]⟩
  · intro k hk
    obtain ⟨l', hl'⟩ := get?_isSome_of_mem_keys hk
    obtain ⟨l, hl, _, _⟩ := hsome k l' hl'
    exact mem_keys_of_get? hl
  · intro order'
    apply cleanUpJunctions_clean
    intro k l' hl'
    obtain ⟨l, _, heq, hne⟩ := hsome k l' hl'
    exact ⟨hne, by rw [heq, otherPaths_idem]⟩

theorem cleanUpJunctions_prunes_witness :
    ([⟨0, 0⟩, ⟨2, 0⟩] : List Coordinate).Perm
        (GoMap.keys ([(⟨0, 0⟩, [⟨1, 0⟩, ⟨0, 1⟩, ⟨1, 0⟩]), (⟨2, 0⟩, [⟨1, 0⟩])] : adjacencyMap)) ∧
      cleanUpJunctions 1 0 [⟨0, 0⟩, ⟨2, 0⟩]
        [(⟨0, 0⟩, [⟨1, 0⟩, ⟨0, 1⟩, ⟨1, 0⟩]), (⟨2, 0⟩, [⟨1, 0⟩])] = [(⟨0, 0⟩, [⟨0, 1⟩])] ∧
      cleanUpJunctions 1 0 [] (cleanUpJunctions 1 0 [⟨0, 0⟩, ⟨2, 0⟩]
        [(⟨0, 0⟩, [⟨1, 0⟩, ⟨0, 1⟩, ⟨1, 0⟩]), (⟨2, 0⟩, [⟨1, 0⟩])]) =
        cleanUpJunctions 1 0 [⟨0, 0⟩, ⟨2, 0⟩]
          [(⟨0, 0⟩, [⟨1, 0⟩, ⟨0, 1⟩, ⟨1, 0⟩]), (⟨2, 0⟩, [⟨1, 0⟩])] :=
  ⟨by decide, by decide,
    (cleanUpJunctions_prunes 1 0 [⟨0, 0⟩, ⟨2, 0⟩]
      [(⟨0, 0⟩, [⟨1, 0⟩, ⟨0, 1⟩, ⟨1, 0⟩]), (⟨2, 0⟩, [⟨1, 0⟩])] (by decide)).2.2.2 []⟩

/-- With the counts as `priortisePaths` computes them: for every list of at
least two candidates, the element at index 0 after the call is the candidate
whose computed count is largest, and among the candidates with the largest
computed count it is the one that came first in the input. -/
theorem priortisePaths_front_is_first_largest (b : bounds) (cx cy : Int)
    (paths : List Coordinate) (visited : GoMap Bool) (hlen : 2 ≤ paths.length) :
    ∃ i q, paths[i]? = some q ∧ (priortisePaths b cx cy paths visited)[0]? = some q ∧
      (∀ (j : Nat) p, paths[j]? = some p → countUnvisited visited (scanRegion b cx cy p) ≤
        countUnvisited visited (scanRegion b cx cy q)) ∧
      (∀ (j : Nat) p, j < i → paths[j]? = some p →
        countUnvisited visited (scanRegion b cx cy p) <
          countUnvisited visited (scanRegion b cx cy q)) := by
  obtain ⟨i, q, hi, hq, hsw, hmax, hfirst⟩ := priortisePaths_eq_swap b cx cy paths visited hlen
  refine ⟨i, q, hq, ?_, hmax, hfirst⟩
  rw [hsw, swapAt_getElem? paths 0 i 0 (by omega) hi]
  by_cases h : 0 = i
  · rw [if_pos h, ← hq, h]
  · rw [if_neg h, if_pos rfl, hq]

theorem priortisePaths_front_is_first_largest_witness :
    2 ≤ ([⟨0, -1⟩, ⟨-1, 0⟩, ⟨0, 1⟩] : List Coordinate).length ∧
      priortisePaths ⟨-1, -1, 0, 5⟩ 0 0 [⟨0, -1⟩, ⟨-1, 0⟩, ⟨0, 1⟩] [(⟨0, 0⟩, true)] =
        [⟨0, 1⟩, ⟨-1, 0⟩, ⟨0, -1⟩] ∧
      ([⟨0, -1⟩, ⟨-1, 0⟩, ⟨0, 1⟩] : List Coordinate).map
        (fun p => countUnvisited [(⟨0, 0⟩, true)] (scanRegion ⟨-1, -1, 0, 5⟩ 0 0 p)) =
          [2, 7, 10] ∧
      ∃ i q, ([⟨0, -1⟩, ⟨-1, 0⟩, ⟨0, 1⟩] : List Coordinate)[i]? = some q ∧
        (priortisePaths ⟨-1, -1, 0, 5⟩ 0 0 [⟨0, -1⟩, ⟨-1, 0⟩, ⟨0, 1⟩] [(⟨0, 0⟩, true)])[0]?
          = some q ∧
        (∀ (j : Nat) p, ([⟨0, -1⟩, ⟨-1, 0⟩, ⟨0, 1⟩] : List Coordinate)[j]? = some p →
          countUnvisited [(⟨0, 0⟩, true)] (scanRegion ⟨-1, -1, 0, 5⟩ 0 0 p) ≤
            countUnvisited [(⟨0, 0⟩, true)] (scanRegion ⟨-1, -1, 0, 5⟩ 0 0 q)) ∧
        (∀ (j : Nat) p, j < i → ([⟨0, -1⟩, ⟨-1, 0⟩, ⟨0, 1⟩] : List Coordinate)[j]? = some p →
          countUnvisited [(⟨0, 0⟩, true)] (scanRegion ⟨-1, -1, 0, 5⟩ 0 0 p) <
            countUnvisited [(⟨0, 0⟩, true)] (scanRegion ⟨-1, -1, 0, 5⟩ 0 0 q)) :=
  ⟨by decide, by decide, by decide,
    priortisePaths_front_is_first_largest ⟨-1, -1, 0, 5⟩ 0 0 [⟨0, -1⟩, ⟨-1, 0⟩, ⟨0, 1⟩]
      [(⟨0, 0⟩, true)] (by decide)⟩

/-- Among candidates to the north and to the south, `priortisePaths` puts
first the first of those whose region holds the most unvisited cells. -/
theorem front_is_first_largest_north_south (b : bounds) (cx cy : Int)
    (paths : List Coordinate) (visited : GoMap Bool) (hlen : 2 ≤ paths.length)
    (hns : ∀ p ∈ paths, p.Y = cy - 1 ∨ p.Y = cy + 1) :
    ∃ i q, paths[i]? = some q ∧ (priortisePaths b cx cy paths visited)[0]? = some q ∧
      (∀ (j : Nat) p, paths[j]? = some p →
        regionCount b cx cy p visited ≤ regionCount b cx cy q visited) ∧
      (∀ (j : Nat) p, j < i → paths[j]? = some p →
        regionCount b cx cy p visited < regionCount b cx cy q visited) := by
  obtain ⟨i, q, hq, hfront, hmax, hfirst⟩ :=
    priortisePaths_front_is_first_largest b cx cy paths visited hlen
  have hmem : ∀ (j : Nat) p, paths[j]? = some p → p ∈ paths :=
    fun j p h => List.getElem?_mem h
  refine ⟨i, q, hq, hfront, ?_, ?_⟩
  · intro j p hp
    rw [← regionCount_north_south b cx cy p visited (hns p (hmem j p hp)),
      ← regionCount_north_south b cx cy q visited (hns q (hmem i q hq))]
    exact hmax j p hp
  · intro j p hj hp
    rw [← regionCount_north_south b cx cy p visited (hns p (hmem j p hp)),
      ← regionCount_north_south b cx cy q visited (hns q (hmem i q hq))]
    exact hfirst j p hj hp

/-- C14, the failing input: at `(0, 0)` with only `(0, 0)` visited and the
boundary `x` in `0..1`, `y` in `0..1` (the first survey of a start room open to
the east and the south), the candidates are `(1, 0)` and `(0, 1)`, in this
order, both adjacent to `(0, 0)`.  The region of the east candidate, `1 ≤ x ≤ 1`,
`0 ≤ y ≤ 1`, and the region of the south candidate, `0 ≤ x ≤ 1`, `1 ≤ y ≤ 1`,
hold 2 unvisited cells each, so the east candidate is the first with the
largest count; `priortisePaths` puts the south candidate at index 0, the count
it computes for the east candidate being 0, and the solver goes south.  The
element at index 0 is not the first candidate with the largest
unexplored-region count. -/
theorem front_is_not_first_largest_region :
    (recordSurvey stillChoice initConfig.st cornerSurvey).2 = [⟨1, 0⟩, ⟨0, 1⟩] ∧
      (recordSurvey stillChoice initConfig.st cornerSurvey).1.boundary = ⟨0, 0, 1, 1⟩ ∧
      initConfig.st.visited = [(⟨0, 0⟩, true)] ∧
      2 ≤ ([⟨1, 0⟩, ⟨0, 1⟩] : List Coordinate).length ∧
      Adjacent ⟨0, 0⟩ ⟨1, 0⟩ ∧ Adjacent ⟨0, 0⟩ ⟨0, 1⟩ ∧
      regionCount ⟨0, 0, 1, 1⟩ 0 0 ⟨1, 0⟩ [(⟨0, 0⟩, true)] = 2 ∧
      regionCount ⟨0, 0, 1, 1⟩ 0 0 ⟨0, 1⟩ [(⟨0, 0⟩, true)] = 2 ∧
      countUnvisited [(⟨0, 0⟩, true)] (scanRegion ⟨0, 0, 1, 1⟩ 0 0 ⟨1, 0⟩) = 0 ∧
      priortisePaths ⟨0, 0, 1, 1⟩ 0 0 [⟨1, 0⟩, ⟨0, 1⟩] [(⟨0, 0⟩, true)] = [⟨0, 1⟩, ⟨1, 0⟩] ∧
      (recv stillChoice ⟨cornerSurvey, none⟩ initConfig).ctl = .sendNext S ∧
      ¬ ∃ i q, ([⟨1, 0⟩, ⟨0, 1⟩] : List Coordinate)[i]? = some q ∧
        (priortisePaths ⟨0, 0, 1, 1⟩ 0 0 [⟨1, 0⟩, ⟨0, 1⟩] [(⟨0, 0⟩, true)])[0]? = some q ∧
        (∀ (j : Nat) p, ([⟨1, 0⟩, ⟨0, 1⟩] : List Coordinate)[j]? = some p →
          regionCount ⟨0, 0, 1, 1⟩ 0 0 p [(⟨0, 0⟩, true)] ≤
            regionCount ⟨0, 0, 1, 1⟩ 0 0 q [(⟨0, 0⟩, true)]) ∧
        (∀ (j : Nat) p, j < i → ([⟨1, 0⟩, ⟨0, 1⟩] : List Coordinate)[j]? = some p →
          regionCount ⟨0, 0, 1, 1⟩ 0 0 p [(⟨0, 0⟩, true)] <
            regionCount ⟨0, 0, 1, 1⟩ 0 0 q [(⟨0, 0⟩, true)]) := by
  obtain ⟨r1, r2⟩ := regionCount_corner
  have hp : priortisePaths ⟨0, 0, 1, 1⟩ 0 0 [⟨1, 0⟩, ⟨0, 1⟩] [(⟨0, 0⟩, true)] =
      [⟨0, 1⟩, ⟨1, 0⟩] := by decide
  refine ⟨by decide, by decide, by decide, by decide, by decide, by decide, r1, r2, by decide, hp,
    by decide, ?_⟩
  rintro ⟨i, q, hi, hq, _, hfirst⟩
  rw [hp] at hq
  have hq' : q = ⟨0, 1⟩ := by
    simp only [List.getElem?_cons_zero, Option.some.injEq] at hq
    exact hq.symm
  subst hq'
  have hi1 : 0 < i := by
    rcases Nat.eq_zero_or_pos i with h | h
    · subst h
      simp only [List.getElem?_cons_zero, Option.some.injEq] at hi
      exact absurd hi (by decide)
    · exact h
  have := hfirst 0 ⟨1, 0⟩ hi1 rfl
  rw [r1, r2] at this
  exact absurd this (by decide)

/-- C15 (as amended): `priortisePaths` exchanges the candidate at index 0 with
the one it moves to the front, which stood at some index `i`: the candidate
that stood at index 0 takes the index `i`, and every other candidate keeps its
index.  So the candidates other than the one moved to the front keep their
relative input order when `i` is 0 or 1, in particular in every list of at most
two candidates. -/
theorem priortisePaths_rest_keeps_indices (b : bounds) (cx cy : Int) (paths : List Coordinate)
    (visited : GoMap Bool) :
    ∃ i, (i = 0 ∨ i < paths.length) ∧
      (priortisePaths b cx cy paths visited)[0]? = paths[i]? ∧
      (priortisePaths b cx cy paths visited)[i]? = paths[0]? ∧
      (∀ k : Nat, k ≠ 0 → k ≠ i → (priortisePaths b cx cy paths visited)[k]? = paths[k]?) ∧
      (i ≤ 1 → (priortisePaths b cx cy paths visited).tail = paths.eraseIdx i) := by
  obtain ⟨i, h1, _, h3, h4, h5, h6⟩ := priortisePaths_swap b cx cy paths visited
  exact ⟨i, h1, h3, h4, h5, h6⟩

/-- C15, counterexample: at `(0, 0)` with the candidates north, west and south,
in this order, the boundary `x` in `-1..0`, `y` in `-1..5` and only `(0, 0)`
visited, the counts are 2, 7 and 10: the south candidate is moved to the front
and the north candidate, which was first, takes its place behind the west
candidate.  The candidates other than the one moved to the front were in the
order north, west and are in the order west, north afterwards. -/
theorem priortisePaths_rest_reordered :
    ([⟨0, -1⟩, ⟨-1, 0⟩, ⟨0, 1⟩] : List Coordinate).Nodup ∧
      priortisePaths ⟨-1, -1, 0, 5⟩ 0 0 [⟨0, -1⟩, ⟨-1, 0⟩, ⟨0, 1⟩] [(⟨0, 0⟩, true)] =
        [⟨0, 1⟩, ⟨-1, 0⟩, ⟨0, -1⟩] ∧
      ([⟨0, -1⟩, ⟨-1, 0⟩, ⟨0, 1⟩] : List Coordinate).eraseIdx 2 = [⟨0, -1⟩, ⟨-1, 0⟩] ∧
      (priortisePaths ⟨-1, -1, 0, 5⟩ 0 0 [⟨0, -1⟩, ⟨-1, 0⟩, ⟨0, 1⟩] [(⟨0, 0⟩, true)]).tail =
        [⟨-1, 0⟩, ⟨0, -1⟩] ∧
      (priortisePaths ⟨-1, -1, 0, 5⟩ 0 0 [⟨0, -1⟩, ⟨-1, 0⟩, ⟨0, 1⟩] [(⟨0, 0⟩, true)]).tail ≠
        ([⟨0, -1⟩, ⟨-1, 0⟩, ⟨0, 1⟩] : List Coordinate).eraseIdx 2 := by
  decide

/-- C19: `priortisePaths` only reorders its candidates: the output is a
permutation of the input, it is the input when the list has fewer than two
elements, and in every case it is the input with the element at index 0 and the
element at one index `i` exchanged. -/
theorem priortisePaths_only_reorders (b : bounds) (cx cy : Int) (paths : List Coordinate)
    (visited : GoMap Bool) :
    (priortisePaths b cx cy paths visited).Perm paths ∧
    (paths.length < 2 → priortisePaths b cx cy paths visited = paths) ∧
    ∃ i, (priortisePaths b cx cy paths visited)[0]? = paths[i]? ∧
      (priortisePaths b cx cy paths visited)[i]? = paths[0]? ∧
      ∀ k : Nat, k ≠ 0 → k ≠ i → (priortisePaths b cx cy paths visited)[k]? = paths[k]? := by
  refine ⟨priortisePaths_perm b cx cy paths visited, ?_, ?_⟩
  · intro hlt
    unfold priortisePaths
    rw [if_pos hlt]
  · obtain ⟨i, _, _, h3, h4, h5, _⟩ := priortisePaths_swap b cx cy paths visited
    exact ⟨i, h3, h4, h5⟩

/-- C16: the count `priortisePaths` computes for a north candidate `p`
(`p.Y = cy - 1`) is the number of cells `(x, y)` with
`boundary.xmin ≤ x ≤ boundary.xmax` and `boundary.ymin ≤ y ≤ p.Y` that are no
key of the visited map, and for a south candidate (`p.Y = cy + 1`) the number
of such cells with `p.Y ≤ y ≤ boundary.ymax`; in a visited map that stores
`true` only, as the one of `FindTreasure` does, the cells that are no key are
those that read as not visited. -/
theorem north_south_region_counts (b : bounds) (cx cy : Int) (p : Coordinate)
    (visited : GoMap Bool) :
    (p.Y = cy - 1 → countUnvisited visited (scanRegion b cx cy p) =
      cellsWhere (fun c => (visited.get? c).isNone) b.xmin b.xmax b.ymin p.Y) ∧
    (p.Y = cy + 1 → countUnvisited visited (scanRegion b cx cy p) =
      cellsWhere (fun c => (visited.get? c).isNone) b.xmin b.xmax p.Y b.ymax) ∧
    ((∀ c v, visited.get? c = some v → v = true) →
      (fun c => (visited.get? c).isNone) = fun c => !isVisited visited c) ∧
    (∀ c h, Run c h → ∀ q v, c.st.visited.get? q = some v → v = true) := by
  refine ⟨?_, ?_, ?_, ?_⟩
  · intro hn
    have hr : scanRegion b cx cy p = (b.xmin, b.xmax, b.ymin, p.Y) := by
      unfold scanRegion
      simp only
      rw [if_pos (by omega)]
    rw [hr, countUnvisited_eq]
  · intro hs
    have hr : scanRegion b cx cy p = (b.xmin, b.xmax, p.Y, b.ymax) := by
      unfold scanRegion
      simp only
      rw [if_neg (by omega), if_pos (by omega)]
    rw [hr, countUnvisited_eq]
  · intro htrue
    funext c
    exact isNone_eq_not_isVisited visited htrue c
  · intro c h hrun
    exact run_visited_true hrun

theorem north_south_region_counts_witness :
    countUnvisited [(⟨0, 0⟩, true), (⟨0, 1⟩, true)] (scanRegion ⟨-1, -1, 1, 2⟩ 0 1 ⟨0, 0⟩) =
        cellsWhere (fun c => (GoMap.get? [(⟨0, 0⟩, true), (⟨0, 1⟩, true)] c).isNone)
          (-1) 1 (-1) 0 ∧
      countUnvisited [(⟨0, 0⟩, true), (⟨0, 1⟩, true)] (scanRegion ⟨-1, -1, 1, 2⟩ 0 1 ⟨0, 0⟩) = 5 ∧
      countUnvisited [(⟨0, 0⟩, true), (⟨0, 1⟩, true)] (scanRegion ⟨-1, -1, 1, 2⟩ 0 1 ⟨0, 2⟩) =
        cellsWhere (fun c => (GoMap.get? [(⟨0, 0⟩, true), (⟨0, 1⟩, true)] c).isNone)
          (-1) 1 2 2 ∧
      countUnvisited [(⟨0, 0⟩, true), (⟨0, 1⟩, true)] (scanRegion ⟨-1, -1, 1, 2⟩ 0 1 ⟨0, 2⟩) = 3 :=
  ⟨(north_south_region_counts ⟨-1, -1, 1, 2⟩ 0 1 ⟨0, 0⟩ [(⟨0, 0⟩, true), (⟨0, 1⟩, true)]).1
      (by decide), by decide,
    (north_south_region_counts ⟨-1, -1, 1, 2⟩ 0 1 ⟨0, 2⟩ [(⟨0, 0⟩, true), (⟨0, 1⟩, true)]).2.1
      (by decide), by decide⟩

/-- C17, the failing input: at `(0, 0)` with only `(0, 0)` visited and the
boundary `x` in `0..1`, `y` in `0..1` (the first survey of a start room open to
the east and the south), the east candidate `(1, 0)` gets the count 0, the loop
over `x` running from `1` to `boundary.ymin = 0`, where the region `1 ≤ x ≤ 1`,
`0 ≤ y ≤ 1` holds 2 unvisited cells; the south candidate, with 2, is moved to
the front of the east one, and the solver goes south.  For a west candidate the
loop over `x` starts at `boundary.ymin`: with the boundary `x` in `-2..0`, `y`
in `0..0` the candidate `(-1, 0)` gets the count 0, where the region
`-2 ≤ x ≤ -1`, `0 ≤ y ≤ 0` holds 2 unvisited cells. -/
theorem east_west_regions_use_ymin :
    (recordSurvey stillChoice initConfig.st cornerSurvey).2 = [⟨1, 0⟩, ⟨0, 1⟩] ∧
      (recordSurvey stillChoice initConfig.st cornerSurvey).1.boundary = ⟨0, 0, 1, 1⟩ ∧
      scanRegion ⟨0, 0, 1, 1⟩ 0 0 ⟨1, 0⟩ = (1, 0, 0, 1) ∧
      countUnvisited [(⟨0, 0⟩, true)] (scanRegion ⟨0, 0, 1, 1⟩ 0 0 ⟨1, 0⟩) = 0 ∧
      cellsWhere (fun c => (GoMap.get? [(⟨0, 0⟩, true)] c).isNone) 1 1 0 1 = 2 ∧
      countUnvisited [(⟨0, 0⟩, true)] (scanRegion ⟨0, 0, 1, 1⟩ 0 0 ⟨0, 1⟩) = 2 ∧
      priortisePaths ⟨0, 0, 1, 1⟩ 0 0 [⟨1, 0⟩, ⟨0, 1⟩] [(⟨0, 0⟩, true)] = [⟨0, 1⟩, ⟨1, 0⟩] ∧
      (recv stillChoice ⟨cornerSurvey, none⟩ initConfig).ctl = .sendNext S ∧
      scanRegion ⟨-2, 0, 0, 0⟩ 0 0 ⟨-1, 0⟩ = (0, -1, 0, 0) ∧
      countUnvisited [(⟨0, 0⟩, true)] (scanRegion ⟨-2, 0, 0, 0⟩ 0 0 ⟨-1, 0⟩) = 0 ∧
      cellsWhere (fun c => (GoMap.get? [(⟨0, 0⟩, true)] c).isNone) (-2) (-1) 0 0 = 2 := by
  refine ⟨by decide, by decide, by decide, by decide, ?_, by decide, by decide, by decide,
    by decide, by decide, ?_⟩
  · rw [← count_cells]; decide
  · rw [← count_cells]; decide

/-- C18, the failing input: the start room is open to the west, the north and
the south; the solver goes west, leaving `(0, 1)` and `(0, -1)`, in this order,
in the junction list of `(0, 0)`, then south to `(-1, 1)`, a dead end, and
replays the way back to `(0, 0)`.  With respect to the visited set and the
boundary of that moment the south candidate `(0, 1)` has the count 1 and the
north candidate `(0, -1)` the count 2, and `priortisePaths` puts the north
candidate first; the solver moves south, into the first element of the stored
list. -/
theorem backtrack_takes_first_stored :
    Run forkBack [⟨-1, 1⟩, ⟨-1, 0⟩, ⟨0, 0⟩] ∧ forkBack.ctl = .recvBack [] ∧
      forkBack.st.pos = ⟨0, 0⟩ ∧
      forkBack.st.junctions.get? ⟨0, 0⟩ = some [⟨0, 1⟩, ⟨0, -1⟩] ∧
      [(⟨0, 1⟩ : Coordinate), ⟨0, -1⟩].map (fun p => countUnvisited forkBack.st.visited
        (scanRegion forkBack.st.boundary forkBack.st.cx forkBack.st.cy p)) = [1, 2] ∧
      priortisePaths forkBack.st.boundary forkBack.st.cx forkBack.st.cy [⟨0, 1⟩, ⟨0, -1⟩]
        forkBack.st.visited = [⟨0, -1⟩, ⟨0, 1⟩] ∧
      (recv Choice.id ⟨default, none⟩ forkBack).ctl = .sendNext S ∧
      (recv Choice.id ⟨default, none⟩ forkBack).st.pos = ⟨0, 1⟩ := by
  refine ⟨forkBack_run, ?_, ?_, ?_, ?_, ?_, ?_, ?_⟩ <;> decide

/-- C20: when `FindTreasure` processes the survey of the coordinate it stands
on, the candidates `uvPaths` being the unvisited open neighbours, each once: if
they are two or more, the junction table maps the coordinate, right after the
step, to the candidates other than the one moved into, one fewer than there
were; if there is one, the table has no entry for the coordinate after the
step. -/
theorem junction_entry_after_survey {c : Config} {h : List Coordinate} (hrun : Run c h)
    (ch : Choice) (hfair : ch.Fair) (reply : MazeReply) (htop : c.ctl = .recvTop)
    (hv : reply.Err ≠ some .ErrVictory) :
    (recordSurvey ch c.st reply.Survey).2.Nodup ∧
    (∀ u, u ∈ (recordSurvey ch c.st reply.Survey).2 ↔
      isVisited c.st.visited u = false ∧
        ∃ dir, (dir = N ∨ dir = S ∨ dir = E ∨ dir = W) ∧ u = neighbour c.st.pos dir ∧
          wallAt reply.Survey dir = false) ∧
    (2 ≤ (recordSurvey ch c.st reply.Survey).2.length →
      ∃ l, (recv ch reply c).st.junctions.get? c.st.pos = some l ∧
        ((recv ch reply c).st.pos :: l).Perm (recordSurvey ch c.st reply.Survey).2 ∧
        l.length = (recordSurvey ch c.st reply.Survey).2.length - 1 ∧
        (recv ch reply c).st.pos ∉ l) ∧
    ((recordSurvey ch c.st reply.Survey).2.length = 1 →
      (recv ch reply c).st.junctions.get? c.st.pos = none ∧
        (recordSurvey ch c.st reply.Survey).2 = [(recv ch reply c).st.pos]) := by
  have hnd := recordSurvey_uv_nodup ch c.st reply.Survey
  have hK : Known c.st h (some c.st.pos) true := by
    have := known_run hrun
    unfold KnownAt at this
    rw [htop] at this
    exact this
  have hnokey : c.st.junctions.get? c.st.pos = none := by
    cases hg : c.st.junctions.get? c.st.pos with
    | none => rfl
    | some l => exact absurd (hK.keysIn _ l hg) (hK.hereNew _ rfl)
  obtain ⟨f1, f2, f3, _⟩ := recordSurvey_frame ch c.st reply.Survey
  have hpos1 : (recordSurvey ch c.st reply.Survey).1.pos = c.st.pos := by
    simp [SolverState.pos, f1, f2]
  have hentry : (recordSurvey ch c.st reply.Survey).2 ≠ [] →
      ∃ q' rest, (q' :: rest).Perm (recordSurvey ch c.st reply.Survey).2 ∧
        (recv ch reply c).st.pos = q' ∧
        (recv ch reply c).st.junctions.get? c.st.pos =
          cleanEntry q'.X q'.Y (if rest ≠ [] then some rest else none) := by
    intro hne
    obtain ⟨q', rest, hperm, hp, hj⟩ := forward_entry ch hfair
      (recordSurvey ch c.st reply.Survey).1 (recordSurvey ch c.st reply.Survey).2 hne
      (fun u hu => by rw [hpos1]; exact (recordSurvey_paths ch c.st reply.Survey hu).2)
    refine ⟨q', rest, hperm, ?_, ?_⟩
    · rw [recv_survey ch reply c htop hv]; exact hp
    · rw [recv_survey ch reply c htop hv, hj, hpos1, f3, hnokey]
      by_cases hr : rest ≠ []
      · rw [if_pos ⟨rfl, hr⟩, if_pos hr]
      · rw [if_neg (fun hc => hr hc.2), if_neg hr]
  refine ⟨hnd, mem_recordSurvey_uv ch c.st reply.Survey, ?_, ?_⟩
  · intro hlen
    obtain ⟨q', rest, hperm, hp, hj⟩ := hentry (by
      intro hc
      rw [hc] at hlen
      simp at hlen)
    have hnd' : (q' :: rest).Nodup := hperm.nodup_iff.mpr hnd
    have hq : q' ∉ rest := (List.nodup_cons.mp hnd').1
    have hl := hperm.length_eq
    simp only [List.length_cons] at hl
    have hrne : rest ≠ [] := by
      intro hc
      rw [hc] at hl
      simp only [List.length_nil] at hl
      omega
    refine ⟨rest, ?_, by rw [hp]; exact hperm, by omega, by rw [hp]; exact hq⟩
    rw [hj, if_pos hrne]
    have ho : otherPaths q'.X q'.Y rest = rest := otherPaths_of_not_mem hq
    simp only [cleanEntry, ho]
    rw [if_neg hrne]
  · intro hlen
    obtain ⟨q', rest, hperm, hp, hj⟩ := hentry (by
      intro hc
      rw [hc] at hlen
      simp at hlen)
    have hl := hperm.length_eq
    simp only [List.length_cons] at hl
    have hrnil : rest = [] := by
      apply List.eq_nil_of_length_eq_zero
      omega
    subst hrnil
    refine ⟨?_, ?_⟩
    · rw [hj]
      simp [cleanEntry]
    · rw [hp]
      exact List.perm_singleton.mp hperm.symm

theorem junction_entry_after_survey_witness :
    Run initConfig [] ∧ initConfig.ctl = .recvTop ∧
      (recordSurvey Choice.id initConfig.st forkSurvey).2 = [⟨0, 1⟩, ⟨-1, 0⟩, ⟨0, -1⟩] ∧
      (recv Choice.id ⟨forkSurvey, none⟩ initConfig).st.pos = ⟨-1, 0⟩ ∧
      (recv Choice.id ⟨forkSurvey, none⟩ initConfig).st.junctions.get? ⟨0, 0⟩ =
        some [⟨0, 1⟩, ⟨0, -1⟩] ∧
      ∃ l, (recv Choice.id ⟨forkSurvey, none⟩ initConfig).st.junctions.get? initConfig.st.pos
          = some l ∧
        ((recv Choice.id ⟨forkSurvey, none⟩ initConfig).st.pos :: l).Perm
          (recordSurvey Choice.id initConfig.st forkSurvey).2 ∧
        l.length = (recordSurvey Choice.id initConfig.st forkSurvey).2.length - 1 ∧
        (recv Choice.id ⟨forkSurvey, none⟩ initConfig).st.pos ∉ l :=
  ⟨Run.init, rfl, by decide, by decide, by decide,
    (junction_entry_after_survey Run.init Choice.id choice_id_fair ⟨forkSurvey, none⟩ rfl
      (by decide)).2.2.1 (by decide)⟩

/-- C22: for every direction `d` among N, S, E and W, `Delta[d]` and
`Delta[Opposite[d]]` add up to `(0, 0)` componentwise, and
`Opposite[Opposite[d]] = d`. -/
theorem delta_opposite_cancel (d : Int) (hd : d = N ∨ d = S ∨ d = E ∨ d = W) :
    (Delta d).X + (Delta (Opposite d)).X = 0 ∧ (Delta d).Y + (Delta (Opposite d)).Y = 0 ∧
      Opposite (Opposite d) = d := by
  rcases hd with h | h | h | h <;> subst h <;> decide

theorem delta_opposite_cancel_witness :
    (Delta E).X + (Delta (Opposite E)).X = 0 ∧ (Delta E).Y + (Delta (Opposite E)).Y = 0 ∧
      Opposite (Opposite E) = E :=
  delta_opposite_cancel E (Or.inr (Or.inr (Or.inl rfl)))

/-- C28: on a rectangular maze with Icarus in the room `r` of it, and with the
statistics entry of the current batch in place (`mazeStats[(mCount-1)/100]`,
which `getMaze` appends before it returns a maze; in `ztest` also with
`mCount = 0`), each of `MoveLeft`, `MoveRight`, `MoveUp` and `MoveDown`, of
`commands/daedalus.go` and of `ztest/runmaze.go`, returns, and returns an error
and leaves the maze, so Icarus's position and `StepsTaken`, as it is, when the
room has a wall on that side or the room one cell away in that direction is
outside the maze; and every sequence of moves of a package returns, leaves the
rooms as they are and Icarus in a room of the maze. -/
theorem moves_blocked_by_walls_and_edges (m : Maze) (g : MazeStats)
    (hrect : ∀ row ∈ m.rooms, (row.length : Int) = m.Width) (r : Room)
    (hin : m.GetRoom m.icarus.X m.icarus.Y = some r) :
    (g.Ready →
      ((r.Walls.Left = true ∨ m.GetRoom (m.icarus.X - 1) m.icarus.Y = none) →
        ∃ g1 e, commands.MoveLeft m g = some (g1, m, some e)) ∧
      ((r.Walls.Right = true ∨ m.GetRoom (m.icarus.X + 1) m.icarus.Y = none) →
        ∃ g1 e, commands.MoveRight m g = some (g1, m, some e)) ∧
      ((r.Walls.Top = true ∨ m.GetRoom m.icarus.X (m.icarus.Y - 1) = none) →
        ∃ g1 e, commands.MoveUp m g = some (g1, m, some e)) ∧
      ((r.Walls.Bottom = true ∨ m.GetRoom m.icarus.X (m.icarus.Y + 1) = none) →
        ∃ g1 e, commands.MoveDown m g = some (g1, m, some e)) ∧
      (∀ fs, (∀ f ∈ fs, f ∈ commands.moves) → ∃ g1 m1, runMoves fs m g = some (g1, m1) ∧
        m1.rooms = m.rooms ∧ (m1.GetRoom m1.icarus.X m1.icarus.Y).isSome)) ∧
    (g.mCount = 0 ∨ g.Ready →
      ((r.Walls.Left = true ∨ m.GetRoom (m.icarus.X - 1) m.icarus.Y = none) →
        ∃ g1 e, ztest.MoveLeft m g = some (g1, m, some e)) ∧
      ((r.Walls.Right = true ∨ m.GetRoom (m.icarus.X + 1) m.icarus.Y = none) →
        ∃ g1 e, ztest.MoveRight m g = some (g1, m, some e)) ∧
      ((r.Walls.Top = true ∨ m.GetRoom m.icarus.X (m.icarus.Y - 1) = none) →
        ∃ g1 e, ztest.MoveUp m g = some (g1, m, some e)) ∧
      ((r.Walls.Bottom = true ∨ m.GetRoom m.icarus.X (m.icarus.Y + 1) = none) →
        ∃ g1 e, ztest.MoveDown m g = some (g1, m, some e)) ∧
      (∀ fs, (∀ f ∈ fs, f ∈ ztest.moves) → ∃ g1 m1, runMoves fs m g = some (g1, m1) ∧
        m1.rooms = m.rooms ∧ (m1.GetRoom m1.icarus.X m1.icarus.Y).isSome)) := by
  have hsome : (m.GetRoom m.icarus.X m.icarus.Y).isSome := by rw [hin]; rfl
  constructor
  · intro hg
    obtain ⟨g1, h1, _⟩ := look_commands m g hg
    refine ⟨fun h => ⟨g1, moveWith_blocked _ m g g1 _ _ _ r h1 hin h⟩,
      fun h => ⟨g1, moveWith_blocked _ m g g1 _ _ _ r h1 hin h⟩,
      fun h => ⟨g1, moveWith_blocked _ m g g1 _ _ _ r h1 hin h⟩,
      fun h => ⟨g1, moveWith_blocked _ m g g1 _ _ _ r h1 hin h⟩, ?_⟩
    intro fs hfs
    exact runMoves_inside MazeStats.Ready fs
      (fun f hf m0 g0 h0 i0 => commands_move_inside f (hfs f hf) m0 g0 h0 i0) m g hg hsome
  · intro hg
    obtain ⟨g1, h1, _⟩ := look_ztest m g hg
    refine ⟨fun h => ⟨g1, moveWith_blocked _ m g g1 _ _ _ r h1 hin h⟩,
      fun h => ⟨g1, moveWith_blocked _ m g g1 _ _ _ r h1 hin h⟩,
      fun h => ⟨g1, moveWith_blocked _ m g g1 _ _ _ r h1 hin h⟩,
      fun h => ⟨g1, moveWith_blocked _ m g g1 _ _ _ r h1 hin h⟩, ?_⟩
    intro fs hfs
    exact runMoves_inside (fun g0 => g0.mCount = 0 ∨ g0.Ready) fs
      (fun f hf m0 g0 h0 i0 => ztest_move_inside f (hfs f hf) m0 g0 h0 i0) m g hg hsome

theorem moves_blocked_by_walls_and_edges_witness :
    (getMaze ⟨0, false, []⟩).1 = ⟨1, true, [⟨0, 0, true⟩]⟩ ∧
      (⟨1, true, [⟨0, 0, true⟩]⟩ : MazeStats).Ready ∧
      twoRooms.GetRoom twoRooms.icarus.X twoRooms.icarus.Y =
        some ⟨false, true, false, ⟨true, false, true, true⟩⟩ ∧
      twoRooms.GetRoom (twoRooms.icarus.X - 1) twoRooms.icarus.Y = none ∧
      (∃ g1 e, commands.MoveLeft twoRooms ⟨1, true, [⟨0, 0, true⟩]⟩ = some (g1, twoRooms, some e)) ∧
      (∃ g1 e, ztest.MoveUp twoRooms ⟨0, false, []⟩ = some (g1, twoRooms, some e)) ∧
      twoRoomsEnd.GetRoom twoRoomsEnd.icarus.X twoRoomsEnd.icarus.Y =
        some ⟨true, false, false, ⟨true, true, true, false⟩⟩ ∧
      (∃ g1 e, commands.MoveRight twoRoomsEnd ⟨1, true, [⟨0, 0, true⟩]⟩ =
        some (g1, twoRoomsEnd, some e)) ∧
      commands.MoveRight twoRoomsEnd ⟨1, true, [⟨0, 0, true⟩]⟩ =
        some (⟨1, true, [⟨1, 1, true⟩]⟩, twoRoomsEnd, some .ErrVictory) :=
  ⟨by decide, by decide, by decide, by decide,
    ((moves_blocked_by_walls_and_edges twoRooms ⟨1, true, [⟨0, 0, true⟩]⟩ (by decide)
      ⟨false, true, false, ⟨true, false, true, true⟩⟩ (by decide)).1 (by decide)).1
        (Or.inr (by decide)),
    ((moves_blocked_by_walls_and_edges twoRooms ⟨0, false, []⟩ (by decide)
      ⟨false, true, false, ⟨true, false, true, true⟩⟩ (by decide)).2 (Or.inl rfl)).2.2.1
        (Or.inl rfl),
    by decide,
    ((moves_blocked_by_walls_and_edges twoRoomsEnd ⟨1, true, [⟨0, 0, true⟩]⟩ (by decide)
      ⟨true, false, false, ⟨true, true, true, false⟩⟩ (by decide)).1 (by decide)).2.1
        (Or.inl rfl),
    by decide⟩

/-- C29: on a rectangular maze with Icarus in the room `r` of it and not at the
treasure, each of `MoveLeft`, `MoveRight`, `MoveUp` and `MoveDown` returns nil
when the room has no wall on that side and the room one cell away in that
direction is inside the maze: Icarus's position changes by `Delta` of the
direction (W, E, N, S), `StepsTaken` grows by 1, and the rooms, the start and
the treasure are as before. -/
theorem moves_through_open_sides (m : Maze)
    (hrect : ∀ row ∈ m.rooms, (row.length : Int) = m.Width) (r : Room)
    (hin : m.GetRoom m.icarus.X m.icarus.Y = some r)
    (hnot : ¬ (m.finish.X = m.icarus.X ∧ m.finish.Y = m.icarus.Y)) :
    (r.Walls.Left = false → (m.GetRoom (m.icarus.X - 1) m.icarus.Y).isSome →
      m.MoveLeft = ({ m with icarus := ⟨m.icarus.X + (Delta W).X, m.icarus.Y + (Delta W).Y⟩,
                             StepsTaken := m.StepsTaken + 1 }, none)) ∧
    (r.Walls.Right = false → (m.GetRoom (m.icarus.X + 1) m.icarus.Y).isSome →
      m.MoveRight = ({ m with icarus := ⟨m.icarus.X + (Delta E).X, m.icarus.Y + (Delta E).Y⟩,
                              StepsTaken := m.StepsTaken + 1 }, none)) ∧
    (r.Walls.Top = false → (m.GetRoom m.icarus.X (m.icarus.Y - 1)).isSome →
      m.MoveUp = ({ m with icarus := ⟨m.icarus.X + (Delta N).X, m.icarus.Y + (Delta N).Y⟩,
                           StepsTaken := m.StepsTaken + 1 }, none)) ∧
    (r.Walls.Bottom = false → (m.GetRoom m.icarus.X (m.icarus.Y + 1)).isSome →
      m.MoveDown = ({ m with icarus := ⟨m.icarus.X + (Delta S).X, m.icarus.Y + (Delta S).Y⟩,
                             StepsTaken := m.StepsTaken + 1 }, none)) := by
  have hW : (⟨m.icarus.X + (Delta W).X, m.icarus.Y + (Delta W).Y⟩ : Coordinate) =
      ⟨m.icarus.X - 1, m.icarus.Y⟩ := by
    simp [Delta, N, S, E, W]; omega
  have hE : (⟨m.icarus.X + (Delta E).X, m.icarus.Y + (Delta E).Y⟩ : Coordinate) =
      ⟨m.icarus.X + 1, m.icarus.Y⟩ := by
    simp [Delta, N, S, E, W]
  have hN : (⟨m.icarus.X + (Delta N).X, m.icarus.Y + (Delta N).Y⟩ : Coordinate) =
      ⟨m.icarus.X, m.icarus.Y - 1⟩ := by
    simp [Delta, N, S, E, W]; omega
  have hS : (⟨m.icarus.X + (Delta S).X, m.icarus.Y + (Delta S).Y⟩ : Coordinate) =
      ⟨m.icarus.X, m.icarus.Y + 1⟩ := by
    simp [Delta, N, S, E, W]
  rw [hW, hE, hN, hS]
  exact ⟨fun h1 h2 => moveInto_open m _ _ _ r hin hnot h1 h2,
    fun h1 h2 => moveInto_open m _ _ _ r hin hnot h1 h2,
    fun h1 h2 => moveInto_open m _ _ _ r hin hnot h1 h2,
    fun h1 h2 => moveInto_open m _ _ _ r hin hnot h1 h2⟩

theorem moves_through_open_sides_witness :
    twoRooms.GetRoom twoRooms.icarus.X twoRooms.icarus.Y =
        some ⟨false, true, false, ⟨true, false, true, true⟩⟩ ∧
      twoRooms.MoveRight = (⟨twoRooms.rooms, ⟨0, 0⟩, ⟨1, 0⟩, ⟨1, 0⟩, 1⟩, none) ∧
      twoRooms.MoveRight =
        ({ twoRooms with
            icarus := ⟨twoRooms.icarus.X + (Delta E).X, twoRooms.icarus.Y + (Delta E).Y⟩,
            StepsTaken := twoRooms.StepsTaken + 1 }, none) :=
  ⟨by decide, by decide,
    (moves_through_open_sides twoRooms (by decide)
      ⟨false, true, false, ⟨true, false, true, true⟩⟩ (by decide) (by decide)).2.1 rfl
      (by decide)⟩

/-- C30, the failing input: after 200 mazes, with 100 Kruskal mazes solved in
500 steps and no pocket maze solved, `getMaze` sets `nowKruskal` to true and
returns a Kruskal maze, under the comment "solver cannot solve pocket, give
pocket"; `makeMaze` of `ztest/runmaze.go` sets the same value and then panics,
dividing by `ptimes = 0` for its printout. -/
theorem getMaze_gives_kruskal_for_unsolved_pocket :
    statTotals [⟨500, 100, true⟩, ⟨0, 0, false⟩] = (500, 100, 0, 0) ∧
      (getMaze ⟨200, false, [⟨500, 100, true⟩, ⟨0, 0, false⟩]⟩).1.nowKruskal = true ∧
      (getMaze ⟨200, false, [⟨500, 100, true⟩, ⟨0, 0, false⟩]⟩).2 = true ∧
      makeMaze ⟨200, false, [⟨500, 100, true⟩, ⟨0, 0, false⟩]⟩ = none := by
  decide

/-- C26: the replies `FindTreasure` reads during a backtrack replay are
discarded.  When two sequences of replies agree on every reply read at the top
of the loop, whatever they hold (surveys, errors, `ErrVictory`) at the replies
read during a replay, the goroutine sends the same commands and reaches the
same configuration: the same graph, visited set, junction table, boundary and
position. -/
theorem replay_replies_discarded (choices : Nat → Choice) (i : Nat) (c : Config)
    (rs rs' : List MazeReply) (h : agreeAtTop choices i c rs rs' = true) :
    feedAll choices i c rs = feedAll choices i c rs' :=
  feedAll_agree choices rs i c rs' h

set_option maxRecDepth 100000 in
theorem replay_replies_discarded_witness :
    agreeAtTop (fun _ => Choice.id) 0 initConfig
        [⟨forkSurvey, none⟩, ⟨bendSurvey, none⟩, ⟨oneOpen N, none⟩, ⟨default, none⟩,
          ⟨default, none⟩]
        [⟨forkSurvey, none⟩, ⟨bendSurvey, none⟩, ⟨oneOpen N, none⟩,
          ⟨closedSurvey, some .ErrVictory⟩, ⟨oneOpen S, some (.other "lost")⟩] = true ∧
      (feedAll (fun _ => Choice.id) 0 initConfig
        [⟨forkSurvey, none⟩, ⟨bendSurvey, none⟩, ⟨oneOpen N, none⟩, ⟨default, none⟩,
          ⟨default, none⟩]).2 = [W, S, N, E, S] ∧
      feedAll (fun _ => Choice.id) 0 initConfig
        [⟨forkSurvey, none⟩, ⟨bendSurvey, none⟩, ⟨oneOpen N, none⟩, ⟨default, none⟩,
          ⟨default, none⟩] =
      feedAll (fun _ => Choice.id) 0 initConfig
        [⟨forkSurvey, none⟩, ⟨bendSurvey, none⟩, ⟨oneOpen N, none⟩,
          ⟨closedSurvey, some .ErrVictory⟩, ⟨oneOpen S, some (.other "lost")⟩] :=
  ⟨by decide, by decide,
    replay_replies_discarded (fun _ => Choice.id) 0 initConfig _ _ (by decide)⟩

/-- C27: the goroutine of `FindTreasure` starts with a read; after a send it is
at a read, at the top of the loop or in a replay, and cannot send again before
it; after a read it sends one command or has ended (it has closed `steps` or
panicked); while it is about to send it reads nothing, and once it has ended it
neither reads nor sends. -/
theorem reads_and_sends_alternate :
    (initConfig.ctl = .recvTop ∧ send initConfig = none) ∧
    (∀ c d c', send c = some (d, c') →
      (c'.ctl = .recvTop ∨ ∃ rest, c'.ctl = .recvBack rest) ∧ send c' = none) ∧
    (∀ ch reply c, (c.ctl = .recvTop ∨ ∃ rest, c.ctl = .recvBack rest) →
      (∃ d c', send (recv ch reply c) = some (d, c')) ∨ (recv ch reply c).ctl = .closed ∨
        ∃ f, (recv ch reply c).ctl = .crashed f) ∧
    (∀ ch reply c, send c ≠ none → recv ch reply c = c) ∧
    (∀ ch reply c, (c.ctl = .closed ∨ ∃ f, c.ctl = .crashed f) →
      recv ch reply c = c ∧ send c = none) := by
  refine ⟨⟨rfl, rfl⟩, ?_, fun ch reply c h => recv_then_send ch reply c h, ?_, ?_⟩
  · intro c d c' hs
    unfold Mazelib.send at hs
    split at hs
    · simp only [Option.some.injEq, Prod.mk.injEq] at hs
      rw [← hs.2]
      exact ⟨Or.inr ⟨_, rfl⟩, rfl⟩
    · simp only [Option.some.injEq, Prod.mk.injEq] at hs
      rw [← hs.2]
      exact ⟨Or.inl rfl, rfl⟩
    · simp at hs
  · intro ch reply c hs
    unfold Mazelib.recv
    unfold Mazelib.send at hs
    cases hctl : c.ctl with
    | recvTop => rw [hctl] at hs; exact absurd rfl hs
    | recvBack rest => rw [hctl] at hs; exact absurd rfl hs
    | sendBack d rest => rfl
    | sendNext d => rfl
    | closed => rfl
    | crashed f => rfl
  · intro ch reply c h
    unfold Mazelib.recv Mazelib.send
    rcases h with h | ⟨f, h⟩ <;> rw [h] <;> exact ⟨rfl, rfl⟩

/-- C25 (as amended): `FindTreasure` does not compare a survey with the earlier
ones.  Whatever a survey read at the top of the loop reports, the adjacency
list of the current coordinate becomes the list of the neighbours the survey
reports open, and the goroutine goes on with a command when one of them is
unvisited.  What it treats as fatal is to arrive, at the end of a backtrack
replay, at a coordinate without a junction list: it panics, sends no further
command and leaves the graph as it is. -/
theorem conflicting_survey_is_processed (ch : Choice) (reply : MazeReply) (c : Config) :
    (c.ctl = .recvTop → reply.Err ≠ some .ErrVictory →
      (∀ n, n ∈ adjacent (recv ch reply c).st.graph c.st.pos ↔
        ∃ dir, (dir = N ∨ dir = S ∨ dir = E ∨ dir = W) ∧ n = neighbour c.st.pos dir ∧
          wallAt reply.Survey dir = false) ∧
      ((recordSurvey ch c.st reply.Survey).2 ≠ [] → ∃ d, (recv ch reply c).ctl = .sendNext d)) ∧
    (c.ctl = .recvBack [] → (c.st.junctions.get? c.st.pos).getD [] = [] →
      (recv ch reply c).ctl = .crashed .invalidMap ∧ send (recv ch reply c) = none ∧
        (recv ch reply c).st.graph = c.st.graph) := by
  constructor
  · intro htop hv
    constructor
    · intro n
      rw [recv_graph, if_pos ⟨htop, hv⟩]
      exact surveyed_adjacent ch c.st reply.Survey n
    · intro hne
      rw [recv_survey ch reply c htop hv, chooseMove_forward ch _ _ hne]
      exact ⟨_, rfl⟩
  · intro hback hj
    have hr : recv ch reply c = ⟨.crashed .invalidMap, c.st⟩ := by
      unfold Mazelib.recv
      rw [hback]
      show replayFrom ch c.st [] = _
      unfold replayFrom
      have hj' : (c.st.junctions.get? ⟨c.st.cx, c.st.cy⟩).getD [] = [] := hj
      rw [hj']
    rw [hr]
    exact ⟨rfl, rfl, rfl⟩

/-- C25, counterexample: the start room reports its east side open, so the
graph holds the edge between `(0, 0)` and `(1, 0)`; the solver moves east, and
the survey of `(1, 0)` reports a wall on the west side.  The solver sends the
next command, east, and the graph has changed: the list of `(1, 0)` holds
`(2, 0)` and no longer `(0, 0)`. -/
theorem wall_against_open_side_not_fatal :
    Run oneWayConfig [⟨0, 0⟩] ∧ oneWayConfig.ctl = .recvTop ∧ oneWayConfig.st.pos = ⟨1, 0⟩ ∧
      (⟨1, 0⟩ : Coordinate) ∈ adjacent oneWayConfig.st.graph ⟨0, 0⟩ ∧
      (⟨0, 0⟩ : Coordinate) ∈ adjacent oneWayConfig.st.graph ⟨1, 0⟩ ∧
      wallAt eastSurvey W = true ∧
      (recv Choice.id ⟨eastSurvey, none⟩ oneWayConfig).ctl = .sendNext E ∧
      send (recv Choice.id ⟨eastSurvey, none⟩ oneWayConfig) ≠ none ∧
      (recv Choice.id ⟨eastSurvey, none⟩ oneWayConfig).st.graph ≠ oneWayConfig.st.graph ∧
      adjacent (recv Choice.id ⟨eastSurvey, none⟩ oneWayConfig).st.graph ⟨1, 0⟩ = [⟨2, 0⟩] :=
  ⟨run_afterSend (Run.recv Choice.id ⟨eastSurvey, none⟩ Run.init choice_id_fair),
    by decide, by decide, by decide, by decide, by decide, by decide, by decide, by decide,
    by decide⟩

/-- C21: in every configuration a run of `FindTreasure` reaches, `boundary` is
the bounding box of the start coordinate `(0, 0)`, the visited coordinates and
the neighbours listed in the graph for the surveyed coordinates, which are the
neighbours their surveys reported open: it holds them all, and `xmin`, `ymin`,
`xmax` and `ymax` are each the coordinate of one of them.  A receive never
shrinks the box and a send leaves it as it is. -/
theorem boundary_is_bounding_box {c : Config} {h : List Coordinate} (hrun : Run c h) :
    BoxOf (fun p => p = ⟨0, 0⟩ ∨ isVisited c.st.visited p = true ∨
      ∃ v ∈ h, p ∈ adjacent c.st.graph v) c.st.boundary ∧
    (∀ ch reply p, InBox c.st.boundary p → InBox (recv ch reply c).st.boundary p) ∧
    (∀ d c', send c = some (d, c') → c'.st.boundary = c.st.boundary) := by
  refine ⟨boxOf_congr ?_ (box_run hrun), ?_, fun d c' hs => send_boundary hs⟩
  · intro p
    constructor
    · rintro (h1 | h1)
      · exact Or.inl h1
      · rcases (keys_seen hrun p).mp h1 with h2 | h2
        · exact Or.inr (Or.inl ((run_inv hrun).hist p h2))
        · exact Or.inr (Or.inr h2)
    · rintro (h1 | h1 | h1)
      · exact Or.inl h1
      · exact visited_seen hrun p h1
      · exact Or.inr ((keys_seen hrun p).mpr (Or.inr h1))
  · intro ch reply p hp
    rw [recv_boundary]
    split
    · rw [recordSurvey_boundary]
      exact scanDirs_mono _ _ _ _ p hp
    · exact hp

theorem boundary_is_bounding_box_witness :
    Run openConfig2 [⟨0, 1⟩, ⟨0, 0⟩] ∧ openConfig2.st.boundary = ⟨-1, -1, 1, 2⟩ ∧
      BoxOf (fun p => p = ⟨0, 0⟩ ∨ isVisited openConfig2.st.visited p = true ∨
        ∃ v ∈ [(⟨0, 1⟩ : Coordinate), ⟨0, 0⟩], p ∈ adjacent openConfig2.st.graph v)
        openConfig2.st.boundary :=
  ⟨openConfig2_run, by decide, (boundary_is_bounding_box openConfig2_run).1⟩

/-- C23: in a consistent maze that is a single corridor from the start to the
treasure along the directions `ds`, `L ≥ 1` of them (the rooms pairwise
different, one open side at the start, two in every room between), whatever
the shuffles and the fair orders of the map ranges, `FindTreasure` emits
exactly the `L` commands `ds`, in this order, and then closes `steps` on the
victory reply; each of its moves is an exploration move, no backtrack replay
occurs. -/
theorem corridor_walked_in_order (m : Maze) (hwf : m.WellFormed) (hwalls : m.ConsistentWalls)
    (ds : List Int) (hcor : m.IsCorridor ds) (choices : Nat → Choice)
    (hfair : ∀ i, (choices i).Fair) :
    (∀ n, ds.length ≤ n → trialSteps choices n (trialStart (choices 0) m) = ds) ∧
    (∀ n, ds.length ≤ n →
      (trialRun choices n (trialStart (choices 0) m)).currentCount = ds.length) ∧
    (trialRun choices ds.length (trialStart (choices 0) m)).solver.ctl = .closed ∧
    (trialRun choices ds.length (trialStart (choices 0) m)).maze.reply.Err
      = some .ErrVictory ∧
    (∀ k, k < ds.length → ∃ d, ds[k]? = some d ∧
      (trialRun choices k (trialStart (choices 0) m)).solver.ctl = .sendNext d) := by
  obtain ⟨st, h, hat, hpos, _, hsteps, hctl⟩ :=
    corridor_inv m hwf hwalls ds hcor choices hfair ds.length (le_refl _)
  obtain ⟨hclosed, hvic, hstop⟩ := atTop_treasure m _ st h hat (hpos.trans hcor.treasure.symm)
  rw [List.take_length] at hsteps
  have hall : ∀ n, ds.length ≤ n → trialSteps choices n (trialStart (choices 0) m) = ds := by
    intro n hn
    obtain ⟨k, rfl⟩ : ∃ k, n = ds.length + k := ⟨n - ds.length, by omega⟩
    rw [trialSteps_add, hsteps, trialSteps_stop choices _ hstop, List.append_nil]
  refine ⟨hall, ?_, hclosed, hvic, hctl⟩
  intro n hn
  rw [trialRun_count_steps, hall n hn]
  show 0 + ds.length = ds.length
  omega

theorem corridor_walked_in_order_witness :
    bendMaze.WellFormed ∧ bendMaze.ConsistentWalls ∧ bendMaze.IsCorridor [E, S] ∧
      (∀ i : Nat, ((fun _ => Choice.id) i : Choice).Fair) ∧
      trialSteps (fun _ => Choice.id) 5 (trialStart Choice.id bendMaze) = [E, S] ∧
      (trialRun (fun _ => Choice.id) 5 (trialStart Choice.id bendMaze)).currentCount = 2 ∧
      (trialRun (fun _ => Choice.id) 2 (trialStart Choice.id bendMaze)).solver.ctl = .closed ∧
      (∃ d, [E, S][1]? = some d ∧
        (trialRun (fun _ => Choice.id) 1 (trialStart Choice.id bendMaze)).solver.ctl
          = .sendNext d) :=
  ⟨bendMaze_wellFormed, bendMaze_walls, bendMaze_corridor, fun _ => choice_id_fair,
    (corridor_walked_in_order bendMaze bendMaze_wellFormed bendMaze_walls [E, S]
      bendMaze_corridor (fun _ => Choice.id) (fun _ => choice_id_fair)).1 5 (by decide),
    (corridor_walked_in_order bendMaze bendMaze_wellFormed bendMaze_walls [E, S]
      bendMaze_corridor (fun _ => Choice.id) (fun _ => choice_id_fair)).2.1 5 (by decide),
    (corridor_walked_in_order bendMaze bendMaze_wellFormed bendMaze_walls [E, S]
      bendMaze_corridor (fun _ => Choice.id) (fun _ => choice_id_fair)).2.2.1,
    (corridor_walked_in_order bendMaze bendMaze_wellFormed bendMaze_walls [E, S]
      bendMaze_corridor (fun _ => Choice.id) (fun _ => choice_id_fair)).2.2.2.2 1 (by decide)⟩

/-- C24: on the maze of two rows of two rooms without inner walls, the
perimeter closed, the start at `(0, 0)` and the treasure at `(1, 1)`, for every
outcome of `Shuffle` (and every fair order of the map ranges) `FindTreasure`
emits exactly two commands, `E` and `S` in one order or the other, and then
closes `steps` on the victory reply. -/
theorem square_solved_in_two_steps (choices : Nat → Choice) (hfair : ∀ i, (choices i).Fair) :
    ((∀ n, 2 ≤ n → trialSteps choices n (trialStart (choices 0) square2) = [E, S]) ∨
      (∀ n, 2 ≤ n → trialSteps choices n (trialStart (choices 0) square2) = [S, E])) ∧
    (∀ n, 2 ≤ n → (trialRun choices n (trialStart (choices 0) square2)).currentCount = 2) ∧
    (trialRun choices 2 (trialStart (choices 0) square2)).solver.ctl = .closed ∧
    (trialRun choices 2 (trialStart (choices 0) square2)).maze.reply.Err
      = some .ErrVictory := by
  have hat0 := atTop_start square2 square2_wellFormed (choices 0) (hfair 0)
  have hp0 : initConfig.st.pos = ⟨0, 0⟩ := rfl
  obtain ⟨d1, st1, hd4, hw, _, hpos1, hat1, _, c1, hsome1⟩ :=
    trial_round square2 square2_wellFormed square2_walls choices hfair _ _ _ hat0
      (by rw [hp0]; decide) ⟨E, Or.inr (Or.inr (Or.inl rfl)), by rw [hp0]; decide,
        by rw [hp0]; decide⟩
  rw [hp0] at hw hpos1 hat1
  have hd1 : d1 = E ∨ d1 = S := by
    rcases hd4 with h | h | h | h <;> subst h
    · exact absurd hw (by decide)
    · exact Or.inr rfl
    · exact Or.inl rfl
    · exact absurd hw (by decide)
  have key : ∀ d2, ((d1 = E ∧ d2 = S) ∨ (d1 = S ∧ d2 = E)) →
      (∀ n, 2 ≤ n → trialSteps choices n (trialStart (choices 0) square2) = [d1, d2]) ∧
      (trialRun choices 2 (trialStart (choices 0) square2)).solver.ctl = .closed ∧
      (trialRun choices 2 (trialStart (choices 0) square2)).maze.reply.Err
        = some .ErrVictory := by
    intro d2 hd
    obtain ⟨⟨c2, hsome2⟩, hc, hv, hstop⟩ :=
      square2_second choices hfair _ st1 d1 d2 hd hat1 hpos1
    have hrun2 : trialRun choices 2 (trialStart (choices 0) square2) =
        trialRun choices 1 (trialRun choices 1 (trialStart (choices 0) square2)) :=
      trialRun_add choices 1 1 _
    rw [hrun2]
    refine ⟨?_, hc, hv⟩
    intro n hn
    obtain ⟨k, rfl⟩ : ∃ k, n = 2 + k := ⟨n - 2, by omega⟩
    rw [trialSteps_add, hrun2, trialSteps_stop choices _ hstop, List.append_nil,
      trialSteps_succ choices _ d1 c1 hsome1 1, trialSteps_succ choices _ d2 c2 hsome2 0]
    rfl
  have hcount : ∀ l : List Int, l.length = 2 →
      (∀ n, 2 ≤ n → trialSteps choices n (trialStart (choices 0) square2) = l) →
      ∀ n, 2 ≤ n → (trialRun choices n (trialStart (choices 0) square2)).currentCount = 2 := by
    intro l hl hsteps n hn
    rw [trialRun_count_steps, hsteps n hn, hl]
    rfl
  rcases hd1 with h | h
  · obtain ⟨k1, k2, k3⟩ := key S (Or.inl ⟨h, rfl⟩)
    rw [h] at k1
    exact ⟨Or.inl k1, hcount [E, S] rfl k1, k2, k3⟩
  · obtain ⟨k1, k2, k3⟩ := key E (Or.inr ⟨h, rfl⟩)
    rw [h] at k1
    exact ⟨Or.inr k1, hcount [S, E] rfl k1, k2, k3⟩

set_option maxRecDepth 100000 in
theorem square_solved_in_two_steps_witness :
    (∀ i : Nat, ((fun _ => Choice.id) i : Choice).Fair) ∧
      trialSteps (fun _ => Choice.id) 2 (trialStart Choice.id square2) = [S, E] ∧
      (trialRun (fun _ => Choice.id) 2 (trialStart Choice.id square2)).solver.ctl = .closed ∧
      (trialRun (fun _ => Choice.id) 2 (trialStart Choice.id square2)).maze.reply.Err
        = some .ErrVictory :=
  ⟨fun _ => choice_id_fair, by decide,
    (square_solved_in_two_steps (fun _ => Choice.id) (fun _ => choice_id_fair)).2.2.1,
    (square_solved_in_two_steps (fun _ => Choice.id) (fun _ => choice_id_fair)).2.2.2⟩

/-- C31: on Go `int`s of 32 or of 64 bits, whose arithmetic wraps around, for
every coordinate `c` and every direction `d` among `N`, `S`, `E`, `W`, with
`n = c + Delta[d]`: `directionToMove(c, n) = d` and
`updatePosition(c.X, c.Y, directionToMove(c, n)) = n`.  For a destination `n`
that is none of the four neighbours of `c`, `directionToMove` returns `0`,
which is no direction, and `updatePosition` with it returns `c` unchanged.
Where no difference and no step leaves the range of `int`, the two functions
are the functions on mathematical integers in which `FindTreasure` is written
here.  In `FindTreasure`: when the survey read at the top of the loop leaves an
unvisited path, the coordinate tracked after the move is the chosen one, the
head of the prioritised paths; and on every run, when a replay ends on a
coordinate whose junction entry starts with `nextCoor`, the coordinate tracked
after the move is `nextCoor`. -/
theorem direction_and_position_agree (bits : Nat) (hbits : bits = 32 ∨ bits = 64)
    (c : Coordinate) (hc : IsInt bits c.X ∧ IsInt bits c.Y) :
    (∀ d, d = N ∨ d = S ∨ d = E ∨ d = W →
      IsInt bits (neighbourInt bits c d).X ∧ IsInt bits (neighbourInt bits c d).Y ∧
      directionToMoveInt bits c (neighbourInt bits c d) = d ∧
      updatePositionInt bits c.X c.Y (directionToMoveInt bits c (neighbourInt bits c d)) =
        ((neighbourInt bits c d).X, (neighbourInt bits c d).Y)) ∧
    (∀ n, IsInt bits n.X ∧ IsInt bits n.Y →
      (∀ d, d = N ∨ d = S ∨ d = E ∨ d = W → n ≠ neighbourInt bits c d) →
      directionToMoveInt bits c n = 0 ∧
      updatePositionInt bits c.X c.Y (directionToMoveInt bits c n) = (c.X, c.Y)) ∧
    ((0 : Int) ≠ N ∧ (0 : Int) ≠ S ∧ (0 : Int) ≠ E ∧ (0 : Int) ≠ W) ∧
    (∀ n, IsInt bits n.X ∧ IsInt bits n.Y → IsInt bits (n.X - c.X) → IsInt bits (n.Y - c.Y) →
      directionToMoveInt bits c n = directionToMove c n) ∧
    (IsInt bits (c.X + 1) → IsInt bits (c.X + -1) → IsInt bits (c.Y + 1) →
      IsInt bits (c.Y + -1) → ∀ d,
      updatePositionInt bits c.X c.Y d = updatePosition c.X c.Y d) ∧
    (∀ (ch : Choice) (reply : MazeReply) (cfg : Config), cfg.ctl = .recvTop →
      reply.Err ≠ some .ErrVictory → (recordSurvey ch cfg.st reply.Survey).2 ≠ [] →
      (priortisePaths (recordSurvey ch cfg.st reply.Survey).1.boundary cfg.st.cx cfg.st.cy
        (recordSurvey ch cfg.st reply.Survey).2 cfg.st.visited).head? =
        some (recv ch reply cfg).st.pos) ∧
    (∀ (cfg : Config) (h : List Coordinate), Run cfg h → cfg.ctl = .recvBack [] →
      ∀ (ch : Choice) (reply : MazeReply) (nextCoor : Coordinate) (l : List Coordinate),
        cfg.st.junctions.get? cfg.st.pos = some (nextCoor :: l) →
        (recv ch reply cfg).st.pos = nextCoor) := by
  have h0 : ¬ ((0 : Int) = N ∨ (0 : Int) = S ∨ (0 : Int) = E ∨ (0 : Int) = W) := by decide
  refine ⟨fun d hd => ?_, fun n hn hfar => ?_, by decide,
    fun n hn hx hy => directionToMoveInt_exact bits hbits c n hc hn hx hy,
    fun hx1 hx2 hy1 hy2 d => updatePositionInt_exact bits hbits c hc hx1 hx2 hy1 hy2 d, ?_, ?_⟩
  · obtain ⟨hu, ix, iy⟩ := (updatePositionInt_spec bits hbits c hc d).1 hd
    have hdir : directionToMoveInt bits c (neighbourInt bits c d) = d :=
      ((directionToMoveInt_spec bits hbits c _ hc ⟨ix, iy⟩).1 d hd).mpr rfl
    refine ⟨ix, iy, hdir, ?_⟩
    rw [hdir]
    exact hu
  · rw [(directionToMoveInt_spec bits hbits c n hc hn).2 hfar]
    exact ⟨rfl, (updatePositionInt_spec bits hbits c hc 0).2 h0⟩
  · intro ch reply cfg htop hv hne
    obtain ⟨q, hq, _, _, hpos⟩ := recv_forward_pos ch reply cfg htop hv hne
    rw [hq, hpos]
  · intro cfg h hrun hctl ch reply nextCoor l hj
    have hadj : Adjacent cfg.st.pos nextCoor :=
      (run_inv hrun).table.adjacent _ _ hj nextCoor (List.mem_cons_self _ _)
    have hj' : cfg.st.junctions.get? ⟨cfg.st.cx, cfg.st.cy⟩ = some (nextCoor :: l) := hj
    have : recv ch reply cfg =
        ⟨.sendNext (directionToMove cfg.st.pos nextCoor),
          moveTo ch cfg.st (directionToMove cfg.st.pos nextCoor)⟩ := by
      unfold recv
      rw [hctl]
      simp only [replayFrom, hj', Option.getD_some]
      rfl
    rw [this]
    exact moveTo_pos ch cfg.st hadj

theorem direction_and_position_agree_witness :
    (64 = 32 ∨ 64 = 64) ∧
    (IsInt 64 9223372036854775807 ∧ IsInt 64 0) ∧
    (E = N ∨ E = S ∨ E = E ∨ E = W) ∧
    neighbourInt 64 ⟨9223372036854775807, 0⟩ E = ⟨-9223372036854775808, 0⟩ ∧
    directionToMoveInt 64 ⟨9223372036854775807, 0⟩
      (neighbourInt 64 ⟨9223372036854775807, 0⟩ E) = E ∧
    updatePositionInt 64 9223372036854775807 0
      (directionToMoveInt 64 ⟨9223372036854775807, 0⟩
        (neighbourInt 64 ⟨9223372036854775807, 0⟩ E)) =
      ((neighbourInt 64 ⟨9223372036854775807, 0⟩ E).X,
        (neighbourInt 64 ⟨9223372036854775807, 0⟩ E).Y) ∧
    (directionToMoveInt 64 ⟨9223372036854775807, 0⟩ ⟨5, 5⟩ = 0 ∧
      updatePositionInt 64 9223372036854775807 0
        (directionToMoveInt 64 ⟨9223372036854775807, 0⟩ ⟨5, 5⟩) = (9223372036854775807, 0)) ∧
    initConfig.ctl = .recvTop ∧
    (priortisePaths (recordSurvey Choice.id initConfig.st cornerSurvey).1.boundary 0 0
      (recordSurvey Choice.id initConfig.st cornerSurvey).2 initConfig.st.visited).head? =
      some cornerConfig.st.pos :=
  ⟨Or.inr rfl, ⟨(isInt_64 _).mpr (by decide), (isInt_64 _).mpr (by decide)⟩, by decide, by decide,
    ((direction_and_position_agree 64 (Or.inr rfl) ⟨9223372036854775807, 0⟩
      ⟨(isInt_64 _).mpr (by decide), (isInt_64 _).mpr (by decide)⟩).1 E (by decide)).2.2.1,
    ((direction_and_position_agree 64 (Or.inr rfl) ⟨9223372036854775807, 0⟩
      ⟨(isInt_64 _).mpr (by decide), (isInt_64 _).mpr (by decide)⟩).1 E (by decide)).2.2.2,
    (direction_and_position_agree 64 (Or.inr rfl) ⟨9223372036854775807, 0⟩
      ⟨(isInt_64 _).mpr (by decide), (isInt_64 _).mpr (by decide)⟩).2.1 ⟨5, 5⟩
      ⟨(isInt_64 _).mpr (by decide), (isInt_64 _).mpr (by decide)⟩
      (by intro d hd; rcases hd with h | h | h | h <;> subst h <;> decide),
    rfl,
    (direction_and_position_agree 64 (Or.inr rfl) ⟨9223372036854775807, 0⟩
      ⟨(isInt_64 _).mpr (by decide), (isInt_64 _).mpr (by decide)⟩).2.2.2.2.2.1 Choice.id
      ⟨cornerSurvey, none⟩ initConfig rfl (by decide) (by decide)⟩

/-- C33: whenever `FindTreasure` reads, at the top of its loop, a survey with
at least one open side that leads to a coordinate not yet visited, it sends
next a direction among `N`, `S`, `E`, `W` for which this survey reports no
wall (and which leads to a coordinate not yet visited), whatever the draws of
`Shuffle`, the orders of the map ranges and the state the prioritizer reads. -/
theorem next_command_is_open_side (ch : Choice) (reply : MazeReply) (c : Config)
    (htop : c.ctl = .recvTop) (hv : reply.Err ≠ some .ErrVictory)
    (hopen : ∃ dir, (dir = N ∨ dir = S ∨ dir = E ∨ dir = W) ∧
      wallAt reply.Survey dir = false ∧ isVisited c.st.visited (neighbour c.st.pos dir) = false) :
    ∃ d c', send (recv ch reply c) = some (d, c') ∧ (d = N ∨ d = S ∨ d = E ∨ d = W) ∧
      wallAt reply.Survey d = false ∧ isVisited c.st.visited (neighbour c.st.pos d) = false := by
  obtain ⟨dir, hdir, hwall, hfresh⟩ := hopen
  have hmem : neighbour c.st.pos dir ∈ (recordSurvey ch c.st reply.Survey).2 :=
    (mem_recordSurvey_uv ch c.st reply.Survey _).mpr ⟨hfresh, dir, hdir, rfl, hwall⟩
  have hne : (recordSurvey ch c.st reply.Survey).2 ≠ [] := List.ne_nil_of_mem hmem
  obtain ⟨q, _, hq, hrecv, _⟩ := recv_forward_pos ch reply c htop hv hne
  obtain ⟨hq1, d, hd, hqd, hw⟩ := (mem_recordSurvey_uv ch c.st reply.Survey q).mp hq
  refine ⟨d, loopHead (recv ch reply c).st, ?_, hd, hw, hqd ▸ hq1⟩
  rw [hrecv, hqd, directionToMove_neighbour _ hd]
  rfl

theorem next_command_is_open_side_witness :
    initConfig.ctl = .recvTop ∧
    (∃ dir, (dir = N ∨ dir = S ∨ dir = E ∨ dir = W) ∧ wallAt cornerSurvey dir = false ∧
      isVisited initConfig.st.visited (neighbour initConfig.st.pos dir) = false) ∧
    ∃ d c', send (recv Choice.id ⟨cornerSurvey, none⟩ initConfig) = some (d, c') ∧
      (d = N ∨ d = S ∨ d = E ∨ d = W) ∧ wallAt cornerSurvey d = false ∧
      isVisited initConfig.st.visited (neighbour initConfig.st.pos d) = false :=
  ⟨rfl, ⟨E, by decide⟩,
    next_command_is_open_side Choice.id ⟨cornerSurvey, none⟩ initConfig rfl (by decide)
      ⟨E, by decide⟩⟩

/-- C32: for any sequence of replies, after every survey step of `FindTreasure`
the current coordinate is a key of `graph`, every coordinate that appears in an
adjacency list of `graph` is itself a key of `graph`, and the keys of the
junction table are visited coordinates and keys of `graph`.  Therefore a call
of `shortestPath` on this state finds an entry at every node lookup, whatever
the orders of the map ranges: the main loop ends with a node table over the
keys of `graph` (source and neighbours found), the loop over the junctions
ends (destinations found), and the call does not end on a nil dereference. -/
theorem shortestPath_lookups_find_entries {c : Config} {h : List Coordinate} (hrun : Run c h)
    (htop : c.ctl = .recvTop) (ch : Choice) (hfair : ch.Fair) (reply : MazeReply)
    (hv : reply.Err ≠ some .ErrVictory) :
    (recv ch reply c).st.graph = (recordSurvey ch c.st reply.Survey).1.graph ∧
    (recordSurvey ch c.st reply.Survey).1.pos ∈ (recordSurvey ch c.st reply.Survey).1.graph.keys ∧
    (∀ k n, n ∈ adjacent (recordSurvey ch c.st reply.Survey).1.graph k →
      n ∈ (recordSurvey ch c.st reply.Survey).1.graph.keys) ∧
    (∀ k ∈ (recordSurvey ch c.st reply.Survey).1.junctions.keys,
      isVisited (recordSurvey ch c.st reply.Survey).1.visited k = true ∧
        k ∈ (recordSurvey ch c.st reply.Survey).1.graph.keys) ∧
    ∃ nodes,
      dijkstra ch.route (recordSurvey ch c.st reply.Survey).1.cx
        (recordSurvey ch c.st reply.Survey).1.cy (recordSurvey ch c.st reply.Survey).1.graph
        (recordSurvey ch c.st reply.Survey).1.junctions = .ok nodes ∧
      nodes.keys = (recordSurvey ch c.st reply.Survey).1.graph.keys ∧
      (∃ r, nearestJunction nodes
        (ch.route.junctionOrder (recordSurvey ch c.st reply.Survey).1.junctions.keys)
        (infinity, default) = .ok r) ∧
      shortestPath ch.route (recordSurvey ch c.st reply.Survey).1.cx
        (recordSurvey ch c.st reply.Survey).1.cy (recordSurvey ch c.st reply.Survey).1.graph
        (recordSurvey ch c.st reply.Survey).1.junctions ≠ .error .nilDeref := by
  have hK : Known c.st h (some c.st.pos) true := by
    have := known_run hrun
    unfold KnownAt at this
    rw [htop] at this
    exact this
  obtain ⟨h1, h2, h3, h4⟩ := surveyed_lookups ch c.st reply.Survey h hK
  refine ⟨?_, h1, h2, h3, ?_⟩
  · rw [recv_graph, if_pos ⟨htop, hv⟩]
  · exact shortestPath_lookups ch.route hfair.1 _ _ _ _ h2 h1 (fun k hk => (h3 k hk).2) h4

theorem shortestPath_lookups_find_entries_witness :
    Run oneWayConfig [⟨0, 0⟩] ∧ oneWayConfig.ctl = .recvTop ∧
    (recordSurvey Choice.id oneWayConfig.st (oneOpen W)).1.graph =
      [(⟨0, 0⟩, [⟨1, 0⟩, ⟨1, 0⟩]), (⟨1, 0⟩, [⟨0, 0⟩])] ∧
    (recordSurvey Choice.id oneWayConfig.st (oneOpen W)).1.pos ∈
      (recordSurvey Choice.id oneWayConfig.st (oneOpen W)).1.graph.keys :=
  ⟨run_afterSend (Run.recv Choice.id ⟨eastSurvey, none⟩ Run.init choice_id_fair), rfl, by decide,
    (shortestPath_lookups_find_entries
      (run_afterSend (Run.recv Choice.id ⟨eastSurvey, none⟩ Run.init choice_id_fair)) rfl
      Choice.id choice_id_fair ⟨oneOpen W, none⟩ (by decide)).2.1⟩

/-! ## C34: `createMazeKruskal` builds a perfect maze -/

/-- C34: for every width and height of at least one, every draw of the shuffle
and every order of the two ranges over maps, `createMazeKruskal` returns a maze
of that width and height, with rows of equal length and the start at `(0, 0)`,
in which a wall between two rooms stands on both sides or on neither, every
side of a room on the edge of the grid is walled, exactly `width * height - 1`
passages are open (counted from their north or west side, and equally from
their south or east side), and every room is reachable from every other room
through open sides. -/
theorem createMazeKruskal_perfect (κ : KruskalChoice) (hfair : κ.Fair) (width height : Nat)
    (hw : 1 ≤ width) (hh : 1 ≤ height) :
    ∃ m, createMazeKruskal κ width height = some m ∧
      m.Width = width ∧ m.Height = height ∧
      (∀ row ∈ m.rooms, (row.length : Int) = m.Width) ∧ m.start = ⟨0, 0⟩ ∧
      m.ConsistentWalls ∧
      (∀ c dir, (dir = N ∨ dir = S ∨ dir = E ∨ dir = W) → (m.roomAt c).isSome →
        m.roomAt (neighbour c dir) = none → wallAt (m.walls c) dir = true) ∧
      m.openSides N + m.openSides W + 1 = width * height ∧
      m.openSides S + m.openSides E + 1 = width * height ∧
      ∀ a b, (m.roomAt a).isSome → (m.roomAt b).isSome → m.Reach a b := by
  obtain ⟨m, O, hm, hstart, hwalls, hnd, hO, hlen, hlink⟩ :=
    createMazeKruskal_spec κ hfair width height hw hh
  obtain ⟨hW, hH, hrows⟩ := maze_dims m width height hwalls.1 hh
  obtain ⟨hcons, hperim⟩ := maze_consistent m width height O hwalls hh hstart hO
  obtain ⟨p1, p2⟩ := maze_passages m width height O hwalls hh hstart hnd hO
  refine ⟨m, hm, hW, hH, hrows, hstart, hcons, hperim, by rw [p1]; exact hlen,
    by rw [p2]; exact hlen, ?_⟩
  intro a b ha hb
  have ia := (maze_roomAt m width height hwalls.1 hh hstart a).1.mp ha
  have ib := (maze_roomAt m width height hwalls.1 hh hstart b).1.mp hb
  have ea : a = ⟨((a.X.toNat : Nat) : Int), ((a.Y.toNat : Nat) : Int)⟩ := by
    cases a
    simp only at ia ⊢
    rw [Int.toNat_of_nonneg ia.1, Int.toNat_of_nonneg ia.2.2.1]
  have eb : b = ⟨((b.X.toNat : Nat) : Int), ((b.Y.toNat : Nat) : Int)⟩ := by
    cases b
    simp only at ib ⊢
    rw [Int.toNat_of_nonneg ib.1, Int.toNat_of_nonneg ib.2.2.1]
  have hl := hlink a.X.toNat a.Y.toNat b.X.toNat b.Y.toNat (by omega) (by omega) (by omega)
    (by omega)
  rw [← ea, ← eb] at hl
  exact (maze_reach m width height O hwalls hh hstart hO hl).1

/-- The maze of two by two rooms built without a swap in the shuffle. -/
theorem createMazeKruskal_perfect_witness :
    KruskalChoice.id.Fair ∧ 1 ≤ 2 ∧ 1 ≤ 2 ∧
    ∃ m, createMazeKruskal KruskalChoice.id 2 2 = some m ∧
      m.Width = (2 : Nat) ∧ m.Height = (2 : Nat) ∧
      (∀ row ∈ m.rooms, (row.length : Int) = m.Width) ∧ m.start = ⟨0, 0⟩ ∧
      m.ConsistentWalls ∧
      (∀ c dir, (dir = N ∨ dir = S ∨ dir = E ∨ dir = W) → (m.roomAt c).isSome →
        m.roomAt (neighbour c dir) = none → wallAt (m.walls c) dir = true) ∧
      m.openSides N + m.openSides W + 1 = 2 * 2 ∧
      m.openSides S + m.openSides E + 1 = 2 * 2 ∧
      ∀ a b, (m.roomAt a).isSome → (m.roomAt b).isSome → m.Reach a b :=
  ⟨kruskalChoice_id_fair, by decide, by decide,
    createMazeKruskal_perfect KruskalChoice.id kruskalChoice_id_fair 2 2 (by decide) (by decide)⟩

end Mazelib
